import Mathlib

/-!
# Jinja2Cpp: the two-pass template parser

A shallow embedding of `TemplateParser<CharT>` (src/src/template_parser.h).

* The template is a `List Char`; offsets are `Nat` (they are `size_t` in the
  source and never exceed `len(T) + 2`, so no wrap-around occurs on them; the
  one subtraction that can wrap, `CharRange::size`, is modelled modulo `2^64`).
* The mutable members `m_lines`, `m_textBlocks`, `m_currentLineInfo`,
  `m_currentBlockInfo` are the fields of `ParserState`, passed explicitly.
* `std::regex_iterator` over the rough tokenizer pattern is `roughTokenizer`,
  a left-to-right scan for non-overlapping matches.
* The `unsigned` line and column of a source location and the `int` head length of the caret
  snippet are `Nat` and `Int` with the casts taken modulo `2^32` (`OffsetToLinePos`,
  `GetLocationDescr`); the `unsigned` number of a line is incremented modulo `2^32`
  (`FinishCurrentLine`).

The keyword table and `GetKeyword` of the same file, and `CompileEscapes` of
src/src/helpers.h, follow: the alternation of anchored keywords is a search over the start
positions of the range, and the in-place loop of `CompileEscapes` is a state machine on its
two indices, with the `int` counter of removed characters kept below `2^31`.

The character reads of the scanner are listed by a second set of functions
(`DoRoughParsingReads` and the functions it is made of), which follow the control flow of the
scanner and give the offsets of the evaluations of `(*m_template)[i]` as signed numbers.

The second part embeds the statements of src/src/statements.cpp: for, if, set, blocks,
extends, macros and calls.

* A renderer is a function from the render context to the text it writes and the context it
  leaves; an expression is a function from the context to a value.
* `InternalValue` and `RenderContext` are declared outside the sources at hand and are
  modelled from the spec; the helpers of the value subsystem are the fields of `ValueOps`.
* A map reached through an adapter, such as the local `loopVar` of `RenderLoop`, is an entry of
  `RenderContext.cells`; a reference to a scope or to such a map is its index.
* `RenderState.calls` records the calls made to expressions and bodies. It is not in the
  source and no definition reads it; the theorems about how often and in which context a
  collaborator is called are stated on it.
* A callable is a kind and the name of its body: a closure that a statement creates is named
  by the method it calls and the `this` it captures. What is behind a callable, a renderer
  pointer or a template name is given by the collaborators in `Runtime`.
* A statement that writes to its own members (`m_preparedParams`) returns the statement
  after the call next to the state.
-/

namespace jinja2

/-! ## Data model -/

/-- Half-open character range `[startOffset, endOffset)`. -/
structure CharRange where
  startOffset : Nat
  endOffset : Nat
deriving DecidableEq, Repr

/-- Modelled from the spec: `CharRange::size()` (declared outside the excerpt) is
`endOffset - startOffset` computed on `size_t`, so it wraps when the range is inverted. -/
def CharRange.size (r : CharRange) : Nat :=
  (r.endOffset + 2 ^ 64 - r.startOffset % 2 ^ 64) % 2 ^ 64

/-- The `Settings` fields the parser reads. -/
structure Settings where
  useLineStatements : Bool
  trimBlocks : Bool
  lstripBlocks : Bool
deriving DecidableEq, Repr

/-- The nested `LineInfo` of the parser; `lineNumber` is `unsigned` and stays below `2^32`
in what the parser stores. -/
structure LineInfo where
  range : CharRange
  lineNumber : Nat
deriving DecidableEq, Repr

/-- The nested `TextBlockType` of the parser. -/
inductive TextBlockType where
  | RawText
  | Expression
  | Statement
  | Comment
  | LineStatement
deriving DecidableEq, Repr

/-- The nested `TextBlockInfo` of the parser. -/
structure TextBlockInfo where
  range : CharRange
  type : TextBlockType
deriving DecidableEq, Repr

/-- The anonymous `RM_*` enumeration: the capture group of the rough tokenizer that matched. -/
inductive RoughMatchType where
  | RM_ExprBegin
  | RM_ExprEnd
  | RM_StmtBegin
  | RM_StmtEnd
  | RM_CommentBegin
  | RM_CommentEnd
  | RM_NewLine
deriving DecidableEq, Repr

/-- One match of the rough tokenizer: the group that matched and `match.position()`. -/
structure RoughMatch where
  type : RoughMatchType
  position : Nat
deriving DecidableEq, Repr

/-- Token types: the keys of `s_tokens`, and the literal and identifier kinds. -/
inductive TokenType where
  | Unknown | Lt | Gt | Plus | Minus | Percent | Mul | Div
  | LBracket | RBracket | LSqBracket | RSqBracket | LCrlBracket | RCrlBracket
  | Assign | Comma | Eof | Equal | NotEqual | LessEqual | GreaterEqual
  | StarStar | DashDash | LogicalOr | LogicalAnd | LogicalNot | MulMul | DivDiv
  | True | False | None | In | Is | For | Endfor | If | Else | ElIf | EndIf
  | Block | EndBlock | Extends | Macro | EndMacro | Call | EndCall
  | Filter | EndFilter | Set | EndSet | Include | Import
  | CommentBegin | CommentEnd | StmtBegin | StmtEnd | ExprBegin | ExprEnd
  | Identifier | String | IntegerNum | FloatNum
deriving DecidableEq, Repr

/-- A token as built by `MakeToken` (the literal value is not used by the parser core). -/
structure Token where
  type : TokenType
  range : CharRange
deriving DecidableEq, Repr

/-- Error codes of the parser. -/
inductive ErrorCode where
  | Unspecified
  | UnexpectedCommentBegin
  | UnexpectedCommentEnd
  | UnexpectedExprBegin
  | UnexpectedExprEnd
  | UnexpectedStmtBegin
  | UnexpectedStmtEnd
  | ExpectedExpression
  | UnexpectedToken
  | UnexpectedStatement
  | MismatchedBlock
  | Redefinition
  | YetUnsupported
deriving DecidableEq, Repr

/-- A parse error: code, offending token, related tokens. -/
structure ParseError where
  errorCode : ErrorCode
  errorToken : Token
  relatedTokens : List Token
deriving DecidableEq, Repr

/-- Source `MakeToken(type, range)`. -/
def MakeToken (type : TokenType) (range : CharRange) : Token :=
  { type := type, range := range }

/-- Source `MakeParseError(code, tok)`: an error with no related tokens. -/
def MakeParseError (code : ErrorCode) (tok : Token) : ParseError :=
  { errorCode := code, errorToken := tok, relatedTokens := [] }

/-! ## Characters -/

/-- Source `(*m_template)[i]`: the character at offset `i`; `CharT()` at `i = size()`. -/
def charAt (tpl : List Char) (i : Nat) : Char :=
  tpl.getD i (Char.ofNat 0)

/-- Source `std::isspace(ch, std::locale())` in the classic locale: space, `\t`, `\n`, `\v`, `\f`, `\r`. -/
def isspace (ch : Char) : Bool :=
  ch = ' ' || ch = '\t' || ch = '\n' || ch = Char.ofNat 11 || ch = Char.ofNat 12 || ch = '\r'

/-! ## The rough tokenizer -/

/-- The two-character alternatives of the rough tokenizer pattern, in group order. -/
def delimiterOf (c d : Char) : Option RoughMatchType :=
  if c = '{' ∧ d = '{' then some .RM_ExprBegin
  else if c = '}' ∧ d = '}' then some .RM_ExprEnd
  else if c = '{' ∧ d = '%' then some .RM_StmtBegin
  else if c = '%' ∧ d = '}' then some .RM_StmtEnd
  else if c = '{' ∧ d = '#' then some .RM_CommentBegin
  else if c = '#' ∧ d = '}' then some .RM_CommentEnd
  else none

/-- The matches of the rough tokenizer in the text `cs` that begins at offset `i`:
the leftmost match is taken and the search resumes right after it. -/
def roughTokenizerFrom : Nat → List Char → List RoughMatch
  | _, [] => []
  | i, [c] => if c = '\n' then [⟨.RM_NewLine, i⟩] else []
  | i, c :: d :: rest =>
    match delimiterOf c d with
    | some k => ⟨k, i⟩ :: roughTokenizerFrom (i + 2) rest
    | none =>
      if c = '\n' then ⟨.RM_NewLine, i⟩ :: roughTokenizerFrom (i + 1) (d :: rest)
      else roughTokenizerFrom (i + 1) (d :: rest)

/-- All matches of `m_roughTokenizer` over the template (`sregex_iterator` from begin to end). -/
def roughTokenizer (tpl : List Char) : List RoughMatch :=
  roughTokenizerFrom 0 tpl

/-! ## Rough parsing -/

/-- The mutable members of `TemplateParser` that rough parsing writes. -/
structure ParserState where
  m_lines : List LineInfo
  m_textBlocks : List TextBlockInfo
  m_currentLineInfo : LineInfo
  m_currentBlockInfo : TextBlockInfo
deriving DecidableEq, Repr

/-- Source `FinishCurrentLine(position)`. The member `lineNumber` is `unsigned`, so
`m_currentLineInfo.lineNumber ++` wraps modulo `2^32`. -/
def FinishCurrentLine (st : ParserState) (position : Nat) : ParserState :=
  let line : LineInfo := { st.m_currentLineInfo with
    range := { st.m_currentLineInfo.range with endOffset := position } }
  { st with
    m_lines := st.m_lines ++ [line]
    m_currentLineInfo := { line with lineNumber := (line.lineNumber + 1) % 2 ^ 32 } }

/-- The trim loop of `FinishCurrentBlock`: `for (; newPos < size; ++newPos)`, with the
number of remaining iterations as the structural argument (`size - newPos` suffices). -/
def trimLoop (tpl : List Char) : Nat → Nat → Nat
  | 0, newPos => newPos
  | fuel + 1, newPos =>
    if newPos < tpl.length then
      let ch := charAt tpl newPos
      if ch = '\n' then newPos + 1
      else if !isspace ch then newPos
      else trimLoop tpl fuel (newPos + 1)
    else newPos

/-- Source `FinishCurrentBlock(position)`: returns `newPos` and the updated members. -/
def FinishCurrentBlock (tpl : List Char) (setts : Settings) (st : ParserState)
    (position : Nat) : Nat × ParserState :=
  let doTrim := setts.trimBlocks && st.m_currentBlockInfo.type == .Statement
  let newPos := position + 2
  let marked := st.m_currentBlockInfo.type != .RawText && position != 0
  let ctrlChar := charAt tpl (position - 1)
  let doTrim := if marked then
      (if ctrlChar = '-' then true else if ctrlChar = '+' then false else doTrim)
    else doTrim
  let position := if marked && (ctrlChar = '+' || ctrlChar = '-') then position - 1 else position
  let newPos := if doTrim then trimLoop tpl (tpl.length - newPos) newPos else newPos
  let block : TextBlockInfo := { st.m_currentBlockInfo with
    range := { st.m_currentBlockInfo.range with endOffset := position } }
  (newPos, { st with
    m_textBlocks := st.m_textBlocks ++ [block]
    m_currentBlockInfo := { block with type := .RawText } })

/-- The loop of `StripBlockLeft`: `for (; endOffset > 0; --endOffset)`. -/
def stripLoop (tpl : List Char) : Nat → Nat
  | 0 => 0
  | e + 1 =>
    let ch := charAt tpl e
    if !isspace ch || ch = '\n' then e + 1 else stripLoop tpl e

/-- Source `StripBlockLeft(currentBlockInfo, ctrlCharPos, endOffset)`. -/
def StripBlockLeft (tpl : List Char) (setts : Settings) (currentBlockInfo : TextBlockInfo)
    (ctrlCharPos endOffset : Nat) : Nat :=
  let doStrip := setts.lstripBlocks
  let doStrip := if ctrlCharPos < tpl.length then
      (let ctrlChar := charAt tpl ctrlCharPos
       if ctrlChar = '+' then false else if ctrlChar = '-' then true else doStrip)
    else doStrip
  if !doStrip || currentBlockInfo.type != .RawText then endOffset
  else stripLoop tpl endOffset

/-- Source `StartControlBlock(blockType, matchStart)`. -/
def StartControlBlock (tpl : List Char) (setts : Settings) (st : ParserState)
    (blockType : TextBlockType) (matchStart : Nat) : ParserState :=
  let startOffset := matchStart + 2
  let endOffset := matchStart
  if st.m_currentBlockInfo.type != .RawText then st
  else
    let endOffset := StripBlockLeft tpl setts st.m_currentBlockInfo startOffset endOffset
    let st := (FinishCurrentBlock tpl setts st endOffset).2
    let startOffset :=
      if startOffset < tpl.length ∧
          (charAt tpl startOffset = '+' ∨ charAt tpl startOffset = '-') then startOffset + 1
      else startOffset
    { st with m_currentBlockInfo :=
        { range := { st.m_currentBlockInfo.range with startOffset := startOffset }
          type := blockType } }

/-- Assignment `m_currentBlockInfo.range.startOffset = v`. -/
def setBlockStart (st : ParserState) (v : Nat) : ParserState :=
  { st with m_currentBlockInfo := { st.m_currentBlockInfo with
      range := { st.m_currentBlockInfo.range with startOffset := v } } }

/-- Assignment `m_currentBlockInfo.type = t`. -/
def setBlockType (st : ParserState) (t : TextBlockType) : ParserState :=
  { st with m_currentBlockInfo := { st.m_currentBlockInfo with type := t } }

/-- The block type a line gets when it begins at offset `lineStart`. -/
def lineStartType (tpl : List Char) (setts : Settings) (lineStart : Nat) : TextBlockType :=
  if setts.useLineStatements then
    (if charAt tpl lineStart = '#' then .LineStatement else .RawText)
  else .RawText

/-- Source `ParseRoughMatch`: the members after the match, and the error when one is returned. -/
def ParseRoughMatch (tpl : List Char) (setts : Settings) (st : ParserState)
    (m : RoughMatch) : ParserState × Option ParseError :=
  let matchStart := m.position
  match m.type with
  | .RM_NewLine =>
    let st := FinishCurrentLine st m.position
    let st := { st with m_currentLineInfo := { st.m_currentLineInfo with
      range := { st.m_currentLineInfo.range with
        startOffset := st.m_currentLineInfo.range.endOffset + 1 } } }
    if st.m_currentLineInfo.range.startOffset < tpl.length ∧
        (st.m_currentBlockInfo.type = .RawText ∨ st.m_currentBlockInfo.type = .LineStatement) then
      let st :=
        if st.m_currentBlockInfo.type = .LineStatement then
          setBlockStart (FinishCurrentBlock tpl setts st matchStart).2
            st.m_currentLineInfo.range.startOffset
        else st
      (setBlockType st (lineStartType tpl setts st.m_currentLineInfo.range.startOffset), none)
    else (st, none)
  | .RM_CommentBegin =>
    if st.m_currentBlockInfo.type != .RawText then
      (st, some (MakeParseError .UnexpectedCommentBegin
        (MakeToken .CommentBegin ⟨matchStart, matchStart + 2⟩)))
    else
      let st := (FinishCurrentBlock tpl setts st matchStart).2
      (setBlockType (setBlockStart st (matchStart + 2)) .Comment, none)
  | .RM_CommentEnd =>
    if st.m_currentBlockInfo.type != .Comment then
      (st, some (MakeParseError .UnexpectedCommentEnd
        (MakeToken .CommentEnd ⟨matchStart, matchStart + 2⟩)))
    else
      let st := (FinishCurrentBlock tpl setts st matchStart).2
      (setBlockStart st (matchStart + 2), none)
  | .RM_ExprBegin => (StartControlBlock tpl setts st .Expression matchStart, none)
  | .RM_ExprEnd =>
    if st.m_currentBlockInfo.type = .RawText then
      (st, some (MakeParseError .UnexpectedExprEnd
        (MakeToken .ExprEnd ⟨matchStart, matchStart + 2⟩)))
    else if st.m_currentBlockInfo.type ≠ .Expression ∨ charAt tpl (m.position - 1) = '\'' then
      (st, none)
    else
      let r := FinishCurrentBlock tpl setts st matchStart
      (setBlockStart r.2 r.1, none)
  | .RM_StmtBegin => (StartControlBlock tpl setts st .Statement matchStart, none)
  | .RM_StmtEnd =>
    if st.m_currentBlockInfo.type = .RawText then
      (st, some (MakeParseError .UnexpectedStmtEnd
        (MakeToken .StmtEnd ⟨matchStart, matchStart + 2⟩)))
    else if st.m_currentBlockInfo.type ≠ .Statement ∨ charAt tpl (m.position - 1) = '\'' then
      (st, none)
    else
      let r := FinishCurrentBlock tpl setts st matchStart
      (setBlockStart r.2 r.1, none)

/-- The members before rough parsing starts (nothing pushed yet). -/
def ParserState.init : ParserState :=
  { m_lines := []
    m_textBlocks := []
    m_currentLineInfo := { range := ⟨0, 0⟩, lineNumber := 0 }
    m_currentBlockInfo := { range := ⟨0, 0⟩, type := .RawText } }

/-- The members right before the `do ... while` loop of `DoRoughParsing`. -/
def roughStart (tpl : List Char) (setts : Settings) : ParserState :=
  { ParserState.init with
    m_currentBlockInfo :=
      { range := ⟨0, 0⟩
        type := if setts.useLineStatements then
            (if charAt tpl 0 = '#' then .LineStatement else .RawText)
          else .RawText } }

/-- One iteration of the `do ... while` loop: parse the match, collect its error. -/
def roughStep (tpl : List Char) (setts : Settings)
    (acc : ParserState × List ParseError) (m : RoughMatch) : ParserState × List ParseError :=
  let r := ParseRoughMatch tpl setts acc.1 m
  match r.2 with
  | some e => (r.1, acc.2 ++ [e])
  | none => (r.1, acc.2)

/-- The `do ... while` loop of `DoRoughParsing` over the given matches. -/
def roughLoop (tpl : List Char) (setts : Settings)
    (acc : ParserState × List ParseError) (ms : List RoughMatch) :
    ParserState × List ParseError :=
  ms.foldl (roughStep tpl setts) acc

/-- Source `DoRoughParsing`: the members afterwards and `foundErrors`
(the call succeeds exactly when the error list is empty). -/
def DoRoughParsing (tpl : List Char) (setts : Settings) : ParserState × List ParseError :=
  let matches_ := roughTokenizer tpl
  if matches_.isEmpty then
    let range : CharRange := ⟨0, tpl.length⟩
    ({ ParserState.init with
        m_lines := [{ range := range, lineNumber := 0 }]
        m_textBlocks := [{ range := range
                           type := if !tpl.isEmpty ∧ tpl.head? = some '#'
                             then .LineStatement else .RawText }] }, [])
  else
    let r := roughLoop tpl setts (roughStart tpl setts, []) matches_
    let st := FinishCurrentLine r.1 tpl.length
    let st := (FinishCurrentBlock tpl setts st tpl.length).2
    (st, r.2)

/-- The text blocks produced by rough parsing. -/
def roughBlocks (tpl : List Char) (setts : Settings) : List TextBlockInfo :=
  (DoRoughParsing tpl setts).1.m_textBlocks

/-- The line table produced by rough parsing. -/
def roughLines (tpl : List Char) (setts : Settings) : List LineInfo :=
  (DoRoughParsing tpl setts).1.m_lines

/-- Abbreviation for the all-off settings. -/
def Settings.off : Settings :=
  { useLineStatements := false, trimBlocks := false, lstripBlocks := false }

/-! ## Fine parsing

`ComposedRenderer` objects are shared through `std::shared_ptr`; they are kept in a store
(a list of renderer lists) and `ComposedPtr` is an index into it. The lexer, the expression
parser and the statement parser live outside the excerpt and are taken as `Collaborators`. -/

/-- The renderers the parser core handles: the raw-text renderer it builds itself, and
renderers built by the expression or statement parser, known only by a handle. -/
inductive Renderer where
  | RawTextRenderer (startOffset : Nat) (size : Nat)
  | External (handle : Nat)
deriving DecidableEq, Repr

/-- Source `StatementInfo::Type`. -/
inductive StatementType where
  | TemplateRoot
  | IfStatement
  | ElseIfStatement
  | ForStatement
  | SetStatement
  | ExtendsStatement
  | BlockStatement
  | ParentBlockStatement
  | MacroStatement
  | MacroCallStatement
deriving DecidableEq, Repr

/-- Source `StatementInfo`: a frame of the statement stack. -/
structure StatementInfo where
  type : StatementType
  currentComposition : Nat
  compositions : List Nat
  token : Token
  renderer : Option Renderer
deriving DecidableEq, Repr

/-- Source `StatementInfo::Create(type, tok, renderers)`. -/
def StatementInfo.Create (type : StatementType) (tok : Token) (renderers : Nat) :
    StatementInfo :=
  { type := type, currentComposition := renderers, compositions := [renderers],
    token := tok, renderer := none }

/-- The statement stack (`back()` is the last element) and the store of composed renderers. -/
structure Frames where
  statementsStack : List StatementInfo
  composed : List (List Renderer)
deriving DecidableEq, Repr

/-- The external parsers `InvokeParser` drives. -/
structure Collaborators where
  tokenizerProcess : List Char → CharRange → Bool
  lexerPreprocess : List Char → CharRange → Bool
  ExpressionParser : List Char → CharRange → Except ParseError Renderer
  StatementsParser : List Char → CharRange → Frames → Frames × Option ParseError

/-- The error `InvokeParser` returns when the tokenizer or the lexer rejects the block. -/
def invokeFailure (range : CharRange) : ParseError :=
  MakeParseError .Unspecified (MakeToken .Unknown ⟨range.startOffset, range.startOffset + 1⟩)

/-- Source `InvokeParser<RendererPtr, ExpressionParser>(block)`. -/
def InvokeExpressionParser (c : Collaborators) (tpl : List Char) (block : TextBlockInfo) :
    Except ParseError Renderer :=
  if !c.tokenizerProcess tpl block.range then .error (invokeFailure block.range)
  else if !c.lexerPreprocess tpl block.range then .error (invokeFailure block.range)
  else c.ExpressionParser tpl block.range

/-- Source `InvokeParser<void, StatementsParser>(block, statementsStack)`. -/
def InvokeStatementsParser (c : Collaborators) (tpl : List Char) (block : TextBlockInfo)
    (fr : Frames) : Frames × Option ParseError :=
  if !c.tokenizerProcess tpl block.range then (fr, some (invokeFailure block.range))
  else if !c.lexerPreprocess tpl block.range then (fr, some (invokeFailure block.range))
  else c.StatementsParser tpl block.range fr

/-- Source `ComposedRenderer::AddRenderer` on the composed renderer with handle `h`. -/
def addRenderer : List (List Renderer) → Nat → Renderer → List (List Renderer)
  | [], _, _ => []
  | x :: xs, 0, r => (x ++ [r]) :: xs
  | x :: xs, h + 1, r => x :: addRenderer xs h r

/-- Source `statementsStack.back().currentComposition->AddRenderer(r)`
(`back()` of an empty stack is undefined in the source; the frames are then left as they are). -/
def addToBack (fr : Frames) (r : Renderer) : Frames :=
  match fr.statementsStack.getLast? with
  | some top => { fr with composed := addRenderer fr.composed top.currentComposition r }
  | none => fr

/-- The locals of `DoFineParsing`. -/
structure FineState where
  frames : Frames
  errors : List ParseError
  prevBlock : Option TextBlockInfo
deriving DecidableEq, Repr

/-- The test `prevBlock != nullptr && prevBlock->type != RawText && prevBlock->type != Expression`. -/
def prevSwallowsNewline : Option TextBlockInfo → Bool
  | some prev => prev.type != .RawText && prev.type != .Expression
  | none => false

/-- The raw-text case of `DoFineParsing`. -/
def fineRawText (tpl : List Char) (fs : FineState) (block : TextBlockInfo) : FineState :=
  if block.range.size = 0 then fs
  else
    let range := block.range
    let range : CharRange :=
      if charAt tpl range.startOffset = '\n' ∧ prevSwallowsNewline fs.prevBlock then
        { range with startOffset := range.startOffset + 1 }
      else range
    if range.size = 0 then fs
    else { fs with frames := addToBack fs.frames (.RawTextRenderer range.startOffset range.size) }

/-- The local copy `block` of `DoFineParsing`: the block, entered after its `#` when it is a
line statement. -/
def fineBlock (origBlock : TextBlockInfo) : TextBlockInfo :=
  if origBlock.type = .LineStatement then
    { origBlock with range := { origBlock.range with
        startOffset := origBlock.range.startOffset + 1 } }
  else origBlock

/-- The body of the `for` loop of `DoFineParsing` for one block. -/
def fineStep (c : Collaborators) (tpl : List Char) (fs : FineState)
    (origBlock : TextBlockInfo) : FineState :=
  let block : TextBlockInfo := fineBlock origBlock
  let fs : FineState :=
    match block.type with
    | .RawText => fineRawText tpl fs block
    | .Expression =>
      match InvokeExpressionParser c tpl block with
      | .ok r => { fs with frames := addToBack fs.frames r }
      | .error e => { fs with errors := fs.errors ++ [e] }
    | .Statement | .LineStatement =>
      let r := InvokeStatementsParser c tpl block fs.frames
      match r.2 with
      | some e => { fs with frames := r.1, errors := fs.errors ++ [e] }
      | none => { fs with frames := r.1 }
    | .Comment => fs
  { fs with prevBlock := some origBlock }

/-- The locals of `DoFineParsing` before its loop: the root frame on the stack, holding the
composed renderer passed in (handle 0). -/
def fineStart : FineState :=
  { frames := { statementsStack := [StatementInfo.Create .TemplateRoot ⟨.Unknown, ⟨0, 0⟩⟩ 0]
                composed := [[]] }
    errors := []
    prevBlock := none }

/-- Source `DoFineParsing` over the text blocks: the locals after the loop
(the call succeeds exactly when `errors` is empty). -/
def DoFineParsing (c : Collaborators) (tpl : List Char) (blocks : List TextBlockInfo) :
    FineState :=
  blocks.foldl (fineStep c tpl) fineStart

/-- Source `Parse`: the renderers of the returned `composeRenderer`, or the parse errors
(the errors are given before `ParseErrorsToErrorInfo` turns each of them into one located
`ErrorInfo`). -/
def Parse (c : Collaborators) (tpl : List Char) (setts : Settings) :
    Except (List ParseError) (List Renderer) :=
  let roughResult := DoRoughParsing tpl setts
  if !roughResult.2.isEmpty then .error roughResult.2
  else
    let fineResult := DoFineParsing c tpl roughResult.1.m_textBlocks
    if !fineResult.errors.isEmpty then .error fineResult.errors
    else .ok (fineResult.frames.composed.headD [])

/-! ## Specification-side definitions used by the theorems -/

/-- Offsets of the newline characters of the text `cs` that begins at offset `i`, in order. -/
def newlinePositionsFrom : Nat → List Char → List Nat
  | _, [] => []
  | i, c :: cs =>
    if c = '\n' then i :: newlinePositionsFrom (i + 1) cs else newlinePositionsFrom (i + 1) cs

/-- The line table described by the newline offsets `ps`: consecutive lines separated by the
newlines, the current one starting at `start` with number `num`, the last ending at `len`;
the numbers are counted modulo `2^32`. -/
def linesBetween (len : Nat) : Nat → Nat → List Nat → List LineInfo
  | start, num, [] => [{ range := ⟨start, len⟩, lineNumber := num }]
  | start, num, p :: ps =>
    { range := ⟨start, p⟩, lineNumber := num } ::
      linesBetween len (p + 1) ((num + 1) % 2 ^ 32) ps

/-- The states met by the rough loop, each paired with the match parsed in it. -/
def roughTraceFrom (tpl : List Char) (setts : Settings) :
    ParserState → List RoughMatch → List (ParserState × RoughMatch)
  | _, [] => []
  | st, m :: ms => (st, m) :: roughTraceFrom tpl setts (ParseRoughMatch tpl setts st m).1 ms

/-- The trace of the rough loop over the whole template. -/
def roughTrace (tpl : List Char) (setts : Settings) : List (ParserState × RoughMatch) :=
  roughTraceFrom tpl setts (roughStart tpl setts) (roughTokenizer tpl)

/-- The error the error-handling rules prescribe for a match met in a block of type `ty`:
`}}` or `%}` in raw text, `{#` outside raw text, `#}` outside a comment. -/
def expectedError (ty : TextBlockType) (m : RoughMatch) : Option ParseError :=
  let tokRange : CharRange := ⟨m.position, m.position + 2⟩
  match m.type with
  | .RM_ExprEnd =>
    if ty = .RawText then some ⟨.UnexpectedExprEnd, ⟨.ExprEnd, tokRange⟩, []⟩ else none
  | .RM_StmtEnd =>
    if ty = .RawText then some ⟨.UnexpectedStmtEnd, ⟨.StmtEnd, tokRange⟩, []⟩ else none
  | .RM_CommentBegin =>
    if ty ≠ .RawText then some ⟨.UnexpectedCommentBegin, ⟨.CommentBegin, tokRange⟩, []⟩ else none
  | .RM_CommentEnd =>
    if ty ≠ .Comment then some ⟨.UnexpectedCommentEnd, ⟨.CommentEnd, tokRange⟩, []⟩ else none
  | _ => none

/-- The text contains none of the six two-character delimiter sequences. -/
def noDelimiter : List Char → Bool
  | [] => true
  | [_] => true
  | c :: d :: rest => (delimiterOf c d).isNone && noDelimiter (d :: rest)

/-- A whitespace character other than the newline. -/
def isBlank (c : Char) : Bool :=
  isspace c && c != '\n'

/-- The offset right after the run of whitespace that begins at offset `p`, the run ending
with its first newline (included) or before the first non-whitespace character. -/
def afterWhitespaceRun (tpl : List Char) (p : Nat) : Nat :=
  let k := ((tpl.drop p).takeWhile isBlank).length
  if (tpl.drop (p + k)).head? = some '\n' then p + k + 1 else p + k

/-- The offset `pos` lies inside a single-quoted string literal of the block that begins at
`blockStart`: an odd number of single quotes stands between them. -/
def insideSingleQuotes (tpl : List Char) (blockStart pos : Nat) : Bool :=
  (((tpl.drop blockStart).take (pos - blockStart)).filter (· = '\'')).length % 2 = 1

/-- The characters delimiters are made of: the characters of the two-character sequences,
the `+`/`-` whitespace markers and the newline. -/
def isDelimiterChar (c : Char) : Bool :=
  c = '{' || c = '}' || c = '%' || c = '#' || c = '+' || c = '-' || c = '\n'

/-- The offset `i` lies in the range of one of the blocks. -/
def inBlocks (blocks : List TextBlockInfo) (i : Nat) : Prop :=
  ∃ b ∈ blocks, b.range.startOffset ≤ i ∧ i < b.range.endOffset

/-- The words of a block's text, split at whitespace. -/
def wordsAux : List Char → List Char → List (List Char)
  | cur, [] => if cur.isEmpty then [] else [cur]
  | cur, c :: cs =>
    if isspace c then (if cur.isEmpty then wordsAux [] cs else cur :: wordsAux [] cs)
    else wordsAux (cur ++ [c]) cs

/-- The words of the text of `range`. -/
def blockWords (tpl : List Char) (range : CharRange) : List (List Char) :=
  wordsAux [] ((tpl.drop range.startOffset).take (range.endOffset - range.startOffset))

/-- A non-empty word of letters and underscores. -/
def isIdentifier (w : List Char) : Bool :=
  !w.isEmpty && w.all (fun c => c.isAlpha || c = '_')

/-- Modelled from the spec: the fragment of the external `ExpressionParser` that scenario E2
and E4 describe: a lone identifier is an expression (its renderer is given the handle 0), an
empty block is rejected with `UnexpectedToken` at the end-of-block token. Every other text is
outside the fragment and is answered with `UnexpectedToken` at the start of the block. -/
def specExpressionParser (tpl : List Char) (range : CharRange) : Except ParseError Renderer :=
  match blockWords tpl range with
  | [] => .error (MakeParseError .UnexpectedToken (MakeToken .Eof ⟨range.startOffset, range.startOffset⟩))
  | [w] =>
    if isIdentifier w then .ok (.External 0)
    else .error (MakeParseError .UnexpectedToken
      (MakeToken .Unknown ⟨range.startOffset, range.startOffset + 1⟩))
  | _ => .error (MakeParseError .UnexpectedToken
      (MakeToken .Unknown ⟨range.startOffset, range.startOffset + 1⟩))

/-- Modelled from the spec: the fragment of `StatementsParser::Parse` (declared in the header,
defined outside the excerpt) for `if <identifier>` and `endif`, following the frame discipline
of section 4.D: the opener pushes a frame with a fresh composite; the closer requires the top
frame to be its opener, pops it and appends the assembled renderer (handle 1) to the parent
frame's composite, and is an `UnexpectedStatement` error otherwise. Every other statement is
outside the fragment and is answered with `UnexpectedStatement`. -/
def specStatementsParser (tpl : List Char) (range : CharRange) (fr : Frames) :
    Frames × Option ParseError :=
  let tok (t : TokenType) : Token := MakeToken t ⟨range.startOffset, range.startOffset + 1⟩
  match blockWords tpl range with
  | [] => (fr, some (MakeParseError .UnexpectedToken (MakeToken .Eof ⟨range.startOffset, range.startOffset⟩)))
  | [kw, cond] =>
    if kw = ['i', 'f'] ∧ isIdentifier cond then
      ({ statementsStack := fr.statementsStack ++
           [StatementInfo.Create .IfStatement (tok .If) fr.composed.length]
         composed := fr.composed ++ [[]] }, none)
    else (fr, some (MakeParseError .UnexpectedStatement (tok .Unknown)))
  | [kw] =>
    if kw = ['e', 'n', 'd', 'i', 'f'] then
      match fr.statementsStack.getLast? with
      | some top =>
        if top.type = .IfStatement then
          (addToBack { fr with statementsStack := fr.statementsStack.dropLast } (.External 1), none)
        else (fr, some (MakeParseError .UnexpectedStatement (tok .EndIf)))
      | none => (fr, some (MakeParseError .UnexpectedStatement (tok .EndIf)))
    else (fr, some (MakeParseError .UnexpectedStatement (tok .Unknown)))
  | _ => (fr, some (MakeParseError .UnexpectedStatement (tok .Unknown)))

/-- The collaborators modelled from the spec; their tokenizer and lexer accept every block. -/
def specCollaborators : Collaborators :=
  { tokenizerProcess := fun _ _ => true
    lexerPreprocess := fun _ _ => true
    ExpressionParser := specExpressionParser
    StatementsParser := specStatementsParser }

/-- The closer at `m` matches the open control block of `st`. -/
def closesBlock (st : ParserState) (m : RoughMatch) : Prop :=
  (st.m_currentBlockInfo.type = .Expression ∧ m.type = .RM_ExprEnd) ∨
  (st.m_currentBlockInfo.type = .Statement ∧ m.type = .RM_StmtEnd)

/-- The end offset `FinishCurrentBlock(position)` gives to a block of type `ty`: the position,
or one less when the block is not raw text and a `+`/`-` marker stands right before it. -/
def blockEnd (tpl : List Char) (ty : TextBlockType) (position : Nat) : Nat :=
  if ty ≠ .RawText ∧ position ≠ 0 ∧
      (charAt tpl (position - 1) = '+' ∨ charAt tpl (position - 1) = '-')
  then position - 1 else position

/-- The error the block parser invoked by `DoFineParsing` returns for a block, if any. -/
def fineBlockError (c : Collaborators) (tpl : List Char) (fs : FineState)
    (origBlock : TextBlockInfo) : Option ParseError :=
  match origBlock.type with
  | .Expression =>
    match InvokeExpressionParser c tpl origBlock with
    | .ok _ => none
    | .error e => some e
  | .Statement => (InvokeStatementsParser c tpl origBlock fs.frames).2
  | .LineStatement => (InvokeStatementsParser c tpl (fineBlock origBlock) fs.frames).2
  | _ => none

/-- The locals met by the loop of `DoFineParsing`, each paired with the block parsed in it. -/
def fineTraceFrom (c : Collaborators) (tpl : List Char) :
    FineState → List TextBlockInfo → List (FineState × TextBlockInfo)
  | _, [] => []
  | fs, b :: bs => (fs, b) :: fineTraceFrom c tpl (fineStep c tpl fs b) bs

instance (blocks : List TextBlockInfo) (i : Nat) : Decidable (inBlocks blocks i) := by
  unfold inBlocks
  infer_instance

/-- A character that no two-character delimiter begins with and the scanner may have passed
over ahead of the tokenizer: whitespace, or a `+`/`-` marker. -/
def isSkipChar (c : Char) : Bool :=
  isspace c || c = '+' || c = '-'

/-- The rough tokenizer has a match of type `k` at offset `p`. -/
def matchAt (tpl : List Char) (p : Nat) (k : RoughMatchType) : Prop :=
  if k = .RM_NewLine then p < tpl.length ∧ charAt tpl p = '\n'
  else p + 1 < tpl.length ∧ delimiterOf (charAt tpl p) (charAt tpl (p + 1)) = some k

/-- The number of characters of a match of type `k`. -/
def matchWidth (k : RoughMatchType) : Nat :=
  if k = .RM_NewLine then 1 else 2

/-- The invariant of the rough loop when the tokenizer stands at offset `p`: the emitted
blocks are ordered and end before the current block starts, every character before the start
of the current block lies in an emitted block or is a delimiter or whitespace character, and
the characters between the tokenizer and a start that lies ahead of it are skipped ones;
the current block starts inside the template. -/
structure RoughInv (tpl : List Char) (st : ParserState) (p : Nat) : Prop where
  covered : ∀ i, i < st.m_currentBlockInfo.range.startOffset → i < tpl.length →
    inBlocks st.m_textBlocks i ∨ isDelimiterChar (charAt tpl i) = true ∨
      isspace (charAt tpl i) = true
  ends_le : ∀ b ∈ st.m_textBlocks, b.range.endOffset ≤ st.m_currentBlockInfo.range.startOffset
  ordered : st.m_textBlocks.Pairwise (fun a b => a.range.endOffset ≤ b.range.startOffset)
  ahead : ∀ i, p ≤ i → i < st.m_currentBlockInfo.range.startOffset →
    isSkipChar (charAt tpl i) = true ∧
      (charAt tpl i = '\n' → i + 1 = st.m_currentBlockInfo.range.startOffset)
  start_le : st.m_currentBlockInfo.range.startOffset ≤ tpl.length

/-- Modelled from the spec: the raw-text renderer (defined outside the excerpt) "writes its
byte slice verbatim to the output stream": the `size` characters from `startOffset`. -/
def renderRawText (tpl : List Char) (startOffset size : Nat) : List Char :=
  (tpl.drop startOffset).take size

/-- Modelled from the spec: a composed renderer renders its children in sequence; the output
of the renderers built by the external parsers is given by `renderExternal`. -/
def renderComposed (renderExternal : Nat → List Char) (tpl : List Char) :
    List Renderer → List Char
  | [] => []
  | .RawTextRenderer startOffset size :: rs =>
    renderRawText tpl startOffset size ++ renderComposed renderExternal tpl rs
  | .External handle :: rs => renderExternal handle ++ renderComposed renderExternal tpl rs

/-- The line the parser is in: start offset and number of `m_currentLineInfo`. -/
def lineCursor (st : ParserState) : Nat × Nat :=
  (st.m_currentLineInfo.range.startOffset, st.m_currentLineInfo.lineNumber)

/-- Neither the current block nor any emitted block is a line statement. -/
def noLineStatement (st : ParserState) : Prop :=
  st.m_currentBlockInfo.type ≠ .LineStatement ∧
  ∀ b ∈ st.m_textBlocks, b.type ≠ .LineStatement

/-! ## Source locations -/

/-- Source `OffsetToLinePos`: the pair `(line, col)` written through the two reference
parameters. Both are `unsigned`: the sum `lineNumber + 1` and the cast of the column are
taken modulo `2^32`, the difference of the `size_t` offsets modulo `2^64`. The result is
`none` for an empty `m_lines`, where `m_lines.back()` has no defined value. -/
def OffsetToLinePos (m_lines : List LineInfo) (offset : Nat) : Option (Nat × Nat) :=
  let found := fun (p : LineInfo) =>
    ((p.lineNumber + 1) % 2 ^ 32,
     ((offset + 2 ^ 64 - p.range.startOffset % 2 ^ 64 + 1) % 2 ^ 64) % 2 ^ 32)
  match m_lines.find? (fun info =>
      decide (offset ≥ info.range.startOffset) && decide (offset < info.range.endOffset)) with
  | some p => some (found p)
  | none =>
    match m_lines.getLast? with
    | none => none
    | some last =>
      if offset ≠ last.range.endOffset then some (0, 0) else some (found last)

/-- Conversion `static_cast<int>` of an unsigned value: two's complement on 32 bits. -/
def toInt (n : Nat) : Int :=
  if n % 2 ^ 32 < 2 ^ 31 then ((n % 2 ^ 32 : Nat) : Int) else ((n % 2 ^ 32 : Nat) : Int) - 2 ^ 32

/-- Source `GetLocationDescr`. The parameters are `unsigned`, so the two decrements are taken
modulo `2^32`. The result is `none` where the source has none: `m_lines[line]` past the end of
the vector, or `substr` from a position past the end of the template (it throws). In the
branch after the prefix `col - spacePrefixLen` does not wrap (`col >= spacePrefixLen` there),
and neither does `col - actualHeadLen - spacePrefixLen` under `actualHeadLen == headLen`. -/
def GetLocationDescr (tpl : List Char) (m_lines : List LineInfo) (line col : Nat) :
    Option (List Char) :=
  if line = 0 ∧ col = 0 then some []
  else
    let line := (line + 2 ^ 32 - 1) % 2 ^ 32
    let col := (col + 2 ^ 32 - 1) % 2 ^ 32
    match m_lines[line]? with
    | none => none
    | some lineInfo =>
      if lineInfo.range.startOffset > tpl.length then none
      else
        let origLine := (tpl.drop lineInfo.range.startOffset).take lineInfo.range.size
        let spacePrefix := origLine.takeWhile isspace
        let headLen : Int := 3
        let tailLen := 7
        let spacePrefixLen := spacePrefix.length
        if col < spacePrefixLen then
          some (origLine ++ ['\n'] ++ List.replicate col ' ' ++ ['^'] ++
            List.replicate tailLen '-')
        else
          let actualHeadLen := min (toInt (col - spacePrefixLen)) headLen
          let pad :=
            if actualHeadLen = headLen then List.replicate (col - 3 - spacePrefixLen) ' '
            else []
          some (origLine ++ ['\n'] ++ spacePrefix ++ pad ++
            List.replicate actualHeadLen.toNat '-' ++ ['^'] ++ List.replicate tailLen '-')

/-! ### Specification side: source locations -/

/-- Offset `o` lies in the range of line `l`. -/
def LineInfo.containsOffset (l : LineInfo) (o : Nat) : Prop :=
  l.range.startOffset ≤ o ∧ o < l.range.endOffset

instance (l : LineInfo) (o : Nat) : Decidable (l.containsOffset o) := by
  unfold LineInfo.containsOffset
  infer_instance

/-- A line table as rough parsing builds it: at least one line, entry `k` carries number `k`,
and no range is inverted. -/
structure LineTable (ls : List LineInfo) : Prop where
  nonempty : ls ≠ []
  numbered : ∀ (k : Nat) (l : LineInfo), ls[k]? = some l → l.lineNumber = k
  ordered : ∀ l ∈ ls, l.range.startOffset ≤ l.range.endOffset

/-- The text of line `l`: source `m_template->substr(startOffset, range.size())`. -/
def lineText (tpl : List Char) (l : LineInfo) : List Char :=
  (tpl.drop l.range.startOffset).take l.range.size

/-- The descriptor the spec gives for the 0-based column `c` at or after the leading
whitespace of `origLine`: the line, a newline, the line's own leading whitespace,
`c - p - 3` spaces (none when `c - p < 3`), `min (c - p) 3` dashes, the caret and 7 dashes,
where `p` is the length of the leading whitespace. -/
def caretSnippet (origLine : List Char) (c : Nat) : List Char :=
  let spacePrefix := origLine.takeWhile isspace
  let p := spacePrefix.length
  origLine ++ ['\n'] ++ spacePrefix ++ List.replicate (c - p - 3) ' ' ++
    List.replicate (min (c - p) 3) '-' ++ ['^'] ++ List.replicate 7 '-'

/-! ## Runtime: values, the render context and the statements -/

/-- Modelled from the spec: the kind of a `Callable`. A callable made from a function that
takes the call parameters, the stream and the context is of the statement kind. -/
inductive CallableKind where
  | Expression
  | Statement
deriving DecidableEq, Repr

/-- The body of a callable. A closure that a statement creates is named by what it calls and
by the `this` it captures (`self`): `RenderLoop` re-enters the loop of a recursive for
statement, `Super` renders the body of an overridable block, `SelfBlock` renders that block,
`InvokeMacro` calls `InvokeMacroRenderer` of a macro or call statement. `other` is a body made
elsewhere. -/
inductive CallableBody where
  | RenderLoop (self : Nat)
  | Super (self : Nat)
  | SelfBlock (self : Nat)
  | InvokeMacro (self : Nat)
  | other (id : Nat)
deriving DecidableEq, Repr

/-- Modelled from the spec: `Callable`, a kind and a body. -/
structure Callable where
  kind : CallableKind
  body : CallableBody
deriving DecidableEq, Repr

/-- Modelled from the spec: the runtime sum `InternalValue` (declared outside the sources at
hand): `Empty | Bool | Int | Double | String | List | Map | Callable | RendererRef`. A map
adapter created over a map that lives elsewhere (`MapAdapter::CreateAdapter(&loopVar)`) is
`mapRef`, the index of that map among `RenderContext.cells`; a renderer reference is the
address of the renderer; a double is kept as its bit pattern. -/
inductive InternalValue where
  | empty
  | bool (b : Bool)
  | int (i : Int)
  | double (bits : Nat)
  | string (s : String)
  | list (items : List InternalValue)
  | map (entries : List (String × InternalValue))
  | mapRef (cell : Nat)
  | callable (c : Callable)
  | rendererRef (renderer : Nat)

/-- Modelled from the spec: `InternalValueMap`, a map from names to values. -/
abbrev InternalValueMap := String → Option InternalValue

/-- The empty map. -/
def emptyMap : InternalValueMap := fun _ => none

/-- Assignment `m[name] = v`. -/
def mapSet (m : InternalValueMap) (name : String) (v : InternalValue) : InternalValueMap :=
  fun k => if k = name then some v else m k

/-- Call `m.erase(name)`. -/
def mapErase (m : InternalValueMap) (name : String) : InternalValueMap :=
  fun k => if k = name then none else m k

/-- Replace element `i` of a list by its image under `g`; the list is unchanged when there is
no element `i`. -/
def updateAt {α : Type} (g : α → α) : List α → Nat → List α
  | [], _ => []
  | a :: as, 0 => g a :: as
  | a :: as, i + 1 => a :: updateAt g as i

/-- Modelled from the spec: `RenderContext`, a stack of scopes, each a map from names to
values (the outermost first, the current scope last). `cells` holds the maps that live
outside the scopes and are reached through adapters, such as the local `loopVar` of
`ForStatement::RenderLoop`; a reference to a scope or to such a map is its index. -/
structure RenderContext where
  scopes : List InternalValueMap
  cells : List InternalValueMap

/-- Modelled from the spec: `enter_scope` pushes an empty scope. -/
def RenderContext.EnterScope (c : RenderContext) : RenderContext :=
  { c with scopes := c.scopes ++ [emptyMap] }

/-- Modelled from the spec: `exit_scope` pops the current scope. -/
def RenderContext.ExitScope (c : RenderContext) : RenderContext :=
  { c with scopes := c.scopes.dropLast }

/-- Assignment `scope[name] = v` through a reference to the scope at index `scope`. -/
def RenderContext.assign (c : RenderContext) (scope : Nat) (name : String)
    (v : InternalValue) : RenderContext :=
  { c with scopes := updateAt (fun m => mapSet m name v) c.scopes scope }

/-- A local map comes into being: the declaration `InternalValueMap loopVar`. -/
def RenderContext.newCell (c : RenderContext) : RenderContext :=
  { c with cells := c.cells ++ [emptyMap] }

/-- Assignment `cell[name] = v` on the map at index `cell`. -/
def RenderContext.cellSet (c : RenderContext) (cell : Nat) (name : String)
    (v : InternalValue) : RenderContext :=
  { c with cells := updateAt (fun m => mapSet m name v) c.cells cell }

/-- Call `cell.erase(name)` on the map at index `cell`. -/
def RenderContext.cellErase (c : RenderContext) (cell : Nat) (name : String) :
    RenderContext :=
  { c with cells := updateAt (fun m => mapErase m name) c.cells cell }

/-- The end of the lifetime of the local map at index `cell`: it is gone, with the maps that
came into being after it. -/
def RenderContext.endCell (c : RenderContext) (cell : Nat) : RenderContext :=
  { c with cells := c.cells.take cell }

/-- Modelled from the spec: `find_value`, searching the scopes innermost to outermost. -/
def RenderContext.FindValue (c : RenderContext) (name : String) : Option InternalValue :=
  c.scopes.foldl (fun found m => match m name with
    | some v => some v
    | none => found) none

/-- Modelled from the spec: an expression is used only as `Evaluate(ctx)`, which yields a
value and leaves the context as it is. -/
abbrev Expression := RenderContext → InternalValue

/-- A renderer, `Render(os, values)`: the text it appends to the stream and the context it
leaves. -/
abbrev RendererFn := RenderContext → List Char × RenderContext

/-- The helpers of the value subsystem that the statements call (their definitions are
outside the sources at hand). `ConvertToList` is `none` when it reports
`isConverted = false`. -/
structure ValueOps where
  ConvertToList : InternalValue → Option (List InternalValue)
  Subscript : InternalValue → String → InternalValue
  ConvertToBool : InternalValue → Bool
  BooleanEvaluator : InternalValue → Bool

/-- The collaborator a statement calls: an expression it evaluates or a body it renders. -/
inductive Callee where
  | Value
  | Filter
  | MainBody
  | ElseBody
  | Guard (branch : Nat)
  | Branch (branch : Nat)
  | Override
  | Root
  | Invoked
deriving DecidableEq, Repr

/-- The state a statement renders in: the output stream, the context, and a record of the
calls made to collaborators, each with the context it was given. The record is not in the
source; no definition reads it. -/
structure RenderState where
  os : List Char
  values : RenderContext
  calls : List (Callee × RenderContext)

/-- Call `r->Render(os, values)`, recorded as a call to `callee`. -/
def callRenderer (callee : Callee) (r : RendererFn) (st : RenderState) : RenderState :=
  { os := st.os ++ (r st.values).1
    values := (r st.values).2
    calls := st.calls ++ [(callee, st.values)] }

/-- Call `e->Evaluate(values)`, recorded as a call to `callee`. -/
def callEvaluate (callee : Callee) (e : Expression) (st : RenderState) :
    InternalValue × RenderState :=
  (e st.values, { st with calls := st.calls ++ [(callee, st.values)] })

/-- The members of `ForStatement`; `self` stands for `this`, captured by the callable of a
recursive loop. -/
structure ForStatement where
  self : Nat
  m_vars : List String
  m_value : Expression
  m_ifExpr : Option Expression
  m_isRecursive : Bool
  m_mainBody : RendererFn
  m_elseBody : Option RendererFn

/-- The binding of the loop variables to `curValue` in the scope at index `scope`: with more
than one variable each is the value subscripted by its name. `m_vars[0]` has no defined value
for an empty `m_vars`; nothing is bound then. -/
def bindLoopVars (ops : ValueOps) (m_vars : List String) (scope : Nat)
    (curValue : InternalValue) (values : RenderContext) : RenderContext :=
  if m_vars.length > 1 then
    m_vars.foldl (fun ctx varName => ctx.assign scope varName (ops.Subscript curValue varName))
      values
  else
    match m_vars.head? with
    | some v => values.assign scope v curValue
    | none => values

/-- One round of the filter loop of `RenderLoop`: the kept items and the state after the
round for `curValue`. -/
def filterStep (ops : ValueOps) (m_vars : List String) (ifExpr : Expression)
    (tempContext : Nat) (acc : List InternalValue × RenderState) (curValue : InternalValue) :
    List InternalValue × RenderState :=
  let st := { acc.2 with values := bindLoopVars ops m_vars tempContext curValue acc.2.values }
  let r := callEvaluate .Filter ifExpr st
  if ops.ConvertToBool r.1 then (acc.1 ++ [curValue], r.2) else (acc.1, r.2)

/-- One round of the main loop of `RenderLoop`, for the index `itemIdx`; the first component
is `loopRendered`. `GetValueByIndex` is called with indices inside the list only. An
`int64_t` holds every index and the size of a list that fits in memory, so the arithmetic on
them is exact. -/
def loopStep (ops : ValueOps) (f : ForStatement) (context loopVar : Nat)
    (loopItems : List InternalValue) (acc : Bool × RenderState) (itemIdx : Nat) :
    Bool × RenderState :=
  let itemsNum : Int := loopItems.length
  let values := acc.2.values
  let values := values.cellSet loopVar "index" (.int ((itemIdx : Int) + 1))
  let values := values.cellSet loopVar "index0" (.int itemIdx)
  let values := values.cellSet loopVar "first" (.bool (itemIdx == 0))
  let values := values.cellSet loopVar "last" (.bool ((itemIdx : Int) == itemsNum - 1))
  let values :=
    if itemIdx ≠ 0 then
      values.cellSet loopVar "previtem" (loopItems.getD (itemIdx - 1) .empty)
    else values
  let values :=
    if (itemIdx : Int) ≠ itemsNum - 1 then
      values.cellSet loopVar "nextitem" (loopItems.getD (itemIdx + 1) .empty)
    else values.cellErase loopVar "nextitem"
  let curValue := loopItems.getD itemIdx .empty
  let values := bindLoopVars ops f.m_vars context curValue values
  (true, callRenderer .MainBody f.m_mainBody { acc.2 with values := values })

/-- Source `ForStatement::RenderLoop`. The local `loopVar` ends with the call, after the
scope is left. -/
def ForStatement.RenderLoop (ops : ValueOps) (f : ForStatement) (loopVal : InternalValue)
    (st : RenderState) : RenderState :=
  let context := st.values.scopes.length
  let values := st.values.EnterScope
  let loopVar := values.cells.length
  let values := values.newCell
  let values := values.assign context "loop" (.mapRef loopVar)
  let values :=
    if f.m_isRecursive then
      values.cellSet loopVar "operator()" (.callable ⟨.Statement, .RenderLoop f.self⟩)
    else values
  let st := { st with values := values }
  match ops.ConvertToList loopVal with
  | none =>
    let st :=
      match f.m_elseBody with
      | some elseBody => callRenderer .ElseBody elseBody st
      | none => st
    { st with values := st.values.ExitScope.endCell loopVar }
  | some loopItems =>
    let filtered :=
      match f.m_ifExpr with
      | some ifExpr =>
        let tempContext := st.values.scopes.length
        let st := { st with values := st.values.EnterScope }
        let r := loopItems.foldl (filterStep ops f.m_vars ifExpr tempContext) ([], st)
        (r.1, { r.2 with values := r.2.values.ExitScope })
      | none => (loopItems, st)
    let loopItems := filtered.1
    let st := filtered.2
    let itemsNum : Int := loopItems.length
    let st := { st with values := st.values.cellSet loopVar "length" (.int itemsNum) }
    let r := (List.range loopItems.length).foldl (loopStep ops f context loopVar loopItems)
      (false, st)
    let st :=
      match f.m_elseBody with
      | some elseBody => if !r.1 then callRenderer .ElseBody elseBody r.2 else r.2
      | none => r.2
    { st with values := st.values.ExitScope.endCell loopVar }

/-- Source `ForStatement::Render`. -/
def ForStatement.Render (ops : ValueOps) (f : ForStatement) (st : RenderState) :
    RenderState :=
  let r := callEvaluate .Value f.m_value st
  f.RenderLoop ops r.1 r.2

/-- The members of `ElseBranchStatement`; `m_expr` is absent for an unguarded `else`. -/
structure ElseBranchStatement where
  m_expr : Option Expression
  m_mainBody : RendererFn

/-- The members of `IfStatement`. -/
structure IfStatement where
  m_expr : Expression
  m_mainBody : RendererFn
  m_elseBranches : List ElseBranchStatement

/-- Source `ElseBranchStatement::ShouldRender`, called on branch number `branch`. -/
def ElseBranchStatement.ShouldRender (ops : ValueOps) (b : ElseBranchStatement) (branch : Nat)
    (st : RenderState) : Bool × RenderState :=
  match b.m_expr with
  | none => (true, st)
  | some e =>
    let r := callEvaluate (.Guard (branch + 1)) e st
    (ops.BooleanEvaluator r.1, r.2)

/-- Source `ElseBranchStatement::Render`, called on branch number `branch`. -/
def ElseBranchStatement.Render (b : ElseBranchStatement) (branch : Nat) (st : RenderState) :
    RenderState :=
  callRenderer (.Branch branch) b.m_mainBody st

/-- The loop over `m_elseBranches` of `IfStatement::Render`, from branch number `branch` on:
the first branch that should render is rendered and ends the loop. -/
def renderElseBranches (ops : ValueOps) :
    List ElseBranchStatement → Nat → RenderState → RenderState
  | [], _, st => st
  | b :: bs, branch, st =>
    let r := b.ShouldRender ops branch st
    if r.1 then b.Render branch r.2 else renderElseBranches ops bs (branch + 1) r.2

/-- Source `IfStatement::Render`. -/
def IfStatement.Render (ops : ValueOps) (s : IfStatement) (st : RenderState) : RenderState :=
  let r := callEvaluate (.Guard 0) s.m_expr st
  let isTrue := ops.BooleanEvaluator r.1
  if isTrue then callRenderer .MainBody s.m_mainBody r.2
  else renderElseBranches ops s.m_elseBranches 0 r.2
/-! ### Specification side: the for statement -/

/-- The scope after the loop variables are bound to `curValue` in the scope `m`. -/
def bindScope (ops : ValueOps) (m_vars : List String) (curValue : InternalValue)
    (m : InternalValueMap) : InternalValueMap :=
  if m_vars.length > 1 then
    fun k => if k ∈ m_vars then some (ops.Subscript curValue k) else m k
  else
    match m_vars.head? with
    | some v => mapSet m v curValue
    | none => m

/-- The context in which `RenderLoop` converts the loop value: the loop scope is entered, it
binds `loop` to an adapter of the new map `loopVar`, which holds the callable of a recursive
loop. -/
def ForStatement.loopContext (f : ForStatement) (values : RenderContext) : RenderContext :=
  let bound := (values.EnterScope.newCell).assign values.scopes.length "loop"
    (.mapRef values.cells.length)
  if f.m_isRecursive then
    bound.cellSet values.cells.length "operator()"
      (.callable ⟨.Statement, .RenderLoop f.self⟩)
  else bound

/-- The context in which the filter of a for statement rendered in `values` is evaluated for
the source item `x`: a temporary scope above the loop scope, with the loop variables bound to
`x`. -/
def ForStatement.filterContext (ops : ValueOps) (f : ForStatement) (values : RenderContext)
    (x : InternalValue) : RenderContext :=
  bindLoopVars ops f.m_vars (values.scopes.length + 1) x (f.loopContext values).EnterScope

/-- The items a for statement rendered in `values` iterates over: the source items, or with a
filter those for which the filter is truthy, in source order. -/
def ForStatement.keptItems (ops : ValueOps) (f : ForStatement) (values : RenderContext)
    (items : List InternalValue) : List InternalValue :=
  match f.m_ifExpr with
  | some ifExpr => items.filter (fun x => ops.ConvertToBool (ifExpr (f.filterContext ops values x)))
  | none => items

/-- The contexts of the recorded calls to `callee`, in order. -/
def callsTo (callee : Callee) (calls : List (Callee × RenderContext)) : List RenderContext :=
  (calls.filter (fun c => decide (c.1 = callee))).map (·.2)

/-- What round `k` (0-based) of a loop over `items` gives the main body: the loop scope, at
index `d`, is the current scope and binds the loop variables to item `k`; the loop object, the
map at index `c`, holds `length`, `index`, `index0`, `first`, `last`, `previtem` (absent in
round 0) and `nextitem` (absent in the last round). -/
structure LoopRound (ops : ValueOps) (m_vars : List String) (d c : Nat)
    (items : List InternalValue) (k : Nat) (ctx : RenderContext) : Prop where
  depth : ctx.scopes.length = d + 1
  bound : ∃ scope x, ctx.scopes[d]? = some scope ∧ items[k]? = some x ∧
    (∀ v, m_vars = [v] → scope v = some x) ∧
    (1 < m_vars.length → ∀ v ∈ m_vars, scope v = some (ops.Subscript x v))
  loop : ∃ loopVar, ctx.cells[c]? = some loopVar ∧
    loopVar "length" = some (.int items.length) ∧
    loopVar "index" = some (.int (k + 1)) ∧
    loopVar "index0" = some (.int k) ∧
    loopVar "first" = some (.bool (decide (k = 0))) ∧
    loopVar "last" = some (.bool (decide (k + 1 = items.length))) ∧
    loopVar "previtem" = (if k = 0 then none else items[k - 1]?) ∧
    loopVar "nextitem" = items[k + 1]?
/-- The loop object in round `itemIdx` of a loop over `loopItems`, from what it was before
the round. -/
def roundCell (loopItems : List InternalValue) (itemIdx : Nat) (m : InternalValueMap) :
    InternalValueMap :=
  let itemsNum : Int := loopItems.length
  let m := mapSet m "index" (.int ((itemIdx : Int) + 1))
  let m := mapSet m "index0" (.int itemIdx)
  let m := mapSet m "first" (.bool (itemIdx == 0))
  let m := mapSet m "last" (.bool ((itemIdx : Int) == itemsNum - 1))
  let m := if itemIdx ≠ 0 then mapSet m "previtem" (loopItems.getD (itemIdx - 1) .empty) else m
  if (itemIdx : Int) ≠ itemsNum - 1 then
    mapSet m "nextitem" (loopItems.getD (itemIdx + 1) .empty)
  else mapErase m "nextitem"

/-- The context the main body is given in round `itemIdx`, from the context before the
round. -/
def roundContext (ops : ValueOps) (m_vars : List String) (context loopVar : Nat)
    (loopItems : List InternalValue) (itemIdx : Nat) (values : RenderContext) :
    RenderContext :=
  { scopes := updateAt (bindScope ops m_vars (loopItems.getD itemIdx .empty)) values.scopes
      context
    cells := updateAt (roundCell loopItems itemIdx) values.cells loopVar }
/-- The recorded evaluations of the filter of a for statement rendered in `values`, for the
source items `items`: none without a filter, else one per item. -/
def ForStatement.filterCalls (ops : ValueOps) (f : ForStatement) (values : RenderContext)
    (items : List InternalValue) : List (Callee × RenderContext) :=
  match f.m_ifExpr with
  | some _ => items.map (fun x => (Callee.Filter, f.filterContext ops values x))
  | none => []

/-- The state in which the main loop of a for statement starts: the filter has been
evaluated, the temporary scope is left, and the loop object holds the length. -/
def ForStatement.loopStart (ops : ValueOps) (f : ForStatement) (st : RenderState)
    (items : List InternalValue) : RenderState :=
  { os := st.os
    values := (f.loopContext st.values).cellSet st.values.cells.length "length"
      (.int ((f.keptItems ops st.values items).length : Int))
    calls := st.calls ++ f.filterCalls ops st.values items }
/-- The calls recorded by `ForStatement::Render` itself, in order: the record after the
render without the calls recorded before it. -/
def ForStatement.callsOf (ops : ValueOps) (f : ForStatement) (st : RenderState) :
    List (Callee × RenderContext) :=
  (f.Render ops st).calls.drop st.calls.length

/-- The recorded call to the else body of a for statement over the source items `items`: one
when there is an else body and no item is kept. -/
def ForStatement.elseCalls (ops : ValueOps) (f : ForStatement) (st : RenderState)
    (items : List InternalValue) : List (Callee × RenderContext) :=
  match f.m_elseBody with
  | some _ =>
    if (f.keptItems ops st.values items).isEmpty then
      [(Callee.ElseBody, (f.loopStart ops st items).values)]
    else []
  | none => []

/-- The loop scope, at index `d`, binds `loop` to the adapter of the map at index `c`. -/
def bindsLoop (d c : Nat) (ctx : RenderContext) : Prop :=
  ∃ scope, ctx.scopes[d]? = some scope ∧ scope "loop" = some (.mapRef c)

/-! ### Examples: for statements -/

/-- The value helpers of the examples: a list value converts to its items, a boolean is its
own truth value, a subscript of a map value is the entry of that name; nothing else is a
list, truthy, or has entries. -/
def exampleOps : ValueOps where
  ConvertToList := fun v =>
    match v with
    | .list items => some items
    | _ => none
  Subscript := fun v name =>
    match v with
    | .map entries => ((entries.find? (fun e => e.1 == name)).map (·.2)).getD .empty
    | _ => .empty
  ConvertToBool := fun v =>
    match v with
    | .bool b => b
    | _ => false
  BooleanEvaluator := fun v =>
    match v with
    | .bool b => b
    | _ => false

/-- The body of scenario E3, `loop.index`, a colon, `i`, a semicolon, for indices up to 2
and string items; it leaves the context as it is. -/
def exampleBody : RendererFn := fun ctx =>
  (match ctx.FindValue "loop", ctx.FindValue "i" with
    | some (.mapRef c), some (.string s) =>
      (match (ctx.cells.getD c emptyMap) "index" with
        | some (.int 1) => ['1']
        | some (.int 2) => ['2']
        | _ => ['?']) ++ [':'] ++ s.toList ++ [';']
    | _, _ => [], ctx)

/-- The for statement of scenario E3 over `xs = [a, b]`. -/
def exampleFor : ForStatement where
  self := 0
  m_vars := ["i"]
  m_value := fun _ => .list [.string "a", .string "b"]
  m_ifExpr := none
  m_isRecursive := false
  m_mainBody := exampleBody
  m_elseBody := none

/-- A for statement over `[a, skip, b]` with the filter `i != skip`, the body of scenario E3
and an else body. -/
def exampleFilteredFor : ForStatement where
  self := 1
  m_vars := ["i"]
  m_value := fun _ => .list [.string "a", .string "skip", .string "b"]
  m_ifExpr := some (fun ctx =>
    match ctx.FindValue "i" with
    | some (.string s) => .bool (s != "skip")
    | _ => .bool false)
  m_isRecursive := false
  m_mainBody := exampleBody
  m_elseBody := some (fun ctx => (['-'], ctx))

/-- The state of the examples: an empty stream, one empty scope, nothing recorded. -/
def exampleState : RenderState :=
  { os := [], values := { scopes := [emptyMap], cells := [] }, calls := [] }

/-! ### Specification side: the if statement -/

/-- The value of `ShouldRender` for the branch `b` in the context `values`. -/
def ElseBranchStatement.shouldRender (ops : ValueOps) (b : ElseBranchStatement)
    (values : RenderContext) : Bool :=
  match b.m_expr with
  | none => true
  | some e => ops.BooleanEvaluator (e values)

/-- The recorded evaluations of the guards of the branches, numbered from `branch` on, in the
context `values`: one per guarded branch, in declaration order. -/
def guardCalls (values : RenderContext) :
    List ElseBranchStatement → Nat → List (Callee × RenderContext)
  | [], _ => []
  | b :: bs, branch =>
    (match b.m_expr with
      | some _ => [(Callee.Guard (branch + 1), values)]
      | none => []) ++ guardCalls values bs (branch + 1)

/-- A recorded call is the rendering of a body of an if statement. -/
def isBodyCall (c : Callee × RenderContext) : Bool :=
  match c.1 with
  | .MainBody => true
  | .Branch _ => true
  | _ => false

/-! ### Examples: an if statement, a for statement that keeps no item -/

/-- An if statement with the guard `x`, the branches `elif y` and `elif z` and an `else`
branch; the bodies write `A`, `B`, `C` and `D`. -/
def exampleIf : IfStatement where
  m_expr := fun ctx => (ctx.FindValue "x").getD .empty
  m_mainBody := fun ctx => (['A'], ctx)
  m_elseBranches :=
    [{ m_expr := some (fun ctx => (ctx.FindValue "y").getD .empty)
       m_mainBody := fun ctx => (['B'], ctx) },
     { m_expr := some (fun ctx => (ctx.FindValue "z").getD .empty)
       m_mainBody := fun ctx => (['C'], ctx) },
     { m_expr := none
       m_mainBody := fun ctx => (['D'], ctx) }]

/-- A state whose only scope binds `x` to false and `y` and `z` to true. -/
def exampleIfState : RenderState :=
  { os := []
    values :=
      { scopes := [mapSet (mapSet (mapSet emptyMap "x" (.bool false)) "y" (.bool true)) "z"
          (.bool true)]
        cells := [] }
    calls := [] }

/-- The for statement `exampleFilteredFor` over the list `[skip]`, of which the filter keeps
nothing. -/
def exampleElseFor : ForStatement :=
  { exampleFilteredFor with m_value := fun _ => .list [.string "skip"] }

/-! ## Keywords -/

/-- Source `ParserTraitsBase::s_keywordsInfo`: the 30 keyword spellings and their token types,
in table order. -/
def s_keywordsInfo : List (List Char × TokenType) :=
  [("for".toList, .For), ("endfor".toList, .Endfor), ("in".toList, .In), ("if".toList, .If),
   ("else".toList, .Else), ("elif".toList, .ElIf), ("endif".toList, .EndIf),
   ("or".toList, .LogicalOr), ("and".toList, .LogicalAnd), ("not".toList, .LogicalNot),
   ("is".toList, .Is), ("block".toList, .Block), ("endblock".toList, .EndBlock),
   ("extends".toList, .Extends), ("macro".toList, .Macro), ("endmacro".toList, .EndMacro),
   ("call".toList, .Call), ("endcall".toList, .EndCall), ("filter".toList, .Filter),
   ("endfilter".toList, .EndFilter), ("set".toList, .Set), ("endset".toList, .EndSet),
   ("include".toList, .Include), ("import".toList, .Import), ("true".toList, .True),
   ("false".toList, .False), ("True".toList, .True), ("False".toList, .False),
   ("none".toList, .None), ("None".toList, .None)]

/-- The alternative `(^name$)` of the pattern built by `GetKeywords`, tried at position `p` of
the searched text: `^` holds at the first position only, `$` at the last only (the pattern is
compiled without the multiline option). -/
def keywordAlternativeAt (text : List Char) (p : Nat) (name : List Char) : Bool :=
  decide (p = 0) && ((text.drop p).take name.length == name) &&
    decide (p + name.length = text.length)

/-- The first match of the keywords pattern in the text, as `sregex_iterator` finds it: the
leftmost position at which an alternative matches, and there the first such alternative in
pattern order. The result is the index of the capture group that matched, counted from 0. -/
def keywordSearch (text : List Char) : Option Nat :=
  (List.range (text.length + 1)).findSome? (fun p =>
    s_keywordsInfo.findIdx? (fun info => keywordAlternativeAt text p info.1))

/-- The text of a range: the characters from `begin() + startOffset` to
`begin() + endOffset`. -/
def rangeText (tpl : List Char) (range : CharRange) : List Char :=
  (tpl.drop range.startOffset).take (range.endOffset - range.startOffset)

/-- Source `GetKeyword`: no match gives `Unknown`; else the type of the first capture group of
non-zero length, which is the group that matched (the other groups did not take part). -/
def GetKeyword (tpl : List Char) (range : CharRange) : TokenType :=
  match keywordSearch (rangeText tpl range) with
  | none => .Unknown
  | some idx =>
    match s_keywordsInfo[idx]? with
    | some info => if info.1.length ≠ 0 then info.2 else .Unknown
    | none => .Unknown

/-- The type the keyword table gives a text: that of the entry spelled exactly as the text,
`Unknown` when there is none. -/
def keywordTableLookup (text : List Char) : TokenType :=
  match s_keywordsInfo.find? (fun info => info.1 == text) with
  | some info => info.2
  | none => .Unknown

/-! ## Escapes in string literals (src/src/helpers.h) -/

/-- The variables of `CompileEscapes`: the sequence `s`, modified in place, the iterators
`itr1` and `itr2` as offsets from `s.begin()`, and `removalCount`. -/
structure EscapeState where
  s : List Char
  itr1 : Nat
  itr2 : Nat
  removalCount : Nat

/-- The end of a round of the loop of `CompileEscapes` that copies:
`if (itr1 != itr2) *itr2 = *itr1; ++itr1; ++itr2;`. -/
def EscapeState.copy (st : EscapeState) : EscapeState :=
  { st with
    s := if st.itr1 ≠ st.itr2 then st.s.set st.itr2 (charAt st.s st.itr1) else st.s
    itr1 := st.itr1 + 1
    itr2 := st.itr2 + 1 }

/-- The `switch` of `CompileEscapes` on the character after a backslash. -/
def escapeMeaning (c : Char) : Char :=
  if c = 'n' then '\n' else if c = 'r' then '\r' else if c = 't' then '\t' else c

/-- The `while (end != itr1)` loop of `CompileEscapes`, at most `fuel` rounds. Every round
moves `itr1` forward, so `s.size()` rounds are enough (`compileLoop_done`). -/
def compileLoop : Nat → EscapeState → EscapeState
  | 0, st => st
  | fuel + 1, st =>
    if st.itr1 = st.s.length then st
    else if charAt st.s st.itr1 = '\\' then
      let st := { st with removalCount := st.removalCount + 1, itr1 := st.itr1 + 1 }
      if st.itr1 = st.s.length then st
      else if charAt st.s st.itr1 ≠ '\\' then
        compileLoop fuel { st with s := st.s.set st.itr1 (escapeMeaning (charAt st.s st.itr1)) }
      else compileLoop fuel st.copy
    else compileLoop fuel st.copy

/-- Source `CompileEscapes`. `removalCount` is an `int` (`auto removalCount = 0`): the
increment that would take it past `2^31 - 1` has no defined result, and the model has none
then. -/
def CompileEscapes (s : List Char) : Option (List Char) :=
  let st := compileLoop s.length { s := s, itr1 := 0, itr2 := 0, removalCount := 0 }
  if st.removalCount < 2 ^ 31 then some (st.s.take (s.length - st.removalCount)) else none

/-! ### Specification side: escapes -/

/-- The left-to-right unescape function: a backslash and the character after it become the
meaning of that character (`n`, `r`, `t` become LF, CR, TAB, any other character itself), a
final lone backslash is dropped, every other character is copied. -/
def unescape : List Char → List Char
  | [] => []
  | [c] => if c = '\\' then [] else [c]
  | c :: d :: rest =>
    if c = '\\' then escapeMeaning d :: unescape rest else c :: unescape (d :: rest)

/-- The number of backslashes that introduce an escape, a final lone backslash included. -/
def escapeCount : List Char → Nat
  | [] => 0
  | [c] => if c = '\\' then 1 else 0
  | c :: d :: rest => if c = '\\' then escapeCount rest + 1 else escapeCount (d :: rest)

/-! ## Runtime: set, blocks, template inheritance, macros and calls -/

/-- Modelled from the spec: `current_scope`, the innermost scope, read. -/
def RenderContext.GetCurrentScope (c : RenderContext) : InternalValueMap :=
  (c.scopes[c.scopes.length - 1]?).getD emptyMap

/-- Assignment `values.GetCurrentScope()[name] = v`. -/
def RenderContext.setCurrent (c : RenderContext) (name : String) (v : InternalValue) :
    RenderContext :=
  c.assign (c.scopes.length - 1) name v

/-- Call `scope.erase(name)` through a reference to the scope at index `scope`. -/
def RenderContext.erase (c : RenderContext) (scope : Nat) (name : String) : RenderContext :=
  { c with scopes := updateAt (fun m => mapErase m name) c.scopes scope }

/-- Call `values.GetCurrentScope().erase(name)`. -/
def RenderContext.eraseCurrent (c : RenderContext) (name : String) : RenderContext :=
  c.erase (c.scopes.length - 1) name

/-- Modelled from the spec: `global_scope`, the outermost scope, read. -/
def RenderContext.GetGlobalScope (c : RenderContext) : InternalValueMap :=
  (c.scopes[0]?).getD emptyMap

/-- Modelled from the spec: `clone(inherit_current)` "creates a new context sharing the
global scope and optionally snapshotting the current scope as its only scope". The maps
behind adapters are reached from both contexts. -/
def RenderContext.Clone (c : RenderContext) (includeCurrentContext : Bool) : RenderContext :=
  { scopes := c.scopes.take 1 ++ (if includeCurrentContext then [c.GetCurrentScope] else [])
    cells := c.cells }

/-- Modelled from the spec: what a context is after its clone was rendered in and has become
`inner`. The two share the global scope and the maps behind adapters; the other scopes of
the context are its own. -/
def RenderContext.afterClone (c inner : RenderContext) : RenderContext :=
  { scopes := updateAt (fun _ => inner.GetGlobalScope) c.scopes 0
    cells := inner.cells }

/-- The members of `SetStatement`; `m_expr` is a pointer that may be null. -/
structure SetStatement where
  m_fields : List String
  m_expr : Option Expression

/-- Method `SetStatement::Render`. -/
def SetStatement.Render (ops : ValueOps) (s : SetStatement) (st : RenderState) : RenderState :=
  match s.m_expr with
  | none => st
  | some expr =>
    let r := callEvaluate .Value expr st
    let val := r.1
    if s.m_fields.length = 1 then
      { r.2 with values := r.2.values.setCurrent (s.m_fields.headD "") val }
    else
      { r.2 with values := (s.m_fields.foldl
          (fun values name => values.setCurrent name (ops.Subscript val name)) r.2.values) }

/-- The members of `BlockStatement`, a block of a template that extends another. -/
structure BlockStatement where
  m_name : String
  m_mainBody : RendererFn

/-- Method `BlockStatement::Render`. -/
def BlockStatement.Render (s : BlockStatement) (st : RenderState) : RenderState :=
  callRenderer .MainBody s.m_mainBody st

/-- The interface `BlocksRenderer`. -/
structure BlocksRenderer where
  HasBlock : String → Bool
  RenderBlock : String → RendererFn

/-- Modelled from the spec: the call site's positional and keyword parameters. -/
structure CallParams where
  kwParams : List (String × Expression)
  posParams : List Expression

/-- The members of `ArgumentInfo` that the statements use: the constructor
`ArgumentInfo(name, mandatory)` leaves `defaultVal` an empty value. -/
structure ArgumentInfo where
  name : String
  mandatory : Bool
  defaultVal : InternalValue

/-- The members of `ParsedArguments` that `SetupCallArgs` reads. -/
structure ParsedArguments where
  args : List (String × Expression)
  extraKwArgs : List (String × Expression)
  extraPosArgs : List Expression

/-- Modelled from the spec: what `LoadTemplate` yields, visited by `TemplateImplVisitor`:
the empty value, an error, or a template, of which `GetRenderer()` is kept. -/
inductive LoadedTemplate where
  | emptyValue
  | failed
  | loaded (renderer : RendererFn)

/-- The collaborators of the statements that are defined outside the sources at hand: the
value helpers, the object behind a renderer pointer (`static_cast<BlocksRenderer*>`), the
function behind a callable of the statement kind (`GetStatementCallable()`), the callback
`LoadTemplate` and `helpers::ParseCallParams`. -/
structure Runtime where
  ops : ValueOps
  blocksRenderer : Nat → BlocksRenderer
  invoke : Callable → CallParams → RendererFn
  LoadTemplate : String → LoadedTemplate
  ParseCallParams : List ArgumentInfo → CallParams → ParsedArguments

/-- The members of `ParentTemplateRenderer`; `self` stands for `this`, `m_template` for the
renderer that `m_template->GetRenderer()` yields, `m_blocks` for the block collection of the
extends statement. -/
structure ParentTemplateRenderer where
  self : Nat
  m_template : RendererFn
  m_blocks : List (String × RendererFn)

/-- Method `ParentTemplateRenderer::Render`. -/
def ParentTemplateRenderer.Render (ops : ValueOps) (r : ParentTemplateRenderer)
    (st : RenderState) : RenderState :=
  let scope := st.values.scopes.length - 1
  let parentTemplates : List InternalValue := [.rendererRef r.self]
  let parentTemplates :=
    match st.values.FindValue "$$__parent_template" with
    | some p =>
      match ops.ConvertToList p with
      | some prevTplsList => parentTemplates ++ prevTplsList
      | none => parentTemplates
    | none => parentTemplates
  let values := st.values.assign scope "$$__parent_template" (.list parentTemplates)
  callRenderer .Root r.m_template { st with values := values }

/-- Method `ParentTemplateRenderer::RenderBlock`. -/
def ParentTemplateRenderer.RenderBlock (r : ParentTemplateRenderer) (blockName : String) :
    RendererFn := fun values =>
  match r.m_blocks.find? (fun p => p.1 == blockName) with
  | none => ([], values)
  | some p => p.2 values

/-- Method `ParentTemplateRenderer::HasBlock`. -/
def ParentTemplateRenderer.HasBlock (r : ParentTemplateRenderer) (blockName : String) : Bool :=
  (r.m_blocks.filter (fun p => p.1 == blockName)).length != 0

/-- A parent-template renderer seen through the interface `BlocksRenderer`. -/
def ParentTemplateRenderer.toBlocksRenderer (r : ParentTemplateRenderer) : BlocksRenderer :=
  { HasBlock := r.HasBlock, RenderBlock := r.RenderBlock }

/-- The members of `ParentBlockStatement`, a block that templates extending this one may
override; `self` stands for `this`. -/
structure ParentBlockStatement where
  self : Nat
  m_name : String
  m_isScoped : Bool
  m_mainBody : RendererFn

/-- The loop of `ParentBlockStatement::Render` over the list of parent templates: the first
entry that holds a renderer pointer whose object has the block; the other entries are passed
over. -/
def findBlockRenderer (env : Runtime) (m_name : String) : List InternalValue → Option Nat
  | [] => none
  | tplVal :: rest =>
    match tplVal with
    | .rendererRef ptr =>
      if (env.blocksRenderer ptr).HasBlock m_name then some ptr
      else findBlockRenderer env m_name rest
    | _ => findBlockRenderer env m_name rest

/-- The end of `ParentBlockStatement::Render`: the block is entered into the map bound to
`self` in the global scope unless the map has the name. `GetIf<MapAdapter>` yields a null
pointer when `self` is not bound to a map, and the pointer is used unchecked: there is no
result then. -/
def ParentBlockStatement.registerSelf (s : ParentBlockStatement) (values : RenderContext) :
    Option RenderContext :=
  let callable := InternalValue.callable ⟨.Statement, .SelfBlock s.self⟩
  match values.GetGlobalScope "self" with
  | some (.map entries) =>
    if entries.any (fun e => e.1 == s.m_name) then some values
    else some (values.assign 0 "self" (.map (entries ++ [(s.m_name, callable)])))
  | some (.mapRef cell) =>
    match values.cells[cell]? with
    | some m => if (m s.m_name).isSome then some values
      else some (values.cellSet cell s.m_name callable)
    | none => none
  | _ => none

/-- Method `ParentBlockStatement::Render`; `none` where the source uses a null pointer. -/
def ParentBlockStatement.Render (env : Runtime) (s : ParentBlockStatement)
    (st : RenderState) : Option RenderState :=
  let innerContext := st.values.Clone s.m_isScoped
  match st.values.FindValue "$$__parent_template" with
  | none => some st
  | some parentTplVal =>
    match env.ops.ConvertToList parentTplVal with
    | none => some st
    | some parentTplsList =>
      match findBlockRenderer env s.m_name parentTplsList with
      | none => some st
      | some blockRenderer =>
        let scope := innerContext.scopes.length
        let innerContext := innerContext.EnterScope
        let innerContext := innerContext.assign scope "$$__super_block" (.rendererRef s.self)
        let innerContext := innerContext.assign scope "super"
          (.callable ⟨.Statement, .Super s.self⟩)
        let innerContext :=
          if !s.m_isScoped then
            innerContext.assign scope "$$__parent_template" (.list parentTplsList)
          else innerContext
        let r := (env.blocksRenderer blockRenderer).RenderBlock s.m_name innerContext
        let values := st.values.afterClone r.2.ExitScope
        (s.registerSelf values).map (fun values =>
          { os := st.os ++ r.1
            values := values
            calls := st.calls ++ [(Callee.Override, innerContext)] })

/-- The members of `ExtendsStatement`; `renderer` stands for the address of the
parent-template renderer that `Render` makes. -/
structure ExtendsStatement where
  renderer : Nat
  m_templateName : String
  m_isPath : Bool
  m_blocks : List (String × RendererFn)

/-- The visitor `TemplateImplVisitor`: a renderer for a loaded template, a null pointer for
the empty value and for an error. -/
def TemplateImplVisitor (renderer : Nat) (m_blocks : List (String × RendererFn)) :
    LoadedTemplate → Option ParentTemplateRenderer
  | .emptyValue => none
  | .failed => none
  | .loaded tpl => some { self := renderer, m_template := tpl, m_blocks := m_blocks }

/-- Method `ExtendsStatement::Render`. -/
def ExtendsStatement.Render (env : Runtime) (s : ExtendsStatement) (st : RenderState) :
    RenderState :=
  if !s.m_isPath then st
  else
    let tpl := env.LoadTemplate s.m_templateName
    match TemplateImplVisitor s.renderer s.m_blocks tpl with
    | some renderer => renderer.Render env.ops st
    | none => st

/-- A declared parameter of a macro: its name and its default value, a pointer that may be
null. -/
structure MacroParam where
  paramName : String
  defaultValue : Option Expression

/-- The members of `MacroStatement`; `self` stands for `this`. -/
structure MacroStatement where
  self : Nat
  m_name : String
  m_params : List MacroParam
  m_preparedParams : List ArgumentInfo
  m_mainBody : RendererFn

/-- Method `MacroStatement::PrepareMacroParams`: the statement after the call. -/
def MacroStatement.PrepareMacroParams (s : MacroStatement) (values : RenderContext) :
    MacroStatement :=
  { s with m_preparedParams := (s.m_params.foldl (fun prepared p =>
      let info : ArgumentInfo := ⟨p.paramName, p.defaultValue.isNone, .empty⟩
      let info :=
        match p.defaultValue with
        | some defaultValue => { info with defaultVal := defaultValue values }
        | none => info
      prepared ++ [info]) s.m_preparedParams) }

/-- Method `MacroStatement::Render`: the statement and the state after the call. -/
def MacroStatement.Render (s : MacroStatement) (st : RenderState) :
    MacroStatement × RenderState :=
  let s := s.PrepareMacroParams st.values
  let callable := InternalValue.callable ⟨.Statement, .InvokeMacro s.self⟩
  (s, { st with values := st.values.setCurrent s.m_name callable })

/-- Method `MacroStatement::SetupCallArgs`: the values of `callArgs`, `kwArgs` and
`varArgs`. -/
def MacroStatement.SetupCallArgs (env : Runtime) (argsInfo : List ArgumentInfo)
    (callParams : CallParams) (context : RenderContext) :
    List (String × InternalValue) × List (String × InternalValue) × List InternalValue :=
  let args := env.ParseCallParams argsInfo callParams
  (args.args.map (fun a => (a.1, a.2 context)),
   args.extraKwArgs.map (fun a => (a.1, a.2 context)),
   args.extraPosArgs.map (fun a => a context))

/-- Method `MacroStatement::InvokeMacroRenderer`. -/
def MacroStatement.InvokeMacroRenderer (env : Runtime) (s : MacroStatement)
    (callParams : CallParams) (st : RenderState) : RenderState :=
  let a := MacroStatement.SetupCallArgs env s.m_preparedParams callParams st.values
  let callArgs := a.1
  let kwArgs := a.2.1
  let varArgs := a.2.2
  let arguments := s.m_preparedParams.map (fun a => InternalValue.string a.name)
  let defaults := s.m_preparedParams.map (fun a => a.defaultVal)
  let scope := st.values.scopes.length
  let context := st.values.EnterScope
  let context := callArgs.foldl (fun ctx a => ctx.assign scope a.1 a.2) context
  let context := context.assign scope "kwargs" (.map kwArgs)
  let context := context.assign scope "varargs" (.list varArgs)
  let context := context.assign scope "name" (.string s.m_name)
  let context := context.assign scope "arguments" (.list arguments)
  let context := context.assign scope "defaults" (.list defaults)
  let st := callRenderer .MainBody s.m_mainBody { st with values := context }
  { st with values := st.values.ExitScope }

/-- The members of `MacroCallStatement`, which derives from `MacroStatement`: the inherited
parameters and body are those of the call block. -/
structure MacroCallStatement extends MacroStatement where
  m_macroName : String
  m_callParams : CallParams

/-- Method `MacroCallStatement::Render`: the statement and the state after the call. The
pointer `callable` points into the entry that `FindValue` found; when that entry is the
`caller` entry of the current scope, the assignment to `curScope["caller"]` changes what the
pointer points to. -/
def MacroCallStatement.Render (env : Runtime) (s : MacroCallStatement) (st : RenderState) :
    MacroCallStatement × RenderState :=
  match st.values.FindValue s.m_macroName with
  | none => (s, st)
  | some fnVal =>
    match fnVal with
    | .callable callable =>
      if callable.kind = .Expression then (s, st)
      else
        let s := { s with toMacroStatement := s.toMacroStatement.PrepareMacroParams st.values }
        let curScope := st.values.scopes.length - 1
        let prevCaller := st.values.GetCurrentScope "caller"
        let caller : Callable := ⟨.Statement, .InvokeMacro s.self⟩
        let callable :=
          if s.m_macroName = "caller" ∧ prevCaller.isSome then caller else callable
        let values := st.values.assign curScope "caller" (.callable caller)
        let st := callRenderer .Invoked (env.invoke callable s.m_callParams)
          { st with values := values }
        match prevCaller with
        | some prevCaller =>
          (s, { st with values := st.values.assign curScope "caller" prevCaller })
        | none => (s, { st with values := st.values.eraseCurrent "caller" })
    | _ => (s, st)

/-! ### Examples: set, blocks, template inheritance, macros and calls -/

/-- A state with a global scope binding `g` and a current scope binding `y`, and text already
written. -/
def exampleNested : RenderState :=
  { os := "out".toList
    values :=
      { scopes := [mapSet (mapSet emptyMap "g" (.int 0)) "self" (.map []),
          mapSet emptyMap "y" (.int 1)]
        cells := [] }
    calls := [] }

/-- The statement of `set x = 5`. -/
def exampleSet : SetStatement :=
  { m_fields := ["x"], m_expr := some (fun _ => .int 5) }

/-- The statement of `set a, b = v` with `v` a map of `a` to 1 and `b` to 2. -/
def exampleSetMany : SetStatement :=
  { m_fields := ["a", "b"], m_expr := some (fun _ => .map [("a", .int 1), ("b", .int 2)]) }

/-! ### Specification side: scope depth -/

/-- A renderer leaves a context of the scope depth it was given. -/
def keepsDepth (r : RendererFn) : Prop :=
  ∀ ctx, (r ctx).2.scopes.length = ctx.scopes.length

/-- A body that writes `body` and leaves the context as it is. -/
def exampleBlockBody : RendererFn := fun ctx => ("body".toList, ctx)

/-- A parent-template renderer at address 7: the root of the loaded template writes `base`,
the block collection overrides `content` with a body that writes `child`. -/
def exampleParent : ParentTemplateRenderer :=
  { self := 7
    m_template := fun ctx => ("base".toList, ctx)
    m_blocks := [("content", fun ctx => ("child".toList, ctx))] }

/-- Collaborators for the examples: the renderer at address 7 is `exampleParent`, any other
address holds a renderer without blocks; the callable with body `other 1` writes `macro` when
`caller` is visible as the callable of the call statement at address 9; `base.html` loads;
parameters are matched by position. -/
def exampleRuntime : Runtime :=
  { ops := exampleOps
    blocksRenderer := fun ptr =>
      if ptr = 7 then exampleParent.toBlocksRenderer
      else { HasBlock := fun _ => false, RenderBlock := fun _ ctx => ([], ctx) }
    invoke := fun c _ ctx =>
      match c.body, ctx.FindValue "caller" with
      | .other 1, some (.callable ⟨.Statement, .InvokeMacro 9⟩) => ("macro".toList, ctx)
      | _, _ => ([], ctx)
    LoadTemplate := fun name =>
      if name = "base.html" then .loaded exampleParent.m_template else .failed
    ParseCallParams := fun argsInfo callParams =>
      { args := (argsInfo.zip callParams.posParams).map (fun p => (p.1.name, p.2))
        extraKwArgs := callParams.kwParams
        extraPosArgs := callParams.posParams.drop argsInfo.length } }

/-- The statement of an overridable block `content` whose body writes `body`. -/
def exampleParentBlock : ParentBlockStatement :=
  { self := 5, m_name := "content", m_isScoped := false, m_mainBody := exampleBlockBody }

/-- The statement of a block `content` in a template that extends another. -/
def exampleBlock : BlockStatement :=
  { m_name := "content", m_mainBody := exampleBlockBody }

/-- The statement of `macro m(x)` as compiled: no parameter is prepared yet. -/
def exampleMacro : MacroStatement :=
  { self := 11
    m_name := "m"
    m_params := [⟨"x", none⟩]
    m_preparedParams := []
    m_mainBody := exampleBlockBody }

/-- The statement of `call(x) m()` as compiled. -/
def exampleCall : MacroCallStatement :=
  { self := 9
    m_name := ""
    m_params := [⟨"x", none⟩]
    m_preparedParams := []
    m_mainBody := exampleBlockBody
    m_macroName := "m"
    m_callParams := ⟨[], []⟩ }

/-- The statement of `extends "base.html"`. -/
def exampleExtends : ExtendsStatement :=
  { renderer := 7, m_templateName := "base.html", m_isPath := true
    m_blocks := exampleParent.m_blocks }

/-- The state `exampleNested` with `name` bound to `v` in the current scope. -/
def exampleWith (name : String) (v : InternalValue) (st : RenderState) : RenderState :=
  { st with values := st.values.setCurrent name v }

/-- A state in which `$$__parent_template` is visible as a list of a number, a renderer
without blocks, and twice the renderer at address 7. -/
def exampleChain : RenderState :=
  exampleWith "$$__parent_template"
    (.list [.int 0, .rendererRef 3, .rendererRef 7, .rendererRef 7]) exampleNested

/-- A state in which `m` is a callable of the statement kind and `caller` is bound to 3. -/
def exampleCallState : RenderState :=
  exampleWith "m" (.callable ⟨.Statement, .other 1⟩)
    (exampleWith "caller" (.int 3) exampleNested)

/-! ### Specification side: blocks and template inheritance -/

/-- The scope in which the override of an overridable block is rendered: `super` is the
callable that renders the body of this block, `$$__super_block` is this block, and a block
that is not scoped hands on the list of parent templates; nothing else is bound. -/
def ParentBlockStatement.overrideScope (s : ParentBlockStatement)
    (parentTplsList : List InternalValue) : InternalValueMap :=
  fun k =>
    if k = "$$__parent_template" ∧ s.m_isScoped = false then some (.list parentTplsList)
    else if k = "super" then some (.callable ⟨.Statement, .Super s.self⟩)
    else if k = "$$__super_block" then some (.rendererRef s.self)
    else none

/-- The context in which the override of an overridable block is rendered: the clone of the
context of the block, with the scope of the override entered. -/
def ParentBlockStatement.overrideContext (s : ParentBlockStatement) (values : RenderContext)
    (parentTplsList : List InternalValue) : RenderContext :=
  { scopes := (values.Clone s.m_isScoped).scopes ++ [s.overrideScope parentTplsList]
    cells := (values.Clone s.m_isScoped).cells }

/-- The list of parent templates visible in a context: empty when `$$__parent_template` is
not visible or is not a list. -/
def visibleParents (ops : ValueOps) (values : RenderContext) : List InternalValue :=
  match values.FindValue "$$__parent_template" with
  | some p => (ops.ConvertToList p).getD []
  | none => []

/-- The statement of `extends "missing.html"`, a template that does not load. -/
def exampleMissing : ExtendsStatement :=
  { renderer := 8, m_templateName := "missing.html", m_isPath := true, m_blocks := [] }

/-- The statement of `extends layout`, whose target is not a string literal. -/
def exampleDynamic : ExtendsStatement :=
  { renderer := 8, m_templateName := "base.html", m_isPath := false, m_blocks := [] }

/-! ### Specification side: what a for statement leaves behind -/

/-- A renderer writes only to the innermost scope: it leaves the number of scopes and every
scope but the innermost as they are. -/
def writesInnermost (r : RendererFn) : Prop :=
  ∀ ctx, (r ctx).2.scopes.length = ctx.scopes.length ∧
    (r ctx).2.scopes.dropLast = ctx.scopes.dropLast

/-- A statement taken as a renderer of a body: it is rendered on an empty stream. -/
def asRenderer (render : RenderState → RenderState) : RendererFn := fun ctx =>
  ((render { os := [], values := ctx, calls := [] }).os,
   (render { os := [], values := ctx, calls := [] }).values)

/-- A for statement over `[a, b]` whose body is the statement `set x = 5`. -/
def exampleSetFor : ForStatement where
  self := 0
  m_vars := ["i"]
  m_value := fun _ => .list [.string "a", .string "b"]
  m_ifExpr := none
  m_isRecursive := false
  m_mainBody := asRenderer (exampleSet.Render exampleOps)
  m_elseBody := none

/-! ### Specification side: the scope of a macro invocation -/

/-- The names `InvokeMacroRenderer` binds itself in the scope of the invocation. -/
def reservedMacroNames : List String :=
  ["kwargs", "varargs", "name", "arguments", "defaults"]

/-- The statement of `macro m(name, x)` after it was rendered once: both parameters are
prepared. -/
def exampleReserved : MacroStatement :=
  (MacroStatement.Render
    { self := 12
      m_name := "m"
      m_params := [⟨"name", none⟩, ⟨"x", none⟩]
      m_preparedParams := []
      m_mainBody := exampleBlockBody } exampleNested).1

/-- The call parameters of `m("passed", 7)`. -/
def exampleArguments : CallParams :=
  { kwParams := [], posParams := [fun _ => .string "passed", fun _ => .int 7] }

/-- The scope of a macro invocation for the parsed arguments `args`, evaluated in the context
`values` of the call: the arguments bound to the parameters, then `kwargs`, `varargs`,
`name`, `arguments` and `defaults`, each written over what was bound before it. -/
def MacroStatement.invocationScope (s : MacroStatement) (args : ParsedArguments)
    (values : RenderContext) : InternalValueMap :=
  mapSet (mapSet (mapSet (mapSet (mapSet
    ((args.args.map (fun a => (a.1, a.2 values))).foldl (fun m a => mapSet m a.1 a.2) emptyMap)
    "kwargs" (.map (args.extraKwArgs.map (fun a => (a.1, a.2 values)))))
    "varargs" (.list (args.extraPosArgs.map (fun a => a values))))
    "name" (.string s.m_name))
    "arguments" (.list (s.m_preparedParams.map (fun a => .string a.name))))
    "defaults" (.list (s.m_preparedParams.map (fun a => a.defaultVal)))

/-- The context the body of a macro is rendered in: the context of the call with the scope
of the invocation on top. -/
def MacroStatement.invocationContext (env : Runtime) (s : MacroStatement)
    (callParams : CallParams) (values : RenderContext) : RenderContext :=
  { scopes := values.scopes ++
      [s.invocationScope (env.ParseCallParams s.m_preparedParams callParams) values]
    cells := values.cells }

/-! ## The character reads of rough parsing

For each function of the scanner, the offsets at which it evaluates `(*m_template)[i]`, in
the order of evaluation. An offset is kept as a signed number, so that `[position - 1]`
evaluated at position 0 would show as -1. The reads made inside `std::regex` are not part of
the scanner. -/

/-- The reads of the trim loop of `FinishCurrentBlock`: `(*m_template)[newPos]` once per
iteration. -/
def trimLoopReads (tpl : List Char) : Nat → Nat → List Int
  | 0, _ => []
  | fuel + 1, newPos =>
    if newPos < tpl.length then
      let ch := charAt tpl newPos
      (newPos : Int) ::
        (if ch = '\n' then []
         else if !isspace ch then []
         else trimLoopReads tpl fuel (newPos + 1))
    else []

/-- The reads of `FinishCurrentBlock(position)`: `(*m_template)[position - 1]` when the block
is not raw text and `position != 0`, then the reads of the trim loop when it runs. -/
def FinishCurrentBlockReads (tpl : List Char) (setts : Settings) (st : ParserState)
    (position : Nat) : List Int :=
  let doTrim := setts.trimBlocks && st.m_currentBlockInfo.type == .Statement
  let newPos := position + 2
  let marked := st.m_currentBlockInfo.type != .RawText && position != 0
  let ctrlChar := charAt tpl (position - 1)
  let doTrim := if marked then
      (if ctrlChar = '-' then true else if ctrlChar = '+' then false else doTrim)
    else doTrim
  (if marked then [(position : Int) - 1] else []) ++
    (if doTrim then trimLoopReads tpl (tpl.length - newPos) newPos else [])

/-- The reads of the loop of `StripBlockLeft`: `tpl[endOffset - 1]` once per iteration. -/
def stripLoopReads (tpl : List Char) : Nat → List Int
  | 0 => []
  | e + 1 =>
    let ch := charAt tpl e
    (((e + 1 : Nat) : Int) - 1) ::
      (if !isspace ch || ch = '\n' then [] else stripLoopReads tpl e)

/-- The reads of `StripBlockLeft(currentBlockInfo, ctrlCharPos, endOffset)`. -/
def StripBlockLeftReads (tpl : List Char) (setts : Settings) (currentBlockInfo : TextBlockInfo)
    (ctrlCharPos endOffset : Nat) : List Int :=
  let doStrip := setts.lstripBlocks
  let doStrip := if ctrlCharPos < tpl.length then
      (let ctrlChar := charAt tpl ctrlCharPos
       if ctrlChar = '+' then false else if ctrlChar = '-' then true else doStrip)
    else doStrip
  (if ctrlCharPos < tpl.length then [(ctrlCharPos : Int)] else []) ++
    (if !doStrip || currentBlockInfo.type != .RawText then []
     else stripLoopReads tpl endOffset)

/-- The reads of `StartControlBlock(blockType, matchStart)`: those of `StripBlockLeft` and
`FinishCurrentBlock`, then `(*m_template)[startOffset]`, once more when it is not `+`. -/
def StartControlBlockReads (tpl : List Char) (setts : Settings) (st : ParserState)
    (matchStart : Nat) : List Int :=
  let startOffset := matchStart + 2
  let endOffset := matchStart
  if st.m_currentBlockInfo.type != .RawText then []
  else
    StripBlockLeftReads tpl setts st.m_currentBlockInfo startOffset endOffset ++
    FinishCurrentBlockReads tpl setts st
      (StripBlockLeft tpl setts st.m_currentBlockInfo startOffset endOffset) ++
    (if startOffset < tpl.length then
      (startOffset : Int) ::
        (if charAt tpl startOffset = '+' then [] else [(startOffset : Int)])
     else [])

/-- The reads of a closer case of `ParseRoughMatch` for a block of type `ty`: nothing is read
in raw text or in a block of another type; otherwise the quote check
`(*m_template)[match.position() - 1]`, then the reads of `FinishCurrentBlock` when the block
is closed. -/
def closerReads (tpl : List Char) (setts : Settings) (st : ParserState) (ty : TextBlockType)
    (m : RoughMatch) : List Int :=
  if st.m_currentBlockInfo.type = .RawText then []
  else if st.m_currentBlockInfo.type ≠ ty then []
  else
    ((m.position : Int) - 1) ::
      (if charAt tpl (m.position - 1) = '\'' then []
       else FinishCurrentBlockReads tpl setts st m.position)

/-- The reads of `ParseRoughMatch`. -/
def ParseRoughMatchReads (tpl : List Char) (setts : Settings) (st : ParserState)
    (m : RoughMatch) : List Int :=
  let matchStart := m.position
  match m.type with
  | .RM_NewLine =>
    let st := FinishCurrentLine st m.position
    let st := { st with m_currentLineInfo := { st.m_currentLineInfo with
      range := { st.m_currentLineInfo.range with
        startOffset := st.m_currentLineInfo.range.endOffset + 1 } } }
    if st.m_currentLineInfo.range.startOffset < tpl.length ∧
        (st.m_currentBlockInfo.type = .RawText ∨ st.m_currentBlockInfo.type = .LineStatement) then
      (if st.m_currentBlockInfo.type = .LineStatement then
        FinishCurrentBlockReads tpl setts st matchStart
       else []) ++
      (if setts.useLineStatements then [(st.m_currentLineInfo.range.startOffset : Int)]
       else [])
    else []
  | .RM_CommentBegin =>
    if st.m_currentBlockInfo.type != .RawText then []
    else FinishCurrentBlockReads tpl setts st matchStart
  | .RM_CommentEnd =>
    if st.m_currentBlockInfo.type != .Comment then []
    else FinishCurrentBlockReads tpl setts st matchStart
  | .RM_ExprBegin => StartControlBlockReads tpl setts st matchStart
  | .RM_ExprEnd => closerReads tpl setts st .Expression m
  | .RM_StmtBegin => StartControlBlockReads tpl setts st matchStart
  | .RM_StmtEnd => closerReads tpl setts st .Statement m

/-- The reads of `DoRoughParsing`: `m_template->front()` in the branch without matches when
the template is not empty; otherwise `m_template->front()` when line statements are on, the
reads of each `ParseRoughMatch` in the state it is called in, and the reads of the last
`FinishCurrentBlock`. -/
def DoRoughParsingReads (tpl : List Char) (setts : Settings) : List Int :=
  let matches_ := roughTokenizer tpl
  if matches_.isEmpty then
    (if !tpl.isEmpty then [0] else [])
  else
    (if setts.useLineStatements then [0] else []) ++
    (roughTrace tpl setts).flatMap (fun p => ParseRoughMatchReads tpl setts p.1 p.2) ++
    FinishCurrentBlockReads tpl setts
      (FinishCurrentLine (roughLoop tpl setts (roughStart tpl setts, []) matches_).1 tpl.length)
      tpl.length

/-! ## The text consumed by the scanner -/

/-- A `+` or `-` whitespace marker stands at offset `i`. -/
def markerAt (tpl : List Char) (i : Nat) : Prop :=
  charAt tpl i = '+' ∨ charAt tpl i = '-'

instance (tpl : List Char) (i : Nat) : Decidable (markerAt tpl i) := by
  unfold markerAt
  infer_instance

/-- Left strip applies to the opener at offset `p`: a `-` follows it, or `lstripBlocks` is set
and no `+` follows it. -/
def stripApplies (tpl : List Char) (setts : Settings) (p : Nat) : Prop :=
  charAt tpl (p + 2) = '-' ∨ (setts.lstripBlocks = true ∧ charAt tpl (p + 2) ≠ '+')

instance (tpl : List Char) (setts : Settings) (p : Nat) : Decidable (stripApplies tpl setts p) := by
  unfold stripApplies
  infer_instance

/-- Right trim applies to the closer at offset `p` of a block of type `ty`: a `-` precedes it,
or `trimBlocks` is set, the block is a statement and no `+` precedes it. -/
def trimApplies (tpl : List Char) (setts : Settings) (ty : TextBlockType) (p : Nat) : Prop :=
  charAt tpl (p - 1) = '-' ∨
    (setts.trimBlocks = true ∧ ty = .Statement ∧ charAt tpl (p - 1) ≠ '+')

instance (tpl : List Char) (setts : Settings) (ty : TextBlockType) (p : Nat) :
    Decidable (trimApplies tpl setts ty p) := by
  unfold trimApplies
  infer_instance

/-- The offset `i` belongs to the closer at offset `p` that ends a block of type `ty`: the
two characters of the closer, a `+`/`-` marker right before it, and, when right trim applies,
the whitespace run right after it. -/
def closerConsumes (tpl : List Char) (setts : Settings) (ty : TextBlockType) (p i : Nat) :
    Prop :=
  i = p ∨ i = p + 1 ∨ (i + 1 = p ∧ markerAt tpl i) ∨
    (trimApplies tpl setts ty p ∧ p + 2 ≤ i ∧ i < afterWhitespaceRun tpl (p + 2))

instance (tpl : List Char) (setts : Settings) (ty : TextBlockType) (p i : Nat) :
    Decidable (closerConsumes tpl setts ty p i) := by
  unfold closerConsumes
  infer_instance

/-- The offset `i` belongs to the opener at offset `p`: the two characters of the opener, a
`+`/`-` marker right after it, and, when left strip applies, the run of non-newline
whitespace right before it. -/
def openerConsumes (tpl : List Char) (setts : Settings) (p i : Nat) : Prop :=
  i = p ∨ i = p + 1 ∨ (i = p + 2 ∧ i < tpl.length ∧ markerAt tpl i) ∨
    (stripApplies tpl setts p ∧ i < p ∧ ∀ j, i ≤ j → j < p → isBlank (charAt tpl j) = true)

instance (tpl : List Char) (setts : Settings) (p i : Nat) :
    Decidable (openerConsumes tpl setts p i) := by
  unfold openerConsumes
  infer_instance

/-- The offset `i` belongs to the delimiter the scanner consumes at the match `m` met in the
state `st`: an opener met in raw text, `{#` met in raw text, `#}` met in a comment, a closer
met in the block of its kind and not preceded by a single quote, a newline that ends a line
statement and is not the last character. Every other match is left in the current block. -/
def consumes (tpl : List Char) (setts : Settings) (st : ParserState) (m : RoughMatch)
    (i : Nat) : Prop :=
  match m.type with
  | .RM_ExprBegin =>
    st.m_currentBlockInfo.type = .RawText ∧ openerConsumes tpl setts m.position i
  | .RM_StmtBegin =>
    st.m_currentBlockInfo.type = .RawText ∧ openerConsumes tpl setts m.position i
  | .RM_CommentBegin =>
    st.m_currentBlockInfo.type = .RawText ∧ (i = m.position ∨ i = m.position + 1)
  | .RM_CommentEnd =>
    st.m_currentBlockInfo.type = .Comment ∧
      (i = m.position ∨ i = m.position + 1 ∨ (i + 1 = m.position ∧ markerAt tpl i))
  | .RM_ExprEnd =>
    st.m_currentBlockInfo.type = .Expression ∧ charAt tpl (m.position - 1) ≠ '\'' ∧
      closerConsumes tpl setts .Expression m.position i
  | .RM_StmtEnd =>
    st.m_currentBlockInfo.type = .Statement ∧ charAt tpl (m.position - 1) ≠ '\'' ∧
      closerConsumes tpl setts .Statement m.position i
  | .RM_NewLine =>
    st.m_currentBlockInfo.type = .LineStatement ∧ m.position + 1 < tpl.length ∧
      (i = m.position ∨ (i + 1 = m.position ∧ markerAt tpl i))

instance (tpl : List Char) (setts : Settings) (st : ParserState) (m : RoughMatch) (i : Nat) :
    Decidable (consumes tpl setts st m i) := by
  unfold consumes
  cases m.type <;> infer_instance

/-- The offset `i` is consumed by the scanner: it belongs to a delimiter consumed at one of
the matches, or it is a `+`/`-` marker that is the last character of a template with at least
one match that ends in an open block other than raw text. -/
def consumed (tpl : List Char) (setts : Settings) (i : Nat) : Prop :=
  (∃ q ∈ roughTrace tpl setts, consumes tpl setts q.1 q.2 i) ∨
    ((roughTokenizer tpl).isEmpty = false ∧
      (roughLoop tpl setts (roughStart tpl setts, []) (roughTokenizer tpl)).1.m_currentBlockInfo.type
        ≠ .RawText ∧
      i + 1 = tpl.length ∧ markerAt tpl i)

instance (tpl : List Char) (setts : Settings) (i : Nat) : Decidable (consumed tpl setts i) := by
  unfold consumed
  infer_instance

/-- The block `b` holds the offset `i`. -/
def holds (i : Nat) (b : TextBlockInfo) : Bool :=
  decide (b.range.startOffset ≤ i ∧ i < b.range.endOffset)

/-- The exact form of the invariant of the rough loop: besides `RoughInv`, every character
before the start of the current block lies in an emitted block or in the consumed set `C`,
no consumed character lies in an emitted block, the consumed characters precede the start of
the current block, and the emitted blocks end at or before the guard offset `G`, which is
not passed by the tokenizer or the start of the current block and is either 0 or preceded
by a character that is neither non-newline whitespace nor a `+`/`-` marker. -/
structure RoughExact (tpl : List Char) (st : ParserState) (p : Nat) (C : Nat → Prop)
    (G : Nat) : Prop where
  inv : RoughInv tpl st p
  cover : ∀ i, i < st.m_currentBlockInfo.range.startOffset → i < tpl.length →
    inBlocks st.m_textBlocks i ∨ C i
  apart : ∀ i, C i → ¬ inBlocks st.m_textBlocks i
  before : ∀ i, C i → i < st.m_currentBlockInfo.range.startOffset
  ends_le : ∀ b ∈ st.m_textBlocks, b.range.endOffset ≤ G
  guard_le_start : G ≤ st.m_currentBlockInfo.range.startOffset
  guard_le_pos : G ≤ p
  guard_edge : G = 0 ∨ (isBlank (charAt tpl (G - 1)) = false ∧ ¬ markerAt tpl (G - 1))

/-! ## Lemmas on the rough tokenizer -/

theorem delimiterOf_newline_left (d : Char) : delimiterOf '\n' d = none := by
  simp [delimiterOf]

theorem delimiterOf_some_ne_newline {c d : Char} {k : RoughMatchType}
    (h : delimiterOf c d = some k) : c ≠ '\n' ∧ d ≠ '\n' ∧ k ≠ .RM_NewLine := by
  unfold delimiterOf at h
  split_ifs at h with h1 h2 h3 h4 h5 h6 <;>
    (cases h; refine ⟨?_, ?_, by decide⟩ <;> (intro hc; simp_all))

theorem roughTokenizerFrom_newlines (i : Nat) (cs : List Char) :
    ((roughTokenizerFrom i cs).filter (fun m => m.type = .RM_NewLine)).map (·.position)
      = newlinePositionsFrom i cs := by
  induction i, cs using roughTokenizerFrom.induct with
  | case1 i => simp [roughTokenizerFrom, newlinePositionsFrom]
  | case2 i => simp [roughTokenizerFrom, newlinePositionsFrom]
  | case3 i c hc => simp [roughTokenizerFrom, newlinePositionsFrom, hc]
  | case4 i c d rest k hk ih =>
    obtain ⟨h1, h2, h3⟩ := delimiterOf_some_ne_newline hk
    simp [roughTokenizerFrom, newlinePositionsFrom, hk, h1, h2, h3, ih]
  | case5 i d rest hk ih =>
    rw [roughTokenizerFrom, hk]
    conv_rhs => rw [newlinePositionsFrom]
    simp [ih]
  | case6 i c d rest hk hc ih =>
    rw [roughTokenizerFrom, hk]
    conv_rhs => rw [newlinePositionsFrom]
    simp [ih, hc]

/-! ## The rough loop -/

theorem roughStep_fst (tpl : List Char) (setts : Settings)
    (acc : ParserState × List ParseError) (m : RoughMatch) :
    (roughStep tpl setts acc m).1 = (ParseRoughMatch tpl setts acc.1 m).1 := by
  simp only [roughStep]
  split <;> rfl

theorem roughLoop_cons (tpl : List Char) (setts : Settings)
    (acc : ParserState × List ParseError) (m : RoughMatch) (ms : List RoughMatch) :
    roughLoop tpl setts acc (m :: ms) = roughLoop tpl setts (roughStep tpl setts acc m) ms := by
  simp [roughLoop]

/-! ## The line table -/

theorem FinishCurrentBlock_lines (tpl : List Char) (setts : Settings) (st : ParserState)
    (p : Nat) :
    (FinishCurrentBlock tpl setts st p).2.m_lines = st.m_lines ∧
    (FinishCurrentBlock tpl setts st p).2.m_currentLineInfo = st.m_currentLineInfo := by
  simp [FinishCurrentBlock]

theorem StartControlBlock_lines (tpl : List Char) (setts : Settings) (st : ParserState)
    (ty : TextBlockType) (p : Nat) :
    (StartControlBlock tpl setts st ty p).m_lines = st.m_lines ∧
    (StartControlBlock tpl setts st ty p).m_currentLineInfo = st.m_currentLineInfo := by
  unfold StartControlBlock
  split_ifs <;> simp [FinishCurrentBlock]

theorem ParseRoughMatch_lines_newline (tpl : List Char) (setts : Settings) (st : ParserState)
    (m : RoughMatch) (hm : m.type = .RM_NewLine) :
    (ParseRoughMatch tpl setts st m).1.m_lines =
      st.m_lines ++ [⟨⟨(lineCursor st).1, m.position⟩, (lineCursor st).2⟩] ∧
    lineCursor (ParseRoughMatch tpl setts st m).1 =
      (m.position + 1, ((lineCursor st).2 + 1) % 2 ^ 32) := by
  unfold ParseRoughMatch
  simp only [hm]
  split_ifs <;>
    simp [FinishCurrentLine, FinishCurrentBlock, setBlockStart, setBlockType, lineCursor]

theorem ParseRoughMatch_lines_other (tpl : List Char) (setts : Settings) (st : ParserState)
    (m : RoughMatch) (hm : m.type ≠ .RM_NewLine) :
    (ParseRoughMatch tpl setts st m).1.m_lines = st.m_lines ∧
    lineCursor (ParseRoughMatch tpl setts st m).1 = lineCursor st := by
  unfold ParseRoughMatch
  cases hty : m.type with
  | RM_NewLine => exact absurd hty hm
  | RM_ExprBegin =>
    simp [lineCursor, StartControlBlock_lines]
  | RM_StmtBegin =>
    simp [lineCursor, StartControlBlock_lines]
  | RM_ExprEnd =>
    simp only []
    split_ifs <;> simp [FinishCurrentBlock, setBlockStart, setBlockType, lineCursor]
  | RM_StmtEnd =>
    simp only []
    split_ifs <;> simp [FinishCurrentBlock, setBlockStart, setBlockType, lineCursor]
  | RM_CommentBegin =>
    simp only []
    split_ifs <;> simp [FinishCurrentBlock, setBlockStart, setBlockType, lineCursor]
  | RM_CommentEnd =>
    simp only []
    split_ifs <;> simp [FinishCurrentBlock, setBlockStart, setBlockType, lineCursor]

theorem roughLoop_lines (tpl : List Char) (setts : Settings) (len : Nat) :
    ∀ (ms : List RoughMatch) (acc : ParserState × List ParseError),
      (roughLoop tpl setts acc ms).1.m_lines ++
        [⟨⟨(lineCursor (roughLoop tpl setts acc ms).1).1, len⟩,
          (lineCursor (roughLoop tpl setts acc ms).1).2⟩]
      = acc.1.m_lines ++ linesBetween len (lineCursor acc.1).1 (lineCursor acc.1).2
          ((ms.filter (fun m => m.type = .RM_NewLine)).map (·.position)) := by
  intro ms
  induction ms with
  | nil => intro acc; simp [roughLoop, linesBetween]
  | cons m ms ih =>
    intro acc
    have hstep : roughLoop tpl setts acc (m :: ms)
        = roughLoop tpl setts (roughStep tpl setts acc m) ms := by
      simp [roughLoop]
    have hfst : (roughStep tpl setts acc m).1 = (ParseRoughMatch tpl setts acc.1 m).1 := by
      exact roughStep_fst tpl setts acc m
    rw [hstep, ih, hfst]
    by_cases hm : m.type = .RM_NewLine
    · obtain ⟨h1, h2⟩ := ParseRoughMatch_lines_newline tpl setts acc.1 m hm
      rw [h1, h2]
      simp [hm, linesBetween]
    · obtain ⟨h1, h2⟩ := ParseRoughMatch_lines_other tpl setts acc.1 m hm
      rw [h1, h2]
      simp [hm]

theorem roughLines_eq (tpl : List Char) (setts : Settings) :
    roughLines tpl setts = linesBetween tpl.length 0 0 (newlinePositionsFrom 0 tpl) := by
  rw [← roughTokenizerFrom_newlines]
  unfold roughLines DoRoughParsing
  by_cases hempty : (roughTokenizer tpl).isEmpty = true
  · have : roughTokenizer tpl = [] := List.isEmpty_iff.mp hempty
    simp only [hempty, if_true]
    simp [roughTokenizer] at this
    simp [this, linesBetween, ParserState.init]
  · simp only [hempty]
    have h := roughLoop_lines tpl setts tpl.length (roughTokenizer tpl) (roughStart tpl setts, [])
    simp only [roughStart, ParserState.init, lineCursor, List.nil_append] at h
    simp only [roughTokenizer] at h ⊢
    rw [← h]
    simp [FinishCurrentBlock, FinishCurrentLine, lineCursor, roughStart, ParserState.init]

theorem drop_eq_cons {tpl : List Char} {i : Nat} {c : Char} {cs : List Char}
    (h : tpl.drop i = c :: cs) :
    charAt tpl i = c ∧ tpl.drop (i + 1) = cs ∧ i < tpl.length := by
  have hlt : i < tpl.length := by
    by_contra hge
    rw [List.drop_of_length_le (Nat.le_of_not_lt hge)] at h
    cases h
  refine ⟨?_, ?_, hlt⟩
  · have h0 : (tpl.drop i)[0]? = some c := by rw [h]; simp
    rw [List.getElem?_drop] at h0
    simp only [Nat.add_zero] at h0
    simp [charAt, List.getD, h0]
  · have : tpl.drop (i + 1) = (tpl.drop i).drop 1 := by
      rw [List.drop_drop]
    rw [this, h]
    rfl

theorem drop_eq_nil_le {tpl : List Char} {i : Nat} (h : tpl.drop i = []) : tpl.length ≤ i := by
  simpa using h

theorem linesBetween_length (len : Nat) : ∀ (ps : List Nat) (start num : Nat),
    (linesBetween len start num ps).length = ps.length + 1 := by
  intro ps
  induction ps with
  | nil => intro start num; simp [linesBetween]
  | cons p ps ih => intro start num; simp [linesBetween, ih]

theorem linesBetween_getElem? (len : Nat) : ∀ (ps : List Nat) (start num k : Nat),
    k ≤ ps.length →
    (linesBetween len start num ps)[k]? =
      some ⟨⟨if k = 0 then start else ps.getD (k - 1) 0 + 1,
             if k < ps.length then ps.getD k 0 else len⟩,
            if k = 0 then num else (num + k) % 2 ^ 32⟩ := by
  intro ps
  induction ps with
  | nil =>
    intro start num k hk
    have : k = 0 := by simpa using hk
    subst this
    simp [linesBetween]
  | cons p ps ih =>
    intro start num k hk
    cases k with
    | zero => simp [linesBetween]
    | succ k =>
      have hk2 : k ≤ ps.length := by simpa using hk
      simp only [linesBetween, List.getElem?_cons_succ]
      rw [ih (p + 1) ((num + 1) % 2 ^ 32) k hk2]
      cases k with
      | zero => simp
      | succ k =>
        simp
        omega

theorem newlinePositionsFrom_mem (tpl : List Char) (j : Nat) : ∀ (cs : List Char) (i : Nat),
    tpl.drop i = cs →
    (j ∈ newlinePositionsFrom i cs ↔ i ≤ j ∧ j < tpl.length ∧ charAt tpl j = '\n') := by
  intro cs
  induction cs with
  | nil =>
    intro i h
    have := drop_eq_nil_le h
    simp only [newlinePositionsFrom, List.not_mem_nil, false_iff]
    omega
  | cons c cs ih =>
    intro i h
    obtain ⟨hc, hd, hlt⟩ := drop_eq_cons h
    have ih' := ih (i + 1) hd
    by_cases hj : j = i
    · subst hj
      by_cases hn : c = '\n'
      · simp [newlinePositionsFrom, hn, hc ▸ hn, hlt]
      · have hne : ¬ charAt tpl j = '\n' := by rw [hc]; exact hn
        simp [newlinePositionsFrom, hn, ih', hne]
    · by_cases hn : c = '\n'
      · simp only [newlinePositionsFrom, hn, if_true, List.mem_cons, hj, false_or, ih']
        constructor
        · rintro ⟨h1, h2⟩; exact ⟨by omega, h2⟩
        · rintro ⟨h1, h2⟩; exact ⟨by omega, h2⟩
      · simp only [newlinePositionsFrom, hn, if_false, ih']
        constructor
        · rintro ⟨h1, h2⟩; exact ⟨by omega, h2⟩
        · rintro ⟨h1, h2⟩; exact ⟨by omega, h2⟩

theorem newlinePositionsFrom_sorted : ∀ (cs : List Char) (i : Nat),
    (newlinePositionsFrom i cs).Sorted (· < ·) ∧ ∀ j ∈ newlinePositionsFrom i cs, i ≤ j := by
  intro cs
  induction cs with
  | nil => intro i; simp [newlinePositionsFrom]
  | cons c cs ih =>
    intro i
    obtain ⟨h1, h2⟩ := ih (i + 1)
    by_cases hn : c = '\n'
    · simp only [newlinePositionsFrom, hn, if_true, List.sorted_cons, List.mem_cons]
      refine ⟨⟨fun b hb => ?_, h1⟩, ?_⟩
      · have := h2 b hb; omega
      · rintro j (rfl | hj)
        · exact le_rfl
        · have := h2 j hj; omega
    · simp only [newlinePositionsFrom, hn, if_false]
      exact ⟨h1, fun j hj => by have := h2 j hj; omega⟩

theorem newlinePositions_unique (tpl : List Char) (ps : List Nat)
    (hsorted : ps.Sorted (· < ·))
    (hps : ∀ i, i ∈ ps ↔ (i < tpl.length ∧ charAt tpl i = '\n')) :
    ps = newlinePositionsFrom 0 tpl := by
  have hs2 := (newlinePositionsFrom_sorted tpl 0).1
  apply List.eq_of_perm_of_sorted _ hsorted hs2
  rw [List.perm_ext_iff_of_nodup hsorted.nodup hs2.nodup]
  intro a
  rw [hps, newlinePositionsFrom_mem tpl a tpl 0 rfl]
  simp

theorem linesBetween_no_newline (tpl : List Char) : ∀ (cs : List Char) (i start num : Nat),
    tpl.drop i = cs → start ≤ i →
    (∀ j, start ≤ j → j < i → charAt tpl j ≠ '\n') →
    ∀ l ∈ linesBetween tpl.length start num (newlinePositionsFrom i cs),
      ∀ j, l.range.startOffset ≤ j → j < l.range.endOffset → charAt tpl j ≠ '\n' := by
  intro cs
  induction cs with
  | nil =>
    intro i start num h hsi hpre l hl j hj1 hj2
    have hlen := drop_eq_nil_le h
    simp only [newlinePositionsFrom, linesBetween, List.mem_singleton] at hl
    subst hl
    exact hpre j hj1 (by simp at hj2; omega)
  | cons c cs ih =>
    intro i start num h hsi hpre l hl j hj1 hj2
    obtain ⟨hc, hd, hlt⟩ := drop_eq_cons h
    by_cases hn : c = '\n'
    · simp only [newlinePositionsFrom, hn, if_true, linesBetween, List.mem_cons] at hl
      rcases hl with rfl | hl
      · exact hpre j hj1 (by simpa using hj2)
      · exact ih (i + 1) (i + 1) ((num + 1) % 2 ^ 32) hd le_rfl (fun j h1 h2 => by omega)
          l hl j hj1 hj2
    · simp only [newlinePositionsFrom, hn, if_false] at hl
      refine ih (i + 1) start num hd (by omega) (fun k h1 h2 => ?_) l hl j hj1 hj2
      by_cases hk : k = i
      · subst hk; rw [hc]; exact hn
      · exact hpre k h1 (by omega)

/-- The entries of the line table of rough parsing: entry `k` ranges from just after newline
`k - 1` (offset 0 for the first) to newline `k` (the template length for the last) and
carries the number `k` modulo `2^32`. -/
theorem roughLines_entry (tpl : List Char) (setts : Settings) (k : Nat)
    (hk : k ≤ (newlinePositionsFrom 0 tpl).length) :
    (roughLines tpl setts)[k]? =
      some ⟨⟨if k = 0 then 0 else (newlinePositionsFrom 0 tpl).getD (k - 1) 0 + 1,
             if k < (newlinePositionsFrom 0 tpl).length then (newlinePositionsFrom 0 tpl).getD k 0
             else tpl.length⟩, k % 2 ^ 32⟩ := by
  rw [roughLines_eq, linesBetween_getElem? _ _ _ _ _ hk]
  by_cases h0 : k = 0
  · simp [h0]
  · simp [h0]

theorem newlinePositionsFrom_replicate (n : Nat) : ∀ i : Nat,
    newlinePositionsFrom i (List.replicate n '\n') = List.range' i n := by
  induction n with
  | zero => intro i; rfl
  | succ n ih =>
    intro i
    rw [List.replicate_succ, newlinePositionsFrom, if_pos rfl, ih, List.range'_succ]

/-- The last entry of the line table of a template of `n` newlines, `n >= 1`: the empty line
after the last newline, numbered `n` modulo `2^32`. -/
theorem roughLines_newlines (n : Nat) (hn : 1 ≤ n) (setts : Settings) :
    (roughLines (List.replicate n '\n') setts).length = n + 1 ∧
    (roughLines (List.replicate n '\n') setts)[n]? = some ⟨⟨n, n⟩, n % 2 ^ 32⟩ := by
  have hps := newlinePositionsFrom_replicate n 0
  have hlen : (newlinePositionsFrom 0 (List.replicate n '\n')).length = n := by
    rw [hps, List.length_range']
  refine ⟨?_, ?_⟩
  · rw [roughLines_eq, linesBetween_length, hlen]
  · rw [roughLines_entry _ _ n (by omega), hlen, hps]
    have h0 : n ≠ 0 := by omega
    have hget : (List.range' 0 n).getD (n - 1) 0 = n - 1 := by
      rw [List.getD_eq_getElem?_getD]
      have hsome : (List.range' 0 n)[n - 1]? = some (0 + (n - 1)) := by
        rw [List.getElem?_eq_some_iff]
        refine ⟨by simp; omega, ?_⟩
        simp
      rw [hsome]
      simp
    simp only [h0, if_false, lt_irrefl, hget, List.length_replicate]
    congr 3
    omega

/-- C3 (amended): if the newlines of the template are at the offsets `ps` (strictly
increasing, all of them) and there are fewer than `2^32` of them, the line table of rough
parsing has `ps.length + 1` entries, entry `k` ranges from just after newline `k - 1` (offset 0
for the first) to newline `k` (the template length for the last) and carries number `k`, and
no line range contains a newline. Without the bound the same holds with the number `k`
modulo `2^32`. -/
theorem C3_line_table_partitions_amended (tpl : List Char) (setts : Settings) (ps : List Nat)
    (hsorted : ps.Sorted (· < ·))
    (hps : ∀ i, i ∈ ps ↔ (i < tpl.length ∧ charAt tpl i = '\n')) :
    (roughLines tpl setts).length = ps.length + 1 ∧
    (ps.length < 2 ^ 32 → ∀ k, k ≤ ps.length →
      (roughLines tpl setts)[k]? =
        some ⟨⟨if k = 0 then 0 else ps.getD (k - 1) 0 + 1,
               if k < ps.length then ps.getD k 0 else tpl.length⟩, k⟩) ∧
    (∀ k, k ≤ ps.length →
      (roughLines tpl setts)[k]? =
        some ⟨⟨if k = 0 then 0 else ps.getD (k - 1) 0 + 1,
               if k < ps.length then ps.getD k 0 else tpl.length⟩, k % 2 ^ 32⟩) ∧
    (∀ l ∈ roughLines tpl setts, ∀ j,
      l.range.startOffset ≤ j → j < l.range.endOffset → charAt tpl j ≠ '\n') := by
  have hps' := newlinePositions_unique tpl ps hsorted hps
  refine ⟨?_, fun hbound k hk => ?_, fun k hk => ?_, ?_⟩
  · rw [roughLines_eq, ← hps']
    exact linesBetween_length _ _ _ _
  · rw [hps'] at hk ⊢
    rw [roughLines_entry tpl setts k hk, Nat.mod_eq_of_lt (by rw [← hps'] at hk; omega)]
  · rw [hps'] at hk ⊢
    exact roughLines_entry tpl setts k hk
  · rw [roughLines_eq]
    exact linesBetween_no_newline tpl tpl 0 0 0 rfl le_rfl
      (fun j _ h => absurd h (Nat.not_lt_zero j))

/-- C3 (amended) at the template `a\nb`, whose only newline is at offset 1. -/
theorem C3_line_table_partitions_amended_witness :
    ([1] : List Nat).Sorted (· < ·) ∧
    (∀ i, i ∈ ([1] : List Nat) ↔ (i < ['a', '\n', 'b'].length ∧ charAt ['a', '\n', 'b'] i = '\n')) ∧
    (roughLines ['a', '\n', 'b'] Settings.off).length = 2 ∧
    (roughLines ['a', '\n', 'b'] Settings.off)[1]? = some ⟨⟨2, 3⟩, 1⟩ := by
  have hs : ([1] : List Nat).Sorted (· < ·) := by simp
  have hp : ∀ i, i ∈ ([1] : List Nat) ↔
      (i < ['a', '\n', 'b'].length ∧ charAt ['a', '\n', 'b'] i = '\n') := by
    intro i
    constructor
    · intro h
      have : i = 1 := by simpa using h
      subst this
      decide
    · rintro ⟨h1, h2⟩
      have h3 : i < 3 := h1
      interval_cases i
      · exact absurd h2 (by decide)
      · simp
      · exact absurd h2 (by decide)
  have h := C3_line_table_partitions_amended ['a', '\n', 'b'] Settings.off [1] hs hp
  exact ⟨hs, hp, h.1, by simpa using h.2.1 (by norm_num) 1 (by simp)⟩

/-- C3 as stated fails on the template of `2^32` newlines: the line table has `2^32 + 1`
entries and the last one, entry `2^32`, the empty line after the last newline, is stored
with the number 0, not `2^32`. -/
theorem C3_counterexample :
    (roughLines (List.replicate 4294967296 '\n') Settings.off).length = 4294967296 + 1 ∧
    (roughLines (List.replicate 4294967296 '\n') Settings.off)[4294967296]? =
      some ⟨⟨4294967296, 4294967296⟩, 0⟩ ∧
    (roughLines (List.replicate 4294967296 '\n') Settings.off)[4294967296]? ≠
      some ⟨⟨4294967296, 4294967296⟩, 4294967296⟩ := by
  have h := roughLines_newlines 4294967296 (by norm_num) Settings.off
  have hmod : 4294967296 % 2 ^ 32 = 0 := by norm_num
  rw [hmod] at h
  refine ⟨h.1, h.2, ?_⟩
  rw [h.2]
  intro hc
  have := congrArg LineInfo.lineNumber (Option.some.inj hc)
  exact absurd this (by norm_num)

/-! ## Errors of rough parsing -/

theorem ParseRoughMatch_error (tpl : List Char) (setts : Settings) (st : ParserState)
    (m : RoughMatch) :
    (ParseRoughMatch tpl setts st m).2 = expectedError st.m_currentBlockInfo.type m := by
  unfold ParseRoughMatch expectedError
  cases m.type <;> simp only [] <;> split_ifs <;>
    simp_all [MakeParseError, MakeToken]

theorem ParseRoughMatch_error_state (tpl : List Char) (setts : Settings) (st : ParserState)
    (m : RoughMatch) (e : ParseError)
    (h : expectedError st.m_currentBlockInfo.type m = some e) :
    (ParseRoughMatch tpl setts st m).1 = st ∧
    e.errorToken.range = ⟨m.position, m.position + 2⟩ := by
  unfold expectedError at h
  unfold ParseRoughMatch
  cases hty : m.type <;> simp only [hty] at h ⊢
  all_goals first
    | cases h
    | (split_ifs at h with hc
       all_goals first
         | (cases h; done)
         | (cases h; simp_all))

theorem roughLoop_errors (tpl : List Char) (setts : Settings) :
    ∀ (ms : List RoughMatch) (acc : ParserState × List ParseError),
      (roughLoop tpl setts acc ms).2 = acc.2 ++
        (roughTraceFrom tpl setts acc.1 ms).filterMap
          (fun p => expectedError p.1.m_currentBlockInfo.type p.2) := by
  intro ms
  induction ms with
  | nil => intro acc; simp [roughLoop, roughTraceFrom]
  | cons m ms ih =>
    intro acc
    rw [roughLoop_cons, ih, roughStep_fst]
    have hsnd : (roughStep tpl setts acc m).2 =
        acc.2 ++ (expectedError acc.1.m_currentBlockInfo.type m).toList := by
      rw [← ParseRoughMatch_error tpl setts acc.1 m]
      simp only [roughStep]
      split <;> rename_i h <;> simp [h]
    rw [hsnd]
    simp only [roughTraceFrom, List.filterMap_cons]
    cases expectedError acc.1.m_currentBlockInfo.type m <;> simp

theorem roughTraceFrom_matches (tpl : List Char) (setts : Settings) :
    ∀ (ms : List RoughMatch) (st : ParserState),
      (roughTraceFrom tpl setts st ms).map Prod.snd = ms := by
  intro ms
  induction ms with
  | nil => intro st; rfl
  | cons m ms ih => intro st; simp [roughTraceFrom, ih]

theorem DoRoughParsing_errors_eq (tpl : List Char) (setts : Settings) :
    (DoRoughParsing tpl setts).2 =
      (roughTrace tpl setts).filterMap
        (fun p => expectedError p.1.m_currentBlockInfo.type p.2) := by
  unfold DoRoughParsing
  by_cases hempty : (roughTokenizer tpl).isEmpty = true
  · have h0 : roughTokenizer tpl = [] := List.isEmpty_iff.mp hempty
    simp [hempty, roughTrace, h0, roughTraceFrom]
  · simp only [hempty]
    have h := roughLoop_errors tpl setts (roughTokenizer tpl) (roughStart tpl setts, [])
    simpa [roughTrace] using h

theorem expectedError_token {ty : TextBlockType} {m : RoughMatch} {e : ParseError}
    (h : expectedError ty m = some e) :
    e.errorToken.type ∈ [TokenType.ExprEnd, .StmtEnd, .CommentBegin, .CommentEnd] := by
  unfold expectedError at h
  cases hty : m.type <;> simp only [hty] at h
  all_goals first
    | cases h
    | (split_ifs at h
       all_goals (cases h; try simp))

theorem DoRoughParsing_error_tokens (tpl : List Char) (setts : Settings) :
    ∀ err ∈ (DoRoughParsing tpl setts).2,
      err.errorToken.type ∈ [TokenType.ExprEnd, .StmtEnd, .CommentBegin, .CommentEnd] := by
  intro err herr
  rw [DoRoughParsing_errors_eq, List.mem_filterMap] at herr
  obtain ⟨p, _, hp⟩ := herr
  exact expectedError_token hp

/-- C7: rough parsing goes through every match of the tokenizer and returns, in template
order, exactly the errors prescribed for `}}` and `%}` in raw text, `{#` outside raw text and
`#}` outside a comment; each error token is `[pos, pos + 2)` and the offending match leaves the
parser members unchanged. -/
theorem C7_rough_errors_collected (tpl : List Char) (setts : Settings) :
    (roughTrace tpl setts).map Prod.snd = roughTokenizer tpl ∧
    (DoRoughParsing tpl setts).2 =
      (roughTrace tpl setts).filterMap
        (fun p => expectedError p.1.m_currentBlockInfo.type p.2) ∧
    (∀ p ∈ roughTrace tpl setts, ∀ e,
      expectedError p.1.m_currentBlockInfo.type p.2 = some e →
        (ParseRoughMatch tpl setts p.1 p.2).1 = p.1 ∧
        e.errorToken.range = ⟨p.2.position, p.2.position + 2⟩) := by
  refine ⟨roughTraceFrom_matches tpl setts _ _, DoRoughParsing_errors_eq tpl setts, ?_⟩
  · intro p _ e he
    exact ParseRoughMatch_error_state tpl setts p.1 p.2 e he

/-! ## Whitespace control -/

theorem charAt_of_lt {tpl : List Char} {p : Nat} (hp : p < tpl.length) :
    tpl.drop p = charAt tpl p :: tpl.drop (p + 1) := by
  have h := List.drop_eq_getElem_cons hp
  rw [h]
  congr 1
  simp [charAt, List.getD, List.getElem?_eq_getElem hp]

theorem afterWhitespaceRun_of_le {tpl : List Char} {p : Nat} (hp : tpl.length ≤ p) :
    afterWhitespaceRun tpl p = p := by
  simp [afterWhitespaceRun, List.drop_of_length_le hp]

theorem afterWhitespaceRun_step {tpl : List Char} {p : Nat} (hp : p < tpl.length) :
    afterWhitespaceRun tpl p =
      if charAt tpl p = '\n' then p + 1
      else if !isspace (charAt tpl p) then p
      else afterWhitespaceRun tpl (p + 1) := by
  have hd := charAt_of_lt hp
  by_cases h1 : charAt tpl p = '\n'
  · simp [afterWhitespaceRun, hd, isBlank, h1]
  · by_cases h2 : isspace (charAt tpl p) = true
    · have hb : isBlank (charAt tpl p) = true := by simp [isBlank, h1, h2]
      simp only [h1, h2, if_false, Bool.not_true, Bool.false_eq_true]
      simp only [afterWhitespaceRun, hd, List.takeWhile_cons, hb, if_true, List.length_cons]
      have e1 : p + ((List.takeWhile isBlank (List.drop (p + 1) tpl)).length + 1)
          = p + 1 + (List.takeWhile isBlank (List.drop (p + 1) tpl)).length := by omega
      rw [e1]
    · have hb : isBlank (charAt tpl p) = false := by simp [isBlank, h2]
      simp [afterWhitespaceRun, hd, hb, h1, h2]

theorem trimLoop_eq (tpl : List Char) : ∀ (fuel p : Nat), tpl.length - p ≤ fuel →
    trimLoop tpl fuel p = afterWhitespaceRun tpl p := by
  intro fuel
  induction fuel with
  | zero =>
    intro p h
    rw [afterWhitespaceRun_of_le (by omega)]
    rfl
  | succ fuel ih =>
    intro p h
    by_cases hp : p < tpl.length
    · rw [afterWhitespaceRun_step hp, trimLoop]
      simp only [hp, if_true]
      rw [ih (p + 1) (by omega)]
    · rw [afterWhitespaceRun_of_le (by omega), trimLoop]
      simp [hp]

theorem ParseRoughMatch_closer (tpl : List Char) (setts : Settings) (st : ParserState)
    (m : RoughMatch) (hc : closesBlock st m)
    (hq : charAt tpl (m.position - 1) ≠ '\'') :
    ParseRoughMatch tpl setts st m =
      (setBlockStart (FinishCurrentBlock tpl setts st m.position).2
        (FinishCurrentBlock tpl setts st m.position).1, none) := by
  rcases hc with ⟨h1, h2⟩ | ⟨h1, h2⟩ <;>
    simp [ParseRoughMatch, h1, h2, hq]

/-- C10 (amended): when a closer that is not preceded by a single quote closes the open
Expression or Statement block, the following RawText block starts after the whitespace run
that follows the closer (its first newline included) if the closer is preceded by `-`, or if
`trimBlocks` is on, the block is a Statement and the closer is not preceded by `+`;
otherwise it starts right after the two closer characters. -/
theorem C10_right_trim_amended (tpl : List Char) (setts : Settings) (st : ParserState)
    (m : RoughMatch) (hc : closesBlock st m) (hpos : 0 < m.position)
    (hq : charAt tpl (m.position - 1) ≠ '\'') :
    (ParseRoughMatch tpl setts st m).1.m_currentBlockInfo.type = .RawText ∧
    (ParseRoughMatch tpl setts st m).1.m_currentBlockInfo.range.startOffset =
      if charAt tpl (m.position - 1) = '-' ∨
          (setts.trimBlocks = true ∧ st.m_currentBlockInfo.type = .Statement ∧
            charAt tpl (m.position - 1) ≠ '+')
      then afterWhitespaceRun tpl (m.position + 2)
      else m.position + 2 := by
  rw [ParseRoughMatch_closer tpl setts st m hc hq]
  have hne : st.m_currentBlockInfo.type ≠ .RawText := by
    rcases hc with ⟨h1, _⟩ | ⟨h1, _⟩ <;> simp [h1]
  have hp0 : m.position ≠ 0 := by omega
  refine ⟨by simp [setBlockStart, FinishCurrentBlock], ?_⟩
  simp only [setBlockStart, FinishCurrentBlock]
  by_cases hminus : charAt tpl (m.position - 1) = '-'
  · simp [hminus, hne, hp0, trimLoop_eq]
  · by_cases hplus : charAt tpl (m.position - 1) = '+'
    · simp [hplus, hne, hp0]
    · by_cases ht : setts.trimBlocks = true
      · by_cases hs : st.m_currentBlockInfo.type = .Statement
        · simp [hminus, hplus, hne, hp0, ht, hs, trimLoop_eq]
        · simp [hminus, hplus, hne, hp0, ht, hs]
      · simp [hminus, hplus, hne, hp0, ht]

/-- C10 (amended) at the closer of `{% x %} \nabc` with `trimBlocks` on: the raw text
starts at offset 9, after the blank and the newline. -/
theorem C10_right_trim_amended_witness :
    closesBlock
      { m_lines := [], m_textBlocks := [⟨⟨0, 0⟩, .RawText⟩],
        m_currentLineInfo := ⟨⟨0, 0⟩, 0⟩, m_currentBlockInfo := ⟨⟨2, 0⟩, .Statement⟩ }
      ⟨.RM_StmtEnd, 5⟩ ∧
    charAt ("\x7b% x %\x7d \nabc".toList) 4 ≠ '\'' ∧
    (ParseRoughMatch ("\x7b% x %\x7d \nabc".toList) ⟨false, true, false⟩
      { m_lines := [], m_textBlocks := [⟨⟨0, 0⟩, .RawText⟩],
        m_currentLineInfo := ⟨⟨0, 0⟩, 0⟩, m_currentBlockInfo := ⟨⟨2, 0⟩, .Statement⟩ }
      ⟨.RM_StmtEnd, 5⟩).1.m_currentBlockInfo.range.startOffset = 9 :=
  ⟨Or.inr ⟨rfl, rfl⟩, by decide,
    (C10_right_trim_amended ("\x7b% x %\x7d \nabc".toList) ⟨false, true, false⟩
      { m_lines := [], m_textBlocks := [⟨⟨0, 0⟩, .RawText⟩],
        m_currentLineInfo := ⟨⟨0, 0⟩, 0⟩, m_currentBlockInfo := ⟨⟨2, 0⟩, .Statement⟩ }
      ⟨.RM_StmtEnd, 5⟩ (Or.inr ⟨rfl, rfl⟩) (by decide) (by decide)).2.trans (by decide)⟩

/-- C10 as stated fails for an Expression block: in `{{ x }} \nabc` with `trimBlocks` on the
closer at offset 5 is not preceded by `+`, the whitespace run after it ends at offset 9, yet
the following RawText block starts at offset 7. -/
theorem C10_counterexample :
    roughTokenizer ("\x7b\x7b x \x7d\x7d \nabc".toList) =
      [⟨.RM_ExprBegin, 0⟩, ⟨.RM_ExprEnd, 5⟩, ⟨.RM_NewLine, 8⟩] ∧
    charAt ("\x7b\x7b x \x7d\x7d \nabc".toList) 4 ≠ '+' ∧
    afterWhitespaceRun ("\x7b\x7b x \x7d\x7d \nabc".toList) 7 = 9 ∧
    roughBlocks ("\x7b\x7b x \x7d\x7d \nabc".toList) ⟨false, true, false⟩ =
      [⟨⟨0, 0⟩, .RawText⟩, ⟨⟨2, 5⟩, .Expression⟩, ⟨⟨7, 12⟩, .RawText⟩] := by
  decide

/-! ## The quote guard -/

/-- C6 (amended): a matching closer that is immediately preceded by a single quote leaves the
parser members untouched and reports nothing; every other matching closer closes the open
block, whose range then ends at the closer (one character earlier when a `+`/`-` marker
precedes it) whether or not the closer lies inside a string literal. -/
theorem C6_quote_guard_amended (tpl : List Char) (setts : Settings) (st : ParserState)
    (m : RoughMatch) (hc : closesBlock st m) (hpos : 0 < m.position) :
    (charAt tpl (m.position - 1) = '\'' → ParseRoughMatch tpl setts st m = (st, none)) ∧
    (charAt tpl (m.position - 1) ≠ '\'' →
      (ParseRoughMatch tpl setts st m).2 = none ∧
      (ParseRoughMatch tpl setts st m).1.m_textBlocks = st.m_textBlocks ++
        [⟨⟨st.m_currentBlockInfo.range.startOffset,
           if charAt tpl (m.position - 1) = '+' ∨ charAt tpl (m.position - 1) = '-'
           then m.position - 1 else m.position⟩, st.m_currentBlockInfo.type⟩]) := by
  have hne : st.m_currentBlockInfo.type ≠ .RawText := by
    rcases hc with ⟨h1, _⟩ | ⟨h1, _⟩ <;> simp [h1]
  have hp0 : m.position ≠ 0 := by omega
  constructor
  · intro hq
    rcases hc with ⟨h1, h2⟩ | ⟨h1, h2⟩ <;> simp [ParseRoughMatch, h1, h2, hq]
  · intro hq
    rw [ParseRoughMatch_closer tpl setts st m hc hq]
    refine ⟨rfl, ?_⟩
    simp only [setBlockStart, FinishCurrentBlock]
    by_cases hm : charAt tpl (m.position - 1) = '+' ∨ charAt tpl (m.position - 1) = '-'
    · simp [hm, hne, hp0]
    · simp [hm, hne, hp0]

/-- C6 (amended) in `{{ '}}' }}`: the closer at offset 4 follows a quote and changes nothing. -/
theorem C6_quote_guard_amended_witness :
    closesBlock
      { m_lines := [], m_textBlocks := [⟨⟨0, 0⟩, .RawText⟩],
        m_currentLineInfo := ⟨⟨0, 0⟩, 0⟩, m_currentBlockInfo := ⟨⟨2, 0⟩, .Expression⟩ }
      ⟨.RM_ExprEnd, 4⟩ ∧
    ParseRoughMatch ("\x7b\x7b '\x7d\x7d' \x7d\x7d".toList) Settings.off
      { m_lines := [], m_textBlocks := [⟨⟨0, 0⟩, .RawText⟩],
        m_currentLineInfo := ⟨⟨0, 0⟩, 0⟩, m_currentBlockInfo := ⟨⟨2, 0⟩, .Expression⟩ }
      ⟨.RM_ExprEnd, 4⟩ =
    ({ m_lines := [], m_textBlocks := [⟨⟨0, 0⟩, .RawText⟩],
       m_currentLineInfo := ⟨⟨0, 0⟩, 0⟩, m_currentBlockInfo := ⟨⟨2, 0⟩, .Expression⟩ }, none) :=
  ⟨Or.inl ⟨rfl, rfl⟩,
    (C6_quote_guard_amended ("\x7b\x7b '\x7d\x7d' \x7d\x7d".toList) Settings.off
      { m_lines := [], m_textBlocks := [⟨⟨0, 0⟩, .RawText⟩],
        m_currentLineInfo := ⟨⟨0, 0⟩, 0⟩, m_currentBlockInfo := ⟨⟨2, 0⟩, .Expression⟩ }
      ⟨.RM_ExprEnd, 4⟩ (Or.inl ⟨rfl, rfl⟩) (by decide)).1 (by decide)⟩

/-- C6 as stated fails in `{{ 'a}}' }}`: the `}}` at offset 5 lies inside the single-quoted
literal that opens at offset 3, yet it closes the Expression block, which is emitted as
`[2, 5)`; the closer outside the literal, at offset 9, is then reported as an error. -/
theorem C6_counterexample :
    roughTokenizer ("\x7b\x7b 'a\x7d\x7d' \x7d\x7d".toList) =
      [⟨.RM_ExprBegin, 0⟩, ⟨.RM_ExprEnd, 5⟩, ⟨.RM_ExprEnd, 9⟩] ∧
    insideSingleQuotes ("\x7b\x7b 'a\x7d\x7d' \x7d\x7d".toList) 2 5 = true ∧
    insideSingleQuotes ("\x7b\x7b 'a\x7d\x7d' \x7d\x7d".toList) 2 9 = false ∧
    roughBlocks ("\x7b\x7b 'a\x7d\x7d' \x7d\x7d".toList) Settings.off =
      [⟨⟨0, 0⟩, .RawText⟩, ⟨⟨2, 5⟩, .Expression⟩, ⟨⟨7, 11⟩, .RawText⟩] ∧
    (DoRoughParsing ("\x7b\x7b 'a\x7d\x7d' \x7d\x7d".toList) Settings.off).2 =
      [⟨.UnexpectedExprEnd, ⟨.ExprEnd, ⟨9, 11⟩⟩, []⟩] := by
  decide

/-! ## Defects of the scanner -/

/-- C2: rough parsing of `{{-}}` (all settings off, no error reported) emits the Expression
block `[3, 2)`, whose start lies after its end; rough parsing of `{% x -%} {%- y %}` emits the
RawText block `[9, 8)` in the same way. -/
theorem C2_inverted_block :
    ((DoRoughParsing ("\x7b\x7b-\x7d\x7d".toList) Settings.off).2 = [] ∧
      roughBlocks ("\x7b\x7b-\x7d\x7d".toList) Settings.off =
        [⟨⟨0, 0⟩, .RawText⟩, ⟨⟨3, 2⟩, .Expression⟩, ⟨⟨5, 5⟩, .RawText⟩]) ∧
    ((DoRoughParsing ("\x7b% x -%\x7d \x7b%- y %\x7d".toList) Settings.off).2 = [] ∧
      roughBlocks ("\x7b% x -%\x7d \x7b%- y %\x7d".toList) Settings.off =
        [⟨⟨0, 0⟩, .RawText⟩, ⟨⟨2, 5⟩, .Statement⟩, ⟨⟨9, 8⟩, .RawText⟩,
         ⟨⟨12, 15⟩, .Statement⟩, ⟨⟨17, 17⟩, .RawText⟩]) := by
  decide

/-- C4: the template `#Hello` has no delimiter and no newline and is parsed with
`useLineStatements` off, yet rough parsing emits it as one LineStatement block, and fine
parsing hands its text from offset 1 to the statement parser instead of emitting raw text. -/
theorem C4_hash_template_is_line_statement :
    noDelimiter ("#Hello".toList) = true ∧
    roughBlocks ("#Hello".toList) Settings.off = [⟨⟨0, 6⟩, .LineStatement⟩] ∧
    ∀ c : Collaborators,
      (DoFineParsing c ("#Hello".toList) (roughBlocks ("#Hello".toList) Settings.off)).frames =
        (InvokeStatementsParser c ("#Hello".toList) ⟨⟨1, 6⟩, .LineStatement⟩ fineStart.frames).1 := by
  refine ⟨by decide, by decide, fun c => ?_⟩
  have hb : roughBlocks ("#Hello".toList) Settings.off = [⟨⟨0, 6⟩, .LineStatement⟩] := by decide
  rw [hb]
  simp only [DoFineParsing, List.foldl, fineStep, fineBlock, if_true]
  split <;> rfl

/-! ## Scanning a text without delimiters -/

theorem noDelimiter_cons_cons {c d : Char} {rest : List Char}
    (h : noDelimiter (c :: d :: rest) = true) :
    delimiterOf c d = none ∧ noDelimiter (d :: rest) = true := by
  simpa [noDelimiter] using h

theorem roughTokenizerFrom_noDelimiter : ∀ (e : List Char) (i : Nat),
    noDelimiter e = true →
    roughTokenizerFrom i e = (newlinePositionsFrom i e).map (fun q => ⟨.RM_NewLine, q⟩) := by
  intro e
  induction e with
  | nil => intro i _; simp [roughTokenizerFrom, newlinePositionsFrom]
  | cons c e ih =>
    intro i h
    cases e with
    | nil =>
      by_cases hc : c = '\n' <;> simp [roughTokenizerFrom, newlinePositionsFrom, hc]
    | cons d e =>
      obtain ⟨h1, h2⟩ := noDelimiter_cons_cons h
      rw [roughTokenizerFrom, h1]
      conv_rhs => rw [newlinePositionsFrom]
      by_cases hc : c = '\n' <;> simp [hc, ih (i + 1) h2]

theorem roughTokenizerFrom_append_closer (c1 c2 : Char) (k : RoughMatchType)
    (rest : List Char) (hk : delimiterOf c1 c2 = some k) : ∀ (e : List Char) (i : Nat),
    noDelimiter (e ++ [c1]) = true →
    roughTokenizerFrom i (e ++ c1 :: c2 :: rest) =
      (newlinePositionsFrom i e).map (fun q => ⟨.RM_NewLine, q⟩) ++
        ⟨k, i + e.length⟩ :: roughTokenizerFrom (i + e.length + 2) rest := by
  intro e
  induction e with
  | nil => intro i _; simp [roughTokenizerFrom, newlinePositionsFrom, hk]
  | cons c e ih =>
    intro i h
    have hstep : ∀ d tl, delimiterOf c d = none →
        roughTokenizerFrom i (c :: d :: tl) =
          (if c = '\n' then [⟨.RM_NewLine, i⟩] else []) ++ roughTokenizerFrom (i + 1) (d :: tl) := by
      intro d tl hd
      rw [roughTokenizerFrom, hd]
      by_cases hc : c = '\n' <;> simp [hc]
    have hnl : newlinePositionsFrom i (c :: e) =
        (if c = '\n' then [i] else []) ++ newlinePositionsFrom (i + 1) e := by
      rw [newlinePositionsFrom]
      by_cases hc : c = '\n' <;> simp [hc]
    have hlen : i + (c :: e).length = i + 1 + e.length := by simp; omega
    cases e with
    | nil =>
      have h1 : delimiterOf c c1 = none := (noDelimiter_cons_cons h).1
      have := ih (i + 1) (by simp [noDelimiter])
      simp only [List.nil_append] at this
      simp only [List.cons_append, List.nil_append]
      rw [hstep c1 _ h1, this, hnl, hlen]
      by_cases hc : c = '\n' <;> simp [hc]
    | cons d e =>
      obtain ⟨h1, h2⟩ := noDelimiter_cons_cons h
      have := ih (i + 1) h2
      simp only [List.cons_append] at this ⊢
      rw [hstep d _ h1, this, hnl, hlen]
      by_cases hc : c = '\n' <;> simp [hc]

/-! ## Newlines inside a control block -/

theorem ParseRoughMatch_newline_control (tpl : List Char) (setts : Settings)
    (st : ParserState) (q : Nat)
    (h1 : st.m_currentBlockInfo.type ≠ .RawText)
    (h2 : st.m_currentBlockInfo.type ≠ .LineStatement) :
    (ParseRoughMatch tpl setts st ⟨.RM_NewLine, q⟩).1.m_textBlocks = st.m_textBlocks ∧
    (ParseRoughMatch tpl setts st ⟨.RM_NewLine, q⟩).1.m_currentBlockInfo = st.m_currentBlockInfo ∧
    (ParseRoughMatch tpl setts st ⟨.RM_NewLine, q⟩).2 = none := by
  simp [ParseRoughMatch, FinishCurrentLine, h1, h2]

theorem roughLoop_newlines_control (tpl : List Char) (setts : Settings) :
    ∀ (qs : List Nat) (acc : ParserState × List ParseError),
      acc.1.m_currentBlockInfo.type ≠ .RawText →
      acc.1.m_currentBlockInfo.type ≠ .LineStatement →
      (roughLoop tpl setts acc (qs.map (fun q => ⟨.RM_NewLine, q⟩))).1.m_textBlocks
        = acc.1.m_textBlocks ∧
      (roughLoop tpl setts acc (qs.map (fun q => ⟨.RM_NewLine, q⟩))).1.m_currentBlockInfo
        = acc.1.m_currentBlockInfo ∧
      (roughLoop tpl setts acc (qs.map (fun q => ⟨.RM_NewLine, q⟩))).2 = acc.2 := by
  intro qs
  induction qs with
  | nil => intro acc _ _; simp [roughLoop]
  | cons q qs ih =>
    intro acc h1 h2
    obtain ⟨a, b, c⟩ := ParseRoughMatch_newline_control tpl setts acc.1 q h1 h2
    have hfst := roughStep_fst tpl setts acc ⟨.RM_NewLine, q⟩
    have hsnd : (roughStep tpl setts acc ⟨.RM_NewLine, q⟩).2 = acc.2 := by
      simp only [roughStep]
      rw [c]
    simp only [List.map_cons, roughLoop_cons]
    obtain ⟨x, y, z⟩ := ih (roughStep tpl setts acc ⟨.RM_NewLine, q⟩)
      (by rw [hfst, b]; exact h1) (by rw [hfst, b]; exact h2)
    rw [x, y, z, hfst, a, b, hsnd]
    exact ⟨rfl, rfl, rfl⟩

theorem roughLoop_append (tpl : List Char) (setts : Settings)
    (acc : ParserState × List ParseError) (ms ns : List RoughMatch) :
    roughLoop tpl setts acc (ms ++ ns) = roughLoop tpl setts (roughLoop tpl setts acc ms) ns := by
  simp [roughLoop, List.foldl_append]

theorem charAt_append_right (a b : List Char) (j : Nat) :
    charAt (a ++ b) (a.length + j) = charAt b j := by
  simp [charAt, List.getD_eq_getElem?_getD, List.getElem?_append_right]

/-! ## A closed control block -/

theorem FinishCurrentBlock_snd (tpl : List Char) (setts : Settings) (st : ParserState)
    (p : Nat) :
    (FinishCurrentBlock tpl setts st p).2 =
      { st with
        m_textBlocks := st.m_textBlocks ++
          [⟨⟨st.m_currentBlockInfo.range.startOffset, blockEnd tpl st.m_currentBlockInfo.type p⟩,
            st.m_currentBlockInfo.type⟩]
        m_currentBlockInfo :=
          ⟨⟨st.m_currentBlockInfo.range.startOffset, blockEnd tpl st.m_currentBlockInfo.type p⟩,
            .RawText⟩ } := by
  simp only [FinishCurrentBlock, blockEnd]
  by_cases h1 : st.m_currentBlockInfo.type = .RawText
  · simp [h1]
  · by_cases h2 : p = 0
    · simp [h1, h2]
    · by_cases h3 : charAt tpl (p - 1) = '+'
      · simp [h1, h2, h3]
      · by_cases h4 : charAt tpl (p - 1) = '-'
        · simp [h1, h2, h4]
        · simp [h1, h2, h3, h4]

theorem StartControlBlock_at_zero (tpl : List Char) (setts : Settings) (st : ParserState)
    (ty : TextBlockType) (hcur : st.m_currentBlockInfo = ⟨⟨0, 0⟩, .RawText⟩)
    (hp : charAt tpl 2 ≠ '+') (hm : charAt tpl 2 ≠ '-') :
    (StartControlBlock tpl setts st ty 0).m_textBlocks =
      st.m_textBlocks ++ [⟨⟨0, 0⟩, .RawText⟩] ∧
    (StartControlBlock tpl setts st ty 0).m_currentBlockInfo = ⟨⟨2, 0⟩, ty⟩ := by
  simp [StartControlBlock, StripBlockLeft, FinishCurrentBlock_snd, hcur, hp, hm, stripLoop,
    blockEnd]

theorem FinishCurrentBlock_fst_untrimmed (tpl : List Char) (setts : Settings)
    (st : ParserState) (p : Nat) (ht : setts.trimBlocks = false)
    (hm : charAt tpl (p - 1) ≠ '-') :
    (FinishCurrentBlock tpl setts st p).1 = p + 2 := by
  simp [FinishCurrentBlock, ht, hm]

theorem roughStart_off (tpl : List Char) :
    roughStart tpl Settings.off = ParserState.init := by
  simp [roughStart, Settings.off, ParserState.init]

theorem closed_block_parse (o2 c1 c2 : Char) (kO kC : RoughMatchType) (ty : TextBlockType)
    (e : List Char)
    (hO : delimiterOf '{' o2 = some kO) (hC : delimiterOf c1 c2 = some kC)
    (hkind : (kO = .RM_ExprBegin ∧ ty = .Expression ∧ kC = .RM_ExprEnd) ∨
      (kO = .RM_StmtBegin ∧ ty = .Statement ∧ kC = .RM_StmtEnd))
    (ho2 : o2 ≠ '+' ∧ o2 ≠ '-' ∧ o2 ≠ '\'') (hc1 : c1 ≠ '+' ∧ c1 ≠ '-')
    (hnd : noDelimiter (e ++ [c1]) = true)
    (hbegin : e.head? ≠ some '+' ∧ e.head? ≠ some '-')
    (hend : e.getLast? ≠ some '+' ∧ e.getLast? ≠ some '-' ∧ e.getLast? ≠ some '\'') :
    (DoRoughParsing ('{' :: o2 :: (e ++ [c1, c2])) Settings.off).2 = [] ∧
    roughBlocks ('{' :: o2 :: (e ++ [c1, c2])) Settings.off =
      [⟨⟨0, 0⟩, .RawText⟩, ⟨⟨2, 2 + e.length⟩, ty⟩,
       ⟨⟨e.length + 4, e.length + 4⟩, .RawText⟩] := by
  have htok : roughTokenizer ('{' :: o2 :: (e ++ [c1, c2])) =
      ⟨kO, 0⟩ :: ((newlinePositionsFrom 2 e).map (fun q => ⟨.RM_NewLine, q⟩) ++
        [⟨kC, 2 + e.length⟩]) := by
    simp only [roughTokenizer]
    rw [roughTokenizerFrom, hO]
    have := roughTokenizerFrom_append_closer c1 c2 kC [] hC e 2 hnd
    simpa [roughTokenizerFrom] using this
  have hlen : ('{' :: o2 :: (e ++ [c1, c2])).length = e.length + 4 := by simp
  have h2 : charAt ('{' :: o2 :: (e ++ [c1, c2])) 2 ≠ '+' ∧
      charAt ('{' :: o2 :: (e ++ [c1, c2])) 2 ≠ '-' := by
    cases e with
    | nil => simpa [charAt] using hc1
    | cons c e => simpa [charAt] using hbegin
  have hlast : charAt ('{' :: o2 :: (e ++ [c1, c2])) (2 + e.length - 1) ≠ '+' ∧
      charAt ('{' :: o2 :: (e ++ [c1, c2])) (2 + e.length - 1) ≠ '-' ∧
      charAt ('{' :: o2 :: (e ++ [c1, c2])) (2 + e.length - 1) ≠ '\'' := by
    rcases List.eq_nil_or_concat e with rfl | ⟨e', c, rfl⟩
    · simpa [charAt] using ho2
    · simp only [List.concat_eq_append] at hend ⊢
      have hidx : 2 + (e' ++ [c]).length - 1 = ('{' :: o2 :: e').length + 0 := by simp; omega
      have hlist : '{' :: o2 :: (e' ++ [c] ++ [c1, c2]) = ('{' :: o2 :: e') ++ (c :: [c1, c2]) := by
        simp
      rw [hidx, hlist, charAt_append_right]
      simpa [charAt] using hend
  generalize hT : '{' :: o2 :: (e ++ [c1, c2]) = T at htok hlen h2 hlast ⊢
  have hne : (roughTokenizer T).isEmpty = false := by rw [htok]; rfl
  -- the opener
  have hopen : ParseRoughMatch T Settings.off ParserState.init ⟨kO, 0⟩ =
      (StartControlBlock T Settings.off ParserState.init ty 0, none) := by
    rcases hkind with ⟨rfl, rfl, _⟩ | ⟨rfl, rfl, _⟩ <;> rfl
  obtain ⟨hb1, hc1'⟩ := StartControlBlock_at_zero T Settings.off ParserState.init ty rfl h2.1 h2.2
  have hty1 : ty ≠ .RawText ∧ ty ≠ .LineStatement := by
    rcases hkind with ⟨_, rfl, _⟩ | ⟨_, rfl, _⟩ <;> exact ⟨by decide, by decide⟩
  have hacc1 : roughStep T Settings.off (ParserState.init, []) ⟨kO, 0⟩ =
      (StartControlBlock T Settings.off ParserState.init ty 0, []) := by
    simp only [roughStep, hopen]
  -- the newlines of the block
  obtain ⟨hb2, hc2, he2⟩ := roughLoop_newlines_control T Settings.off (newlinePositionsFrom 2 e)
    (StartControlBlock T Settings.off ParserState.init ty 0, [])
    (by rw [hc1']; exact hty1.1) (by rw [hc1']; exact hty1.2)
  generalize hacc2 : roughLoop T Settings.off
    (StartControlBlock T Settings.off ParserState.init ty 0, [])
    ((newlinePositionsFrom 2 e).map (fun q => ⟨.RM_NewLine, q⟩)) = acc2 at hb2 hc2 he2
  rw [hb1] at hb2
  rw [hc1'] at hc2
  simp only at he2
  -- the closer
  have hcl : closesBlock acc2.1 ⟨kC, 2 + e.length⟩ := by
    unfold closesBlock
    rw [hc2]
    rcases hkind with ⟨_, rfl, rfl⟩ | ⟨_, rfl, rfl⟩ <;> simp
  have hclose := ParseRoughMatch_closer T Settings.off acc2.1 ⟨kC, 2 + e.length⟩ hcl hlast.2.2
  have hnew := FinishCurrentBlock_fst_untrimmed T Settings.off acc2.1 (2 + e.length) rfl hlast.2.1
  have hbe : blockEnd T ty (2 + e.length) = 2 + e.length := by
    unfold blockEnd
    exact if_neg (fun h => h.2.2.elim hlast.1 hlast.2.1)
  have hacc3 : roughStep T Settings.off acc2 ⟨kC, 2 + e.length⟩ =
      (setBlockStart (FinishCurrentBlock T Settings.off acc2.1 (2 + e.length)).2
        (2 + e.length + 2), acc2.2) := by
    simp only [roughStep, hclose, hnew]
  have hloop : roughLoop T Settings.off (roughStart T Settings.off, []) (roughTokenizer T) =
      (setBlockStart (FinishCurrentBlock T Settings.off acc2.1 (2 + e.length)).2
        (2 + e.length + 2), acc2.2) := by
    rw [htok, roughStart_off, roughLoop_cons, hacc1, roughLoop_append, hacc2]
    simp only [roughLoop, List.foldl]
    exact hacc3
  unfold roughBlocks DoRoughParsing
  simp only [hne, Bool.false_eq_true, if_false, hloop]
  refine ⟨he2, ?_⟩
  simp only [FinishCurrentBlock_snd, FinishCurrentLine, setBlockStart, hb2, hc2, hbe, hlen]
  simp [blockEnd, ParserState.init]
  omega

/-- C5 (amended): let the text `e` neither begin with `+` or `-` nor end with `+`, `-` or a
single quote. If `e` followed by `}` contains no delimiter sequence, rough parsing of
`{{ e }}` with all settings off reports no error and emits exactly RawText `[0, 0)`,
Expression `[2, 2 + len e)`, RawText `[len e + 4, len e + 4)`; if `e` followed by `%` contains
no delimiter sequence, the same holds for `{% e %}` with a Statement block. -/
theorem C5_closer_closes_block_amended (e : List Char)
    (hbegin : e.head? ≠ some '+' ∧ e.head? ≠ some '-')
    (hend : e.getLast? ≠ some '+' ∧ e.getLast? ≠ some '-' ∧ e.getLast? ≠ some '\'') :
    (noDelimiter (e ++ ['}']) = true →
      (DoRoughParsing (['{', '{'] ++ e ++ ['}', '}']) Settings.off).2 = [] ∧
      roughBlocks (['{', '{'] ++ e ++ ['}', '}']) Settings.off =
        [⟨⟨0, 0⟩, .RawText⟩, ⟨⟨2, 2 + e.length⟩, .Expression⟩,
         ⟨⟨e.length + 4, e.length + 4⟩, .RawText⟩]) ∧
    (noDelimiter (e ++ ['%']) = true →
      (DoRoughParsing (['{', '%'] ++ e ++ ['%', '}']) Settings.off).2 = [] ∧
      roughBlocks (['{', '%'] ++ e ++ ['%', '}']) Settings.off =
        [⟨⟨0, 0⟩, .RawText⟩, ⟨⟨2, 2 + e.length⟩, .Statement⟩,
         ⟨⟨e.length + 4, e.length + 4⟩, .RawText⟩]) := by
  constructor
  · intro hnd
    have h := closed_block_parse '{' '}' '}' .RM_ExprBegin .RM_ExprEnd .Expression e
      (by decide) (by decide) (Or.inl ⟨rfl, rfl, rfl⟩) (by decide) (by decide) hnd hbegin hend
    simpa using h
  · intro hnd
    have h := closed_block_parse '%' '%' '}' .RM_StmtBegin .RM_StmtEnd .Statement e
      (by decide) (by decide) (Or.inr ⟨rfl, rfl, rfl⟩) (by decide) (by decide) hnd hbegin hend
    simpa using h

/-- C5 (amended) at the text ` x `: `{{ x }}` gives the Expression block `[2, 5)`. -/
theorem C5_closer_closes_block_amended_witness :
    ((" x ".toList).head? ≠ some '+' ∧ (" x ".toList).head? ≠ some '-') ∧
    ((" x ".toList).getLast? ≠ some '+' ∧ (" x ".toList).getLast? ≠ some '-' ∧
      (" x ".toList).getLast? ≠ some '\'') ∧
    noDelimiter (" x ".toList ++ ['}']) = true ∧
    roughBlocks (['{', '{'] ++ " x ".toList ++ ['}', '}']) Settings.off =
      [⟨⟨0, 0⟩, .RawText⟩, ⟨⟨2, 5⟩, .Expression⟩, ⟨⟨7, 7⟩, .RawText⟩] :=
  ⟨by decide, by decide, by decide,
    ((C5_closer_closes_block_amended (" x ".toList) (by decide) (by decide)).1 (by decide)).2⟩

/-- C5 as stated fails: the texts `'a'` and `}` contain no delimiter sequence and neither
begin nor end with `+` or `-`, yet `{{'a'}}` leaves the Expression block open up to the end
of the template (its closer follows a quote), and `{{}}}` closes the block at offset 2, before
the `}` of the text. -/
theorem C5_counterexample :
    (noDelimiter ("'a'".toList) = true ∧
      (("'a'".toList).head? ≠ some '+' ∧ ("'a'".toList).head? ≠ some '-' ∧
        ("'a'".toList).getLast? ≠ some '+' ∧ ("'a'".toList).getLast? ≠ some '-') ∧
      roughBlocks (['{', '{'] ++ "'a'".toList ++ ['}', '}']) Settings.off =
        [⟨⟨0, 0⟩, .RawText⟩, ⟨⟨2, 7⟩, .Expression⟩] ∧
      roughBlocks (['{', '{'] ++ "'a'".toList ++ ['}', '}']) Settings.off ≠
        [⟨⟨0, 0⟩, .RawText⟩, ⟨⟨2, 2 + ("'a'".toList).length⟩, .Expression⟩,
         ⟨⟨("'a'".toList).length + 4, ("'a'".toList).length + 4⟩, .RawText⟩]) ∧
    (noDelimiter ['}'] = true ∧
      ((['}'] : List Char).head? ≠ some '+' ∧ (['}'] : List Char).head? ≠ some '-' ∧
        (['}'] : List Char).getLast? ≠ some '+' ∧ (['}'] : List Char).getLast? ≠ some '-') ∧
      roughBlocks (['{', '{'] ++ ['}'] ++ ['}', '}']) Settings.off =
        [⟨⟨0, 0⟩, .RawText⟩, ⟨⟨2, 2⟩, .Expression⟩, ⟨⟨4, 5⟩, .RawText⟩] ∧
      roughBlocks (['{', '{'] ++ ['}'] ++ ['}', '}']) Settings.off ≠
        [⟨⟨0, 0⟩, .RawText⟩, ⟨⟨2, 2 + ['}'].length⟩, .Expression⟩,
         ⟨⟨['}'].length + 4, ['}'].length + 4⟩, .RawText⟩]) := by
  decide

/-! ## An opener that is never closed -/

theorem roughStart_of_brace (tpl : List Char) (setts : Settings) (h : charAt tpl 0 = '{') :
    roughStart tpl setts = ParserState.init := by
  simp [roughStart, ParserState.init, h]

theorem open_block_parse (o2 : Char) (kO : RoughMatchType) (ty : TextBlockType)
    (setts : Settings) (e : List Char)
    (hO : delimiterOf '{' o2 = some kO)
    (hkind : (kO = .RM_ExprBegin ∧ ty = .Expression) ∨ (kO = .RM_StmtBegin ∧ ty = .Statement))
    (ho2 : o2 ≠ '+' ∧ o2 ≠ '-')
    (hnd : noDelimiter e = true)
    (hbegin : e.head? ≠ some '+' ∧ e.head? ≠ some '-')
    (hend : e.getLast? ≠ some '+' ∧ e.getLast? ≠ some '-') :
    (DoRoughParsing ('{' :: o2 :: e) setts).2 = [] ∧
    roughBlocks ('{' :: o2 :: e) setts =
      [⟨⟨0, 0⟩, .RawText⟩, ⟨⟨2, e.length + 2⟩, ty⟩] := by
  have htok : roughTokenizer ('{' :: o2 :: e) =
      ⟨kO, 0⟩ :: (newlinePositionsFrom 2 e).map (fun q => ⟨.RM_NewLine, q⟩) := by
    simp only [roughTokenizer]
    rw [roughTokenizerFrom, hO, roughTokenizerFrom_noDelimiter e 2 hnd]
  have hlen : ('{' :: o2 :: e).length = e.length + 2 := by simp
  have h0 : charAt ('{' :: o2 :: e) 0 = '{' := rfl
  have h2 : charAt ('{' :: o2 :: e) 2 ≠ '+' ∧ charAt ('{' :: o2 :: e) 2 ≠ '-' := by
    cases e with
    | nil =>
      have hz : charAt ['{', o2] 2 = Char.ofNat 0 := rfl
      rw [hz]
      exact ⟨by decide, by decide⟩
    | cons c e => simpa [charAt] using hbegin
  have hlast : charAt ('{' :: o2 :: e) (e.length + 2 - 1) ≠ '+' ∧
      charAt ('{' :: o2 :: e) (e.length + 2 - 1) ≠ '-' := by
    rcases List.eq_nil_or_concat e with rfl | ⟨e', c, rfl⟩
    · simpa [charAt] using ho2
    · simp only [List.concat_eq_append] at hend ⊢
      have hidx : (e' ++ [c]).length + 2 - 1 = ('{' :: o2 :: e').length + 0 := by simp
      have hlist : '{' :: o2 :: (e' ++ [c]) = ('{' :: o2 :: e') ++ [c] := by simp
      rw [hidx, hlist, charAt_append_right]
      simpa [charAt] using hend
  generalize hT : '{' :: o2 :: e = T at htok hlen h0 h2 hlast ⊢
  have hne : (roughTokenizer T).isEmpty = false := by rw [htok]; rfl
  have hopen : ParseRoughMatch T setts ParserState.init ⟨kO, 0⟩ =
      (StartControlBlock T setts ParserState.init ty 0, none) := by
    rcases hkind with ⟨rfl, rfl⟩ | ⟨rfl, rfl⟩ <;> rfl
  obtain ⟨hb1, hc1⟩ := StartControlBlock_at_zero T setts ParserState.init ty rfl h2.1 h2.2
  have hty1 : ty ≠ .RawText ∧ ty ≠ .LineStatement := by
    rcases hkind with ⟨_, rfl⟩ | ⟨_, rfl⟩ <;> exact ⟨by decide, by decide⟩
  have hacc1 : roughStep T setts (ParserState.init, []) ⟨kO, 0⟩ =
      (StartControlBlock T setts ParserState.init ty 0, []) := by
    simp only [roughStep, hopen]
  obtain ⟨hb2, hc2, he2⟩ := roughLoop_newlines_control T setts (newlinePositionsFrom 2 e)
    (StartControlBlock T setts ParserState.init ty 0, [])
    (by rw [hc1]; exact hty1.1) (by rw [hc1]; exact hty1.2)
  generalize hacc2 : roughLoop T setts
    (StartControlBlock T setts ParserState.init ty 0, [])
    ((newlinePositionsFrom 2 e).map (fun q => ⟨.RM_NewLine, q⟩)) = acc2 at hb2 hc2 he2
  rw [hb1] at hb2
  rw [hc1] at hc2
  simp only at he2
  have hbe : blockEnd T ty (e.length + 2) = e.length + 2 := by
    unfold blockEnd
    exact if_neg (fun h => h.2.2.elim hlast.1 hlast.2)
  have hloop : roughLoop T setts (roughStart T setts, []) (roughTokenizer T) = acc2 := by
    rw [htok, roughStart_of_brace T setts h0, roughLoop_cons, hacc1, hacc2]
  unfold roughBlocks DoRoughParsing
  simp only [hne, Bool.false_eq_true, if_false, hloop]
  refine ⟨he2, ?_⟩
  simp only [FinishCurrentBlock_snd, FinishCurrentLine, hb2, hc2, hbe, hlen]
  simp [ParserState.init]

theorem Parse_of_rough (c : Collaborators) (tpl : List Char) (setts : Settings)
    (blocks : List TextBlockInfo)
    (herr : (DoRoughParsing tpl setts).2 = [])
    (hblocks : roughBlocks tpl setts = blocks) :
    Parse c tpl setts =
      if !(DoFineParsing c tpl blocks).errors.isEmpty then
        .error (DoFineParsing c tpl blocks).errors
      else .ok ((DoFineParsing c tpl blocks).frames.composed.headD []) := by
  unfold roughBlocks at hblocks
  simp only [Parse, herr, hblocks]
  rfl

theorem fineStep_empty_raw (c : Collaborators) (tpl : List Char) (fs : FineState) (p : Nat) :
    fineStep c tpl fs ⟨⟨p, p⟩, .RawText⟩ = { fs with prevBlock := some ⟨⟨p, p⟩, .RawText⟩ } := by
  have hsize : CharRange.size ⟨p, p⟩ = 0 := by
    simp only [CharRange.size]
    have : p % 2 ^ 64 ≤ p := Nat.mod_le _ _
    have h2 : p + 2 ^ 64 - p % 2 ^ 64 = 2 ^ 64 + (p - p % 2 ^ 64) := by omega
    rw [h2, Nat.add_mod, Nat.mod_self, Nat.zero_add, Nat.mod_mod]
    have h3 : p - p % 2 ^ 64 = 2 ^ 64 * (p / 2 ^ 64) := by
      have := Nat.div_add_mod p (2 ^ 64)
      omega
    rw [h3, Nat.mul_mod_right]
  simp [fineStep, fineBlock, fineRawText, hsize]

/-- C8 (amended): for every text `e` without delimiter sequences that neither begins nor ends
with `+` or `-`, and for all settings and collaborators, rough parsing of the unclosed
`{{ e` (of `{% e`) reports no error and emits RawText `[0, 0)` and the open Expression
(Statement) block `[2, len T)`; parsing then succeeds or fails exactly as the expression
(statement) parser does on that block, with that parser's error and no error for the
missing closer; and on no template does rough parsing report an error at an opener: the
token of each of its errors is `}}`, `%}`, `{#` or `#}`. -/
theorem C8_unclosed_opener_amended (c : Collaborators) (setts : Settings) (e : List Char)
    (hnd : noDelimiter e = true)
    (hbegin : e.head? ≠ some '+' ∧ e.head? ≠ some '-')
    (hend : e.getLast? ≠ some '+' ∧ e.getLast? ≠ some '-') :
    ((DoRoughParsing (['{', '{'] ++ e) setts).2 = [] ∧
      roughBlocks (['{', '{'] ++ e) setts =
        [⟨⟨0, 0⟩, .RawText⟩, ⟨⟨2, e.length + 2⟩, .Expression⟩] ∧
      Parse c (['{', '{'] ++ e) setts =
        match InvokeExpressionParser c (['{', '{'] ++ e) ⟨⟨2, e.length + 2⟩, .Expression⟩ with
        | .ok r => .ok [r]
        | .error err => .error [err]) ∧
    ((DoRoughParsing (['{', '%'] ++ e) setts).2 = [] ∧
      roughBlocks (['{', '%'] ++ e) setts =
        [⟨⟨0, 0⟩, .RawText⟩, ⟨⟨2, e.length + 2⟩, .Statement⟩] ∧
      Parse c (['{', '%'] ++ e) setts =
        match InvokeStatementsParser c (['{', '%'] ++ e) ⟨⟨2, e.length + 2⟩, .Statement⟩
            fineStart.frames with
        | (fr, none) => .ok (fr.composed.headD [])
        | (_, some err) => .error [err]) ∧
    (∀ (tpl : List Char), ∀ err ∈ (DoRoughParsing tpl setts).2,
      err.errorToken.type ∈ [TokenType.ExprEnd, .StmtEnd, .CommentBegin, .CommentEnd]) := by
  refine ⟨?_, ?_, fun tpl => DoRoughParsing_error_tokens tpl setts⟩
  · obtain ⟨h1, h2⟩ := open_block_parse '{' .RM_ExprBegin .Expression setts e (by decide)
      (Or.inl ⟨rfl, rfl⟩) (by decide) hnd hbegin hend
    refine ⟨by simpa using h1, by simpa using h2, ?_⟩
    have h := Parse_of_rough c ('{' :: '{' :: e) setts _ h1 h2
    simp only [List.cons_append, List.nil_append]
    rw [h]
    simp only [DoFineParsing, List.foldl, fineStep_empty_raw]
    simp only [fineStep, fineBlock]
    cases hE : InvokeExpressionParser c ('{' :: '{' :: e) ⟨⟨2, e.length + 2⟩, .Expression⟩ with
    | ok r => simp [hE, fineStart, addToBack, addRenderer, StatementInfo.Create]
    | error err => simp [hE, fineStart]
  · obtain ⟨h1, h2⟩ := open_block_parse '%' .RM_StmtBegin .Statement setts e (by decide)
      (Or.inr ⟨rfl, rfl⟩) (by decide) hnd hbegin hend
    refine ⟨by simpa using h1, by simpa using h2, ?_⟩
    have h := Parse_of_rough c ('{' :: '%' :: e) setts _ h1 h2
    simp only [List.cons_append, List.nil_append]
    rw [h]
    simp only [DoFineParsing, List.foldl, fineStep_empty_raw]
    simp only [fineStep, fineBlock]
    cases hS : InvokeStatementsParser c ('{' :: '%' :: e) ⟨⟨2, e.length + 2⟩, .Statement⟩
      fineStart.frames with
    | mk fr err =>
      have hS' : InvokeStatementsParser c ('{' :: '%' :: e) ⟨⟨2, e.length + 2⟩, .Statement⟩
          { statementsStack := [StatementInfo.Create .TemplateRoot ⟨.Unknown, ⟨0, 0⟩⟩ 0],
            composed := [[]] } = (fr, err) := hS
      cases err with
      | none => simp [hS', fineStart]
      | some err => simp [hS', fineStart]

/-- C8 (amended) for the unclosed `{{ x`: the open block is `[2, 4)`. -/
theorem C8_unclosed_opener_amended_witness :
    noDelimiter (" x".toList) = true ∧
    ((" x".toList).head? ≠ some '+' ∧ (" x".toList).head? ≠ some '-') ∧
    ((" x".toList).getLast? ≠ some '+' ∧ (" x".toList).getLast? ≠ some '-') ∧
    roughBlocks (['{', '{'] ++ " x".toList) Settings.off =
      [⟨⟨0, 0⟩, .RawText⟩, ⟨⟨2, 4⟩, .Expression⟩] :=
  ⟨by decide, by decide, by decide,
    (C8_unclosed_opener_amended specCollaborators Settings.off (" x".toList)
      (by decide) (by decide) (by decide)).1.2.1⟩

/-- C8 as stated fails: in `{{ x` the only rough match is the opener, so it is never closed,
yet rough parsing reports no error and parsing returns the renderer of the expression `x`;
and for `{{` the error comes from the expression parser and lies at offset 2, after the
opener, not at offset 0. -/
theorem C8_counterexample :
    roughTokenizer ("\x7b\x7b x".toList) = [⟨.RM_ExprBegin, 0⟩] ∧
    (DoRoughParsing ("\x7b\x7b x".toList) Settings.off).2 = [] ∧
    Parse specCollaborators ("\x7b\x7b x".toList) Settings.off = .ok [.External 0] ∧
    Parse specCollaborators ("\x7b\x7b".toList) Settings.off =
      .error [⟨.UnexpectedToken, ⟨.Eof, ⟨2, 2⟩⟩, []⟩] :=
  ⟨by decide, by decide, rfl, rfl⟩

/-! ## Templates without control syntax -/

theorem ParseRoughMatch_newline_raw (tpl : List Char) (setts : Settings)
    (st : ParserState) (q : Nat)
    (h1 : st.m_currentBlockInfo.type = .RawText) (h2 : setts.useLineStatements = false) :
    (ParseRoughMatch tpl setts st ⟨.RM_NewLine, q⟩).1.m_textBlocks = st.m_textBlocks ∧
    (ParseRoughMatch tpl setts st ⟨.RM_NewLine, q⟩).1.m_currentBlockInfo = st.m_currentBlockInfo := by
  simp only [ParseRoughMatch]
  split_ifs with h3 h4
  · simp [FinishCurrentLine, h1] at h4
  · simp [setBlockType, lineStartType, h2, FinishCurrentLine, ← h1]
  · simp [FinishCurrentLine]

theorem roughLoop_newlines_raw (tpl : List Char) (setts : Settings)
    (h2 : setts.useLineStatements = false) :
    ∀ (qs : List Nat) (acc : ParserState × List ParseError),
      acc.1.m_currentBlockInfo.type = .RawText →
      (roughLoop tpl setts acc (qs.map (fun q => ⟨.RM_NewLine, q⟩))).1.m_textBlocks
        = acc.1.m_textBlocks ∧
      (roughLoop tpl setts acc (qs.map (fun q => ⟨.RM_NewLine, q⟩))).1.m_currentBlockInfo
        = acc.1.m_currentBlockInfo := by
  intro qs
  induction qs with
  | nil => intro acc _; simp [roughLoop]
  | cons q qs ih =>
    intro acc h1
    obtain ⟨a, b⟩ := ParseRoughMatch_newline_raw tpl setts acc.1 q h1 h2
    have hfst := roughStep_fst tpl setts acc ⟨.RM_NewLine, q⟩
    simp only [List.map_cons, roughLoop_cons]
    obtain ⟨x, y⟩ := ih (roughStep tpl setts acc ⟨.RM_NewLine, q⟩) (by rw [hfst, b]; exact h1)
    rw [x, y, hfst, a, b]
    exact ⟨rfl, rfl⟩

theorem newlinePositionsFrom_eq_nil (cs : List Char) : ∀ i : Nat,
    newlinePositionsFrom i cs = [] ↔ '\n' ∉ cs := by
  induction cs with
  | nil => intro i; simp [newlinePositionsFrom]
  | cons c cs ih =>
    intro i
    by_cases hc : c = '\n'
    · simp [newlinePositionsFrom, hc]
    · have hc' : ¬ '\n' = c := fun h => hc h.symm
      simp [newlinePositionsFrom, hc, hc', ih (i + 1)]

/-- The blocks of a template without delimiter sequences, parsed with line statements off:
one block over the whole template, raw text unless the template begins with `#` and has
no newline. -/
theorem roughBlocks_noDelimiter (tpl : List Char) (setts : Settings)
    (hnd : noDelimiter tpl = true) (hls : setts.useLineStatements = false) :
    roughBlocks tpl setts =
      [⟨⟨0, tpl.length⟩,
        if tpl.head? = some '#' ∧ '\n' ∉ tpl then .LineStatement else .RawText⟩] := by
  have htok : roughTokenizer tpl =
      (newlinePositionsFrom 0 tpl).map (fun q => ⟨.RM_NewLine, q⟩) :=
    roughTokenizerFrom_noDelimiter tpl 0 hnd
  unfold roughBlocks DoRoughParsing
  by_cases hnl : '\n' ∈ tpl
  · have hne : (roughTokenizer tpl).isEmpty = false := by
      rw [htok]
      have : newlinePositionsFrom 0 tpl ≠ [] := fun h =>
        ((newlinePositionsFrom_eq_nil tpl 0).mp h) hnl
      cases hq : newlinePositionsFrom 0 tpl with
      | nil => exact absurd hq this
      | cons a l => rfl
    simp only [hne, Bool.false_eq_true, if_false, hnl, not_true_eq_false, and_false]
    have hstart : roughStart tpl setts = ParserState.init := by
      simp [roughStart, ParserState.init, hls]
    obtain ⟨hb, hc⟩ := roughLoop_newlines_raw tpl setts hls (newlinePositionsFrom 0 tpl)
      (ParserState.init, []) rfl
    rw [htok, hstart]
    simp only [FinishCurrentBlock_snd, FinishCurrentLine, hb, hc]
    simp [ParserState.init, blockEnd]
  · have hnil : newlinePositionsFrom 0 tpl = [] := (newlinePositionsFrom_eq_nil tpl 0).mpr hnl
    have he : (roughTokenizer tpl).isEmpty = true := by rw [htok, hnil]; rfl
    simp only [he, if_true, hnl, not_false_eq_true, and_true]
    cases tpl with
    | nil => simp [ParserState.init]
    | cons c cs => simp [ParserState.init]

/-- Round trip where the scanner takes the template for raw text: a template without delimiter
sequences and shorter than `2^64`, parsed with line statements off, that does not both begin
with `#` and lack a newline, is parsed without error and renders to itself. -/
theorem round_trip_raw_text (c : Collaborators) (ext : Nat → List Char) (tpl : List Char)
    (setts : Settings) (hnd : noDelimiter tpl = true) (hls : setts.useLineStatements = false)
    (hlen : tpl.length < 2 ^ 64) (hraw : ¬ (tpl.head? = some '#' ∧ '\n' ∉ tpl)) :
    ∃ rs, Parse c tpl setts = .ok rs ∧ renderComposed ext tpl rs = tpl := by
  have hblocks := roughBlocks_noDelimiter tpl setts hnd hls
  simp only [hraw, if_false] at hblocks
  have herrs : (DoRoughParsing tpl setts).2 = [] := by
    rw [DoRoughParsing_errors_eq]
    apply List.filterMap_eq_nil_iff.mpr
    intro p hp
    have hmem : p.2 ∈ roughTokenizer tpl := by
      have := roughTraceFrom_matches tpl setts (roughTokenizer tpl) (roughStart tpl setts)
      rw [← this]
      exact List.mem_map_of_mem _ hp
    have htok : roughTokenizer tpl =
        (newlinePositionsFrom 0 tpl).map (fun q => ⟨.RM_NewLine, q⟩) :=
      roughTokenizerFrom_noDelimiter tpl 0 hnd
    rw [htok, List.mem_map] at hmem
    obtain ⟨q, _, hq⟩ := hmem
    rw [← hq]
    rfl
  rw [Parse_of_rough c tpl setts _ herrs hblocks]
  have hsize : CharRange.size ⟨0, tpl.length⟩ = tpl.length := by
    simp only [CharRange.size, Nat.zero_mod, Nat.sub_zero]
    rw [Nat.add_mod_right, Nat.mod_eq_of_lt hlen]
  by_cases h0 : tpl.length = 0
  · have hnil : tpl = [] := List.length_eq_zero.mp h0
    subst hnil
    refine ⟨[], ?_, rfl⟩
    rfl
  · refine ⟨[.RawTextRenderer 0 tpl.length], ?_, ?_⟩
    · simp [DoFineParsing, fineStep, fineBlock, fineRawText, hsize, h0, fineStart,
        prevSwallowsNewline, addToBack, addRenderer, StatementInfo.Create]
    · simp [renderComposed, renderRawText]

/-! ## The statement stack at the end of fine parsing -/

theorem fineBlock_type (b : TextBlockInfo) : (fineBlock b).type = b.type := by
  unfold fineBlock
  split_ifs <;> rfl

theorem fineBlock_of_ne (b : TextBlockInfo) (h : b.type ≠ .LineStatement) : fineBlock b = b := by
  simp [fineBlock, h]

theorem fineStep_errors (c : Collaborators) (tpl : List Char) (fs : FineState)
    (b : TextBlockInfo) :
    (fineStep c tpl fs b).errors = fs.errors ++ (fineBlockError c tpl fs b).toList := by
  have hbt := fineBlock_type b
  unfold fineStep fineBlockError
  cases hty : b.type with
  | RawText =>
    rw [hty] at hbt
    simp only [hbt, fineRawText]
    split_ifs <;> simp
  | Expression =>
    rw [hty] at hbt
    simp only [fineBlock_of_ne b (by simp [hty]), hty]
    cases InvokeExpressionParser c tpl b <;> simp
  | Statement =>
    rw [hty] at hbt
    simp only [fineBlock_of_ne b (by simp [hty]), hty]
    cases (InvokeStatementsParser c tpl b fs.frames).2 <;> simp
  | Comment =>
    rw [hty] at hbt
    simp [hbt]
  | LineStatement =>
    rw [hty] at hbt
    simp only [hbt]
    cases (InvokeStatementsParser c tpl (fineBlock b) fs.frames).2 <;> simp

theorem fineLoop_errors (c : Collaborators) (tpl : List Char) :
    ∀ (bs : List TextBlockInfo) (fs : FineState),
      (bs.foldl (fineStep c tpl) fs).errors = fs.errors ++
        (fineTraceFrom c tpl fs bs).filterMap (fun p => fineBlockError c tpl p.1 p.2) := by
  intro bs
  induction bs with
  | nil => intro fs; simp [fineTraceFrom]
  | cons b bs ih =>
    intro fs
    simp only [List.foldl_cons, ih, fineStep_errors, fineTraceFrom, List.filterMap_cons]
    cases fineBlockError c tpl fs b <;> simp

/-- C9 (amended): fine parsing returns exactly the errors the expression and statement
parsers report for the single blocks, in block order, and parsing succeeds exactly when rough
parsing found no error and no block parser reported one; the statement stack is not looked at
after the last block, so an opener statement left unclosed yields no diagnostic of its own. -/
theorem C9_fine_errors_amended (c : Collaborators) (tpl : List Char) (setts : Settings) :
    (DoFineParsing c tpl (roughBlocks tpl setts)).errors =
      (fineTraceFrom c tpl fineStart (roughBlocks tpl setts)).filterMap
        (fun p => fineBlockError c tpl p.1 p.2) ∧
    ((∃ rs, Parse c tpl setts = .ok rs) ↔
      ((DoRoughParsing tpl setts).2 = [] ∧
        ∀ p ∈ fineTraceFrom c tpl fineStart (roughBlocks tpl setts),
          fineBlockError c tpl p.1 p.2 = none)) := by
  have herr : (DoFineParsing c tpl (roughBlocks tpl setts)).errors =
      (fineTraceFrom c tpl fineStart (roughBlocks tpl setts)).filterMap
        (fun p => fineBlockError c tpl p.1 p.2) := by
    have h := fineLoop_errors c tpl (roughBlocks tpl setts) fineStart
    simpa [DoFineParsing, fineStart] using h
  refine ⟨herr, ?_⟩
  have hnone : (fineTraceFrom c tpl fineStart (roughBlocks tpl setts)).filterMap
        (fun p => fineBlockError c tpl p.1 p.2) = [] ↔
      ∀ p ∈ fineTraceFrom c tpl fineStart (roughBlocks tpl setts),
        fineBlockError c tpl p.1 p.2 = none := by
    rw [List.filterMap_eq_nil_iff]
  rw [← hnone, ← herr]
  unfold Parse roughBlocks
  by_cases h1 : (DoRoughParsing tpl setts).2 = []
  · by_cases h2 : (DoFineParsing c tpl (DoRoughParsing tpl setts).1.m_textBlocks).errors = []
    · simp [h1, h2]
    · simp [h1, h2]
  · simp [h1]

/-- C9 as stated fails: `{% if x %}abc` leaves the `if` opener unclosed, yet fine parsing
reports no error, parsing succeeds, and the statement stack still holds the `if` frame above
the root frame. -/
theorem C9_counterexample :
    (DoFineParsing specCollaborators ("\x7b% if x %\x7dabc".toList)
      (roughBlocks ("\x7b% if x %\x7dabc".toList) Settings.off)).errors = [] ∧
    (DoFineParsing specCollaborators ("\x7b% if x %\x7dabc".toList)
      (roughBlocks ("\x7b% if x %\x7dabc".toList) Settings.off)).frames.statementsStack.map
        (·.type) = [.TemplateRoot, .IfStatement] ∧
    Parse specCollaborators ("\x7b% if x %\x7dabc".toList) Settings.off = .ok [] :=
  ⟨by decide, by decide, rfl⟩

/-! ## Coverage of the template by the blocks -/

theorem stripLoop_spec (tpl : List Char) : ∀ q : Nat,
    stripLoop tpl q ≤ q ∧ ∀ i, stripLoop tpl q ≤ i → i < q → isspace (charAt tpl i) = true := by
  intro q
  induction q with
  | zero => exact ⟨le_rfl, fun i _ h => absurd h (Nat.not_lt_zero i)⟩
  | succ q ih =>
    rw [stripLoop]
    by_cases h : (!isspace (charAt tpl q) || decide (charAt tpl q = '\n')) = true
    · simp only [h, if_true]
      exact ⟨le_rfl, fun i h1 h2 => by omega⟩
    · simp only [h]
      refine ⟨by have := ih.1; simp; omega, fun i h1 h2 => ?_⟩
      simp only [Bool.false_eq_true, if_false] at h1
      by_cases hi : i = q
      · subst hi
        simp at h
        exact h.1
      · exact ih.2 i h1 (by omega)

theorem StripBlockLeft_spec (tpl : List Char) (setts : Settings) (cur : TextBlockInfo)
    (p q : Nat) :
    StripBlockLeft tpl setts cur p q ≤ q ∧
    ∀ i, StripBlockLeft tpl setts cur p q ≤ i → i < q → isspace (charAt tpl i) = true := by
  unfold StripBlockLeft
  simp only []
  split_ifs
  all_goals first
    | exact stripLoop_spec tpl q
    | exact ⟨le_rfl, fun i h1 h2 => by omega⟩

theorem trimLoop_spec (tpl : List Char) : ∀ (fuel p : Nat),
    p ≤ trimLoop tpl fuel p ∧
    ∀ i, p ≤ i → i < trimLoop tpl fuel p →
      isspace (charAt tpl i) = true ∧ (charAt tpl i = '\n' → i + 1 = trimLoop tpl fuel p) := by
  intro fuel
  induction fuel with
  | zero => intro p; exact ⟨le_rfl, fun i h1 h2 => by simp [trimLoop] at h2; omega⟩
  | succ fuel ih =>
    intro p
    rw [trimLoop]
    by_cases hp : p < tpl.length
    · simp only [hp, if_true]
      by_cases h1 : charAt tpl p = '\n'
      · simp only [h1, if_true]
        refine ⟨by omega, fun i hi1 hi2 => ?_⟩
        have : i = p := by omega
        subst this
        exact ⟨by rw [h1]; decide, fun _ => rfl⟩
      · simp only [h1, if_false]
        by_cases h2 : isspace (charAt tpl p) = true
        · simp only [h2, Bool.not_true, Bool.false_eq_true, if_false]
          obtain ⟨ih1, ih2⟩ := ih (p + 1)
          refine ⟨by omega, fun i hi1 hi2 => ?_⟩
          by_cases hi : i = p
          · subst hi
            exact ⟨h2, fun h => absurd h h1⟩
          · exact ih2 i (by omega) hi2
        · simp only [h2, Bool.not_false, if_true]
          exact ⟨le_rfl, fun i hi1 hi2 => by omega⟩
    · simp only [hp, if_false]
      exact ⟨le_rfl, fun i hi1 hi2 => by omega⟩

theorem FinishCurrentBlock_fst_spec (tpl : List Char) (setts : Settings) (st : ParserState)
    (q : Nat) :
    q + 2 ≤ (FinishCurrentBlock tpl setts st q).1 ∧
    ∀ i, q + 2 ≤ i → i < (FinishCurrentBlock tpl setts st q).1 →
      isspace (charAt tpl i) = true ∧
        (charAt tpl i = '\n' → i + 1 = (FinishCurrentBlock tpl setts st q).1) := by
  simp only [FinishCurrentBlock]
  split_ifs
  all_goals first
    | exact trimLoop_spec tpl _ (q + 2)
    | exact ⟨le_rfl, fun i h1 h2 => by omega⟩

theorem trimLoop_le (tpl : List Char) : ∀ (fuel p : Nat), p ≤ tpl.length →
    trimLoop tpl fuel p ≤ tpl.length := by
  intro fuel
  induction fuel with
  | zero => intro p hp; simpa [trimLoop] using hp
  | succ fuel ih =>
    intro p hp
    rw [trimLoop]
    by_cases h1 : p < tpl.length
    · simp only [h1, if_true]
      split_ifs
      · omega
      · exact hp
      · exact ih (p + 1) (by omega)
    · simp only [h1, if_false]
      exact hp

theorem FinishCurrentBlock_fst_le (tpl : List Char) (setts : Settings) (st : ParserState)
    (q : Nat) (hq : q + 2 ≤ tpl.length) :
    (FinishCurrentBlock tpl setts st q).1 ≤ tpl.length := by
  simp only [FinishCurrentBlock]
  split_ifs
  all_goals first
    | exact trimLoop_le tpl _ (q + 2) hq
    | exact hq

theorem blockEnd_spec (tpl : List Char) (ty : TextBlockType) (q : Nat) :
    blockEnd tpl ty q ≤ q ∧
    ∀ i, blockEnd tpl ty q ≤ i → i < q → isDelimiterChar (charAt tpl i) = true := by
  unfold blockEnd
  split_ifs with h
  · refine ⟨by omega, fun i h1 h2 => ?_⟩
    have : i = q - 1 := by omega
    subst this
    rcases h.2.2 with h3 | h3 <;> rw [h3] <;> decide
  · exact ⟨le_rfl, fun i h1 h2 => by omega⟩

theorem inBlocks_append_left {blocks : List TextBlockInfo} {i : Nat} (b : TextBlockInfo)
    (h : inBlocks blocks i) : inBlocks (blocks ++ [b]) i := by
  obtain ⟨x, hx, h1⟩ := h
  exact ⟨x, List.mem_append_left _ hx, h1⟩

theorem RoughInv_same {tpl : List Char} {st st' : ParserState} {p p' : Nat}
    (hinv : RoughInv tpl st p) (hp : p ≤ p')
    (hblocks : st'.m_textBlocks = st.m_textBlocks)
    (hstart : st'.m_currentBlockInfo.range.startOffset =
      st.m_currentBlockInfo.range.startOffset) :
    RoughInv tpl st' p' := by
  refine ⟨?_, ?_, ?_, ?_, ?_⟩
  · rw [hblocks, hstart]; exact hinv.covered
  · rw [hblocks, hstart]; exact hinv.ends_le
  · rw [hblocks]; exact hinv.ordered
  · rw [hstart]; exact fun i h1 h2 => hinv.ahead i (by omega) h2
  · rw [hstart]; exact hinv.start_le

theorem RoughInv_close {tpl : List Char} {st st' : ParserState} {p p' : Nat}
    (hinv : RoughInv tpl st p) (e s' : Nat) (ty : TextBlockType)
    (hblocks : st'.m_textBlocks =
      st.m_textBlocks ++ [⟨⟨st.m_currentBlockInfo.range.startOffset, e⟩, ty⟩])
    (hstart : st'.m_currentBlockInfo.range.startOffset = s')
    (h1 : st.m_currentBlockInfo.range.startOffset ≤ s') (h2 : e ≤ s')
    (hlen : s' ≤ tpl.length)
    (hgap : ∀ i, e ≤ i → i < s' → i < tpl.length →
      isDelimiterChar (charAt tpl i) = true ∨ isspace (charAt tpl i) = true)
    (hahead : ∀ i, p' ≤ i → i < s' →
      isSkipChar (charAt tpl i) = true ∧ (charAt tpl i = '\n' → i + 1 = s')) :
    RoughInv tpl st' p' := by
  refine ⟨?_, ?_, ?_, ?_, by rw [hstart]; exact hlen⟩
  · rw [hblocks, hstart]
    intro i hi hlen
    by_cases hc : i < st.m_currentBlockInfo.range.startOffset
    · rcases hinv.covered i hc hlen with h | h
      · exact Or.inl (inBlocks_append_left _ h)
      · exact Or.inr h
    · by_cases he : i < e
      · exact Or.inl ⟨_, List.mem_append_right _ (List.mem_singleton_self _),
          by simpa using Nat.le_of_not_lt hc, by simpa using he⟩
      · exact Or.inr (hgap i (by omega) hi hlen)
  · rw [hblocks, hstart]
    intro b hb
    rcases List.mem_append.mp hb with hb | hb
    · exact le_trans (hinv.ends_le b hb) h1
    · rw [List.mem_singleton.mp hb]; exact h2
  · rw [hblocks, List.pairwise_append]
    refine ⟨hinv.ordered, List.pairwise_singleton _ _, fun a ha b hb => ?_⟩
    rw [List.mem_singleton.mp hb]
    exact hinv.ends_le a ha
  · rw [hstart]; exact hahead

theorem delimiterOf_chars {c d : Char} {k : RoughMatchType} (h : delimiterOf c d = some k) :
    isDelimiterChar c = true ∧ isDelimiterChar d = true ∧ isSkipChar c = false := by
  unfold delimiterOf at h
  split_ifs at h with h1 h2 h3 h4 h5 h6
  all_goals first
    | (obtain ⟨rfl, rfl⟩ := h1; decide)
    | (obtain ⟨rfl, rfl⟩ := h2; decide)
    | (obtain ⟨rfl, rfl⟩ := h3; decide)
    | (obtain ⟨rfl, rfl⟩ := h4; decide)
    | (obtain ⟨rfl, rfl⟩ := h5; decide)
    | (obtain ⟨rfl, rfl⟩ := h6; decide)

/-- The start of the current block is not ahead of a delimiter the tokenizer has reached. -/
theorem RoughInv_start_le {tpl : List Char} {st : ParserState} {p : Nat}
    (hinv : RoughInv tpl st p) (hskip : isSkipChar (charAt tpl p) = false) :
    st.m_currentBlockInfo.range.startOffset ≤ p := by
  by_contra h
  have := (hinv.ahead p le_rfl (by omega)).1
  rw [hskip] at this
  cases this

theorem isSkipChar_of_isspace {c : Char} (h : isspace c = true) : isSkipChar c = true := by
  simp [isSkipChar, h]

/-- Closing the current block at a two-character delimiter found at `p` and restarting at
`s'`, with only whitespace between the delimiter and `s'`, preserves the invariant. -/
theorem RoughInv_finish {tpl : List Char} {st : ParserState} {p : Nat} (setts : Settings)
    (hinv : RoughInv tpl st p) (k : RoughMatchType)
    (hm : delimiterOf (charAt tpl p) (charAt tpl (p + 1)) = some k)
    (s' : Nat) (st' : ParserState)
    (hb : st'.m_textBlocks = (FinishCurrentBlock tpl setts st p).2.m_textBlocks)
    (hs : st'.m_currentBlockInfo.range.startOffset = s') (hs2 : p + 2 ≤ s')
    (hlen : s' ≤ tpl.length)
    (hws : ∀ i, p + 2 ≤ i → i < s' →
      isspace (charAt tpl i) = true ∧ (charAt tpl i = '\n' → i + 1 = s')) :
    RoughInv tpl st' (p + 2) := by
  obtain ⟨hd1, hd2, hd3⟩ := delimiterOf_chars hm
  have hle := RoughInv_start_le hinv hd3
  obtain ⟨he1, he2⟩ := blockEnd_spec tpl st.m_currentBlockInfo.type p
  rw [FinishCurrentBlock_snd] at hb
  refine RoughInv_close hinv (blockEnd tpl st.m_currentBlockInfo.type p) s'
    st.m_currentBlockInfo.type hb hs (by omega) (by omega) hlen ?_ ?_
  · intro i h1 h2 _
    by_cases hi : i < p
    · exact Or.inl (he2 i h1 hi)
    · by_cases hi2 : i = p
      · subst hi2; exact Or.inl hd1
      · by_cases hi3 : i = p + 1
        · subst hi3; exact Or.inl hd2
        · exact Or.inr (hws i (by omega) h2).1
  · intro i h1 h2
    obtain ⟨a, b⟩ := hws i h1 h2
    exact ⟨isSkipChar_of_isspace a, b⟩

theorem RoughInv_StartControlBlock {tpl : List Char} {st : ParserState} {p : Nat}
    (setts : Settings) (ty : TextBlockType) (hinv : RoughInv tpl st p) (k : RoughMatchType)
    (hlt : p + 1 < tpl.length)
    (hm : delimiterOf (charAt tpl p) (charAt tpl (p + 1)) = some k) :
    RoughInv tpl (StartControlBlock tpl setts st ty p) (p + 2) := by
  obtain ⟨hd1, hd2, hd3⟩ := delimiterOf_chars hm
  have hle := RoughInv_start_le hinv hd3
  unfold StartControlBlock
  by_cases hraw : st.m_currentBlockInfo.type = .RawText
  · simp only [hraw, bne_self_eq_false, Bool.false_eq_true, if_false]
    obtain ⟨hs1, hs2⟩ := StripBlockLeft_spec tpl setts st.m_currentBlockInfo (p + 2) p
    generalize StripBlockLeft tpl setts st.m_currentBlockInfo (p + 2) p = e at hs1 hs2 ⊢
    have hbe : blockEnd tpl .RawText e = e := by
      simp [blockEnd]
    by_cases hmark : p + 2 < tpl.length ∧ (charAt tpl (p + 2) = '+' ∨ charAt tpl (p + 2) = '-')
    · simp only [hmark, if_true]
      refine RoughInv_close hinv e (p + 2 + 1) .RawText ?_ rfl (by omega) (by omega)
        (by omega) ?_ ?_
      · simp [FinishCurrentBlock_snd, hbe, hraw]
      · intro i h1 h2 _
        by_cases hi : i < p
        · exact Or.inr (hs2 i h1 hi)
        · by_cases hi2 : i = p
          · subst hi2; exact Or.inl hd1
          · by_cases hi3 : i = p + 1
            · subst hi3; exact Or.inl hd2
            · have : i = p + 2 := by omega
              subst this
              rcases hmark.2 with h | h <;> (rw [h]; exact Or.inl (by decide))
      · intro i h1 h2
        have : i = p + 2 := by omega
        subst this
        rcases hmark.2 with h | h <;> (rw [h]; exact ⟨by decide, fun hc => absurd hc (by decide)⟩)
    · simp only [hmark, if_false]
      refine RoughInv_close hinv e (p + 2) .RawText ?_ rfl (by omega) (by omega)
        (by omega) ?_ ?_
      · simp [FinishCurrentBlock_snd, hbe, hraw]
      · intro i h1 h2 _
        by_cases hi : i < p
        · exact Or.inr (hs2 i h1 hi)
        · by_cases hi2 : i = p
          · subst hi2; exact Or.inl hd1
          · have : i = p + 1 := by omega
            subst this
            exact Or.inl hd2
      · intro i h1 h2
        omega
  · have hne : (st.m_currentBlockInfo.type != TextBlockType.RawText) = true := by
      simpa using hraw
    simp only [hne, if_true]
    exact RoughInv_same hinv (by omega) rfl rfl

theorem RoughInv_closer {tpl : List Char} {st : ParserState} {p : Nat} (setts : Settings)
    (hinv : RoughInv tpl st p) (k : RoughMatchType) (hlt : p + 1 < tpl.length)
    (hm : delimiterOf (charAt tpl p) (charAt tpl (p + 1)) = some k) :
    RoughInv tpl (setBlockStart (FinishCurrentBlock tpl setts st p).2
      (FinishCurrentBlock tpl setts st p).1) (p + 2) := by
  obtain ⟨h1, h2⟩ := FinishCurrentBlock_fst_spec tpl setts st p
  exact RoughInv_finish setts hinv k hm _ _ rfl rfl h1
    (FinishCurrentBlock_fst_le tpl setts st p (by omega)) h2

theorem RoughInv_newline {tpl : List Char} {st : ParserState} {p : Nat} (setts : Settings)
    (hinv : RoughInv tpl st p) (hc : charAt tpl p = '\n') :
    RoughInv tpl (ParseRoughMatch tpl setts st ⟨.RM_NewLine, p⟩).1 (p + 1) := by
  simp only [ParseRoughMatch]
  split_ifs with h1 h2
  · -- a line statement ends at the newline
    have hty : st.m_currentBlockInfo.type = .LineStatement := by
      simpa [FinishCurrentLine] using h2
    obtain ⟨he1, he2⟩ := blockEnd_spec tpl .LineStatement p
    have hls : p + 1 < tpl.length := by simpa [FinishCurrentLine] using h1.1
    refine RoughInv_close hinv (blockEnd tpl .LineStatement p) (p + 1) .LineStatement
      ?_ ?_ ?_ (by omega) (by omega) ?_ ?_
    · simp [setBlockType, setBlockStart, FinishCurrentBlock_snd, FinishCurrentLine, hty]
    · simp [setBlockType, setBlockStart, FinishCurrentLine]
    · by_cases hle : st.m_currentBlockInfo.range.startOffset ≤ p
      · omega
      · have := (hinv.ahead p le_rfl (by omega)).2 hc
        omega
    · intro i hi1 hi2 _
      by_cases hi : i < p
      · exact Or.inl (he2 i hi1 hi)
      · have : i = p := by omega
        subst this
        rw [hc]
        exact Or.inl (by decide)
    · intro i hi1 hi2
      omega
  · exact RoughInv_same hinv (by omega) (by simp [setBlockType, FinishCurrentLine])
      (by simp [setBlockType, FinishCurrentLine])
  · exact RoughInv_same hinv (by omega) (by simp [FinishCurrentLine])
      (by simp [FinishCurrentLine])

theorem RoughInv_step {tpl : List Char} {st : ParserState} {p : Nat} (setts : Settings)
    (hinv : RoughInv tpl st p) (k : RoughMatchType) (hm : matchAt tpl p k) :
    RoughInv tpl (ParseRoughMatch tpl setts st ⟨k, p⟩).1 (p + matchWidth k) := by
  cases k with
  | RM_NewLine =>
    have hc : charAt tpl p = '\n' := by simpa [matchAt] using hm.2
    exact RoughInv_newline setts hinv hc
  | RM_ExprBegin =>
    have hd : delimiterOf (charAt tpl p) (charAt tpl (p + 1)) = some .RM_ExprBegin := by
      simpa [matchAt] using hm.2
    exact RoughInv_StartControlBlock setts .Expression hinv _ (by simpa [matchAt] using hm.1) hd
  | RM_StmtBegin =>
    have hd : delimiterOf (charAt tpl p) (charAt tpl (p + 1)) = some .RM_StmtBegin := by
      simpa [matchAt] using hm.2
    exact RoughInv_StartControlBlock setts .Statement hinv _ (by simpa [matchAt] using hm.1) hd
  | RM_ExprEnd =>
    have hd : delimiterOf (charAt tpl p) (charAt tpl (p + 1)) = some .RM_ExprEnd := by
      simpa [matchAt] using hm.2
    have hlt : p + 1 < tpl.length := by simpa [matchAt] using hm.1
    show RoughInv tpl (ParseRoughMatch tpl setts st _).1 (p + 2)
    simp only [ParseRoughMatch]
    split_ifs
    · exact RoughInv_same hinv (by omega) rfl rfl
    · exact RoughInv_same hinv (by omega) rfl rfl
    · exact RoughInv_closer setts hinv _ hlt hd
  | RM_StmtEnd =>
    have hd : delimiterOf (charAt tpl p) (charAt tpl (p + 1)) = some .RM_StmtEnd := by
      simpa [matchAt] using hm.2
    have hlt : p + 1 < tpl.length := by simpa [matchAt] using hm.1
    show RoughInv tpl (ParseRoughMatch tpl setts st _).1 (p + 2)
    simp only [ParseRoughMatch]
    split_ifs
    · exact RoughInv_same hinv (by omega) rfl rfl
    · exact RoughInv_same hinv (by omega) rfl rfl
    · exact RoughInv_closer setts hinv _ hlt hd
  | RM_CommentBegin =>
    have hd : delimiterOf (charAt tpl p) (charAt tpl (p + 1)) = some .RM_CommentBegin := by
      simpa [matchAt] using hm.2
    have hlt : p + 1 < tpl.length := by simpa [matchAt] using hm.1
    show RoughInv tpl (ParseRoughMatch tpl setts st _).1 (p + 2)
    simp only [ParseRoughMatch]
    split_ifs
    · exact RoughInv_same hinv (by omega) rfl rfl
    · exact RoughInv_finish setts hinv _ hd (p + 2) _ rfl rfl le_rfl (by omega)
        (fun i h1 h2 => by omega)
  | RM_CommentEnd =>
    have hd : delimiterOf (charAt tpl p) (charAt tpl (p + 1)) = some .RM_CommentEnd := by
      simpa [matchAt] using hm.2
    have hlt : p + 1 < tpl.length := by simpa [matchAt] using hm.1
    show RoughInv tpl (ParseRoughMatch tpl setts st _).1 (p + 2)
    simp only [ParseRoughMatch]
    split_ifs
    · exact RoughInv_same hinv (by omega) rfl rfl
    · exact RoughInv_finish setts hinv _ hd (p + 2) _ rfl rfl le_rfl (by omega)
        (fun i h1 h2 => by omega)

theorem roughLoop_single_fst (tpl : List Char) (setts : Settings)
    (acc : ParserState × List ParseError) (m : RoughMatch) :
    (roughLoop tpl setts acc [m]).1 = (ParseRoughMatch tpl setts acc.1 m).1 := by
  simp only [roughLoop, List.foldl]
  exact roughStep_fst tpl setts acc m

theorem RoughInv_loop (tpl : List Char) (setts : Settings) (p : Nat) (cs : List Char) :
    tpl.drop p = cs → ∀ acc : ParserState × List ParseError, RoughInv tpl acc.1 p →
      ∃ p', RoughInv tpl (roughLoop tpl setts acc (roughTokenizerFrom p cs)).1 p' := by
  induction p, cs using roughTokenizerFrom.induct with
  | case1 i =>
    intro _ acc hinv
    exact ⟨i, by simpa [roughTokenizerFrom, roughLoop] using hinv⟩
  | case2 i =>
    intro hd acc hinv
    obtain ⟨hc, _, hlt⟩ := drop_eq_cons hd
    have hm : matchAt tpl i .RM_NewLine := by simp [matchAt, hlt, hc]
    have := RoughInv_step setts hinv .RM_NewLine hm
    refine ⟨i + matchWidth .RM_NewLine, ?_⟩
    simp only [roughTokenizerFrom, if_true]
    rw [roughLoop_single_fst]
    exact this
  | case3 i c hc =>
    intro _ acc hinv
    exact ⟨i, by simpa [roughTokenizerFrom, roughLoop, hc] using hinv⟩
  | case4 i c d rest k hk ih =>
    intro hd acc hinv
    obtain ⟨hc, hd1, hlt⟩ := drop_eq_cons hd
    obtain ⟨hc2, hd2, hlt2⟩ := drop_eq_cons hd1
    have hkn := (delimiterOf_some_ne_newline hk).2.2
    have hm : matchAt tpl i k := by
      simp only [matchAt, hkn, if_false]
      exact ⟨hlt2, by rw [hc, hc2]; exact hk⟩
    have hstep := RoughInv_step setts hinv k hm
    have hw : matchWidth k = 2 := by simp [matchWidth, hkn]
    rw [hw] at hstep
    rw [roughTokenizerFrom, hk]
    simp only [roughLoop_cons]
    exact ih hd2 (roughStep tpl setts acc ⟨k, i⟩) (by rw [roughStep_fst]; exact hstep)
  | case5 i d rest hk ih =>
    intro hd acc hinv
    obtain ⟨hc, hd1, hlt⟩ := drop_eq_cons hd
    have hm : matchAt tpl i .RM_NewLine := by simp [matchAt, hlt, hc]
    have hstep := RoughInv_step setts hinv .RM_NewLine hm
    rw [roughTokenizerFrom, hk]
    simp only [if_true, roughLoop_cons]
    exact ih hd1 (roughStep tpl setts acc ⟨.RM_NewLine, i⟩) (by rw [roughStep_fst]; exact hstep)
  | case6 i c d rest hk hc ih =>
    intro hd acc hinv
    obtain ⟨_, hd1, _⟩ := drop_eq_cons hd
    rw [roughTokenizerFrom, hk]
    simp only [hc, if_false]
    exact ih hd1 acc (RoughInv_same hinv (by omega) rfl rfl)

theorem RoughInv_start (tpl : List Char) (setts : Settings) :
    RoughInv tpl (roughStart tpl setts) 0 := by
  refine ⟨?_, ?_, ?_, ?_, ?_⟩
  · intro i hi; simp [roughStart, ParserState.init] at hi
  · intro b hb; simp [roughStart, ParserState.init] at hb
  · simp [roughStart, ParserState.init]
  · intro i _ hi; simp [roughStart, ParserState.init] at hi
  · simp [roughStart, ParserState.init]

theorem roughBlocks_cover (tpl : List Char) (setts : Settings) :
    (∀ i, i < tpl.length →
      inBlocks (roughBlocks tpl setts) i ∨ isDelimiterChar (charAt tpl i) = true ∨
        isspace (charAt tpl i) = true) ∧
    (roughBlocks tpl setts).Pairwise (fun a b => a.range.endOffset ≤ b.range.startOffset) ∧
    (∀ b ∈ roughBlocks tpl setts, b.range.endOffset ≤ tpl.length) := by
  unfold roughBlocks DoRoughParsing
  by_cases hempty : (roughTokenizer tpl).isEmpty = true
  · simp only [hempty, if_true]
    refine ⟨fun i hi => Or.inl ⟨_, List.mem_singleton_self _, Nat.zero_le i, hi⟩,
      List.pairwise_singleton _ _, fun b hb => ?_⟩
    rw [List.mem_singleton.mp hb]
  · simp only [hempty]
    obtain ⟨p', hinv⟩ := RoughInv_loop tpl setts 0 tpl rfl (roughStart tpl setts, [])
      (RoughInv_start tpl setts)
    rw [← roughTokenizer] at hinv
    generalize roughLoop tpl setts (roughStart tpl setts, []) (roughTokenizer tpl) = r at hinv ⊢
    simp only [FinishCurrentBlock_snd, FinishCurrentLine, Bool.false_eq_true, if_false]
    obtain ⟨he1, he2⟩ := blockEnd_spec tpl r.1.m_currentBlockInfo.type tpl.length
    refine ⟨?_, ?_, ?_⟩
    · intro i hi
      by_cases hc : i < r.1.m_currentBlockInfo.range.startOffset
      · rcases hinv.covered i hc hi with h | h
        · exact Or.inl (inBlocks_append_left _ h)
        · exact Or.inr h
      · by_cases he : i < blockEnd tpl r.1.m_currentBlockInfo.type tpl.length
        · exact Or.inl ⟨_, List.mem_append_right _ (List.mem_singleton_self _),
            by simpa using Nat.le_of_not_lt hc, by simpa using he⟩
        · exact Or.inr (Or.inl (he2 i (by omega) hi))
    · rw [List.pairwise_append]
      refine ⟨hinv.ordered, List.pairwise_singleton _ _, fun a ha b hb => ?_⟩
      rw [List.mem_singleton.mp hb]
      exact hinv.ends_le a ha
    · intro b hb
      rcases List.mem_append.mp hb with hb | hb
      · exact le_trans (hinv.ends_le b hb) hinv.start_le
      · rw [List.mem_singleton.mp hb]; exact he1

/-! ## Left-strip -/

theorem stripLoop_least (tpl : List Char) : ∀ q : Nat,
    IsLeast {e | e ≤ q ∧ ∀ i, e ≤ i → i < q → isBlank (charAt tpl i) = true}
      (stripLoop tpl q) := by
  intro q
  induction q with
  | zero =>
    refine ⟨⟨le_rfl, fun i _ h => absurd h (Nat.not_lt_zero i)⟩, fun e _ => Nat.zero_le e⟩
  | succ q ih =>
    rw [stripLoop]
    by_cases hb : isBlank (charAt tpl q) = true
    · have hcond : (!isspace (charAt tpl q) || decide (charAt tpl q = '\n')) = false := by
        simp only [isBlank, Bool.and_eq_true, bne_iff_ne, ne_eq] at hb
        simp [hb.1, hb.2]
      simp only [hcond, Bool.false_eq_true, if_false]
      obtain ⟨⟨h1, h2⟩, h3⟩ := ih
      refine ⟨⟨by omega, fun i hi1 hi2 => ?_⟩, fun e he => ?_⟩
      · by_cases hi : i = q
        · subst hi; exact hb
        · exact h2 i hi1 (by omega)
      · obtain ⟨he1, he2⟩ := he
        by_cases heq : e = q + 1
        · omega
        · exact h3 ⟨by omega, fun i hi1 hi2 => he2 i hi1 (by omega)⟩
    · have hcond : (!isspace (charAt tpl q) || decide (charAt tpl q = '\n')) = true := by
        simp only [isBlank, Bool.and_eq_true, bne_iff_ne, ne_eq, not_and, not_not] at hb
        by_cases hs : isspace (charAt tpl q) = true
        · simp [hb hs]
        · simp [hs]
      simp only [hcond, if_true]
      refine ⟨⟨le_rfl, fun i hi1 hi2 => by omega⟩, fun e he => ?_⟩
      obtain ⟨he1, he2⟩ := he
      by_contra hlt
      exact hb (he2 q (by omega) (by omega))

theorem StripBlockLeft_eq (tpl : List Char) (setts : Settings) (cur : TextBlockInfo)
    (m : Nat) (hraw : cur.type = .RawText) :
    StripBlockLeft tpl setts cur (m + 2) m =
      if charAt tpl (m + 2) = '-' ∨
          (setts.lstripBlocks = true ∧ charAt tpl (m + 2) ≠ '+')
      then stripLoop tpl m else m := by
  unfold StripBlockLeft
  by_cases hlt : m + 2 < tpl.length
  · by_cases hp : charAt tpl (m + 2) = '+'
    · simp [hlt, hp, hraw]
    · by_cases hm : charAt tpl (m + 2) = '-'
      · simp [hlt, hm, hraw]
      · by_cases hl : setts.lstripBlocks = true <;> simp [hlt, hp, hm, hl, hraw]
  · have hz : charAt tpl (m + 2) = Char.ofNat 0 := by
      simp [charAt, List.getD_eq_getElem?_getD,
        List.getElem?_eq_none (Nat.le_of_not_lt hlt)]
    have hp : charAt tpl (m + 2) ≠ '+' := by rw [hz]; decide
    have hm : charAt tpl (m + 2) ≠ '-' := by rw [hz]; decide
    by_cases hl : setts.lstripBlocks = true <;> simp [hlt, hp, hm, hl, hraw]

/-- C11: when `{{` or `{%` at offset `m` opens a block from RawText, the RawText block that is
closed ends, if the character after the opener is `-` or `lstripBlocks` is on and that
character is not `+`, at the least offset `e <= m` with only whitespace other than the
newline in `[e, m)`; otherwise it ends at `m`. -/
theorem C11_left_strip (tpl : List Char) (setts : Settings) (st : ParserState)
    (k : RoughMatchType) (m : Nat) (hk : k = .RM_ExprBegin ∨ k = .RM_StmtBegin)
    (hraw : st.m_currentBlockInfo.type = .RawText) :
    ∃ e, (ParseRoughMatch tpl setts st ⟨k, m⟩).1.m_textBlocks =
        st.m_textBlocks ++ [⟨⟨st.m_currentBlockInfo.range.startOffset, e⟩, .RawText⟩] ∧
      ((charAt tpl (m + 2) = '-' ∨
          (setts.lstripBlocks = true ∧ charAt tpl (m + 2) ≠ '+')) →
        IsLeast {e | e ≤ m ∧ ∀ i, e ≤ i → i < m → isBlank (charAt tpl i) = true} e) ∧
      (¬ (charAt tpl (m + 2) = '-' ∨
          (setts.lstripBlocks = true ∧ charAt tpl (m + 2) ≠ '+')) → e = m) := by
  refine ⟨StripBlockLeft tpl setts st.m_currentBlockInfo (m + 2) m, ?_, ?_, ?_⟩
  · have hbe : ∀ e, blockEnd tpl .RawText e = e := fun e => by simp [blockEnd]
    rcases hk with rfl | rfl <;>
      simp [ParseRoughMatch, StartControlBlock, hraw, FinishCurrentBlock_snd, hbe]
  · intro hc
    rw [StripBlockLeft_eq tpl setts _ m hraw, if_pos hc]
    exact stripLoop_least tpl m
  · intro hc
    rw [StripBlockLeft_eq tpl setts _ m hraw, if_neg hc]

/-- C11 at the opener of `a  {{- x }}` (offset 3): the raw text `a` ends at offset 1. -/
theorem C11_left_strip_witness :
    (RoughMatchType.RM_ExprBegin = .RM_ExprBegin ∨
      RoughMatchType.RM_ExprBegin = .RM_StmtBegin) ∧
    ParserState.init.m_currentBlockInfo.type = .RawText ∧
    (∃ e, (ParseRoughMatch ("a  \x7b\x7b- x \x7d\x7d".toList) Settings.off ParserState.init
          ⟨.RM_ExprBegin, 3⟩).1.m_textBlocks =
        ParserState.init.m_textBlocks ++
          [⟨⟨ParserState.init.m_currentBlockInfo.range.startOffset, e⟩, .RawText⟩] ∧
      ((charAt ("a  \x7b\x7b- x \x7d\x7d".toList) (3 + 2) = '-' ∨
          (Settings.off.lstripBlocks = true ∧
            charAt ("a  \x7b\x7b- x \x7d\x7d".toList) (3 + 2) ≠ '+')) →
        IsLeast {e | e ≤ 3 ∧ ∀ i, e ≤ i → i < 3 →
          isBlank (charAt ("a  \x7b\x7b- x \x7d\x7d".toList) i) = true} e) ∧
      (¬ (charAt ("a  \x7b\x7b- x \x7d\x7d".toList) (3 + 2) = '-' ∨
          (Settings.off.lstripBlocks = true ∧
            charAt ("a  \x7b\x7b- x \x7d\x7d".toList) (3 + 2) ≠ '+')) → e = 3)) ∧
    (ParseRoughMatch ("a  \x7b\x7b- x \x7d\x7d".toList) Settings.off ParserState.init
      ⟨.RM_ExprBegin, 3⟩).1.m_textBlocks = [⟨⟨0, 1⟩, .RawText⟩] :=
  ⟨Or.inl rfl, rfl,
    C11_left_strip ("a  \x7b\x7b- x \x7d\x7d".toList) Settings.off ParserState.init
      .RM_ExprBegin 3 (Or.inl rfl) rfl, by decide⟩

/-! ## Line statements -/

theorem noLineStatement_finish (tpl : List Char) (setts : Settings) (st : ParserState)
    (p : Nat) (h : noLineStatement st) :
    noLineStatement (FinishCurrentBlock tpl setts st p).2 := by
  rw [FinishCurrentBlock_snd]
  refine ⟨by simp, fun b hb => ?_⟩
  rcases List.mem_append.mp hb with hb | hb
  · exact h.2 b hb
  · rw [List.mem_singleton.mp hb]; exact h.1

theorem noLineStatement_retype {st : ParserState} (h : noLineStatement st) (v : Nat)
    (ty : TextBlockType) (hty : ty ≠ .LineStatement) :
    noLineStatement (setBlockType (setBlockStart st v) ty) :=
  ⟨hty, h.2⟩

theorem noLineStatement_step (tpl : List Char) (setts : Settings)
    (hls : setts.useLineStatements = false) (st : ParserState) (m : RoughMatch)
    (h : noLineStatement st) : noLineStatement (ParseRoughMatch tpl setts st m).1 := by
  have hstart : ∀ ty, ty ≠ TextBlockType.LineStatement →
      noLineStatement (StartControlBlock tpl setts st ty m.position) := by
    intro ty hty
    unfold StartControlBlock
    split_ifs
    · exact h
    · exact ⟨hty, (noLineStatement_finish tpl setts st _ h).2⟩
  have hfin := noLineStatement_finish tpl setts st m.position h
  have hclose : noLineStatement (setBlockStart (FinishCurrentBlock tpl setts st m.position).2
      (FinishCurrentBlock tpl setts st m.position).1) := ⟨hfin.1, hfin.2⟩
  unfold ParseRoughMatch
  cases hty : m.type with
  | RM_NewLine =>
    simp only []
    have h1 : (FinishCurrentLine st m.position).m_currentBlockInfo.type ≠ .LineStatement := h.1
    split_ifs with hc
    · exact ⟨by simp [setBlockType, lineStartType, hls], h.2⟩
    · exact h
  | RM_ExprBegin => exact hstart _ (by decide)
  | RM_StmtBegin => exact hstart _ (by decide)
  | RM_ExprEnd =>
    simp only []
    split_ifs
    · exact h
    · exact h
    · exact hclose
  | RM_StmtEnd =>
    simp only []
    split_ifs
    · exact h
    · exact h
    · exact hclose
  | RM_CommentBegin =>
    simp only []
    split_ifs
    · exact h
    · exact ⟨by simp [setBlockType], hfin.2⟩
  | RM_CommentEnd =>
    simp only []
    split_ifs
    · exact h
    · exact ⟨hfin.1, hfin.2⟩

theorem noLineStatement_loop (tpl : List Char) (setts : Settings)
    (hls : setts.useLineStatements = false) :
    ∀ (ms : List RoughMatch) (acc : ParserState × List ParseError),
      noLineStatement acc.1 → noLineStatement (roughLoop tpl setts acc ms).1 := by
  intro ms
  induction ms with
  | nil => intro acc h; simpa [roughLoop] using h
  | cons m ms ih =>
    intro acc h
    rw [roughLoop_cons]
    apply ih
    rw [roughStep_fst]
    exact noLineStatement_step tpl setts hls acc.1 m h

/-- The loop branch of rough parsing emits no line statement when line statements are off. -/
theorem roughBlocks_no_line_statement (tpl : List Char) (setts : Settings)
    (hls : setts.useLineStatements = false) (hne : roughTokenizer tpl ≠ []) :
    ∀ b ∈ roughBlocks tpl setts, b.type ≠ .LineStatement := by
  have hempty : (roughTokenizer tpl).isEmpty = false := by
    cases h : roughTokenizer tpl with
    | nil => exact absurd h hne
    | cons a l => rfl
  have hstart : noLineStatement (roughStart tpl setts) :=
    ⟨by simp [roughStart, hls], by simp [roughStart, ParserState.init]⟩
  have hloop := noLineStatement_loop tpl setts hls (roughTokenizer tpl)
    (roughStart tpl setts, []) hstart
  unfold roughBlocks DoRoughParsing
  simp only [hempty, Bool.false_eq_true, if_false]
  exact (noLineStatement_finish tpl setts _ _ ⟨hloop.1, hloop.2⟩).2

/-- C12: with `useLineStatements` off, rough parsing of `#Hello` (no delimiter, no newline)
emits one LineStatement block, although on every template with at least one rough match no
block of that type is emitted. -/
theorem C12_line_statement_when_disabled :
    roughTokenizer ("#Hello".toList) = [] ∧
    (roughBlocks ("#Hello".toList) ⟨false, false, false⟩).map (·.type) = [.LineStatement] ∧
    (roughBlocks ("#Hello\n".toList) ⟨false, false, false⟩).map (·.type) = [.RawText] ∧
    (∀ (tpl : List Char) (setts : Settings), setts.useLineStatements = false →
      roughTokenizer tpl ≠ [] → ∀ b ∈ roughBlocks tpl setts, b.type ≠ .LineStatement) :=
  ⟨by decide, by decide, by decide, roughBlocks_no_line_statement⟩

/-- C13: with `useLineStatements` on, rough parsing of `abc`, newline, `#stmt`, newline, `xyz`
emits the LineStatement block `[0, 9)`, which begins with the raw text `abc` of the line
before instead of the `#` at offset 4, and no RawText block for `abc`; a line statement that
follows a line statement gets its own block from its `#` (second template). A line
statement whose newline ends the template keeps that newline in its block (third
template). -/
theorem C13_line_statement_swallows_raw_text :
    roughBlocks ("abc\n#stmt\nxyz".toList) ⟨true, false, false⟩ =
      [⟨⟨0, 9⟩, .LineStatement⟩, ⟨⟨10, 13⟩, .RawText⟩] ∧
    charAt ("abc\n#stmt\nxyz".toList) 4 = '#' ∧
    roughBlocks ("#a\n#b\nxyz".toList) ⟨true, false, false⟩ =
      [⟨⟨0, 2⟩, .LineStatement⟩, ⟨⟨3, 5⟩, .LineStatement⟩, ⟨⟨6, 9⟩, .RawText⟩] ∧
    roughBlocks ("#a\n".toList) ⟨true, false, false⟩ = [⟨⟨0, 3⟩, .LineStatement⟩] := by
  decide

/-! ## Source locations -/

theorem find?_first {α : Type} (p : α → Bool) : ∀ (ls : List α) (k : Nat) (l : α),
    ls[k]? = some l → p l = true →
    (∀ j l', j < k → ls[j]? = some l' → p l' = false) → ls.find? p = some l := by
  intro ls
  induction ls with
  | nil => intro k l h; simp at h
  | cons a as ih =>
    intro k l h hp hfirst
    cases k with
    | zero =>
      simp only [List.getElem?_cons_zero, Option.some.injEq] at h
      subst h
      simp [List.find?, hp]
    | succ k =>
      have ha : p a = false := hfirst 0 a (by omega) (by simp)
      simp only [List.find?, ha]
      exact ih k l (by simpa using h) hp
        (fun j l' hj hl' => hfirst (j + 1) l' (by omega) (by simpa using hl'))

theorem column_exact (o s : Nat) (h1 : s ≤ o) (h2 : o - s + 1 < 2 ^ 32) :
    ((o + 2 ^ 64 - s % 2 ^ 64 + 1) % 2 ^ 64) % 2 ^ 32 = o - s + 1 := by
  omega

/-- The line table of rough parsing of a template with fewer than `2^32` newlines is a line
table in the sense of `LineTable`. -/
theorem roughLines_lineTable (tpl : List Char) (setts : Settings)
    (hlines : (newlinePositionsFrom 0 tpl).length < 2 ^ 32) :
    LineTable (roughLines tpl setts) := by
  rw [roughLines_eq]
  have hlen := linesBetween_length tpl.length (newlinePositionsFrom 0 tpl) 0 0
  have hget : ∀ k l, (linesBetween tpl.length 0 0 (newlinePositionsFrom 0 tpl))[k]? = some l →
      k ≤ (newlinePositionsFrom 0 tpl).length ∧
      l = ⟨⟨if k = 0 then 0 else (newlinePositionsFrom 0 tpl).getD (k - 1) 0 + 1,
            if k < (newlinePositionsFrom 0 tpl).length then (newlinePositionsFrom 0 tpl).getD k 0
            else tpl.length⟩, k⟩ := by
    intro k l hk
    have hk' : k ≤ (newlinePositionsFrom 0 tpl).length := by
      have := (List.getElem?_eq_some_iff.mp hk).1
      omega
    rw [linesBetween_getElem? _ _ _ _ _ hk'] at hk
    refine ⟨hk', ?_⟩
    rw [← Option.some.inj hk]
    by_cases h0 : k = 0
    · simp [h0]
    · have hmod : (0 + k) % 2 ^ 32 = k := by
        rw [Nat.zero_add]
        exact Nat.mod_eq_of_lt (by omega)
      simp only [h0, if_false, hmod]
  refine ⟨?_, ?_, ?_⟩
  · intro h
    rw [h] at hlen
    simp at hlen
  · intro k l hk
    rw [(hget k l hk).2]
  · intro l hl
    obtain ⟨k, hk⟩ := List.mem_iff_getElem?.mp hl
    obtain ⟨hk', rfl⟩ := hget k l hk
    have hsorted := (newlinePositionsFrom_sorted tpl 0).1
    have hmem := fun j => newlinePositionsFrom_mem tpl j tpl 0 (by simp)
    simp only []
    by_cases h0 : k = 0
    · simp [h0]
    · have hk1 : k - 1 < (newlinePositionsFrom 0 tpl).length := by omega
      have hprev : (newlinePositionsFrom 0 tpl).getD (k - 1) 0 < tpl.length := by
        rw [List.getD_eq_getElem _ _ hk1]
        exact ((hmem _).mp (List.getElem_mem hk1)).2.1
      simp only [h0, if_false]
      split_ifs with hlt
      · rw [List.getD_eq_getElem _ _ hk1, List.getD_eq_getElem _ _ hlt]
        have := List.pairwise_iff_getElem.mp hsorted (k - 1) k hk1 hlt (by omega)
        omega
      · omega

theorem OffsetToLinePos_found (ls : List LineInfo) (o : Nat) (p : LineInfo)
    (h : ls.find? (fun info => decide (o ≥ info.range.startOffset) &&
      decide (o < info.range.endOffset)) = some p) :
    OffsetToLinePos ls o = some ((p.lineNumber + 1) % 2 ^ 32,
      ((o + 2 ^ 64 - p.range.startOffset % 2 ^ 64 + 1) % 2 ^ 64) % 2 ^ 32) := by
  simp only [OffsetToLinePos, h]

theorem OffsetToLinePos_not_found (ls : List LineInfo) (o : Nat) (last : LineInfo)
    (h : ∀ l ∈ ls, ¬ l.containsOffset o) (hlast : ls.getLast? = some last) :
    OffsetToLinePos ls o =
      if o ≠ last.range.endOffset then some (0, 0)
      else some ((last.lineNumber + 1) % 2 ^ 32,
        ((o + 2 ^ 64 - last.range.startOffset % 2 ^ 64 + 1) % 2 ^ 64) % 2 ^ 32) := by
  have hnone : ls.find? (fun info => decide (o ≥ info.range.startOffset) &&
      decide (o < info.range.endOffset)) = none := by
    rw [List.find?_eq_none]
    intro l hl hp
    apply h l hl
    simpa [LineInfo.containsOffset] using hp
  simp only [OffsetToLinePos, hnone, hlast]

theorem getLast?_index (ls : List LineInfo) (last : LineInfo) (h : ls.getLast? = some last) :
    ls[ls.length - 1]? = some last ∧ 0 < ls.length := by
  rw [List.getLast?_eq_getElem?] at h
  refine ⟨h, ?_⟩
  have := (List.getElem?_eq_some_iff.mp h).1
  omega

/-- C14 (amended): on a line table with fewer than `2^32` lines, each spanning fewer than
`2^32 - 1` characters, the resolver returns `(k + 1, o - start_k + 1)` for the first line `k`
whose range contains the offset `o`; when no line contains `o` it returns the last line's
number with `col = o - start_last + 1` if `o` is the last line's end offset, and the sentinel
`(0, 0)` otherwise; and whenever the returned line is at least 1, the start of line
`line - 1` plus `col - 1` is `o`. -/
theorem C14_offset_resolution_amended (ls : List LineInfo) (o : Nat) (hls : LineTable ls)
    (hlen : ls.length < 2 ^ 32)
    (hcol : ∀ l ∈ ls, l.range.endOffset - l.range.startOffset + 1 < 2 ^ 32) :
    (∀ (k : Nat) (l : LineInfo), ls[k]? = some l → l.containsOffset o →
      (∀ (j : Nat) (l' : LineInfo), j < k → ls[j]? = some l' → ¬ l'.containsOffset o) →
      OffsetToLinePos ls o = some (k + 1, o - l.range.startOffset + 1)) ∧
    (∀ last : LineInfo, ls.getLast? = some last → (∀ l ∈ ls, ¬ l.containsOffset o) →
      (o = last.range.endOffset →
        OffsetToLinePos ls o = some (ls.length, o - last.range.startOffset + 1)) ∧
      (o ≠ last.range.endOffset → OffsetToLinePos ls o = some (0, 0))) ∧
    (∀ line col : Nat, OffsetToLinePos ls o = some (line, col) → 1 ≤ line →
      ∃ l, ls[line - 1]? = some l ∧ l.range.startOffset + col - 1 = o) := by
  have hin : ∀ (k : Nat) (l : LineInfo), ls[k]? = some l → l.containsOffset o →
      ((l.lineNumber + 1) % 2 ^ 32,
        ((o + 2 ^ 64 - l.range.startOffset % 2 ^ 64 + 1) % 2 ^ 64) % 2 ^ 32) =
      (k + 1, o - l.range.startOffset + 1) := by
    intro k l hk hc
    have hkl := (List.getElem?_eq_some_iff.mp hk).1
    have hb := hcol l (List.mem_iff_getElem?.mpr ⟨k, hk⟩)
    rw [hls.numbered k l hk, column_exact o _ hc.1 (by have := hc.2; omega)]
    rw [Nat.mod_eq_of_lt (by omega)]
  have hend : ∀ (last : LineInfo), ls.getLast? = some last → o = last.range.endOffset →
      ((last.lineNumber + 1) % 2 ^ 32,
        ((o + 2 ^ 64 - last.range.startOffset % 2 ^ 64 + 1) % 2 ^ 64) % 2 ^ 32) =
      (ls.length, o - last.range.startOffset + 1) := by
    intro last hlast ho
    obtain ⟨hidx, hpos⟩ := getLast?_index ls last hlast
    have hmem : last ∈ ls := List.mem_iff_getElem?.mpr ⟨_, hidx⟩
    have hb := hcol last hmem
    have hord := hls.ordered last hmem
    rw [hls.numbered _ last hidx, column_exact o _ (by omega) (by omega)]
    rw [Nat.mod_eq_of_lt (by omega)]
    congr 1
    omega
  refine ⟨?_, ?_, ?_⟩
  · intro k l hk hc hfirst
    rw [OffsetToLinePos_found ls o l, hin k l hk hc]
    apply find?_first _ ls k l hk
    · simpa [LineInfo.containsOffset] using hc
    · intro j l' hj hl'
      have := hfirst j l' hj hl'
      simpa [LineInfo.containsOffset] using this
  · intro last hlast hnone
    rw [OffsetToLinePos_not_found ls o last hnone hlast]
    refine ⟨fun ho => ?_, fun ho => by simp [ho]⟩
    rw [if_neg (by simpa using ho), hend last hlast ho]
  · intro line col hres hline
    cases hfind : ls.find? (fun info => decide (o ≥ info.range.startOffset) &&
        decide (o < info.range.endOffset)) with
    | some p =>
      have hp : p.containsOffset o := by
        have := List.find?_some hfind
        simpa [LineInfo.containsOffset] using this
      obtain ⟨k, hk⟩ := List.mem_iff_getElem?.mp (List.mem_of_find?_eq_some hfind)
      rw [OffsetToLinePos_found ls o p hfind, hin k p hk hp] at hres
      simp only [Option.some.injEq, Prod.mk.injEq] at hres
      obtain ⟨rfl, rfl⟩ := hres
      refine ⟨p, by simpa using hk, ?_⟩
      have := hp.1
      omega
    | none =>
      have hnone : ∀ l ∈ ls, ¬ l.containsOffset o := by
        intro l hl hc
        have := List.find?_eq_none.mp hfind l hl
        apply this
        simpa [LineInfo.containsOffset] using hc
      obtain ⟨last, hlast⟩ : ∃ last, ls.getLast? = some last := by
        cases h : ls.getLast? with
        | none => exact absurd (List.getLast?_eq_none_iff.mp h) hls.nonempty
        | some last => exact ⟨last, rfl⟩
      rw [OffsetToLinePos_not_found ls o last hnone hlast] at hres
      split_ifs at hres with ho
      · simp only [Option.some.injEq, Prod.mk.injEq] at hres
        omega
      · have ho' : o = last.range.endOffset := by simpa using ho
        rw [hend last hlast ho'] at hres
        simp only [Option.some.injEq, Prod.mk.injEq] at hres
        obtain ⟨rfl, rfl⟩ := hres
        obtain ⟨hidx, _⟩ := getLast?_index ls last hlast
        refine ⟨last, hidx, ?_⟩
        have := hls.ordered last (List.mem_iff_getElem?.mpr ⟨_, hidx⟩)
        omega

/-- C14 at the line table of the template `ab`, newline, `cd`: offset 4 is on line 2,
column 2; offset 5, the end of the last line, is on line 2, column 3; offset 6 is unknown. -/
theorem C14_offset_resolution_amended_witness :
    LineTable (roughLines ("ab\ncd".toList) Settings.off) ∧
    (roughLines ("ab\ncd".toList) Settings.off).length < 2 ^ 32 ∧
    (∀ l ∈ roughLines ("ab\ncd".toList) Settings.off,
      l.range.endOffset - l.range.startOffset + 1 < 2 ^ 32) ∧
    OffsetToLinePos (roughLines ("ab\ncd".toList) Settings.off) 4 = some (2, 2) ∧
    OffsetToLinePos (roughLines ("ab\ncd".toList) Settings.off) 5 = some (2, 3) ∧
    OffsetToLinePos (roughLines ("ab\ncd".toList) Settings.off) 6 = some (0, 0) :=
  have h := C14_offset_resolution_amended (roughLines ("ab\ncd".toList) Settings.off) 4
    (roughLines_lineTable _ _ (by decide)) (by decide) (by decide)
  ⟨roughLines_lineTable _ _ (by decide), by decide, by decide,
    h.1 1 ⟨⟨3, 5⟩, 1⟩ (by decide) (by decide) (fun j l' hj hl' => by
      obtain rfl : j = 0 := by omega
      have h0 : (roughLines ("ab\ncd".toList) Settings.off)[0]? = some ⟨⟨0, 2⟩, 0⟩ := by decide
      obtain rfl : l' = ⟨⟨0, 2⟩, 0⟩ := Option.some.inj (hl'.symm.trans h0)
      decide), by decide, by decide⟩

/-- C14 as stated fails on a line of `2^32` characters: offset `2^32 - 1` lies in the only
line `[0, 2^32)`, the claim gives `(1, 2^32)`, the resolver returns column 0, and the start of
line 1 plus `col - 1` is not the offset. -/
theorem C14_counterexample :
    LineTable [⟨⟨0, 4294967296⟩, 0⟩] ∧
    (⟨⟨0, 4294967296⟩, 0⟩ : LineInfo).containsOffset 4294967295 ∧
    OffsetToLinePos [⟨⟨0, 4294967296⟩, 0⟩] 4294967295 = some (1, 0) ∧
    OffsetToLinePos [⟨⟨0, 4294967296⟩, 0⟩] 4294967295 ≠ some (0 + 1, 4294967295 - 0 + 1) ∧
    0 + 0 - 1 ≠ 4294967295 := by
  refine ⟨⟨by simp, ?_, by simp⟩, by decide, by decide, by decide, by decide⟩
  intro k l h
  cases k with
  | zero => simp at h; rw [← h]
  | succ k => simp at h

theorem toInt_small (n : Nat) (h : n < 2 ^ 31) : toInt n = (n : Int) := by
  unfold toInt
  have h1 : n % 2 ^ 32 = n := Nat.mod_eq_of_lt (by omega)
  rw [h1, if_pos h]

theorem toInt_large (n : Nat) (h1 : 2 ^ 31 ≤ n) (h2 : n < 2 ^ 32) : toInt n < 0 := by
  unfold toInt
  have h3 : n % 2 ^ 32 = n := Nat.mod_eq_of_lt h2
  rw [h3, if_neg (by omega)]
  omega

/-- The descriptor of `GetLocationDescr` once the line is found and the text is in range. -/
theorem GetLocationDescr_line (tpl : List Char) (ls : List LineInfo) (line col : Nat)
    (l : LineInfo) (hline : 1 ≤ line) (hcol : 1 ≤ col) (hline32 : line < 2 ^ 32)
    (hcol32 : col < 2 ^ 32) (hl : ls[line - 1]? = some l)
    (hstart : l.range.startOffset ≤ tpl.length) :
    GetLocationDescr tpl ls line col =
      if col - 1 < ((lineText tpl l).takeWhile isspace).length then
        some (lineText tpl l ++ ['\n'] ++ List.replicate (col - 1) ' ' ++ ['^'] ++
          List.replicate 7 '-')
      else
        some (lineText tpl l ++ ['\n'] ++ (lineText tpl l).takeWhile isspace ++
          (if min (toInt (col - 1 - ((lineText tpl l).takeWhile isspace).length)) 3 = 3 then
            List.replicate (col - 1 - 3 - ((lineText tpl l).takeWhile isspace).length) ' '
           else []) ++
          List.replicate
            (min (toInt (col - 1 - ((lineText tpl l).takeWhile isspace).length)) 3).toNat '-' ++
          ['^'] ++ List.replicate 7 '-') := by
  have h1 : (line + 2 ^ 32 - 1) % 2 ^ 32 = line - 1 := by omega
  have h2 : (col + 2 ^ 32 - 1) % 2 ^ 32 = col - 1 := by omega
  have h3 : ¬ (line = 0 ∧ col = 0) := by omega
  have h4 : ¬ l.range.startOffset > tpl.length := by omega
  simp only [GetLocationDescr, h1, h2, if_neg h3, hl, if_neg h4, lineText]
/-- C15 (amended): for a location with `line >= 1` and `col >= 1` on a line of the table,
whose 0-based column `c = col - 1` is at or beyond the length `p` of the line's leading
whitespace and less than `2^31` beyond it, the descriptor is the source line, a newline, the
line's own leading whitespace, `c - p - 3` spaces (none when `c - p < 3`), `min (c - p) 3`
dashes, one caret and 7 dashes; for the unknown location `(0, 0)` the descriptor is empty. -/
theorem C15_caret_snippet_amended (tpl : List Char) (ls : List LineInfo) (line col : Nat)
    (l : LineInfo) (hline : 1 ≤ line) (hcol : 1 ≤ col) (hline32 : line < 2 ^ 32)
    (hcol32 : col < 2 ^ 32) (hl : ls[line - 1]? = some l)
    (hstart : l.range.startOffset ≤ tpl.length)
    (hp : ((lineText tpl l).takeWhile isspace).length ≤ col - 1)
    (hsmall : col - 1 - ((lineText tpl l).takeWhile isspace).length < 2 ^ 31) :
    GetLocationDescr tpl ls line col = some (caretSnippet (lineText tpl l) (col - 1)) ∧
    GetLocationDescr tpl ls 0 0 = some [] := by
  refine ⟨?_, by simp [GetLocationDescr]⟩
  rw [GetLocationDescr_line tpl ls line col l hline hcol hline32 hcol32 hl hstart,
    if_neg (by omega), toInt_small _ hsmall]
  simp only [caretSnippet]
  generalize ((lineText tpl l).takeWhile isspace).length = p at hp hsmall ⊢
  have hmin : min ((col - 1 - p : Nat) : Int) 3 = ((min (col - 1 - p) 3 : Nat) : Int) := by
    omega
  simp only [hmin, Int.toNat_ofNat]
  by_cases h3 : 3 ≤ col - 1 - p
  · have e1 : min (col - 1 - p) 3 = 3 := by omega
    have e2 : col - 1 - 3 - p = col - 1 - p - 3 := by omega
    simp [e1, e2]
  · have e1 : ((min (col - 1 - p) 3 : Nat) : Int) ≠ 3 := by omega
    have e2 : col - 1 - p - 3 = 0 := by omega
    simp [e1, e2, h3]

/-- C15 at the diagnostic of the template `Hello World!`, newline, four blanks, `{% if %}`:
line 2, column 11. -/
theorem C15_caret_snippet_amended_witness :
    (roughLines ("Hello World!\n    \x7b% if %\x7d".toList) Settings.off)[2 - 1]? =
      some ⟨⟨13, 25⟩, 1⟩ ∧
    ((lineText ("Hello World!\n    \x7b% if %\x7d".toList) ⟨⟨13, 25⟩, 1⟩).takeWhile
      isspace).length = 4 ∧
    GetLocationDescr ("Hello World!\n    \x7b% if %\x7d".toList)
      (roughLines ("Hello World!\n    \x7b% if %\x7d".toList) Settings.off) 2 11 =
      some ("    \x7b% if %\x7d\n       ---^-------".toList) :=
  ⟨by decide, by decide,
    (C15_caret_snippet_amended ("Hello World!\n    \x7b% if %\x7d".toList)
      (roughLines ("Hello World!\n    \x7b% if %\x7d".toList) Settings.off) 2 11
      ⟨⟨13, 25⟩, 1⟩ (by decide) (by decide) (by decide) (by decide) (by decide) (by decide)
      (by decide) (by decide)).1.trans (by decide)⟩
theorem roughLines_replicate (n : Nat) (setts : Settings) :
    roughLines (List.replicate n 'x') setts = [⟨⟨0, n⟩, 0⟩] := by
  have h : newlinePositionsFrom 0 (List.replicate n 'x') = [] := by
    rw [newlinePositionsFrom_eq_nil]
    intro hmem
    exact absurd (List.eq_of_mem_replicate hmem) (by decide)
  rw [roughLines_eq, h]
  simp [linesBetween]

theorem lineText_replicate (n : Nat) (h : n < 2 ^ 64) :
    lineText (List.replicate n 'x') ⟨⟨0, n⟩, 0⟩ = List.replicate n 'x' := by
  have hs : (⟨0, n⟩ : CharRange).size = n := by
    simp only [CharRange.size]
    omega
  simp only [lineText, hs, List.drop_zero]
  rw [List.take_of_length_le (by simp)]

theorem takeWhile_isspace_replicate (n : Nat) :
    (List.replicate n 'x').takeWhile isspace = [] := by
  cases n with
  | zero => rfl
  | succ n =>
    rw [List.replicate_succ, List.takeWhile_cons]
    have : isspace 'x' = false := by decide
    simp [this]

/-- The descriptor for the last column of a line of `n` characters `x`, `2^31 < n < 2^32`:
no dash precedes the caret, and the descriptor is not the one the spec gives. -/
theorem GetLocationDescr_long_line (n c : Nat) (hc : n = c + 1) (h1 : 2 ^ 31 ≤ c)
    (h2 : n < 2 ^ 32) (setts : Settings) :
    OffsetToLinePos (roughLines (List.replicate n 'x') setts) c = some (1, n) ∧
    GetLocationDescr (List.replicate n 'x') (roughLines (List.replicate n 'x') setts) 1 n =
      some (List.replicate n 'x' ++ ['\n'] ++ ['^'] ++ List.replicate 7 '-') ∧
    GetLocationDescr (List.replicate n 'x') (roughLines (List.replicate n 'x') setts) 1 n ≠
      some (caretSnippet (lineText (List.replicate n 'x') ⟨⟨0, n⟩, 0⟩) c) := by
  have hdescr : GetLocationDescr (List.replicate n 'x')
      (roughLines (List.replicate n 'x') setts) 1 n =
      some (List.replicate n 'x' ++ ['\n'] ++ ['^'] ++ List.replicate 7 '-') := by
    rw [roughLines_replicate,
      GetLocationDescr_line _ _ 1 n ⟨⟨0, n⟩, 0⟩ le_rfl (by omega) (by omega) h2 rfl
        (Nat.zero_le _),
      lineText_replicate n (by omega), takeWhile_isspace_replicate]
    have hneg : toInt (n - 1 - ([] : List Char).length) < 0 :=
      toInt_large _ (by simp; omega) (by simp; omega)
    have hmin : min (toInt (n - 1 - ([] : List Char).length)) 3 =
        toInt (n - 1 - ([] : List Char).length) := by omega
    have hne : toInt (n - 1 - ([] : List Char).length) ≠ 3 := by omega
    have hz : (toInt (n - 1 - ([] : List Char).length)).toNat = 0 := by omega
    rw [if_neg (by simp), hmin, if_neg hne, hz]
    simp
  refine ⟨?_, hdescr, ?_⟩
  · rw [roughLines_replicate]
    have hfind : [(⟨⟨0, n⟩, 0⟩ : LineInfo)].find? (fun info =>
        decide (c ≥ info.range.startOffset) && decide (c < info.range.endOffset)) =
        some ⟨⟨0, n⟩, 0⟩ := by
      have hlt : decide (c < n) = true := decide_eq_true (by omega)
      simp [List.find?, hlt]
    rw [OffsetToLinePos_found _ _ _ hfind]
    simp only [Option.some.injEq, Prod.mk.injEq]
    constructor <;> omega
  · rw [hdescr, lineText_replicate n (by omega)]
    intro h
    have hlen := congrArg List.length (Option.some.inj h)
    simp only [caretSnippet, takeWhile_isspace_replicate, List.length_append,
      List.length_replicate, List.length_cons, List.length_nil] at hlen
    omega

/-- C15 as stated fails on a line of `2^31 + 1` characters: the offset `2^31` resolves to
line 1, column `2^31 + 1`, no whitespace leads the line, and the descriptor has no dash before
the caret where the claim gives three. -/
theorem C15_counterexample :
    OffsetToLinePos (roughLines (List.replicate 2147483649 'x') Settings.off) 2147483648 =
      some (1, 2147483649) ∧
    GetLocationDescr (List.replicate 2147483649 'x')
      (roughLines (List.replicate 2147483649 'x') Settings.off) 1 2147483649 =
      some (List.replicate 2147483649 'x' ++ ['\n'] ++ ['^'] ++ List.replicate 7 '-') ∧
    GetLocationDescr (List.replicate 2147483649 'x')
      (roughLines (List.replicate 2147483649 'x') Settings.off) 1 2147483649 ≠
      some (caretSnippet (lineText (List.replicate 2147483649 'x') ⟨⟨0, 2147483649⟩, 0⟩)
        2147483648) :=
  GetLocationDescr_long_line 2147483649 2147483648 (by norm_num) (by norm_num) (by norm_num)
    Settings.off
/-- Within the leading whitespace of the line the snippet line is `col - 1` blanks, whatever
the indentation characters are, then the caret and 7 dashes. -/
theorem GetLocationDescr_in_indentation (tpl : List Char) (ls : List LineInfo) (line col : Nat)
    (l : LineInfo) (hline : 1 ≤ line) (hcol : 1 ≤ col) (hline32 : line < 2 ^ 32)
    (hcol32 : col < 2 ^ 32) (hl : ls[line - 1]? = some l)
    (hstart : l.range.startOffset ≤ tpl.length)
    (hp : col - 1 < ((lineText tpl l).takeWhile isspace).length) :
    GetLocationDescr tpl ls line col =
      some (lineText tpl l ++ ['\n'] ++ List.replicate (col - 1) ' ' ++ ['^'] ++
        List.replicate 7 '-') := by
  rw [GetLocationDescr_line tpl ls line col l hline hcol hline32 hcol32 hl hstart, if_pos hp]

/-- C16: for the template tab, tab, `x`, the location line 1, column 2 lies within the leading
whitespace; the snippet line is a blank, the caret and 7 dashes, not the tab that precedes the
column. At column 3, the first column after the whitespace, the branch that copies the prefix
keeps both tabs. -/
theorem C16_indentation_not_preserved :
    (roughLines ("\t\tx".toList) Settings.off)[1 - 1]? = some ⟨⟨0, 3⟩, 0⟩ ∧
    ((lineText ("\t\tx".toList) ⟨⟨0, 3⟩, 0⟩).takeWhile isspace) = ['\t', '\t'] ∧
    GetLocationDescr ("\t\tx".toList) (roughLines ("\t\tx".toList) Settings.off) 1 2 =
      some ("\t\tx\n ^-------".toList) ∧
    GetLocationDescr ("\t\tx".toList) (roughLines ("\t\tx".toList) Settings.off) 1 2 ≠
      some ("\t\tx\n\t^-------".toList) ∧
    GetLocationDescr ("\t\tx".toList) (roughLines ("\t\tx".toList) Settings.off) 1 3 =
      some ("\t\tx\n\t\t^-------".toList) := by
  decide

/-! ## Runtime: the for statement -/

theorem updateAt_length {α : Type} (g : α → α) : ∀ (l : List α) (i : Nat),
    (updateAt g l i).length = l.length
  | [], _ => rfl
  | _ :: _, 0 => rfl
  | a :: as, i + 1 => by simp [updateAt, updateAt_length g as i]

theorem updateAt_getElem? {α : Type} (g : α → α) : ∀ (l : List α) (i j : Nat),
    (updateAt g l i)[j]? = if j = i then l[j]?.map g else l[j]?
  | [], _, _ => by simp [updateAt]
  | a :: as, 0, 0 => by simp [updateAt]
  | a :: as, 0, j + 1 => by simp [updateAt]
  | a :: as, i + 1, 0 => by simp [updateAt]
  | a :: as, i + 1, j + 1 => by simp [updateAt, updateAt_getElem? g as i j]

theorem updateAt_updateAt {α : Type} (g h : α → α) : ∀ (l : List α) (i : Nat),
    updateAt g (updateAt h l i) i = updateAt (fun a => g (h a)) l i
  | [], _ => rfl
  | _ :: _, 0 => rfl
  | a :: as, i + 1 => by simp [updateAt, updateAt_updateAt g h as i]

theorem updateAt_append_last {α : Type} (g : α → α) (a : α) : ∀ (l : List α),
    updateAt g (l ++ [a]) l.length = l ++ [g a]
  | [] => rfl
  | b :: l => by simp [updateAt, updateAt_append_last g a l]

/-- The binding of the loop variables rewrites one scope, by `bindScope`. -/
theorem bindLoopVars_eq (ops : ValueOps) (m_vars : List String) (scope : Nat)
    (x : InternalValue) (values : RenderContext) :
    bindLoopVars ops m_vars scope x values =
      { values with scopes := updateAt (bindScope ops m_vars x) values.scopes scope } := by
  have hfold : ∀ (l : List String) (v : RenderContext),
      l.foldl (fun ctx varName => ctx.assign scope varName (ops.Subscript x varName)) v =
      { v with scopes := (updateAt
          (fun m k => if k ∈ l then some (ops.Subscript x k) else m k) v.scopes scope) } := by
    intro l
    induction l with
    | nil =>
      intro v
      have hid : ∀ (s : List InternalValueMap) (i : Nat),
          updateAt (fun (m : InternalValueMap) k => m k) s i = s := by
        intro s
        induction s with
        | nil => intro i; rfl
        | cons a s ih => intro i; cases i <;> simp [updateAt, ih]
      simp [hid]
    | cons a l ih =>
      intro v
      rw [List.foldl_cons, ih]
      simp only [RenderContext.assign, updateAt_updateAt]
      congr 2
      funext m k
      by_cases hk : k ∈ l
      · simp [hk]
      · by_cases hka : k = a
        · simp [hk, hka, mapSet]
        · simp [hk, hka, mapSet]
  unfold bindLoopVars bindScope
  split_ifs with h
  · rw [hfold]
  · cases hv : m_vars.head? with
    | none =>
      have hid : ∀ (s : List InternalValueMap) (i : Nat),
          updateAt (fun (m : InternalValueMap) => m) s i = s := by
        intro s
        induction s with
        | nil => intro i; rfl
        | cons a s ih => intro i; cases i <;> simp [updateAt, ih]
      simp [hid]
    | some v => simp [RenderContext.assign]

theorem bindScope_idem (ops : ValueOps) (m_vars : List String) (x y : InternalValue)
    (m : InternalValueMap) :
    bindScope ops m_vars x (bindScope ops m_vars y m) = bindScope ops m_vars x m := by
  unfold bindScope
  split_ifs with h
  · funext k
    by_cases hk : k ∈ m_vars <;> simp [hk]
  · cases hv : m_vars.head? with
    | none => rfl
    | some v =>
      funext k
      by_cases hk : k = v <;> simp [mapSet, hk]

theorem bindLoopVars_idem (ops : ValueOps) (m_vars : List String) (scope : Nat)
    (x y : InternalValue) (values : RenderContext) :
    bindLoopVars ops m_vars scope x (bindLoopVars ops m_vars scope y values) =
      bindLoopVars ops m_vars scope x values := by
  simp only [bindLoopVars_eq, updateAt_updateAt, bindScope_idem]

theorem bindLoopVars_exit (ops : ValueOps) (m_vars : List String) (x : InternalValue)
    (values : RenderContext) :
    (bindLoopVars ops m_vars values.scopes.length x values.EnterScope).ExitScope = values := by
  simp only [bindLoopVars_eq, RenderContext.EnterScope, RenderContext.ExitScope,
    updateAt_append_last, List.dropLast_concat]
/-- The filter loop: the kept items are the source items whose filter is truthy in the
temporary scope that binds the loop variables to the item alone; every source item gives one
evaluation, in order. -/
theorem filter_fold (ops : ValueOps) (m_vars : List String) (ifExpr : Expression) (t : Nat)
    (base : RenderContext) :
    ∀ (items : List InternalValue) (acc : List InternalValue × RenderState),
      (∀ x, bindLoopVars ops m_vars t x acc.2.values = bindLoopVars ops m_vars t x base) →
      items.foldl (filterStep ops m_vars ifExpr t) acc =
        (acc.1 ++ items.filter
            (fun x => ops.ConvertToBool (ifExpr (bindLoopVars ops m_vars t x base))),
          { os := acc.2.os
            values :=
              match items.getLast? with
              | none => acc.2.values
              | some x => bindLoopVars ops m_vars t x base
            calls := acc.2.calls ++
              items.map (fun x => (Callee.Filter, bindLoopVars ops m_vars t x base)) }) := by
  intro items
  induction items with
  | nil => intro acc _; simp
  | cons x xs ih =>
    intro acc hacc
    rw [List.foldl_cons]
    have hstep : filterStep ops m_vars ifExpr t acc x =
        (if ops.ConvertToBool (ifExpr (bindLoopVars ops m_vars t x base)) then acc.1 ++ [x]
          else acc.1,
          { os := acc.2.os
            values := bindLoopVars ops m_vars t x base
            calls := acc.2.calls ++ [(Callee.Filter, bindLoopVars ops m_vars t x base)] }) := by
      simp only [filterStep, callEvaluate, hacc x]
      split_ifs <;> rfl
    rw [hstep, ih _ (fun y => bindLoopVars_idem ops m_vars t y x base)]
    have hlast : (match xs.getLast? with
        | none => bindLoopVars ops m_vars t x base
        | some y => bindLoopVars ops m_vars t y base) =
        (match (x :: xs).getLast? with
        | none => acc.2.values
        | some y => bindLoopVars ops m_vars t y base) := by
      cases xs with
      | nil => rfl
      | cons y ys =>
        rw [List.getLast?_cons_cons]
        cases h : (y :: ys).getLast? with
        | none => simp at h
        | some z => rfl
    simp only [hlast, List.filter_cons, List.map_cons]
    split_ifs <;> simp
theorem loopStep_eq (ops : ValueOps) (f : ForStatement) (d c : Nat)
    (items : List InternalValue) (acc : Bool × RenderState) (k : Nat) :
    loopStep ops f d c items acc k =
      (true, callRenderer .MainBody f.m_mainBody
        { acc.2 with values := roundContext ops f.m_vars d c items k acc.2.values }) := by
  unfold roundContext roundCell
  simp only [loopStep, bindLoopVars_eq, RenderContext.cellSet, RenderContext.cellErase]
  by_cases h1 : (k : Int) ≠ (items.length : Int) - 1 <;> by_cases h2 : k ≠ 0
  · simp only [if_pos h1, if_pos h2, updateAt_updateAt]
  · simp only [if_pos h1, if_neg h2, updateAt_updateAt]
  · simp only [if_neg h1, if_pos h2, updateAt_updateAt]
  · simp only [if_neg h1, if_neg h2, updateAt_updateAt]

/-- The context of round `k` is as `LoopRound` says, when the loop scope is the current scope
and the loop object holds the length and, before round 0, no `previtem`. -/
theorem roundContext_round (ops : ValueOps) (m_vars : List String) (d c : Nat)
    (items : List InternalValue) (values : RenderContext) (k : Nat) (hk : k < items.length)
    (hd : values.scopes.length = d + 1)
    (hc : ∃ lv, values.cells[c]? = some lv ∧
      lv "length" = some (.int items.length) ∧ (k = 0 → lv "previtem" = none)) :
    LoopRound ops m_vars d c items k (roundContext ops m_vars d c items k values) := by
  obtain ⟨lv, hlv, hlen, hprev⟩ := hc
  obtain ⟨scope, hscope⟩ : ∃ scope, values.scopes[d]? = some scope := by
    have hlt : d < values.scopes.length := by omega
    exact ⟨_, List.getElem?_eq_getElem hlt⟩
  have hitem : items[k]? = some (items.getD k .empty) := by
    rw [List.getD_eq_getElem?_getD, List.getElem?_eq_getElem hk]
    rfl
  refine ⟨?_, ?_, ?_⟩
  · simp only [roundContext, updateAt_length, hd]
  · refine ⟨bindScope ops m_vars (items.getD k .empty) scope, items.getD k .empty, ?_, hitem,
      ?_, ?_⟩
    · simp [roundContext, updateAt_getElem?, hscope]
    · intro v hv
      simp [bindScope, hv, mapSet]
    · intro hl v hv
      simp [bindScope, hl, hv]
  · refine ⟨roundCell items k lv, ?_, ?_⟩
    · simp [roundContext, updateAt_getElem?, hlv]
    · have hnext : (k : Int) ≠ (items.length : Int) - 1 →
          some (items.getD (k + 1) .empty) = items[k + 1]? := by
        intro h
        have hlt : k + 1 < items.length := by omega
        rw [List.getD_eq_getElem?_getD, List.getElem?_eq_getElem hlt]
        rfl
      have hlast : ¬ (k : Int) ≠ (items.length : Int) - 1 → none = items[k + 1]? := by
        intro h
        exact (List.getElem?_eq_none (by omega)).symm
      have hpre : k ≠ 0 → some (items.getD (k - 1) .empty) = items[k - 1]? := by
        intro h
        have hlt : k - 1 < items.length := by omega
        rw [List.getD_eq_getElem?_getD, List.getElem?_eq_getElem hlt]
        rfl
      have hfirstb : (k == 0) = decide (k = 0) := by
        by_cases h : k = 0 <;> simp [h]
      have hlastb : ((k : Int) == (items.length : Int) - 1) = decide (k + 1 = items.length) := by
        by_cases h : k + 1 = items.length
        · have h2 : (k : Int) = (items.length : Int) - 1 := by omega
          simp [h, h2]
        · have h2 : ¬ (k : Int) = (items.length : Int) - 1 := by omega
          simp [h, h2]
      unfold roundCell
      by_cases h0 : k ≠ 0 <;> by_cases hn : (k : Int) ≠ (items.length : Int) - 1
      · simp only [if_pos h0, if_pos hn, hfirstb, hlastb, ← hnext hn, ← hpre h0]
        refine ⟨?_, ?_, ?_, ?_, ?_, ?_, ?_⟩ <;> simp [mapSet, hlen, h0]
      · simp only [if_pos h0, if_neg hn, hfirstb, hlastb, ← hlast hn, ← hpre h0]
        refine ⟨?_, ?_, ?_, ?_, ?_, ?_, ?_⟩ <;> simp [mapSet, mapErase, hlen, h0]
      · have h0' : k = 0 := by omega
        simp only [if_neg h0, if_pos hn, hfirstb, hlastb, ← hnext hn, if_pos h0']
        refine ⟨?_, ?_, ?_, ?_, ?_, ?_, ?_⟩ <;> simp [mapSet, hlen, hprev h0']
      · have h0' : k = 0 := by omega
        simp only [if_neg h0, if_neg hn, hfirstb, hlastb, ← hlast hn, if_pos h0']
        refine ⟨?_, ?_, ?_, ?_, ?_, ?_, ?_⟩ <;> simp [mapSet, mapErase, hlen, hprev h0']
/-- The main loop makes one call to the main body per index, and `loopRendered` is set exactly
when there is an index. -/
theorem mainLoop_calls (ops : ValueOps) (f : ForStatement) (d c : Nat)
    (items : List InternalValue) :
    ∀ (l : List Nat) (acc : Bool × RenderState),
      ∃ rounds : List RenderContext,
        (l.foldl (loopStep ops f d c items) acc).2.calls =
          acc.2.calls ++ rounds.map (fun ctx => (Callee.MainBody, ctx)) ∧
        rounds.length = l.length ∧
        (l.foldl (loopStep ops f d c items) acc).1 = (acc.1 || !l.isEmpty) ∧
        (l = [] → l.foldl (loopStep ops f d c items) acc = acc) := by
  intro l
  induction l with
  | nil => intro acc; exact ⟨[], by simp, rfl, by simp, fun _ => rfl⟩
  | cons k l ih =>
    intro acc
    obtain ⟨rounds, h1, h2, h3, _⟩ := ih (loopStep ops f d c items acc k)
    refine ⟨roundContext ops f.m_vars d c items k acc.2.values :: rounds, ?_, ?_, ?_, ?_⟩
    · rw [List.foldl_cons, h1, loopStep_eq]
      simp [callRenderer]
    · simp [h2]
    · rw [List.foldl_cons, h3, loopStep_eq]
      simp
    · intro h
      exact absurd h (by simp)

/-- The rounds of the main loop from index `s` on, for a body that keeps the scope depth and
does not write to the loop object; a property `P` of contexts that the rounds and the body
keep holds in every round. -/
theorem mainLoop_rounds (ops : ValueOps) (f : ForStatement) (d c : Nat)
    (items : List InternalValue)
    (hdepth : ∀ ctx, (f.m_mainBody ctx).2.scopes.length = ctx.scopes.length)
    (hcell : ∀ ctx, (f.m_mainBody ctx).2.cells[c]? = ctx.cells[c]?)
    (P : RenderContext → Prop)
    (hround : ∀ k ctx, P ctx → P (roundContext ops f.m_vars d c items k ctx))
    (hbody : ∀ ctx, P ctx → P (f.m_mainBody ctx).2) :
    ∀ (m s : Nat) (acc : Bool × RenderState), s + m = items.length →
      acc.2.values.scopes.length = d + 1 →
      (∃ lv, acc.2.values.cells[c]? = some lv ∧
        lv "length" = some (.int items.length) ∧ (s = 0 → lv "previtem" = none)) →
      P acc.2.values →
      ∃ rounds : List RenderContext,
        ((List.range' s m).foldl (loopStep ops f d c items) acc).2.calls =
          acc.2.calls ++ rounds.map (fun ctx => (Callee.MainBody, ctx)) ∧
        rounds.length = m ∧
        ∀ j, j < m → ∃ ctx, rounds[j]? = some ctx ∧
          LoopRound ops f.m_vars d c items (s + j) ctx ∧ P ctx := by
  intro m
  induction m with
  | zero => intro s acc _ _ _ _; exact ⟨[], by simp, rfl, fun j hj => absurd hj (by omega)⟩
  | succ m ih =>
    intro s acc hs hd hc hP
    have hround' := roundContext_round ops f.m_vars d c items acc.2.values s (by omega) hd hc
    obtain ⟨lv, hlv, hlen, _⟩ := hround'.loop
    obtain ⟨rounds, h1, h2, h3⟩ := ih (s + 1) (loopStep ops f d c items acc s) (by omega)
      (by rw [loopStep_eq]; simp only [callRenderer]; rw [hdepth]; exact hround'.depth)
      ⟨lv, by rw [loopStep_eq]; simp only [callRenderer]; rw [hcell]; exact hlv, hlen,
        fun h => absurd h (by omega)⟩
      (by rw [loopStep_eq]; simp only [callRenderer]; exact hbody _ (hround s _ hP))
    refine ⟨roundContext ops f.m_vars d c items s acc.2.values :: rounds, ?_, ?_, ?_⟩
    · rw [List.range'_succ, List.foldl_cons, h1, loopStep_eq]
      simp [callRenderer]
    · simp [h2]
    · intro j hj
      cases j with
      | zero => exact ⟨_, List.getElem?_cons_zero, hround', hround s _ hP⟩
      | succ j =>
        obtain ⟨ctx, hctx, hr, hp⟩ := h3 j (by omega)
        refine ⟨ctx, by simpa using hctx, ?_, hp⟩
        have e : s + (j + 1) = s + 1 + j := by omega
        rw [e]
        exact hr

theorem loopContext_depth (f : ForStatement) (values : RenderContext) :
    (f.loopContext values).scopes.length = values.scopes.length + 1 := by
  unfold ForStatement.loopContext
  split_ifs <;>
    simp [RenderContext.cellSet, RenderContext.assign, RenderContext.newCell,
      RenderContext.EnterScope, updateAt_length]

theorem loopContext_cell (f : ForStatement) (values : RenderContext) :
    ∃ lv, (f.loopContext values).cells[values.cells.length]? = some lv ∧
      lv "previtem" = none ∧ (f.loopContext values).cells.length = values.cells.length + 1 := by
  unfold ForStatement.loopContext
  split_ifs
  · refine ⟨mapSet emptyMap "operator()" (.callable ⟨.Statement, .RenderLoop f.self⟩), ?_, ?_, ?_⟩
    · simp [RenderContext.cellSet, RenderContext.assign, RenderContext.newCell,
        RenderContext.EnterScope, updateAt_getElem?]
    · simp [mapSet, emptyMap]
    · simp [RenderContext.cellSet, RenderContext.assign, RenderContext.newCell,
        RenderContext.EnterScope, updateAt_length]
  · refine ⟨emptyMap, ?_, rfl, ?_⟩
    · simp [RenderContext.assign, RenderContext.newCell, RenderContext.EnterScope]
    · simp [RenderContext.assign, RenderContext.newCell, RenderContext.EnterScope]

/-- The context is as before the loop once the loop scope is left and `loopVar` is gone. -/
theorem loopContext_exit (f : ForStatement) (values : RenderContext) :
    (f.loopContext values).ExitScope.endCell values.cells.length = values := by
  unfold ForStatement.loopContext
  split_ifs <;>
    simp [RenderContext.cellSet, RenderContext.assign, RenderContext.newCell,
      RenderContext.EnterScope, RenderContext.ExitScope, RenderContext.endCell,
      updateAt_append_last, updateAt_length, List.take_left', List.dropLast_concat]

/-- The exit of `RenderLoop` for a value that is not convertible to a list. -/
theorem RenderLoop_none (ops : ValueOps) (f : ForStatement) (loopVal : InternalValue)
    (st : RenderState) (h : ops.ConvertToList loopVal = none) :
    f.RenderLoop ops loopVal st =
      match f.m_elseBody with
      | some elseBody =>
        { os := st.os ++ (elseBody (f.loopContext st.values)).1
          values := (elseBody (f.loopContext st.values)).2.ExitScope.endCell
            st.values.cells.length
          calls := st.calls ++ [(Callee.ElseBody, f.loopContext st.values)] }
      | none => st := by
  have hctx := loopContext_exit f st.values
  unfold ForStatement.loopContext at hctx ⊢
  unfold ForStatement.RenderLoop
  simp only [h]
  cases f.m_elseBody with
  | none =>
    simp only []
    simp only [RenderContext.EnterScope, RenderContext.newCell] at hctx ⊢
    rw [hctx]
  | some e =>
    simp only [callRenderer, RenderContext.EnterScope, RenderContext.newCell]
/-- The run of `RenderLoop` for a value convertible to the list `items`: the filter, the main
loop over the kept items, the else body when no round ran, the exit. -/
theorem RenderLoop_some (ops : ValueOps) (f : ForStatement) (loopVal : InternalValue)
    (st : RenderState) (items : List InternalValue)
    (h : ops.ConvertToList loopVal = some items) :
    f.RenderLoop ops loopVal st =
      let kept := f.keptItems ops st.values items
      let r := (List.range kept.length).foldl
        (loopStep ops f st.values.scopes.length st.values.cells.length kept)
        (false, f.loopStart ops st items)
      let st3 :=
        match f.m_elseBody with
        | some elseBody => if !r.1 then callRenderer .ElseBody elseBody r.2 else r.2
        | none => r.2
      { st3 with values := st3.values.ExitScope.endCell st.values.cells.length } := by
  have hv1 : ∀ (b : RenderContext), b = f.loopContext st.values →
      f.RenderLoop ops loopVal st =
      (let filtered :=
        match f.m_ifExpr with
        | some ifExpr =>
          let r := items.foldl (filterStep ops f.m_vars ifExpr b.scopes.length)
            ([], { st with values := b.EnterScope })
          (r.1, { r.2 with values := r.2.values.ExitScope })
        | none => (items, { st with values := b })
      let r := (List.range filtered.1.length).foldl
        (loopStep ops f st.values.scopes.length st.values.cells.length filtered.1)
        (false, { filtered.2 with values :=
          (filtered.2.values.cellSet st.values.cells.length "length"
            (.int (filtered.1.length : Int))) })
      let st3 :=
        match f.m_elseBody with
        | some elseBody => if !r.1 then callRenderer .ElseBody elseBody r.2 else r.2
        | none => r.2
      { st3 with values := st3.values.ExitScope.endCell st.values.cells.length }) := by
    intro b hb
    subst hb
    unfold ForStatement.RenderLoop ForStatement.loopContext
    simp only [h, RenderContext.EnterScope, RenderContext.newCell]
  rw [hv1 _ rfl]
  have hfilt : (match f.m_ifExpr with
      | some ifExpr =>
        let r := items.foldl (filterStep ops f.m_vars ifExpr (f.loopContext st.values).scopes.length)
          ([], { st with values := (f.loopContext st.values).EnterScope })
        (r.1, { r.2 with values := r.2.values.ExitScope })
      | none => (items, { st with values := f.loopContext st.values })) =
      (f.keptItems ops st.values items,
        { os := st.os, values := f.loopContext st.values,
          calls := st.calls ++ f.filterCalls ops st.values items }) := by
    unfold ForStatement.keptItems ForStatement.filterCalls ForStatement.filterContext
    cases f.m_ifExpr with
    | none => simp
    | some ifExpr =>
      simp only []
      rw [filter_fold ops f.m_vars ifExpr _ (f.loopContext st.values).EnterScope items _
        (fun x => rfl), loopContext_depth]
      simp only [List.nil_append, Prod.mk.injEq, true_and]
      have hexit : (match items.getLast? with
          | none => (f.loopContext st.values).EnterScope
          | some x => bindLoopVars ops f.m_vars (st.values.scopes.length + 1) x
              (f.loopContext st.values).EnterScope).ExitScope = f.loopContext st.values := by
        cases items.getLast? with
        | none => simp [RenderContext.EnterScope, RenderContext.ExitScope]
        | some x =>
          simp only []
          rw [← loopContext_depth f st.values, bindLoopVars_exit]
      rw [hexit]
  rw [hfilt]
  rfl
theorem callsTo_append (callee : Callee) (a b : List (Callee × RenderContext)) :
    callsTo callee (a ++ b) = callsTo callee a ++ callsTo callee b := by
  simp [callsTo]

theorem callsTo_map_same (callee : Callee) (l : List RenderContext) :
    callsTo callee (l.map (fun ctx => (callee, ctx))) = l := by
  induction l with
  | nil => rfl
  | cons a l ih =>
    simp only [callsTo, List.map_cons, List.filter_cons, decide_True, if_true] at ih ⊢
    rw [ih]

theorem callsTo_map_other (callee other : Callee) (h : other ≠ callee)
    (l : List RenderContext) : callsTo callee (l.map (fun ctx => (other, ctx))) = [] := by
  induction l with
  | nil => rfl
  | cons a l ih =>
    simp only [callsTo, List.map_cons, List.filter_cons, h, decide_False] at ih ⊢
    simpa using ih

/-- The calls of `RenderLoop` for a value that converts to the list `items`: the filter once
per source item, the rounds of the main loop, the else body when no item is kept. -/
theorem RenderLoop_calls (ops : ValueOps) (f : ForStatement) (loopVal : InternalValue)
    (st : RenderState) (items : List InternalValue)
    (h : ops.ConvertToList loopVal = some items) (rounds : List RenderContext)
    (hrounds : ((List.range (f.keptItems ops st.values items).length).foldl
        (loopStep ops f st.values.scopes.length st.values.cells.length
          (f.keptItems ops st.values items)) (false, f.loopStart ops st items)).2.calls =
      (f.loopStart ops st items).calls ++ rounds.map (fun ctx => (Callee.MainBody, ctx))) :
    (f.RenderLoop ops loopVal st).calls = st.calls ++
      (f.filterCalls ops st.values items ++
        (rounds.map (fun ctx => (Callee.MainBody, ctx)) ++ f.elseCalls ops st items)) := by
  obtain ⟨rounds', h1, h2, h3, h4⟩ := mainLoop_calls ops f st.values.scopes.length
    st.values.cells.length (f.keptItems ops st.values items)
    (List.range (f.keptItems ops st.values items).length) (false, f.loopStart ops st items)
  rw [RenderLoop_some ops f _ _ items h]
  simp only [ForStatement.elseCalls]
  cases helse : f.m_elseBody with
  | none =>
    simp only []
    rw [hrounds]
    simp [ForStatement.loopStart]
  | some e =>
    simp only []
    by_cases hempty : (f.keptItems ops st.values items).isEmpty = true
    · have hnil : f.keptItems ops st.values items = [] := List.isEmpty_iff.mp hempty
      have hr : rounds = [] := by
        have hlen := congrArg List.length hrounds
        rw [h1] at hlen
        simp only [List.length_append, List.length_map] at hlen
        have : rounds'.length = 0 := by rw [h2, hnil]; rfl
        exact List.eq_nil_of_length_eq_zero (by omega)
      have hfold := h4 (by rw [hnil]; rfl)
      rw [hfold]
      simp [hempty, hr, callRenderer, ForStatement.loopStart]
    · have hne : (List.range (f.keptItems ops st.values items).length).isEmpty = false := by
        cases hk : f.keptItems ops st.values items with
        | nil => rw [hk] at hempty; exact absurd rfl hempty
        | cons a l => simp [List.range_succ]
      rw [hne] at h3
      rw [h3]
      simp only [Bool.false_or, Bool.not_false, Bool.not_true, Bool.false_eq_true, if_false]
      rw [hrounds]
      simp [hempty, ForStatement.loopStart]

/-- The calls of a for statement whose value converts to the list `items`: the value, then
the calls of `RenderLoop`. -/
theorem Render_calls (ops : ValueOps) (f : ForStatement) (st : RenderState)
    (items : List InternalValue) (h : ops.ConvertToList (f.m_value st.values) = some items)
    (rounds : List RenderContext)
    (hrounds : ((List.range (f.keptItems ops st.values items).length).foldl
        (loopStep ops f st.values.scopes.length st.values.cells.length
          (f.keptItems ops st.values items))
        (false, f.loopStart ops (callEvaluate .Value f.m_value st).2 items)).2.calls =
      (f.loopStart ops (callEvaluate .Value f.m_value st).2 items).calls ++
        rounds.map (fun ctx => (Callee.MainBody, ctx))) :
    f.callsOf ops st = (Callee.Value, st.values) ::
      (f.filterCalls ops st.values items ++
        (rounds.map (fun ctx => (Callee.MainBody, ctx)) ++ f.elseCalls ops st items)) := by
  have hcalls := RenderLoop_calls ops f (f.m_value st.values)
    (callEvaluate .Value f.m_value st).2 items h rounds hrounds
  have he : f.elseCalls ops (callEvaluate .Value f.m_value st).2 items =
      f.elseCalls ops st items := rfl
  have hr : f.Render ops st =
      f.RenderLoop ops (f.m_value st.values) (callEvaluate .Value f.m_value st).2 := rfl
  unfold ForStatement.callsOf
  rw [hr, hcalls, he]
  simp [callEvaluate]

theorem loopStart_ready (ops : ValueOps) (f : ForStatement) (st : RenderState)
    (items : List InternalValue) :
    (f.loopStart ops st items).values.scopes.length = st.values.scopes.length + 1 ∧
    (∃ lv, (f.loopStart ops st items).values.cells[st.values.cells.length]? = some lv ∧
      lv "length" = some (.int ((f.keptItems ops st.values items).length : Int)) ∧
      lv "previtem" = none) ∧
    bindsLoop st.values.scopes.length st.values.cells.length
      (f.loopStart ops st items).values := by
  obtain ⟨lv, hlv, hprev, _⟩ := loopContext_cell f st.values
  refine ⟨?_, ⟨mapSet lv "length" (.int ((f.keptItems ops st.values items).length : Int)),
    ?_, ?_, ?_⟩, ?_⟩
  · simp [ForStatement.loopStart, RenderContext.cellSet, loopContext_depth]
  · simp [ForStatement.loopStart, RenderContext.cellSet, updateAt_getElem?, hlv]
  · simp [mapSet]
  · simp [mapSet, hprev]
  · refine ⟨mapSet emptyMap "loop" (.mapRef st.values.cells.length), ?_, by simp [mapSet]⟩
    unfold ForStatement.loopStart ForStatement.loopContext
    split_ifs <;>
      simp [RenderContext.cellSet, RenderContext.assign, RenderContext.newCell,
        RenderContext.EnterScope, updateAt_append_last]

theorem roundContext_bindsLoop (ops : ValueOps) (m_vars : List String) (d c : Nat)
    (items : List InternalValue) (hvars : "loop" ∉ m_vars) (k : Nat) (ctx : RenderContext)
    (h : bindsLoop d c ctx) : bindsLoop d c (roundContext ops m_vars d c items k ctx) := by
  obtain ⟨scope, hscope, hloop⟩ := h
  refine ⟨bindScope ops m_vars (items.getD k .empty) scope, ?_, ?_⟩
  · simp [roundContext, updateAt_getElem?, hscope]
  · unfold bindScope
    split_ifs
    · simp [hvars, hloop]
    · cases hv : m_vars.head? with
      | none => exact hloop
      | some v =>
        have hne : "loop" ≠ v := by
          intro he
          apply hvars
          rw [he]
          exact List.mem_of_mem_head? hv
        simp [mapSet, hne, hloop]

/-- The calls of a for statement whose body keeps the scope depth and does not write to the
loop object, over the kept items: the value, the filter, one round per kept item, each as
`LoopRound` says, and the else body when no item is kept. -/
theorem Render_rounds (ops : ValueOps) (f : ForStatement) (st : RenderState)
    (items : List InternalValue) (h : ops.ConvertToList (f.m_value st.values) = some items)
    (hdepth : ∀ ctx, (f.m_mainBody ctx).2.scopes.length = ctx.scopes.length)
    (hcell : ∀ ctx, (f.m_mainBody ctx).2.cells[st.values.cells.length]? =
      ctx.cells[st.values.cells.length]?)
    (P : RenderContext → Prop)
    (hround : ∀ k ctx, P ctx → P (roundContext ops f.m_vars st.values.scopes.length
      st.values.cells.length (f.keptItems ops st.values items) k ctx))
    (hbody : ∀ ctx, P ctx → P (f.m_mainBody ctx).2)
    (hstart : P (f.loopStart ops st items).values) :
    ∃ rounds : List RenderContext,
      f.callsOf ops st = (Callee.Value, st.values) ::
        (f.filterCalls ops st.values items ++
          (rounds.map (fun ctx => (Callee.MainBody, ctx)) ++ f.elseCalls ops st items)) ∧
      rounds.length = (f.keptItems ops st.values items).length ∧
      ∀ j, j < (f.keptItems ops st.values items).length → ∃ ctx, rounds[j]? = some ctx ∧
        LoopRound ops f.m_vars st.values.scopes.length st.values.cells.length
          (f.keptItems ops st.values items) j ctx ∧ P ctx := by
  obtain ⟨hd, hc, _⟩ := loopStart_ready ops f (callEvaluate .Value f.m_value st).2 items
  obtain ⟨lv, hlv, hlen, hprev⟩ := hc
  obtain ⟨rounds, h1, h2, h3⟩ := mainLoop_rounds ops f st.values.scopes.length
    st.values.cells.length (f.keptItems ops st.values items) hdepth hcell P hround hbody
    (f.keptItems ops st.values items).length 0
    (false, f.loopStart ops (callEvaluate .Value f.m_value st).2 items) (by omega) hd
    ⟨lv, hlv, hlen, fun _ => hprev⟩ hstart
  refine ⟨rounds, ?_, h2, fun j hj => ?_⟩
  · apply Render_calls ops f st items h rounds
    rw [List.range_eq_range']
    exact h1
  · obtain ⟨ctx, hctx, hr, hp⟩ := h3 j hj
    exact ⟨ctx, hctx, by simpa using hr, hp⟩

theorem callsTo_filterCalls (ops : ValueOps) (f : ForStatement) (values : RenderContext)
    (items : List InternalValue) :
    callsTo .MainBody (f.filterCalls ops values items) = [] ∧
    callsTo .ElseBody (f.filterCalls ops values items) = [] ∧
    callsTo .Filter (f.filterCalls ops values items) =
      (match f.m_ifExpr with
        | some _ => items.map (f.filterContext ops values)
        | none => []) := by
  unfold ForStatement.filterCalls
  cases f.m_ifExpr with
  | none => exact ⟨rfl, rfl, rfl⟩
  | some e =>
    have hmap : items.map (fun x => (Callee.Filter, f.filterContext ops values x)) =
        (items.map (f.filterContext ops values)).map (fun ctx => (Callee.Filter, ctx)) := by
      simp
    simp only [hmap]
    exact ⟨callsTo_map_other _ _ (by decide) _, callsTo_map_other _ _ (by decide) _,
      callsTo_map_same _ _⟩

theorem callsTo_elseCalls (ops : ValueOps) (f : ForStatement) (st : RenderState)
    (items : List InternalValue) :
    callsTo .MainBody (f.elseCalls ops st items) = [] ∧
    callsTo .Filter (f.elseCalls ops st items) = [] ∧
    (callsTo .ElseBody (f.elseCalls ops st items)).length =
      (if f.m_elseBody.isSome && (f.keptItems ops st.values items).isEmpty then 1 else 0) := by
  unfold ForStatement.elseCalls
  cases f.m_elseBody with
  | none => exact ⟨rfl, rfl, rfl⟩
  | some e =>
    by_cases h : (f.keptItems ops st.values items).isEmpty = true
    · simp [h, callsTo]
    · simp [h, callsTo]

/-- The calls to the filter, to the main body and to the else body among the calls of a for
statement. -/
theorem callsTo_callsOf (ops : ValueOps) (f : ForStatement) (st : RenderState)
    (items : List InternalValue) (rounds : List RenderContext)
    (h : f.callsOf ops st = (Callee.Value, st.values) ::
      (f.filterCalls ops st.values items ++
        (rounds.map (fun ctx => (Callee.MainBody, ctx)) ++ f.elseCalls ops st items))) :
    callsTo .MainBody (f.callsOf ops st) = rounds ∧
    callsTo .Filter (f.callsOf ops st) =
      (match f.m_ifExpr with
        | some _ => items.map (f.filterContext ops st.values)
        | none => []) ∧
    (callsTo .ElseBody (f.callsOf ops st)).length =
      (if f.m_elseBody.isSome && (f.keptItems ops st.values items).isEmpty then 1 else 0) := by
  obtain ⟨hf1, hf2, hf3⟩ := callsTo_filterCalls ops f st.values items
  obtain ⟨he1, he2, he3⟩ := callsTo_elseCalls ops f st items
  have hcons : ∀ (callee : Callee) (l : List (Callee × RenderContext)),
      callee ≠ .Value → callsTo callee ((Callee.Value, st.values) :: l) = callsTo callee l := by
    intro callee l hne
    have hne' : ¬ Callee.Value = callee := fun h => hne h.symm
    simp [callsTo, List.filter_cons, hne']
  rw [h]
  refine ⟨?_, ?_, ?_⟩
  · rw [hcons _ _ (by decide), callsTo_append, callsTo_append, hf1, he1, callsTo_map_same]
    simp
  · rw [hcons _ _ (by decide), callsTo_append, callsTo_append, hf3, he2,
      callsTo_map_other _ _ (by decide)]
    simp
  · rw [hcons _ _ (by decide), callsTo_append, callsTo_append, hf2,
      callsTo_map_other _ _ (by decide), ← he3]
    simp

/-- C19: a for statement whose value is not convertible to a list renders its else body
once if it has one and never its main body; one whose value converts to a list renders the
main body once per kept item, and the else body once exactly when it has one and no item is
kept (the list is empty after filtering); without an else body nothing is written in the
cases where no item is iterated. -/
theorem C19_for_else_body (ops : ValueOps) (f : ForStatement) (st : RenderState) :
    (ops.ConvertToList (f.m_value st.values) = none →
      callsTo .MainBody (f.callsOf ops st) = [] ∧
      (callsTo .ElseBody (f.callsOf ops st)).length = (if f.m_elseBody.isSome then 1 else 0) ∧
      (f.m_elseBody = none → (f.Render ops st).os = st.os)) ∧
    (∀ items, ops.ConvertToList (f.m_value st.values) = some items →
      (callsTo .MainBody (f.callsOf ops st)).length =
        (f.keptItems ops st.values items).length ∧
      (callsTo .ElseBody (f.callsOf ops st)).length =
        (if f.m_elseBody.isSome && (f.keptItems ops st.values items).isEmpty then 1 else 0) ∧
      (f.keptItems ops st.values items = [] → f.m_elseBody = none →
        (f.Render ops st).os = st.os)) := by
  have hr : f.Render ops st =
      f.RenderLoop ops (f.m_value st.values) (callEvaluate .Value f.m_value st).2 := rfl
  refine ⟨fun hnone => ?_, fun items hsome => ?_⟩
  · have hrun := RenderLoop_none ops f _ (callEvaluate .Value f.m_value st).2 hnone
    unfold ForStatement.callsOf
    rw [hr, hrun]
    cases f.m_elseBody with
    | none => simp [callEvaluate, callsTo]
    | some e => simp [callEvaluate, callsTo]
  · obtain ⟨rounds, h1, h2, _, h4⟩ := mainLoop_calls ops f st.values.scopes.length
      st.values.cells.length (f.keptItems ops st.values items)
      (List.range (f.keptItems ops st.values items).length)
      (false, f.loopStart ops (callEvaluate .Value f.m_value st).2 items)
    have hcalls := Render_calls ops f st items hsome rounds h1
    obtain ⟨hm, _, he⟩ := callsTo_callsOf ops f st items rounds hcalls
    refine ⟨by rw [hm, h2, List.length_range], he, fun hnil helse => ?_⟩
    have hfold := h4 (by rw [hnil]; rfl)
    rw [hr, RenderLoop_some ops f _ _ items hsome]
    simp only [helse]
    have hv : (callEvaluate .Value f.m_value st).2.values = st.values := rfl
    rw [hv, hfold]
    rfl

theorem keptItems_none (ops : ValueOps) (f : ForStatement) (values : RenderContext)
    (items : List InternalValue) (h : f.m_ifExpr = none) :
    f.keptItems ops values items = items := by
  simp [ForStatement.keptItems, h]

/-- C17: for a for statement without filter whose value converts to the list `items`, and
whose body keeps the scope depth and does not write to the loop object, the main body is
called once per item, in list order; at call `k` (0-based) the loop scope is the current
scope and binds the loop variable to item `k` (with several variables, each to the item
subscripted by its name), and the loop object holds `length`, `index = k + 1`, `index0 = k`,
`first`, `last`, `previtem` (absent at `k = 0`, else item `k - 1`) and `nextitem` (absent at
the last item, else item `k + 1`); the loop scope binds `loop` to the loop object in every
round when no loop variable has that name and the body does not rebind it. -/
theorem C17_for_loop_rounds (ops : ValueOps) (f : ForStatement) (st : RenderState)
    (items : List InternalValue) (hfilter : f.m_ifExpr = none)
    (hlist : ops.ConvertToList (f.m_value st.values) = some items)
    (hdepth : ∀ ctx, (f.m_mainBody ctx).2.scopes.length = ctx.scopes.length)
    (hcell : ∀ ctx, (f.m_mainBody ctx).2.cells[st.values.cells.length]? =
      ctx.cells[st.values.cells.length]?) :
    (callsTo .MainBody (f.callsOf ops st)).length = items.length ∧
    (∀ k, k < items.length → ∃ ctx, (callsTo .MainBody (f.callsOf ops st))[k]? = some ctx ∧
      LoopRound ops f.m_vars st.values.scopes.length st.values.cells.length items k ctx) ∧
    ("loop" ∉ f.m_vars →
      (∀ ctx, bindsLoop st.values.scopes.length st.values.cells.length ctx →
        bindsLoop st.values.scopes.length st.values.cells.length (f.m_mainBody ctx).2) →
      ∀ k, k < items.length → ∃ ctx, (callsTo .MainBody (f.callsOf ops st))[k]? = some ctx ∧
        bindsLoop st.values.scopes.length st.values.cells.length ctx) := by
  have hkept := keptItems_none ops f st.values items hfilter
  obtain ⟨rounds, h1, h2, h3⟩ := Render_rounds ops f st items hlist hdepth hcell
    (fun _ => True) (fun _ _ _ => trivial) (fun _ _ => trivial) trivial
  obtain ⟨hm, _, _⟩ := callsTo_callsOf ops f st items rounds h1
  rw [hkept] at h2 h3
  refine ⟨by rw [hm, h2], fun k hk => ?_, fun hvars hbody k hk => ?_⟩
  · obtain ⟨ctx, hctx, hr, _⟩ := h3 k hk
    exact ⟨ctx, by rw [hm]; exact hctx, hr⟩
  · obtain ⟨rounds', h1', _, h3'⟩ := Render_rounds ops f st items hlist hdepth hcell
      (bindsLoop st.values.scopes.length st.values.cells.length)
      (fun j ctx hctx => roundContext_bindsLoop ops f.m_vars _ _ _ hvars j ctx hctx) hbody
      (loopStart_ready ops f st items).2.2
    obtain ⟨hm', _, _⟩ := callsTo_callsOf ops f st items rounds' h1'
    rw [hkept] at h3'
    obtain ⟨ctx, hctx, _, hp⟩ := h3' k hk
    exact ⟨ctx, by rw [hm']; exact hctx, hp⟩

/-- C17 at scenario E3: the for statement over `[a, b]` with the body `loop.index`, colon,
`i`, semicolon calls its body twice and writes `1:a;2:b;`. -/
theorem C17_for_loop_rounds_witness :
    exampleFor.m_ifExpr = none ∧
    exampleOps.ConvertToList (exampleFor.m_value exampleState.values) =
      some [.string "a", .string "b"] ∧
    (callsTo .MainBody (exampleFor.callsOf exampleOps exampleState)).length = 2 ∧
    (exampleFor.Render exampleOps exampleState).os = "1:a;2:b;".toList :=
  ⟨rfl, rfl,
    (C17_for_loop_rounds exampleOps exampleFor exampleState [.string "a", .string "b"] rfl rfl
      (fun _ => rfl) (fun _ => rfl)).1,
    by decide⟩

/-- The context in which the filter is evaluated for the item `x` has one scope more than the
loop scope, the temporary scope, which binds the loop variables to `x`. -/
theorem filterContext_scope (ops : ValueOps) (f : ForStatement) (values : RenderContext)
    (x : InternalValue) :
    (f.filterContext ops values x).scopes.length = values.scopes.length + 2 ∧
    ∃ scope, (f.filterContext ops values x).scopes[values.scopes.length + 1]? = some scope ∧
      (∀ v, f.m_vars = [v] → scope v = some x) ∧
      (1 < f.m_vars.length → ∀ v ∈ f.m_vars, scope v = some (ops.Subscript x v)) := by
  have hd := loopContext_depth f values
  have hscopes : (f.filterContext ops values x).scopes =
      (f.loopContext values).scopes ++ [bindScope ops f.m_vars x emptyMap] := by
    simp only [ForStatement.filterContext, bindLoopVars_eq, RenderContext.EnterScope]
    rw [← hd, updateAt_append_last]
  refine ⟨by rw [hscopes]; simp [hd], bindScope ops f.m_vars x emptyMap, ?_, ?_, ?_⟩
  · rw [hscopes, ← hd]
    simp
  · intro v hv
    simp [bindScope, hv, mapSet]
  · intro hl v hv
    simp [bindScope, hl, hv]

/-- C18: for a for statement with a filter whose value converts to the list `items`, and
whose body keeps the scope depth and does not write to the loop object, the filter is
evaluated once per source item, in source order, in a temporary scope above the loop scope
that binds the loop variables to that item; the items iterated are the source items for
which that evaluation is truthy, in source order; every evaluation of the filter precedes the
first call of the main body, whose calls see the loop scope as the current scope; and the
loop object holds `length`, `last` and the indices of the kept items. -/
theorem C18_for_filter (ops : ValueOps) (f : ForStatement) (st : RenderState)
    (items : List InternalValue) (ifExpr : Expression) (hfilter : f.m_ifExpr = some ifExpr)
    (hlist : ops.ConvertToList (f.m_value st.values) = some items)
    (hdepth : ∀ ctx, (f.m_mainBody ctx).2.scopes.length = ctx.scopes.length)
    (hcell : ∀ ctx, (f.m_mainBody ctx).2.cells[st.values.cells.length]? =
      ctx.cells[st.values.cells.length]?) :
    callsTo .Filter (f.callsOf ops st) = items.map (f.filterContext ops st.values) ∧
    (∀ x, (f.filterContext ops st.values x).scopes.length = st.values.scopes.length + 2 ∧
      ∃ scope, (f.filterContext ops st.values x).scopes[st.values.scopes.length + 1]? =
          some scope ∧
        (∀ v, f.m_vars = [v] → scope v = some x) ∧
        (1 < f.m_vars.length → ∀ v ∈ f.m_vars, scope v = some (ops.Subscript x v))) ∧
    f.keptItems ops st.values items =
      items.filter (fun x => ops.ConvertToBool (ifExpr (f.filterContext ops st.values x))) ∧
    (callsTo .MainBody (f.callsOf ops st)).length = (f.keptItems ops st.values items).length ∧
    (∀ k, k < (f.keptItems ops st.values items).length →
      ∃ ctx, (callsTo .MainBody (f.callsOf ops st))[k]? = some ctx ∧
        LoopRound ops f.m_vars st.values.scopes.length st.values.cells.length
          (f.keptItems ops st.values items) k ctx) ∧
    (∃ rest, f.callsOf ops st = (Callee.Value, st.values) ::
        (items.map (fun x => (Callee.Filter, f.filterContext ops st.values x)) ++ rest) ∧
      callsTo .Filter rest = []) := by
  obtain ⟨rounds, h1, h2, h3⟩ := Render_rounds ops f st items hlist hdepth hcell
    (fun _ => True) (fun _ _ _ => trivial) (fun _ _ => trivial) trivial
  obtain ⟨hm, hf, _⟩ := callsTo_callsOf ops f st items rounds h1
  refine ⟨?_, filterContext_scope ops f st.values, ?_, by rw [hm, h2], fun k hk => ?_,
    rounds.map (fun ctx => (Callee.MainBody, ctx)) ++ f.elseCalls ops st items, ?_, ?_⟩
  · rw [hf, hfilter]
  · simp [ForStatement.keptItems, hfilter]
  · obtain ⟨ctx, hctx, hr, _⟩ := h3 k hk
    exact ⟨ctx, by rw [hm]; exact hctx, hr⟩
  · rw [h1]
    simp [ForStatement.filterCalls, hfilter]
  · rw [callsTo_append, callsTo_map_other _ _ (by decide),
      (callsTo_elseCalls ops f st items).2.1]
    rfl

/-- C18 at a for statement over `[a, skip, b]` with the filter `i != skip`: three
evaluations of the filter, two calls of the main body, and the output `1:a;2:b;`, in which the
indices count the kept items. -/
theorem C18_for_filter_witness :
    exampleOps.ConvertToList (exampleFilteredFor.m_value exampleState.values) =
      some [.string "a", .string "skip", .string "b"] ∧
    (callsTo .Filter (exampleFilteredFor.callsOf exampleOps exampleState)).length = 3 ∧
    (callsTo .MainBody (exampleFilteredFor.callsOf exampleOps exampleState)).length = 2 ∧
    (exampleFilteredFor.Render exampleOps exampleState).os = "1:a;2:b;".toList :=
  have h := C18_for_filter exampleOps exampleFilteredFor exampleState
    [.string "a", .string "skip", .string "b"] _ rfl rfl (fun _ => rfl) (fun _ => rfl)
  ⟨rfl, by rw [h.1]; rfl, by rw [h.2.2.2.1, h.2.2.1]; rfl, by decide⟩

/-! ## Runtime: the if statement -/

theorem ShouldRender_eq (ops : ValueOps) (b : ElseBranchStatement) (branch : Nat)
    (st : RenderState) :
    b.ShouldRender ops branch st =
      (b.shouldRender ops st.values,
        { st with calls := st.calls ++ guardCalls st.values [b] branch }) := by
  unfold ElseBranchStatement.ShouldRender ElseBranchStatement.shouldRender
  cases h : b.m_expr with
  | none => simp [guardCalls, h]
  | some e => simp [guardCalls, callEvaluate, h]

theorem guardCalls_append (values : RenderContext) :
    ∀ (pre post : List ElseBranchStatement) (branch : Nat),
      guardCalls values (pre ++ post) branch =
        guardCalls values pre branch ++ guardCalls values post (branch + pre.length) := by
  intro pre
  induction pre with
  | nil => intro post branch; simp [guardCalls]
  | cons b pre ih =>
    intro post branch
    have e : branch + 1 + pre.length = branch + (pre.length + 1) := by omega
    rw [List.cons_append]
    simp only [guardCalls]
    rw [ih post (branch + 1), e]
    simp

theorem guardCalls_not_body (values : RenderContext) :
    ∀ (bs : List ElseBranchStatement) (branch : Nat),
      (guardCalls values bs branch).countP isBodyCall = 0 := by
  intro bs
  induction bs with
  | nil => intro branch; rfl
  | cons b bs ih =>
    intro branch
    simp only [guardCalls, List.countP_append, ih]
    cases b.m_expr <;> simp [isBodyCall]

/-- The loop over the else branches when none should render: every guard is evaluated, no
body is rendered. -/
theorem renderElseBranches_none (ops : ValueOps) :
    ∀ (bs : List ElseBranchStatement) (branch : Nat) (st : RenderState),
      (∀ x ∈ bs, x.shouldRender ops st.values = false) →
      renderElseBranches ops bs branch st =
        { st with calls := st.calls ++ guardCalls st.values bs branch } := by
  intro bs
  induction bs with
  | nil => intro branch st _; simp [renderElseBranches, guardCalls]
  | cons b bs ih =>
    intro branch st h
    have hb := h b (List.mem_cons_self _ _)
    simp only [renderElseBranches, ShouldRender_eq, hb, Bool.false_eq_true, if_false]
    rw [ih (branch + 1) { st with calls := st.calls ++ guardCalls st.values [b] branch }
      (fun x hx => h x (List.mem_cons_of_mem _ hx))]
    simp [guardCalls]

/-- The loop over the else branches when `b` is the first branch that should render: the
guards up to that of `b` are evaluated, the body of `b` is rendered, nothing after it is
called. -/
theorem renderElseBranches_first (ops : ValueOps) (b : ElseBranchStatement)
    (post : List ElseBranchStatement) :
    ∀ (pre : List ElseBranchStatement) (branch : Nat) (st : RenderState),
      (∀ x ∈ pre, x.shouldRender ops st.values = false) →
      b.shouldRender ops st.values = true →
      renderElseBranches ops (pre ++ b :: post) branch st =
        { os := st.os ++ (b.m_mainBody st.values).1
          values := (b.m_mainBody st.values).2
          calls := st.calls ++ (guardCalls st.values (pre ++ [b]) branch ++
            [(Callee.Branch (branch + pre.length), st.values)]) } := by
  intro pre
  induction pre with
  | nil =>
    intro branch st _ hb
    simp [renderElseBranches, ShouldRender_eq, hb, ElseBranchStatement.Render, callRenderer,
      guardCalls]
  | cons a pre ih =>
    intro branch st h hb
    have ha := h a (List.mem_cons_self _ _)
    rw [List.cons_append]
    simp only [renderElseBranches, ShouldRender_eq, ha, Bool.false_eq_true, if_false]
    rw [ih (branch + 1) { st with calls := st.calls ++ guardCalls st.values [a] branch }
      (fun x hx => h x (List.mem_cons_of_mem _ hx)) hb]
    have e : branch + 1 + pre.length = branch + (pre.length + 1) := by omega
    simp [guardCalls, e]

theorem exists_first_branch (p : ElseBranchStatement → Bool) :
    ∀ (bs : List ElseBranchStatement), (∃ x ∈ bs, p x = true) →
      ∃ pre b post, bs = pre ++ b :: post ∧ (∀ x ∈ pre, p x = false) ∧ p b = true := by
  intro bs
  induction bs with
  | nil => rintro ⟨x, hx, _⟩; simp at hx
  | cons a bs ih =>
    intro h
    by_cases ha : p a = true
    · exact ⟨[], a, bs, rfl, by simp, ha⟩
    · obtain ⟨x, hx, hpx⟩ := h
      have hx' : x ∈ bs := by
        rcases List.mem_cons.mp hx with rfl | hx'
        · exact absurd hpx ha
        · exact hx'
      obtain ⟨pre, b, post, hbs, hpre, hb⟩ := ih ⟨x, hx', hpx⟩
      refine ⟨a :: pre, b, post, by rw [hbs]; rfl, ?_, hb⟩
      intro y hy
      rcases List.mem_cons.mp hy with rfl | hy'
      · simpa using ha
      · exact hpre y hy'

/-- C20: an if statement renders the main body when its guard is truthy, evaluating no other
guard; otherwise it evaluates the guards of the else branches in declaration order up to the
first branch that is unguarded or whose guard is truthy, renders the body of that branch and
evaluates no later guard; when no branch matches it writes nothing and leaves the context as
it is; at most one body is rendered. -/
theorem C20_if_first_match (ops : ValueOps) (s : IfStatement) (st : RenderState) :
    (ops.BooleanEvaluator (s.m_expr st.values) = true →
      s.Render ops st =
        { os := st.os ++ (s.m_mainBody st.values).1
          values := (s.m_mainBody st.values).2
          calls := st.calls ++ [(Callee.Guard 0, st.values), (Callee.MainBody, st.values)] }) ∧
    (ops.BooleanEvaluator (s.m_expr st.values) = false →
      (∀ pre b post, s.m_elseBranches = pre ++ b :: post →
        (∀ x ∈ pre, x.shouldRender ops st.values = false) →
        b.shouldRender ops st.values = true →
        s.Render ops st =
          { os := st.os ++ (b.m_mainBody st.values).1
            values := (b.m_mainBody st.values).2
            calls := st.calls ++ (Callee.Guard 0, st.values) ::
              (guardCalls st.values (pre ++ [b]) 0 ++
                [(Callee.Branch pre.length, st.values)]) }) ∧
      ((∀ x ∈ s.m_elseBranches, x.shouldRender ops st.values = false) →
        s.Render ops st =
          { os := st.os
            values := st.values
            calls := st.calls ++ (Callee.Guard 0, st.values) ::
              guardCalls st.values s.m_elseBranches 0 })) ∧
    ((s.Render ops st).calls.drop st.calls.length).countP isBodyCall ≤ 1 := by
  have htrue : ops.BooleanEvaluator (s.m_expr st.values) = true →
      s.Render ops st =
        { os := st.os ++ (s.m_mainBody st.values).1
          values := (s.m_mainBody st.values).2
          calls := st.calls ++
            [(Callee.Guard 0, st.values), (Callee.MainBody, st.values)] } := by
    intro h
    simp [IfStatement.Render, callEvaluate, h, callRenderer]
  have hfirst : ops.BooleanEvaluator (s.m_expr st.values) = false →
      ∀ pre b post, s.m_elseBranches = pre ++ b :: post →
        (∀ x ∈ pre, x.shouldRender ops st.values = false) →
        b.shouldRender ops st.values = true →
        s.Render ops st =
          { os := st.os ++ (b.m_mainBody st.values).1
            values := (b.m_mainBody st.values).2
            calls := st.calls ++ (Callee.Guard 0, st.values) ::
              (guardCalls st.values (pre ++ [b]) 0 ++
                [(Callee.Branch pre.length, st.values)]) } := by
    intro h pre b post hbs hpre hb
    simp only [IfStatement.Render, callEvaluate, h, Bool.false_eq_true, if_false, hbs]
    rw [renderElseBranches_first ops b post pre 0
      { st with calls := st.calls ++ [(Callee.Guard 0, st.values)] } hpre hb]
    simp
  have hnone : ops.BooleanEvaluator (s.m_expr st.values) = false →
      (∀ x ∈ s.m_elseBranches, x.shouldRender ops st.values = false) →
      s.Render ops st =
        { os := st.os
          values := st.values
          calls := st.calls ++ (Callee.Guard 0, st.values) ::
            guardCalls st.values s.m_elseBranches 0 } := by
    intro h hall
    simp only [IfStatement.Render, callEvaluate, h, Bool.false_eq_true, if_false]
    rw [renderElseBranches_none ops _ 0
      { st with calls := st.calls ++ [(Callee.Guard 0, st.values)] } hall]
    simp
  refine ⟨htrue, fun h => ⟨hfirst h, hnone h⟩, ?_⟩
  cases hg : ops.BooleanEvaluator (s.m_expr st.values) with
  | true =>
    rw [htrue hg]
    simp [isBodyCall, List.countP_cons]
  | false =>
    by_cases hex : ∃ x ∈ s.m_elseBranches, x.shouldRender ops st.values = true
    · obtain ⟨pre, b, post, hbs, hpre, hb⟩ := exists_first_branch _ _ hex
      rw [hfirst hg pre b post hbs hpre hb]
      simp [isBodyCall, List.countP_cons, List.countP_append, guardCalls_not_body]
    · have hall : ∀ x ∈ s.m_elseBranches, x.shouldRender ops st.values = false := by
        intro x hx
        cases hx' : x.shouldRender ops st.values with
        | false => rfl
        | true => exact absurd ⟨x, hx, hx'⟩ hex
      rw [hnone hg hall]
      simp [isBodyCall, List.countP_cons, guardCalls_not_body]
/-- C20 at an if statement with the branches `elif y`, `elif z` and `else`, where `x` is false
and `y` and `z` are true: the guards of `x` and `y` are evaluated, the body of `elif y` is
rendered, the guard of `z` is not evaluated. -/
theorem C20_if_first_match_witness :
    exampleOps.BooleanEvaluator (exampleIf.m_expr exampleIfState.values) = false ∧
    (exampleIf.Render exampleOps exampleIfState).os = ['B'] ∧
    (exampleIf.Render exampleOps exampleIfState).calls.map (·.1) =
      [.Guard 0, .Guard 1, .Branch 0] :=
  have h := (C20_if_first_match exampleOps exampleIf exampleIfState).2.1 rfl
  have h1 := h.1 [] _ _ rfl (fun _ hx => absurd hx (List.not_mem_nil _)) rfl
  ⟨rfl, by rw [h1]; rfl, by rw [h1]; rfl⟩

/-- C19 at a for statement over `[skip]` with the filter `i != skip` and an else body: no
item is kept, the main body is not called, the else body is called once. -/
theorem C19_for_else_body_witness :
    exampleOps.ConvertToList (exampleElseFor.m_value exampleState.values) =
      some [.string "skip"] ∧
    exampleElseFor.keptItems exampleOps exampleState.values [.string "skip"] = [] ∧
    (callsTo .MainBody (exampleElseFor.callsOf exampleOps exampleState)).length = 0 ∧
    (callsTo .ElseBody (exampleElseFor.callsOf exampleOps exampleState)).length = 1 ∧
    (exampleElseFor.Render exampleOps exampleState).os = ['-'] :=
  have h := (C19_for_else_body exampleOps exampleElseFor exampleState).2 [.string "skip"] rfl
  ⟨rfl, rfl, h.1.trans rfl, h.2.1.trans rfl, by decide⟩

/-! ## Keywords -/

theorem keywordAlternativeAt_zero (text name : List Char) :
    keywordAlternativeAt text 0 name = (name == text) := by
  unfold keywordAlternativeAt
  by_cases h : name = text
  · subst h
    simp
  · have hne : (name == text) = false := by simpa using h
    rw [hne]
    by_cases hl : name.length = text.length
    · have htake : text.take name.length = text := by
        rw [hl]; exact List.take_length text
      have : ¬ text = name := fun e => h e.symm
      simp [htake, this]
    · simp [hl]

theorem keywordAlternativeAt_succ (text name : List Char) (p : Nat) :
    keywordAlternativeAt text (p + 1) name = false := by
  simp [keywordAlternativeAt]

theorem findIdx?_false {α : Type} (l : List α) (q : α → Bool) (h : ∀ x ∈ l, q x = false) :
    l.findIdx? q = none := by
  rw [List.findIdx?_eq_none_iff]
  exact h

theorem findSome?_range_succ (f : Nat → Option Nat) (n : Nat)
    (h : ∀ p, f (p + 1) = none) :
    (List.range (n + 1)).findSome? f = f 0 := by
  rw [List.range_eq_range', List.range'_succ]
  simp only [List.findSome?_cons]
  cases f 0 with
  | some v => rfl
  | none =>
    simp only []
    rw [List.findSome?_eq_none_iff]
    intro x hx
    have hx1 : 1 ≤ x := by
      have := List.mem_range'_1.mp hx
      omega
    obtain ⟨p, rfl⟩ : ∃ p, x = p + 1 := ⟨x - 1, by omega⟩
    exact h p

theorem keywordSearch_eq (text : List Char) :
    keywordSearch text = s_keywordsInfo.findIdx? (fun info => info.1 == text) := by
  unfold keywordSearch
  rw [findSome?_range_succ]
  · congr 1
    funext info
    exact keywordAlternativeAt_zero text info.1
  · intro p
    apply findIdx?_false
    intro x _
    exact keywordAlternativeAt_succ text x.1 p

theorem findIdx?_bind_getElem? {α : Type} (q : α → Bool) : ∀ (l : List α),
    (l.findIdx? q).bind (fun i => l[i]?) = l.find? q := by
  intro l
  induction l with
  | nil => rfl
  | cons a l ih =>
    rw [List.findIdx?_cons, List.find?_cons]
    by_cases ha : q a = true
    · simp [ha]
    · have ha' : q a = false := by simpa using ha
      simp only [ha', Bool.false_eq_true, if_false]
      rw [← ih]
      cases h : List.findIdx? q l with
      | none => simp [h]
      | some i => simp [h]

/-- The keyword of a range is the table's type for the text of the range. -/
theorem GetKeyword_eq (tpl : List Char) (range : CharRange) :
    GetKeyword tpl range = keywordTableLookup (rangeText tpl range) := by
  unfold GetKeyword keywordTableLookup
  rw [keywordSearch_eq]
  have hnonempty : ∀ info ∈ s_keywordsInfo, info.1.length ≠ 0 := by decide
  have hbind := findIdx?_bind_getElem? (fun info => info.1 == rangeText tpl range)
    s_keywordsInfo
  cases hidx : s_keywordsInfo.findIdx? (fun info => info.1 == rangeText tpl range) with
  | none =>
    rw [hidx] at hbind
    simp only [Option.bind] at hbind
    rw [← hbind]
  | some i =>
    rw [hidx] at hbind
    simp only [Option.bind] at hbind
    rw [← hbind]
    simp only []
    cases hget : s_keywordsInfo[i]? with
    | none => rfl
    | some info =>
      simp only []
      have hmem : info ∈ s_keywordsInfo := List.mem_iff_getElem?.mpr ⟨i, hget⟩
      rw [if_pos (hnonempty info hmem)]

/-- C29: `GetKeyword` returns the type of the table entry spelled exactly as the text of the
range, for each of the 30 spellings (`true` and `True` give True, `false` and `False` give
False, `none` and `None` give None), never `Unknown` for one of them; every other text gives
`Unknown`, such as `format`, `endfor2` and `TRUE`. -/
theorem C29_keyword_recognition (tpl : List Char) (range : CharRange) :
    (∀ info ∈ s_keywordsInfo, rangeText tpl range = info.1 →
      GetKeyword tpl range = info.2 ∧ info.2 ≠ .Unknown) ∧
    ((∀ info ∈ s_keywordsInfo, rangeText tpl range ≠ info.1) →
      GetKeyword tpl range = .Unknown) ∧
    s_keywordsInfo.length = 30 ∧
    (s_keywordsInfo.map (·.1)).Nodup ∧
    keywordTableLookup ("true".toList) = .True ∧ keywordTableLookup ("True".toList) = .True ∧
    keywordTableLookup ("false".toList) = .False ∧
    keywordTableLookup ("False".toList) = .False ∧
    keywordTableLookup ("none".toList) = .None ∧ keywordTableLookup ("None".toList) = .None ∧
    GetKeyword ("format".toList) ⟨0, 6⟩ = .Unknown ∧
    GetKeyword ("endfor2".toList) ⟨0, 7⟩ = .Unknown ∧
    GetKeyword ("TRUE".toList) ⟨0, 4⟩ = .Unknown ∧
    GetKeyword ("endfor2".toList) ⟨0, 6⟩ = .Endfor := by
  have htable : ∀ info ∈ s_keywordsInfo,
      keywordTableLookup info.1 = info.2 ∧ info.2 ≠ .Unknown := by decide
  refine ⟨fun info hinfo htext => ?_, fun hnone => ?_, rfl, by decide, by decide, by decide,
    by decide, by decide, by decide, by decide, by decide, by decide, by decide, by decide⟩
  · rw [GetKeyword_eq, htext]
    exact htable info hinfo
  · rw [GetKeyword_eq]
    unfold keywordTableLookup
    have hfind : s_keywordsInfo.find? (fun info => info.1 == rangeText tpl range) = none := by
      rw [List.find?_eq_none]
      intro info hinfo hq
      have heq : info.1 = rangeText tpl range := by simpa using hq
      exact hnone info hinfo heq.symm
    rw [hfind]

/-! ## Escapes in string literals -/

theorem set_take_le {α : Type} (x : α) : ∀ (l : List α) (j k : Nat), j ≤ k →
    (l.set k x).take j = l.take j
  | [], _, _, _ => by simp
  | _ :: _, 0, _, _ => by simp
  | a :: l, j + 1, 0, h => absurd h (by omega)
  | a :: l, j + 1, k + 1, h => by
    simp only [List.set_cons_succ, List.take_succ_cons]
    rw [set_take_le x l j k (by omega)]

theorem set_drop_lt {α : Type} (x : α) : ∀ (l : List α) (k i : Nat), k < i →
    (l.set k x).drop i = l.drop i
  | [], _, _, _ => by simp
  | a :: l, _, 0, h => absurd h (by omega)
  | a :: l, 0, i + 1, _ => by simp
  | a :: l, k + 1, i + 1, h => by
    simp only [List.set_cons_succ, List.drop_succ_cons]
    exact set_drop_lt x l k i (by omega)

theorem set_take_succ {α : Type} (x : α) : ∀ (l : List α) (j : Nat), j < l.length →
    (l.set j x).take (j + 1) = l.take j ++ [x]
  | [], _, h => absurd h (by simp)
  | a :: l, 0, _ => by simp
  | a :: l, j + 1, h => by
    simp only [List.set_cons_succ, List.take_succ_cons, List.cons_append]
    rw [set_take_succ x l j (by simpa using h)]

theorem set_drop_same {α : Type} (x : α) : ∀ (l : List α) (i : Nat), i < l.length →
    (l.set i x).drop i = x :: l.drop (i + 1)
  | [], _, h => absurd h (by simp)
  | a :: l, 0, _ => by simp
  | a :: l, i + 1, h => by
    simp only [List.set_cons_succ, List.drop_succ_cons]
    exact set_drop_same x l i (by simpa using h)

theorem take_succ_charAt (b : List Char) (j : Nat) (h : j < b.length) :
    b.take (j + 1) = b.take j ++ [charAt b j] := by
  rw [List.take_succ]
  simp [charAt, List.getD, List.getElem?_eq_getElem h]

/-- The copying round writes `*itr1` at `itr2` and changes nothing from `itr1` on. -/
theorem copy_spec (st : EscapeState) (hj : st.itr2 ≤ st.itr1) (hi : st.itr1 < st.s.length) :
    st.copy.s.take (st.itr2 + 1) = st.s.take st.itr2 ++ [charAt st.s st.itr1] ∧
    st.copy.s.drop (st.itr1 + 1) = st.s.drop (st.itr1 + 1) ∧
    st.copy.s.length = st.s.length := by
  unfold EscapeState.copy
  by_cases h : st.itr1 = st.itr2
  · dsimp only
    rw [if_neg (not_not.mpr h)]
    refine ⟨?_, rfl, rfl⟩
    rw [h]
    exact take_succ_charAt _ _ (by omega)
  · dsimp only
    rw [if_pos h]
    exact ⟨set_take_succ _ _ _ (by omega), set_drop_lt _ _ _ _ (by omega), by simp⟩

theorem escapeMeaning_ne (d : Char) (h : d ≠ '\\') : escapeMeaning d ≠ '\\' := by
  unfold escapeMeaning
  split_ifs
  · decide
  · decide
  · decide
  · exact h

theorem unescape_cons (c : Char) (l : List Char) (h : c ≠ '\\') :
    unescape (c :: l) = c :: unescape l ∧ escapeCount (c :: l) = escapeCount l := by
  cases l with
  | nil => simp [unescape, escapeCount, h]
  | cons d rest => simp [unescape, escapeCount, h]

/-- What the loop of `CompileEscapes` gives from the state `st` (`compileLoop_spec`). -/
theorem copy_case (fuel : Nat)
    (ih : ∀ st : EscapeState, st.itr2 ≤ st.itr1 → st.itr1 ≤ st.s.length →
      st.s.length - st.itr1 ≤ fuel →
      (compileLoop fuel st).s.take (compileLoop fuel st).itr2 =
          st.s.take st.itr2 ++ unescape (st.s.drop st.itr1) ∧
        (compileLoop fuel st).removalCount =
          st.removalCount + escapeCount (st.s.drop st.itr1) ∧
        (compileLoop fuel st).itr2 = st.itr2 + (unescape (st.s.drop st.itr1)).length ∧
        (compileLoop fuel st).itr1 = (compileLoop fuel st).s.length ∧
        (compileLoop fuel st).s.length = st.s.length)
    (s : List Char) (i j rc : Nat) (hj : j ≤ i) (hi : i < s.length)
    (hf : s.length - (i + 1) ≤ fuel) :
    (compileLoop fuel (EscapeState.copy ⟨s, i, j, rc⟩)).s.take
        (compileLoop fuel (EscapeState.copy ⟨s, i, j, rc⟩)).itr2 =
        s.take j ++ charAt s i :: unescape (s.drop (i + 1)) ∧
      (compileLoop fuel (EscapeState.copy ⟨s, i, j, rc⟩)).removalCount =
        rc + escapeCount (s.drop (i + 1)) ∧
      (compileLoop fuel (EscapeState.copy ⟨s, i, j, rc⟩)).itr2 =
        j + 1 + (unescape (s.drop (i + 1))).length ∧
      (compileLoop fuel (EscapeState.copy ⟨s, i, j, rc⟩)).itr1 =
        (compileLoop fuel (EscapeState.copy ⟨s, i, j, rc⟩)).s.length ∧
      (compileLoop fuel (EscapeState.copy ⟨s, i, j, rc⟩)).s.length = s.length := by
  obtain ⟨c1, c2, c3⟩ := copy_spec ⟨s, i, j, rc⟩ hj hi
  have e1 : (EscapeState.copy ⟨s, i, j, rc⟩).itr2 = j + 1 := rfl
  have e2 : (EscapeState.copy ⟨s, i, j, rc⟩).itr1 = i + 1 := rfl
  have e3 : (EscapeState.copy ⟨s, i, j, rc⟩).removalCount = rc := rfl
  dsimp only at c1 c2 c3
  obtain ⟨h1, h2, h3, h4, h5⟩ := ih (EscapeState.copy ⟨s, i, j, rc⟩)
    (by rw [e1, e2]; omega) (by rw [e2, c3]; omega) (by rw [e2, c3]; omega)
  rw [e1, e2, c1, c2] at h1
  rw [e2, e3, c2] at h2
  rw [e1, e2, c2] at h3
  refine ⟨?_, h2, h3, h4, by rw [h5, c3]⟩
  rw [h1]
  simp

/-- The loop of `CompileEscapes` from any state with enough fuel: it ends at the end of the
sequence, with the unescaped rest written behind what was written before. -/
theorem compileLoop_spec : ∀ (fuel : Nat) (st : EscapeState), st.itr2 ≤ st.itr1 →
    st.itr1 ≤ st.s.length → st.s.length - st.itr1 ≤ fuel →
    (compileLoop fuel st).s.take (compileLoop fuel st).itr2 =
        st.s.take st.itr2 ++ unescape (st.s.drop st.itr1) ∧
      (compileLoop fuel st).removalCount =
        st.removalCount + escapeCount (st.s.drop st.itr1) ∧
      (compileLoop fuel st).itr2 = st.itr2 + (unescape (st.s.drop st.itr1)).length ∧
      (compileLoop fuel st).itr1 = (compileLoop fuel st).s.length ∧
      (compileLoop fuel st).s.length = st.s.length := by
  intro fuel
  induction fuel with
  | zero =>
    intro st _ hi hf
    have he : st.itr1 = st.s.length := by omega
    have hd : st.s.drop st.itr1 = [] := List.drop_of_length_le (by omega)
    simp [compileLoop, hd, unescape, escapeCount, he]
  | succ fuel ih =>
    rintro ⟨s, i, j, rc⟩ hj hi hf
    dsimp only at hj hi hf ⊢
    by_cases he : i = s.length
    · have hd : s.drop i = [] := List.drop_of_length_le (by omega)
      simp [compileLoop, hd, unescape, escapeCount, he]
    · have hlt : i < s.length := by omega
      have hdrop := charAt_of_lt hlt
      by_cases hb : charAt s i = '\\'
      · by_cases he2 : i + 1 = s.length
        · have hd2 : s.drop (i + 1) = [] := List.drop_of_length_le (by omega)
          rw [hdrop, hd2, hb]
          simp [compileLoop, he, hb, he2, unescape, escapeCount]
        · have hlt2 : i + 1 < s.length := by omega
          have hdrop2 := charAt_of_lt hlt2
          by_cases hb2 : charAt s (i + 1) = '\\'
          · have hstep : compileLoop (fuel + 1) ⟨s, i, j, rc⟩ =
                compileLoop fuel (EscapeState.copy ⟨s, i + 1, j, rc + 1⟩) := by
              simp [compileLoop, he, hb, he2, hb2]
            obtain ⟨h1, h2, h3, h4, h5⟩ := copy_case fuel ih s (i + 1) j (rc + 1) (by omega)
              hlt2 (by omega)
            rw [hstep, hdrop, hdrop2, hb, hb2]
            rw [hb2] at h1
            refine ⟨?_, ?_, ?_, h4, h5⟩
            · rw [h1]
              simp [unescape, escapeMeaning]
            · rw [h2]
              simp [escapeCount]
              omega
            · rw [h3]
              simp [unescape]
              omega
          · have hstep : compileLoop (fuel + 1) ⟨s, i, j, rc⟩ =
                compileLoop fuel
                  ⟨s.set (i + 1) (escapeMeaning (charAt s (i + 1))), i + 1, j, rc + 1⟩ := by
              simp [compileLoop, he, hb, he2, hb2]
            obtain ⟨h1, h2, h3, h4, h5⟩ := ih
              ⟨s.set (i + 1) (escapeMeaning (charAt s (i + 1))), i + 1, j, rc + 1⟩
              (by dsimp only; omega) (by simp; omega) (by simp; omega)
            have hm := escapeMeaning_ne _ hb2
            dsimp only at h1 h2 h3 h5
            rw [set_drop_same _ _ _ hlt2, (unescape_cons _ _ hm).1] at h1 h3
            rw [set_drop_same _ _ _ hlt2, (unescape_cons _ _ hm).2] at h2
            rw [hstep, hdrop, hdrop2, hb]
            refine ⟨?_, ?_, ?_, h4, by rw [h5]; simp⟩
            · rw [h1, set_take_le _ _ _ _ (by omega)]
              simp [unescape]
            · rw [h2]
              simp [escapeCount]
              omega
            · rw [h3]
              simp [unescape]
      · have hstep : compileLoop (fuel + 1) ⟨s, i, j, rc⟩ =
            compileLoop fuel (EscapeState.copy ⟨s, i, j, rc⟩) := by
          simp [compileLoop, he, hb]
        obtain ⟨h1, h2, h3, h4, h5⟩ := copy_case fuel ih s i j rc hj hlt (by omega)
        rw [hstep, hdrop, (unescape_cons _ _ hb).1, (unescape_cons _ _ hb).2]
        refine ⟨h1, h2, ?_, h4, h5⟩
        rw [h3]
        simp only [List.length_cons]
        omega
theorem unescape_length_aux : ∀ (l : List Char),
    ((unescape l).length + escapeCount l = l.length) ∧
    ∀ c, (unescape (c :: l)).length + escapeCount (c :: l) = (c :: l).length := by
  intro l
  induction l with
  | nil =>
    refine ⟨rfl, fun c => ?_⟩
    by_cases h : c = '\\' <;> simp [unescape, escapeCount, h]
  | cons d rest ih =>
    refine ⟨ih.2 d, fun c => ?_⟩
    by_cases h : c = '\\'
    · have := ih.1
      simp only [unescape, escapeCount, h, if_true, List.length_cons]
      omega
    · have := ih.2 d
      simp only [unescape, escapeCount, h, if_false, List.length_cons] at this ⊢
      omega

theorem unescape_length (l : List Char) :
    (unescape l).length + escapeCount l = l.length :=
  (unescape_length_aux l).1

theorem unescape_no_backslash : ∀ (l : List Char), '\\' ∉ l →
    unescape l = l ∧ escapeCount l = 0 := by
  intro l
  induction l with
  | nil => intro _; exact ⟨rfl, rfl⟩
  | cons c l ih =>
    intro h
    have hc : c ≠ '\\' := fun e => h (by simp [e])
    have hl : '\\' ∉ l := fun e => h (List.mem_cons_of_mem _ e)
    obtain ⟨h1, h2⟩ := unescape_cons c l hc
    rw [h1, h2, (ih hl).1, (ih hl).2]
    exact ⟨rfl, rfl⟩

/-- The loop of `CompileEscapes` with `s.size()` rounds of fuel ends at the end of the
sequence. -/
theorem compileLoop_done (s : List Char) :
    (compileLoop s.length ⟨s, 0, 0, 0⟩).itr1 = (compileLoop s.length ⟨s, 0, 0, 0⟩).s.length :=
  (compileLoop_spec s.length ⟨s, 0, 0, 0⟩ (Nat.le_refl _) (Nat.zero_le _) (by simp)).2.2.2.1

/-- The result of `CompileEscapes`: the unescaped sequence, when `removalCount` stays in the
range of an `int`. -/
theorem CompileEscapes_eq (s : List Char) :
    CompileEscapes s = if escapeCount s < 2 ^ 31 then some (unescape s) else none := by
  obtain ⟨h1, h2, h3, _, h5⟩ := compileLoop_spec s.length ⟨s, 0, 0, 0⟩ (Nat.le_refl _)
    (Nat.zero_le _) (by simp)
  simp only [List.take_zero, List.nil_append, List.drop_zero, Nat.zero_add] at h1 h2 h3 h5
  have hlen := unescape_length s
  unfold CompileEscapes
  simp only [h2]
  split_ifs
  · congr 1
    rw [← h1, h3]
    congr 1
    omega
  · rfl

theorem escapeCount_replicate (n : Nat) :
    escapeCount (List.replicate (2 * n) '\\') = n := by
  induction n with
  | zero => rfl
  | succ n ih =>
    have e : 2 * (n + 1) = 2 * n + 1 + 1 := by omega
    rw [e, List.replicate_succ, List.replicate_succ]
    simp [escapeCount, ih]

/-- C30 (amended): on every character sequence with fewer than `2^31` escape-introducing
backslashes, `CompileEscapes` returns the left-to-right unescape of the sequence; the
result's length is the input length minus the number of those backslashes, and a sequence
with no backslash is returned unchanged. -/
theorem C30_compile_escapes_amended (s : List Char) (h : escapeCount s < 2 ^ 31) :
    CompileEscapes s = some (unescape s) ∧
    (unescape s).length = s.length - escapeCount s ∧
    ('\\' ∉ s → CompileEscapes s = some s) := by
  have hlen := unescape_length s
  refine ⟨by rw [CompileEscapes_eq, if_pos h], by omega, fun hno => ?_⟩
  rw [CompileEscapes_eq, if_pos h, (unescape_no_backslash s hno).1]

/-- C30 at the sequence `a\nb\\n\x\` (a backslash before `n`, two backslashes, a backslash
before `x`, a final backslash): four escapes, the result is `a`, LF, `b`, a backslash, `n`,
`x`. -/
theorem C30_compile_escapes_amended_witness :
    escapeCount ("a\\nb\\\\n\\x\\".toList) < 2 ^ 31 ∧
    CompileEscapes ("a\\nb\\\\n\\x\\".toList) = some ("a\nb\\nx".toList) :=
  ⟨by decide,
    (C30_compile_escapes_amended ("a\\nb\\\\n\\x\\".toList) (by decide)).1.trans (by decide)⟩

/-- C30 as stated fails on the sequence of `2^32` backslashes: it has `2^31` escapes, one
more than `removalCount` can count, and `CompileEscapes` has no defined result there, where
the unescape function gives `2^31` backslashes. -/
theorem C30_counterexample :
    escapeCount (List.replicate 4294967296 '\\') = 2147483648 ∧
    CompileEscapes (List.replicate 4294967296 '\\') = none ∧
    CompileEscapes (List.replicate 4294967296 '\\') ≠
      some (unescape (List.replicate 4294967296 '\\')) := by
  have h2 : (4294967296 : Nat) = 2 * 2147483648 := by norm_num
  have hc : escapeCount (List.replicate 4294967296 '\\') = 2147483648 := by
    rw [h2]
    exact escapeCount_replicate 2147483648
  have hn : CompileEscapes (List.replicate 4294967296 '\\') = none := by
    rw [CompileEscapes_eq, hc, if_neg (by norm_num)]
  exact ⟨hc, hn, by rw [hn]; exact fun h => Option.noConfusion h⟩

/-! ## The set statement -/

theorem assign_length (c : RenderContext) (scope : Nat) (name : String) (v : InternalValue) :
    (c.assign scope name v).scopes.length = c.scopes.length := by
  simp [RenderContext.assign, updateAt_length]

theorem assign_getElem? (c : RenderContext) (scope : Nat) (name : String) (v : InternalValue)
    (i : Nat) :
    (c.assign scope name v).scopes[i]? =
      if i = scope then c.scopes[i]?.map (fun m => mapSet m name v) else c.scopes[i]? := by
  simp [RenderContext.assign, updateAt_getElem?]

theorem setCurrent_length (c : RenderContext) (name : String) (v : InternalValue) :
    (c.setCurrent name v).scopes.length = c.scopes.length :=
  assign_length c _ name v

theorem setCurrent_outer (c : RenderContext) (name : String) (v : InternalValue) (i : Nat)
    (h : i + 1 < c.scopes.length) :
    (c.setCurrent name v).scopes[i]? = c.scopes[i]? := by
  rw [RenderContext.setCurrent, assign_getElem?, if_neg (by omega)]

theorem setCurrent_current (c : RenderContext) (name : String) (v : InternalValue)
    (h : c.scopes ≠ []) (k : String) :
    (c.setCurrent name v).GetCurrentScope k =
      if k = name then some v else c.GetCurrentScope k := by
  have hlt : c.scopes.length - 1 < c.scopes.length := by
    have := List.length_pos.mpr h
    omega
  simp only [RenderContext.GetCurrentScope, setCurrent_length]
  rw [RenderContext.setCurrent, assign_getElem?, if_pos rfl, List.getElem?_eq_getElem hlt]
  simp [mapSet]

theorem setCurrent_cells (c : RenderContext) (name : String) (v : InternalValue) :
    (c.setCurrent name v).cells = c.cells := rfl

/-- The loop of a set statement with several targets. -/
theorem setFold (g : String → InternalValue) : ∀ (l : List String) (c : RenderContext),
    c.scopes ≠ [] →
    let c2 := l.foldl (fun values name => values.setCurrent name (g name)) c
    c2.scopes.length = c.scopes.length ∧ c2.cells = c.cells ∧
    (∀ i, i + 1 < c.scopes.length → c2.scopes[i]? = c.scopes[i]?) ∧
    ∀ k, c2.GetCurrentScope k = if k ∈ l then some (g k) else c.GetCurrentScope k := by
  intro l
  induction l with
  | nil => intro c _; simp
  | cons name l ih =>
    intro c hc
    have hc2 : (c.setCurrent name (g name)).scopes ≠ [] := by
      intro h
      have := setCurrent_length c name (g name)
      rw [h] at this
      exact hc (List.length_eq_zero.mp this.symm)
    obtain ⟨h1, h2, h3, h4⟩ := ih (c.setCurrent name (g name)) hc2
    simp only [List.foldl_cons]
    refine ⟨by rw [h1, setCurrent_length], by rw [h2, setCurrent_cells], ?_, ?_⟩
    · intro i hi
      rw [h3 i (by rw [setCurrent_length]; exact hi), setCurrent_outer c _ _ i hi]
    · intro k
      rw [h4 k, setCurrent_current c _ _ hc]
      by_cases hk : k ∈ l
      · simp [hk]
      · by_cases hkn : k = name
        · simp [hkn]
        · simp [hk, hkn]

/-- A set statement without an expression does nothing. -/
theorem SetStatement_Render_none (ops : ValueOps) (s : SetStatement) (st : RenderState)
    (h : s.m_expr = none) : s.Render ops st = st := by
  simp [SetStatement.Render, h]

/-- C21: a set statement with an expression, rendered in a context that has a current scope,
writes nothing; the scope depth and every scope but the current one are as before; with one
target the current scope binds that name to the value of the expression and every other name
as before; with another number of targets the current scope binds each target to the value
subscripted by the target and every other name as before. -/
theorem C21_set_statement (ops : ValueOps) (s : SetStatement) (expr : Expression)
    (st : RenderState) (hexpr : s.m_expr = some expr) (hscope : st.values.scopes ≠ []) :
    (s.Render ops st).os = st.os ∧
    (s.Render ops st).values.scopes.length = st.values.scopes.length ∧
    (s.Render ops st).values.cells = st.values.cells ∧
    (∀ i, i + 1 < st.values.scopes.length →
      (s.Render ops st).values.scopes[i]? = st.values.scopes[i]?) ∧
    (∀ name, s.m_fields = [name] → ∀ k,
      (s.Render ops st).values.GetCurrentScope k =
        if k = name then some (expr st.values) else st.values.GetCurrentScope k) ∧
    (s.m_fields.length ≠ 1 → ∀ k,
      (s.Render ops st).values.GetCurrentScope k =
        if k ∈ s.m_fields then some (ops.Subscript (expr st.values) k)
        else st.values.GetCurrentScope k) := by
  by_cases h1 : s.m_fields.length = 1
  · have hr : s.Render ops st =
        { os := st.os
          values := st.values.setCurrent (s.m_fields.headD "") (expr st.values)
          calls := st.calls ++ [(Callee.Value, st.values)] } := by
      simp [SetStatement.Render, hexpr, h1, callEvaluate]
    rw [hr]
    refine ⟨rfl, setCurrent_length _ _ _, rfl, fun i hi => setCurrent_outer _ _ _ i hi, ?_,
      fun h => absurd h1 h⟩
    intro name hname k
    simp only [hname, List.headD_cons]
    exact setCurrent_current _ _ _ hscope k
  · have hr : s.Render ops st =
        { os := st.os
          values := s.m_fields.foldl
            (fun values name => values.setCurrent name (ops.Subscript (expr st.values) name))
            st.values
          calls := st.calls ++ [(Callee.Value, st.values)] } := by
      simp [SetStatement.Render, hexpr, h1, callEvaluate]
    obtain ⟨h2, h3, h4, h5⟩ :=
      setFold (fun name => ops.Subscript (expr st.values) name) s.m_fields st.values hscope
    rw [hr]
    refine ⟨rfl, h2, h3, h4, ?_, fun _ => h5⟩
    intro name hname
    rw [hname] at h1
    exact absurd rfl h1

theorem C21_set_statement_witness :
    (exampleSet.Render exampleOps exampleNested).os = "out".toList ∧
    (exampleSet.Render exampleOps exampleNested).values.scopes.length = 2 ∧
    (exampleSet.Render exampleOps exampleNested).values.GetCurrentScope "x" = some (.int 5) ∧
    (exampleSet.Render exampleOps exampleNested).values.GetCurrentScope "y" = some (.int 1) ∧
    (exampleSetMany.Render exampleOps exampleNested).values.GetCurrentScope "b" =
      some (.int 2) ∧
    (exampleSetMany.Render exampleOps exampleNested).values.GetCurrentScope "y" =
      some (.int 1) := by
  have h := C21_set_statement exampleOps exampleSet (fun _ => .int 5) exampleNested rfl
    (by simp [exampleNested])
  have h2 := C21_set_statement exampleOps exampleSetMany
    (fun _ => .map [("a", .int 1), ("b", .int 2)]) exampleNested rfl (by simp [exampleNested])
  refine ⟨h.1, h.2.1, ?_, ?_, ?_, ?_⟩
  · rw [h.2.2.2.2.1 "x" rfl "x"]; rfl
  · rw [h.2.2.2.2.1 "x" rfl "y"]; rfl
  · rw [h2.2.2.2.2.2 (by decide) "b"]; rfl
  · rw [h2.2.2.2.2.2 (by decide) "y"]; rfl

/-! ## Scope depth -/

theorem mainLoop_depth (ops : ValueOps) (f : ForStatement) (d c : Nat)
    (items : List InternalValue) (hdepth : keepsDepth f.m_mainBody) (n : Nat) :
    ∀ (l : List Nat) (acc : Bool × RenderState), acc.2.values.scopes.length = n →
      (l.foldl (loopStep ops f d c items) acc).2.values.scopes.length = n := by
  intro l
  induction l with
  | nil => intro acc h; simpa using h
  | cons k l ih =>
    intro acc h
    rw [List.foldl_cons]
    apply ih
    rw [loopStep_eq]
    simp only [callRenderer]
    rw [hdepth]
    simp [roundContext, updateAt_length, h]

theorem RenderLoop_depth (ops : ValueOps) (f : ForStatement) (loopVal : InternalValue)
    (st1 : RenderState) (hmain : keepsDepth f.m_mainBody)
    (helse : ∀ e, f.m_elseBody = some e → keepsDepth e) :
    (f.RenderLoop ops loopVal st1).values.scopes.length = st1.values.scopes.length := by
  cases h : ops.ConvertToList loopVal with
  | none =>
    rw [RenderLoop_none ops f _ st1 h]
    cases he : f.m_elseBody with
    | none => rfl
    | some e =>
      simp [RenderContext.ExitScope, RenderContext.endCell, helse e he _, loopContext_depth]
  | some items =>
    rw [RenderLoop_some ops f _ st1 items h]
    have hstart := (loopStart_ready ops f st1 items).1
    have hloop := mainLoop_depth ops f st1.values.scopes.length st1.values.cells.length
      (f.keptItems ops st1.values items) hmain (st1.values.scopes.length + 1)
      (List.range (f.keptItems ops st1.values items).length)
      (false, f.loopStart ops st1 items) hstart
    cases he : f.m_elseBody with
    | none =>
      simp [RenderContext.ExitScope, RenderContext.endCell, hloop]
    | some e =>
      simp only []
      split_ifs
      · simp [RenderContext.ExitScope, RenderContext.endCell, callRenderer, helse e he _, hloop]
      · simp [RenderContext.ExitScope, RenderContext.endCell, hloop]

theorem ForStatement_Render_depth (ops : ValueOps) (f : ForStatement) (st : RenderState)
    (hmain : keepsDepth f.m_mainBody) (helse : ∀ e, f.m_elseBody = some e → keepsDepth e) :
    (f.Render ops st).values.scopes.length = st.values.scopes.length :=
  RenderLoop_depth ops f (f.m_value st.values) (callEvaluate .Value f.m_value st).2 hmain helse

theorem renderElseBranches_depth (ops : ValueOps) :
    ∀ (bs : List ElseBranchStatement) (branch : Nat) (st : RenderState),
      (∀ b ∈ bs, keepsDepth b.m_mainBody) →
      (renderElseBranches ops bs branch st).values.scopes.length =
        st.values.scopes.length := by
  intro bs
  induction bs with
  | nil => intro branch st _; rfl
  | cons b bs ih =>
    intro branch st h
    simp only [renderElseBranches, ShouldRender_eq]
    split_ifs
    · simp [ElseBranchStatement.Render, callRenderer, h b (List.mem_cons_self _ _) _]
    · rw [ih (branch + 1) _ (fun x hx => h x (List.mem_cons_of_mem _ hx))]

theorem IfStatement_Render_depth (ops : ValueOps) (s : IfStatement) (st : RenderState)
    (hmain : keepsDepth s.m_mainBody) (helse : ∀ b ∈ s.m_elseBranches, keepsDepth b.m_mainBody) :
    (s.Render ops st).values.scopes.length = st.values.scopes.length := by
  simp only [IfStatement.Render, callEvaluate]
  split_ifs
  · simp [callRenderer, hmain _]
  · rw [renderElseBranches_depth ops _ 0 _ helse]

theorem SetStatement_Render_depth (ops : ValueOps) (s : SetStatement) (st : RenderState) :
    (s.Render ops st).values.scopes.length = st.values.scopes.length := by
  have hfold : ∀ (g : String → InternalValue) (l : List String) (c : RenderContext),
      (l.foldl (fun values name => values.setCurrent name (g name)) c).scopes.length =
        c.scopes.length := by
    intro g l
    induction l with
    | nil => intro c; rfl
    | cons a l ih => intro c; rw [List.foldl_cons, ih, setCurrent_length]
  cases he : s.m_expr with
  | none => rw [SetStatement_Render_none ops s st he]
  | some expr =>
    simp only [SetStatement.Render, he, callEvaluate]
    split_ifs
    · exact setCurrent_length _ _ _
    · exact hfold (fun name => ops.Subscript (expr st.values) name) _ _

theorem registerSelf_depth (s : ParentBlockStatement) (values v : RenderContext)
    (h : s.registerSelf values = some v) : v.scopes.length = values.scopes.length := by
  unfold ParentBlockStatement.registerSelf at h
  split at h
  · split_ifs at h
    · cases h; rfl
    · cases h; exact assign_length _ _ _ _
  · split at h
    · split_ifs at h
      · cases h; rfl
      · cases h; rfl
    · cases h
  · cases h

theorem ParentBlockStatement_Render_depth (env : Runtime) (s : ParentBlockStatement)
    (st st2 : RenderState) (h : s.Render env st = some st2) :
    st2.values.scopes.length = st.values.scopes.length := by
  unfold ParentBlockStatement.Render at h
  split at h
  · cases h; rfl
  · split at h
    · cases h; rfl
    · split at h
      · cases h; rfl
      · simp only [Option.map_eq_some'] at h
        obtain ⟨v, hv, hst⟩ := h
        rw [← hst]
        simp only []
        rw [registerSelf_depth s _ v hv]
        simp [RenderContext.afterClone, updateAt_length]

theorem assignFold_length (scope : Nat) : ∀ (l : List (String × InternalValue))
    (c : RenderContext),
    (l.foldl (fun ctx a => ctx.assign scope a.1 a.2) c).scopes.length = c.scopes.length := by
  intro l
  induction l with
  | nil => intro c; rfl
  | cons a l ih => intro c; rw [List.foldl_cons, ih, assign_length]

theorem InvokeMacroRenderer_depth (env : Runtime) (s : MacroStatement)
    (callParams : CallParams) (st : RenderState) (hbody : keepsDepth s.m_mainBody) :
    (s.InvokeMacroRenderer env callParams st).values.scopes.length =
      st.values.scopes.length := by
  simp [MacroStatement.InvokeMacroRenderer, callRenderer, RenderContext.ExitScope, hbody _,
    assign_length, assignFold_length, RenderContext.EnterScope]

theorem erase_length (c : RenderContext) (scope : Nat) (name : String) :
    (c.erase scope name).scopes.length = c.scopes.length := by
  simp [RenderContext.erase, updateAt_length]

theorem MacroCallStatement_Render_depth (env : Runtime) (s : MacroCallStatement)
    (st : RenderState) (hcall : ∀ c, keepsDepth (env.invoke c s.m_callParams)) :
    (s.Render env st).2.values.scopes.length = st.values.scopes.length := by
  unfold MacroCallStatement.Render
  split
  · rfl
  · split
    · split_ifs
      · rfl
      · simp only []
        split
        · simp [callRenderer, assign_length, hcall _ _]
        · simp [callRenderer, RenderContext.eraseCurrent, erase_length, assign_length,
            hcall _ _]
    · rfl

theorem ParentTemplateRenderer_Render_depth (ops : ValueOps) (r : ParentTemplateRenderer)
    (st : RenderState) (hroot : keepsDepth r.m_template) :
    (r.Render ops st).values.scopes.length = st.values.scopes.length := by
  simp [ParentTemplateRenderer.Render, callRenderer, hroot _, assign_length]

theorem ExtendsStatement_Render_depth (env : Runtime) (s : ExtendsStatement)
    (st : RenderState)
    (hroot : ∀ root, env.LoadTemplate s.m_templateName = .loaded root → keepsDepth root) :
    (s.Render env st).values.scopes.length = st.values.scopes.length := by
  unfold ExtendsStatement.Render
  split_ifs
  · rfl
  · simp only []
    cases h : env.LoadTemplate s.m_templateName with
    | emptyValue => rfl
    | failed => rfl
    | loaded root =>
      simp only [TemplateImplVisitor]
      exact ParentTemplateRenderer_Render_depth env.ops _ st (hroot root h)

/-- C22: scope balance of the statement renderers. Each of For, If, else-branch, Set, plain
Block, overridable Block (wherever it has a result), Macro definition, macro invocation,
Call, parent-template renderer and Extends leaves the scope depth of its context as it was,
provided the bodies it renders, the callables it invokes and the root of the template it
loads do so. -/
theorem C22_scope_balance (env : Runtime) (st : RenderState) :
    (∀ f : ForStatement, keepsDepth f.m_mainBody →
      (∀ e, f.m_elseBody = some e → keepsDepth e) →
      (f.Render env.ops st).values.scopes.length = st.values.scopes.length) ∧
    (∀ f : ForStatement, keepsDepth f.m_mainBody →
      (∀ e, f.m_elseBody = some e → keepsDepth e) →
      env.ops.ConvertToList (f.m_value st.values) = none →
      (f.Render env.ops st).values.scopes.length = st.values.scopes.length) ∧
    (∀ s : IfStatement, keepsDepth s.m_mainBody →
      (∀ b ∈ s.m_elseBranches, keepsDepth b.m_mainBody) →
      (s.Render env.ops st).values.scopes.length = st.values.scopes.length) ∧
    (∀ (b : ElseBranchStatement) (branch : Nat), keepsDepth b.m_mainBody →
      (b.Render branch st).values.scopes.length = st.values.scopes.length) ∧
    (∀ s : SetStatement,
      (s.Render env.ops st).values.scopes.length = st.values.scopes.length) ∧
    (∀ s : BlockStatement, keepsDepth s.m_mainBody →
      (s.Render st).values.scopes.length = st.values.scopes.length) ∧
    (∀ (s : ParentBlockStatement) (st2 : RenderState), s.Render env st = some st2 →
      st2.values.scopes.length = st.values.scopes.length) ∧
    (∀ s : ParentBlockStatement,
      st.values.FindValue "$$__parent_template" = none → s.Render env st = some st) ∧
    (∀ s : MacroStatement,
      (s.Render st).2.values.scopes.length = st.values.scopes.length) ∧
    (∀ (s : MacroStatement) (callParams : CallParams), keepsDepth s.m_mainBody →
      (s.InvokeMacroRenderer env callParams st).values.scopes.length =
        st.values.scopes.length) ∧
    (∀ s : MacroCallStatement, (∀ c, keepsDepth (env.invoke c s.m_callParams)) →
      (s.Render env st).2.values.scopes.length = st.values.scopes.length) ∧
    (∀ r : ParentTemplateRenderer, keepsDepth r.m_template →
      (r.Render env.ops st).values.scopes.length = st.values.scopes.length) ∧
    (∀ s : ExtendsStatement,
      (∀ root, env.LoadTemplate s.m_templateName = .loaded root → keepsDepth root) →
      (s.Render env st).values.scopes.length = st.values.scopes.length) := by
  refine ⟨fun f h1 h2 => ForStatement_Render_depth env.ops f st h1 h2,
    fun f h1 h2 _ => ForStatement_Render_depth env.ops f st h1 h2,
    fun s h1 h2 => IfStatement_Render_depth env.ops s st h1 h2,
    fun b branch h => ?_,
    fun s => SetStatement_Render_depth env.ops s st,
    fun s h => ?_,
    fun s st2 h => ParentBlockStatement_Render_depth env s st st2 h,
    fun s h => ?_,
    fun s => ?_,
    fun s callParams h => InvokeMacroRenderer_depth env s callParams st h,
    fun s h => MacroCallStatement_Render_depth env s st h,
    fun r h => ParentTemplateRenderer_Render_depth env.ops r st h,
    fun s h => ExtendsStatement_Render_depth env s st h⟩
  · simp [ElseBranchStatement.Render, callRenderer, h _]
  · simp [BlockStatement.Render, callRenderer, h _]
  · simp [ParentBlockStatement.Render, h]
  · exact setCurrent_length _ _ _

theorem C22_scope_balance_witness :
    (exampleFor.Render exampleRuntime.ops exampleNested).values.scopes.length = 2 ∧
    (exampleParentBlock.Render exampleRuntime exampleChain).isSome = true ∧
    (∀ st2, exampleParentBlock.Render exampleRuntime exampleChain = some st2 →
      st2.values.scopes.length = 2) ∧
    (exampleCall.Render exampleRuntime exampleCallState).2.values.scopes.length = 2 ∧
    (exampleExtends.Render exampleRuntime exampleNested).values.scopes.length = 2 := by
  have h := C22_scope_balance exampleRuntime exampleNested
  have h2 := C22_scope_balance exampleRuntime exampleChain
  have h3 := C22_scope_balance exampleRuntime exampleCallState
  refine ⟨h.1 exampleFor (fun _ => rfl) (fun e he => ?_), rfl,
    fun st2 hst => h2.2.2.2.2.2.2.1 exampleParentBlock st2 hst,
    h3.2.2.2.2.2.2.2.2.2.2.1 exampleCall (fun c ctx => ?_),
    h.2.2.2.2.2.2.2.2.2.2.2.2 exampleExtends (fun root hroot => ?_)⟩
  · simp [exampleFor] at he
  · simp only [exampleRuntime]
    split <;> rfl
  · have hr : root = exampleParent.m_template := by
      have : LoadedTemplate.loaded exampleParent.m_template = .loaded root := hroot
      injection this with h'
      exact h'.symm
    rw [hr]
    intro ctx
    rfl

/-! ## Macros and calls -/

theorem foldl_append_map {α β : Type} (g : α → β) : ∀ (l : List α) (init : List β),
    l.foldl (fun acc p => acc ++ [g p]) init = init ++ l.map g := by
  intro l
  induction l with
  | nil => intro init; simp
  | cons a l ih => intro init; simp [ih]

/-- The call `PrepareMacroParams` appends one entry for each declared parameter to the
prepared parameters the statement holds. -/
theorem PrepareMacroParams_eq (s : MacroStatement) (values : RenderContext) :
    (s.PrepareMacroParams values).m_preparedParams =
      s.m_preparedParams ++ s.m_params.map (fun p =>
        { name := p.paramName
          mandatory := p.defaultValue.isNone
          defaultVal :=
            match p.defaultValue with
            | some defaultValue => defaultValue values
            | none => .empty }) := by
  simp only [MacroStatement.PrepareMacroParams]
  rw [← foldl_append_map]
  congr 1
  funext prepared p
  cases p.defaultValue <;> rfl

/-- C23 (code bug): rendering a macro definition or a call that finds its macro appends one
prepared parameter for each declared parameter to the node, so the node after Render differs
from the node before. The macro `m(x)`, rendered twice, holds two prepared parameters, and
its body then sees `arguments` and `defaults` with two entries for the one declared
parameter; the call node `call(x) m()` rendered twice holds two prepared parameters too. -/
theorem C23_prepared_params_grow :
    (∀ (s : MacroStatement) (st : RenderState),
      (s.Render st).1.m_preparedParams.length =
        s.m_preparedParams.length + s.m_params.length) ∧
    (∀ (env : Runtime) (s : MacroCallStatement) (st : RenderState) (c : Callable),
      st.values.FindValue s.m_macroName = some (.callable c) → c.kind = .Statement →
      (s.Render env st).1.m_preparedParams.length =
        s.m_preparedParams.length + s.m_params.length) ∧
    exampleMacro.m_params.length = 1 ∧
    exampleMacro.m_preparedParams.length = 0 ∧
    (exampleMacro.Render exampleNested).1.m_preparedParams.length = 1 ∧
    ((exampleMacro.Render exampleNested).1.Render exampleNested).1.m_preparedParams.length
      = 2 ∧
    (callsTo .MainBody
      ((((exampleMacro.Render exampleNested).1.Render exampleNested).1.InvokeMacroRenderer
        exampleRuntime ⟨[], []⟩ exampleNested).calls)).map
        (fun ctx => (ctx.GetCurrentScope "arguments", ctx.GetCurrentScope "defaults")) =
      [(some (.list [.string "x", .string "x"]), some (.list [.empty, .empty]))] ∧
    (exampleCall.Render exampleRuntime exampleCallState).1.m_preparedParams.length = 1 ∧
    ((exampleCall.Render exampleRuntime exampleCallState).1.Render exampleRuntime
      exampleCallState).1.m_preparedParams.length = 2 := by
  refine ⟨fun s st => ?_, fun env s st c hfind hkind => ?_, rfl, rfl, rfl, rfl, rfl, rfl, rfl⟩
  · simp [MacroStatement.Render, PrepareMacroParams_eq]
  · simp only [MacroCallStatement.Render, hfind, hkind]
    simp only [reduceCtorEq, if_false]
    split <;> simp [PrepareMacroParams_eq]

/-! ## Blocks and template inheritance -/

/-- The search for the renderer of an override stops at the first entry that is a renderer
with the block. -/
theorem findBlockRenderer_first (env : Runtime) (m_name : String) (p : Nat)
    (post : List InternalValue) (hp : (env.blocksRenderer p).HasBlock m_name = true) :
    ∀ (pre : List InternalValue),
      (∀ v ∈ pre, ∀ q, v = .rendererRef q → (env.blocksRenderer q).HasBlock m_name = false) →
      findBlockRenderer env m_name (pre ++ .rendererRef p :: post) = some p := by
  intro pre
  induction pre with
  | nil => intro _; simp [findBlockRenderer, hp]
  | cons v pre ih =>
    intro h
    have hrest := ih (fun x hx => h x (List.mem_cons_of_mem _ hx))
    have hv := h v (List.mem_cons_self _ _)
    rw [List.cons_append]
    cases v with
    | rendererRef q => simp [findBlockRenderer, hv q rfl, hrest]
    | _ => simpa [findBlockRenderer] using hrest

/-- The search for the renderer of an override finds nothing where no entry is a renderer
with the block. -/
theorem findBlockRenderer_none (env : Runtime) (m_name : String) :
    ∀ (l : List InternalValue),
      (∀ v ∈ l, ∀ q, v = .rendererRef q → (env.blocksRenderer q).HasBlock m_name = false) →
      findBlockRenderer env m_name l = none := by
  intro l
  induction l with
  | nil => intro _; rfl
  | cons v l ih =>
    intro h
    have hrest := ih (fun x hx => h x (List.mem_cons_of_mem _ hx))
    have hv := h v (List.mem_cons_self _ _)
    cases v with
    | rendererRef q => simp [findBlockRenderer, hv q rfl, hrest]
    | _ => simpa [findBlockRenderer] using hrest

/-- The context that `ParentBlockStatement::Render` builds for the override. -/
theorem overrideContext_eq (s : ParentBlockStatement) (values : RenderContext)
    (l : List InternalValue) :
    (if !s.m_isScoped then
      (((values.Clone s.m_isScoped).EnterScope.assign (values.Clone s.m_isScoped).scopes.length
        "$$__super_block" (.rendererRef s.self)).assign
        (values.Clone s.m_isScoped).scopes.length "super"
        (.callable ⟨.Statement, .Super s.self⟩)).assign
        (values.Clone s.m_isScoped).scopes.length "$$__parent_template" (.list l)
    else
      ((values.Clone s.m_isScoped).EnterScope.assign (values.Clone s.m_isScoped).scopes.length
        "$$__super_block" (.rendererRef s.self)).assign
        (values.Clone s.m_isScoped).scopes.length "super"
        (.callable ⟨.Statement, .Super s.self⟩)) = s.overrideContext values l := by
  unfold ParentBlockStatement.overrideContext
  generalize values.Clone s.m_isScoped = c
  have hmap : s.overrideScope l =
      if s.m_isScoped = false then
        mapSet (mapSet (mapSet emptyMap "$$__super_block" (.rendererRef s.self)) "super"
          (.callable ⟨.Statement, .Super s.self⟩)) "$$__parent_template" (.list l)
      else
        mapSet (mapSet emptyMap "$$__super_block" (.rendererRef s.self)) "super"
          (.callable ⟨.Statement, .Super s.self⟩) := by
    funext k
    by_cases h1 : k = "$$__parent_template" <;> by_cases h2 : k = "super" <;>
      cases hs : s.m_isScoped <;>
      simp [mapSet, emptyMap, ParentBlockStatement.overrideScope, hs, h1, h2]
  rw [hmap]
  cases hs : s.m_isScoped <;>
    simp [RenderContext.assign, RenderContext.EnterScope, updateAt_append_last]

theorem overrideContext_current (s : ParentBlockStatement) (values : RenderContext)
    (l : List InternalValue) :
    (s.overrideContext values l).GetCurrentScope = s.overrideScope l := by
  simp [ParentBlockStatement.overrideContext, RenderContext.GetCurrentScope]

theorem overrideContext_exit (s : ParentBlockStatement) (values : RenderContext)
    (l : List InternalValue) :
    (s.overrideContext values l).ExitScope = values.Clone s.m_isScoped := by
  simp [ParentBlockStatement.overrideContext, RenderContext.ExitScope]

/-- The entry into `self` has a result when `self` is a map in the global scope. -/
theorem registerSelf_isSome (s : ParentBlockStatement) (values : RenderContext)
    (entries : List (String × InternalValue))
    (h : values.GetGlobalScope "self" = some (.map entries)) :
    (s.registerSelf values).isSome = true := by
  unfold ParentBlockStatement.registerSelf
  rw [h]
  simp only []
  split_ifs <;> rfl

/-- The render of an overridable block for which the search finds the renderer `p`. -/
theorem ParentBlockStatement_Render_override (env : Runtime) (s : ParentBlockStatement)
    (st : RenderState) (parentTplVal : InternalValue) (l : List InternalValue) (p : Nat)
    (hfound : st.values.FindValue "$$__parent_template" = some parentTplVal)
    (hlist : env.ops.ConvertToList parentTplVal = some l)
    (hfind : findBlockRenderer env s.m_name l = some p) :
    s.Render env st =
      (s.registerSelf (st.values.afterClone
        ((env.blocksRenderer p).RenderBlock s.m_name
          (s.overrideContext st.values l)).2.ExitScope)).map (fun values =>
        { os := st.os ++
            ((env.blocksRenderer p).RenderBlock s.m_name (s.overrideContext st.values l)).1
          values := values
          calls := st.calls ++ [(Callee.Override, s.overrideContext st.values l)] }) := by
  unfold ParentBlockStatement.Render
  simp only [hfound, hlist, hfind]
  rw [overrideContext_eq]

/-- C24: when `$$__parent_template` is visible as a list whose first renderer with the block
`b` of this statement is `p` (the entries before it are no renderers or renderers without
`b`), rendering the overridable block renders `b` of `p` and of no other entry, once, and
appends what it writes; the context of that render is the clone of the context of the block
with one scope entered, and in that scope `super` is the callable that renders the body of
this block and `$$__super_block` is this block. The render has a result when `self` is a map
in the global scope after the override is rendered. -/
theorem C24_block_override (env : Runtime) (s : ParentBlockStatement) (st : RenderState)
    (parentTplVal : InternalValue) (pre post : List InternalValue) (p : Nat)
    (hfound : st.values.FindValue "$$__parent_template" = some parentTplVal)
    (hlist : env.ops.ConvertToList parentTplVal = some (pre ++ .rendererRef p :: post))
    (hpre : ∀ v ∈ pre, ∀ q, v = .rendererRef q →
      (env.blocksRenderer q).HasBlock s.m_name = false)
    (hp : (env.blocksRenderer p).HasBlock s.m_name = true) :
    s.Render env st =
      (s.registerSelf (st.values.afterClone
        ((env.blocksRenderer p).RenderBlock s.m_name
          (s.overrideContext st.values (pre ++ .rendererRef p :: post))).2.ExitScope)).map
        (fun values =>
          { os := st.os ++ ((env.blocksRenderer p).RenderBlock s.m_name
              (s.overrideContext st.values (pre ++ .rendererRef p :: post))).1
            values := values
            calls := st.calls ++
              [(Callee.Override, s.overrideContext st.values (pre ++ .rendererRef p :: post))] })
      ∧
    (s.overrideContext st.values (pre ++ .rendererRef p :: post)).ExitScope =
      st.values.Clone s.m_isScoped ∧
    (s.overrideContext st.values (pre ++ .rendererRef p :: post)).scopes.length =
      (st.values.Clone s.m_isScoped).scopes.length + 1 ∧
    (s.overrideContext st.values (pre ++ .rendererRef p :: post)).GetCurrentScope "super" =
      some (.callable ⟨.Statement, .Super s.self⟩) ∧
    (s.overrideContext st.values (pre ++ .rendererRef p :: post)).GetCurrentScope
      "$$__super_block" = some (.rendererRef s.self) ∧
    (∀ entries,
      (st.values.afterClone ((env.blocksRenderer p).RenderBlock s.m_name
        (s.overrideContext st.values (pre ++ .rendererRef p :: post))).2.ExitScope).GetGlobalScope
        "self" = some (.map entries) →
      (s.Render env st).isSome = true) := by
  have hfind := findBlockRenderer_first env s.m_name p post hp pre hpre
  have hr := ParentBlockStatement_Render_override env s st parentTplVal _ p hfound hlist hfind
  refine ⟨hr, overrideContext_exit s _ _, ?_, ?_, ?_, ?_⟩
  · simp [ParentBlockStatement.overrideContext]
  · rw [overrideContext_current]
    simp [ParentBlockStatement.overrideScope]
  · rw [overrideContext_current]
    simp [ParentBlockStatement.overrideScope]
  · intro entries hself
    rw [hr, Option.isSome_map']
    exact registerSelf_isSome s _ entries hself

theorem C24_block_override_witness :
    (exampleParentBlock.Render exampleRuntime exampleChain).map (fun st2 => st2.os) =
      some "outchild".toList ∧
    (exampleParentBlock.Render exampleRuntime exampleChain).map
      (fun st2 => (callsTo .Override st2.calls).map
        (fun ctx => (ctx.scopes.length, ctx.GetCurrentScope "super",
          ctx.GetCurrentScope "$$__super_block"))) =
      some [(2, some (.callable ⟨.Statement, .Super 5⟩), some (.rendererRef 5))] := by
  have h := C24_block_override exampleRuntime exampleParentBlock exampleChain
    (.list [.int 0, .rendererRef 3, .rendererRef 7, .rendererRef 7])
    [.int 0, .rendererRef 3] [.rendererRef 7] 7 rfl rfl
    (by
      intro v hv q hq
      simp only [List.mem_cons, List.mem_singleton, List.not_mem_nil, or_false] at hv
      rcases hv with hv | hv
      · rw [hv] at hq; cases hq
      · rw [hv] at hq; cases hq; rfl)
    rfl
  rw [h.1]
  exact ⟨rfl, rfl⟩

/-- An overridable block rendered where no `$$__parent_template` is visible returns at once:
nothing is written and its body is not rendered. -/
theorem ParentBlockStatement_Render_isolated (env : Runtime) (s : ParentBlockStatement)
    (st : RenderState) (h : st.values.FindValue "$$__parent_template" = none) :
    s.Render env st = some st := by
  simp [ParentBlockStatement.Render, h]

/-- C25 (code bug): where no `$$__parent_template` is visible, a plain block writes its body,
but an overridable block returns the state it was given, whatever its body would write. The
overridable block `content` with the body that writes `body`, rendered after `out` was
written, leaves the output `out`; the plain block with the same body leaves `outbody`. -/
theorem C25_isolated_block :
    (∀ (s : BlockStatement) (st : RenderState),
      (s.Render st).os = st.os ++ (s.m_mainBody st.values).1) ∧
    (∀ (env : Runtime) (s : ParentBlockStatement) (st : RenderState),
      st.values.FindValue "$$__parent_template" = none → s.Render env st = some st) ∧
    exampleNested.values.FindValue "$$__parent_template" = none ∧
    (exampleParentBlock.m_mainBody exampleNested.values).1 = "body".toList ∧
    (exampleParentBlock.Render exampleRuntime exampleNested).map (fun st2 => st2.os) =
      some "out".toList ∧
    (exampleBlock.Render exampleNested).os = "outbody".toList :=
  ⟨fun _ _ => rfl, fun env s st h => ParentBlockStatement_Render_isolated env s st h,
    rfl, rfl, rfl, rfl⟩

theorem FindValue_append (scopes : List InternalValueMap) (m : InternalValueMap)
    (cells : List InternalValueMap) (name : String) :
    RenderContext.FindValue { scopes := scopes ++ [m], cells := cells } name =
      match m name with
      | some v => some v
      | none => RenderContext.FindValue { scopes := scopes, cells := cells } name := by
  simp [RenderContext.FindValue, List.foldl_append]

theorem scopes_concat (c : RenderContext) (h : c.scopes ≠ []) :
    c.scopes = c.scopes.dropLast ++ [c.GetCurrentScope] := by
  have hlast := List.dropLast_append_getLast h
  have hcur : c.GetCurrentScope = c.scopes.getLast h := by
    simp only [RenderContext.GetCurrentScope]
    rw [List.getLast_eq_getElem, List.getElem?_eq_getElem]
    rfl
  rw [hcur, hlast]

theorem setCurrent_eq (c : RenderContext) (name : String) (v : InternalValue)
    (h : c.scopes ≠ []) :
    c.setCurrent name v =
      { scopes := c.scopes.dropLast ++ [mapSet c.GetCurrentScope name v], cells := c.cells } := by
  have hc := scopes_concat c h
  have h1 := updateAt_append_last (fun m => mapSet m name v) c.GetCurrentScope c.scopes.dropLast
  rw [← hc, List.length_dropLast] at h1
  simp only [RenderContext.setCurrent, RenderContext.assign, h1]

theorem FindValue_setCurrent (c : RenderContext) (name : String) (v : InternalValue)
    (h : c.scopes ≠ []) : (c.setCurrent name v).FindValue name = some v := by
  rw [setCurrent_eq c name v h, FindValue_append]
  simp [mapSet]

/-- C26: a parent-template renderer rendered in a context with a current scope binds
`$$__parent_template` in the current scope to the list of itself followed by the entries of
the list visible before, in their order, and renders the root of the loaded template in the
context so changed, appending what the root writes. The visible list is empty when no
`$$__parent_template` is visible or its value is not a list. Nothing else is bound, and where
a list value converts to its items the list visible to the root is the list visible before
with the renderer in front, one entry longer. -/
theorem C26_parent_template_chain (ops : ValueOps) (r : ParentTemplateRenderer)
    (st : RenderState) (hscope : st.values.scopes ≠ []) :
    r.Render ops st =
      callRenderer .Root r.m_template
        { st with values := (st.values.setCurrent "$$__parent_template"
            (.list (.rendererRef r.self :: visibleParents ops st.values))) } ∧
    (st.values.setCurrent "$$__parent_template"
      (.list (.rendererRef r.self :: visibleParents ops st.values))).GetCurrentScope
        "$$__parent_template" =
      some (.list (.rendererRef r.self :: visibleParents ops st.values)) ∧
    (∀ k, k ≠ "$$__parent_template" →
      (st.values.setCurrent "$$__parent_template"
        (.list (.rendererRef r.self :: visibleParents ops st.values))).GetCurrentScope k =
        st.values.GetCurrentScope k) ∧
    (∀ i, i + 1 < st.values.scopes.length →
      (st.values.setCurrent "$$__parent_template"
        (.list (.rendererRef r.self :: visibleParents ops st.values))).scopes[i]? =
        st.values.scopes[i]?) ∧
    (st.values.FindValue "$$__parent_template" = none → visibleParents ops st.values = []) ∧
    (∀ p, st.values.FindValue "$$__parent_template" = some p → ops.ConvertToList p = none →
      visibleParents ops st.values = []) ∧
    (∀ p l, st.values.FindValue "$$__parent_template" = some p →
      ops.ConvertToList p = some l → visibleParents ops st.values = l) ∧
    ((∀ l, ops.ConvertToList (.list l) = some l) →
      visibleParents ops (st.values.setCurrent "$$__parent_template"
        (.list (.rendererRef r.self :: visibleParents ops st.values))) =
        .rendererRef r.self :: visibleParents ops st.values) := by
  refine ⟨?_, ?_, ?_, fun i hi => setCurrent_outer _ _ _ i hi, ?_, ?_, ?_, ?_⟩
  · simp only [ParentTemplateRenderer.Render, visibleParents, RenderContext.setCurrent]
    cases h : st.values.FindValue "$$__parent_template" with
    | none => rfl
    | some p =>
      cases h2 : ops.ConvertToList p with
      | none => simp [h2]
      | some l => simp [h2]
  · rw [setCurrent_current _ _ _ hscope, if_pos rfl]
  · intro k hk
    rw [setCurrent_current _ _ _ hscope, if_neg hk]
  · intro h
    simp [visibleParents, h]
  · intro p h h2
    simp [visibleParents, h, h2]
  · intro p l h h2
    simp [visibleParents, h, h2]
  · intro hconv
    conv_lhs => rw [visibleParents, FindValue_setCurrent _ _ _ hscope]
    simp [hconv]

theorem C26_parent_template_chain_witness :
    (exampleParent.Render exampleOps exampleChain).os = "outbase".toList ∧
    (callsTo .Root (exampleParent.Render exampleOps exampleChain).calls).map
      (fun ctx => ctx.GetCurrentScope "$$__parent_template") =
      [some (.list [.rendererRef 7, .int 0, .rendererRef 3, .rendererRef 7, .rendererRef 7])] ∧
    (callsTo .Root (exampleParent.Render exampleOps exampleNested).calls).map
      (fun ctx => ctx.GetCurrentScope "$$__parent_template") =
      [some (.list [.rendererRef 7])] := by
  have h := C26_parent_template_chain exampleOps exampleParent exampleChain
    (by simp [exampleChain, exampleWith, exampleNested, RenderContext.setCurrent,
      RenderContext.assign, updateAt])
  have h2 := C26_parent_template_chain exampleOps exampleParent exampleNested
    (by simp [exampleNested])
  rw [h.1, h2.1]
  exact ⟨rfl, rfl, rfl⟩

theorem eraseCurrent_current (c : RenderContext) (name : String) (h : c.scopes ≠ [])
    (k : String) :
    (c.eraseCurrent name).GetCurrentScope k = if k = name then none else c.GetCurrentScope k := by
  have hlt : c.scopes.length - 1 < c.scopes.length := by
    have := List.length_pos.mpr h
    omega
  simp only [RenderContext.GetCurrentScope, RenderContext.eraseCurrent, erase_length]
  simp only [RenderContext.erase, updateAt_getElem?, if_true, List.getElem?_eq_getElem hlt]
  simp [mapErase]

/-- The render of a call statement whose macro name is bound to a callable of the statement
kind. -/
theorem MacroCallStatement_Render_invoke (env : Runtime) (s : MacroCallStatement)
    (st : RenderState) (c : Callable)
    (hfind : st.values.FindValue s.m_macroName = some (.callable c))
    (hkind : c.kind = .Statement) :
    s.Render env st =
      ({ s with toMacroStatement := s.toMacroStatement.PrepareMacroParams st.values },
       { os := st.os ++ (env.invoke
            (if s.m_macroName = "caller" ∧ (st.values.GetCurrentScope "caller").isSome then
              ⟨.Statement, .InvokeMacro s.self⟩ else c) s.m_callParams
            (st.values.setCurrent "caller" (.callable ⟨.Statement, .InvokeMacro s.self⟩))).1
         values :=
           match st.values.GetCurrentScope "caller" with
           | some prevCaller =>
             (env.invoke
              (if s.m_macroName = "caller" ∧ (st.values.GetCurrentScope "caller").isSome then
                ⟨.Statement, .InvokeMacro s.self⟩ else c) s.m_callParams
              (st.values.setCurrent "caller"
                (.callable ⟨.Statement, .InvokeMacro s.self⟩))).2.assign
              (st.values.scopes.length - 1) "caller" prevCaller
           | none =>
             (env.invoke
              (if s.m_macroName = "caller" ∧ (st.values.GetCurrentScope "caller").isSome then
                ⟨.Statement, .InvokeMacro s.self⟩ else c) s.m_callParams
              (st.values.setCurrent "caller"
                (.callable ⟨.Statement, .InvokeMacro s.self⟩))).2.eraseCurrent "caller"
         calls := st.calls ++ [(Callee.Invoked, st.values.setCurrent "caller"
            (.callable ⟨.Statement, .InvokeMacro s.self⟩))] }) := by
  simp only [MacroCallStatement.Render, hfind, hkind, reduceCtorEq, if_false]
  cases h : st.values.GetCurrentScope "caller" <;> rfl

/-- A call statement whose macro name is not visible, or is bound to a value that is not a
callable of the statement kind, returns at once. -/
theorem MacroCallStatement_Render_skip (env : Runtime) (s : MacroCallStatement)
    (st : RenderState)
    (h : ∀ c, st.values.FindValue s.m_macroName = some (.callable c) → c.kind = .Expression) :
    s.Render env st = (s, st) := by
  unfold MacroCallStatement.Render
  split
  · rfl
  · rename_i fnVal hfn
    split
    · rename_i callable
      rw [if_pos (h callable hfn)]
    · rfl

/-- C27: a call statement rendered in a context with a current scope, whose invoked callable
keeps the scope depth, leaves the `caller` entry of the current scope as it was before, the
value it had or none, and the scope depth as it was. When the macro name is visible as a
callable of the statement kind, the callable is invoked once, in the context of the call with
`caller` bound in the current scope to the callable of this call statement and every other
name of that scope as before; and that callable, `InvokeMacroRenderer` of this statement,
renders the body of the call. -/
theorem C27_caller_restored (env : Runtime) (s : MacroCallStatement) (st : RenderState)
    (hscope : st.values.scopes ≠ [])
    (hcall : ∀ c, keepsDepth (env.invoke c s.m_callParams)) :
    (s.Render env st).2.values.GetCurrentScope "caller" = st.values.GetCurrentScope "caller" ∧
    (s.Render env st).2.values.scopes.length = st.values.scopes.length ∧
    (∀ c, st.values.FindValue s.m_macroName = some (.callable c) → c.kind = .Statement →
      ∃ invoked,
        (invoked = c ∨ (s.m_macroName = "caller" ∧ invoked = ⟨.Statement, .InvokeMacro s.self⟩))
        ∧
        (s.Render env st).2.calls = st.calls ++ [(Callee.Invoked,
          st.values.setCurrent "caller" (.callable ⟨.Statement, .InvokeMacro s.self⟩))] ∧
        (s.Render env st).2.os = st.os ++ (env.invoke invoked s.m_callParams
          (st.values.setCurrent "caller" (.callable ⟨.Statement, .InvokeMacro s.self⟩))).1 ∧
        (st.values.setCurrent "caller"
          (.callable ⟨.Statement, .InvokeMacro s.self⟩)).GetCurrentScope "caller" =
          some (.callable ⟨.Statement, .InvokeMacro s.self⟩) ∧
        ∀ k, k ≠ "caller" →
          (st.values.setCurrent "caller"
            (.callable ⟨.Statement, .InvokeMacro s.self⟩)).GetCurrentScope k =
            st.values.GetCurrentScope k) ∧
    (∀ (callParams : CallParams) (st2 : RenderState),
      ∃ ctx, ctx.scopes.length = st2.values.scopes.length + 1 ∧
        (s.InvokeMacroRenderer env callParams st2).os = st2.os ++ (s.m_mainBody ctx).1 ∧
        (s.InvokeMacroRenderer env callParams st2).calls =
          st2.calls ++ [(Callee.MainBody, ctx)]) := by
  refine ⟨?_, MacroCallStatement_Render_depth env s st hcall, ?_, ?_⟩
  · by_cases h : ∀ c, st.values.FindValue s.m_macroName = some (.callable c) →
        c.kind = .Expression
    · rw [MacroCallStatement_Render_skip env s st h]
    · push_neg at h
      obtain ⟨c, hfind, hkind⟩ := h
      have hkind2 : c.kind = .Statement := by
        cases hk : c.kind with
        | Expression => exact absurd hk hkind
        | Statement => rfl
      rw [MacroCallStatement_Render_invoke env s st c hfind hkind2]
      simp only []
      generalize hr : (env.invoke _ s.m_callParams
        (st.values.setCurrent "caller" (.callable ⟨.Statement, .InvokeMacro s.self⟩))).2 = c1
      have hlen : c1.scopes.length = st.values.scopes.length := by
        rw [← hr, hcall _ _, setCurrent_length]
      have hc1 : c1.scopes ≠ [] := by
        intro h0
        rw [h0] at hlen
        exact hscope (List.length_eq_zero.mp hlen.symm)
      cases hprev : st.values.GetCurrentScope "caller" with
      | none =>
        simp only []
        rw [eraseCurrent_current c1 _ hc1, if_pos rfl]
      | some prev =>
        simp only []
        rw [← hlen]
        have := setCurrent_current c1 "caller" prev hc1 "caller"
        rw [if_pos rfl] at this
        exact this
  · intro c hfind hkind
    rw [MacroCallStatement_Render_invoke env s st c hfind hkind]
    refine ⟨_, ?_, rfl, rfl, ?_, ?_⟩
    · by_cases hc : s.m_macroName = "caller" ∧ (st.values.GetCurrentScope "caller").isSome
      · right
        exact ⟨hc.1, if_pos hc⟩
      · left
        exact if_neg hc
    · rw [setCurrent_current _ _ _ hscope, if_pos rfl]
    · intro k hk
      rw [setCurrent_current _ _ _ hscope, if_neg hk]
  · intro callParams st2
    refine ⟨_, ?_, rfl, rfl⟩
    simp [assign_length, assignFold_length, RenderContext.EnterScope]

theorem C27_caller_restored_witness :
    exampleCallState.values.GetCurrentScope "caller" = some (.int 3) ∧
    (exampleCall.Render exampleRuntime exampleCallState).2.values.GetCurrentScope "caller" =
      some (.int 3) ∧
    (exampleCall.Render exampleRuntime exampleCallState).2.os = "outmacro".toList ∧
    (exampleCall.Render exampleRuntime
      (exampleWith "m" (.callable ⟨.Statement, .other 1⟩) exampleNested)).2.values.GetCurrentScope
      "caller" = none := by
  have hdepth : ∀ c, keepsDepth (exampleRuntime.invoke c exampleCall.m_callParams) := by
    intro c ctx
    simp only [exampleRuntime]
    split <;> rfl
  have h := C27_caller_restored exampleRuntime exampleCall exampleCallState
    (by simp [exampleCallState, exampleWith, exampleNested, RenderContext.setCurrent,
      RenderContext.assign, updateAt]) hdepth
  have h2 := C27_caller_restored exampleRuntime exampleCall
    (exampleWith "m" (.callable ⟨.Statement, .other 1⟩) exampleNested)
    (by simp [exampleWith, exampleNested, RenderContext.setCurrent,
      RenderContext.assign, updateAt]) hdepth
  refine ⟨rfl, ?_, rfl, ?_⟩
  · rw [h.1]; rfl
  · rw [h2.1]; rfl

/-- C28: a call statement whose macro name is not visible, or is visible as a value that is
not a callable of the statement kind, and an extends statement whose target is not a path or
whose template does not load (an error or the empty value), return the state they were
given: the output, every scope binding, the scope depth and, for the call, the node are as
before. -/
theorem C28_failed_lookups (env : Runtime) (st : RenderState) :
    (∀ s : MacroCallStatement, st.values.FindValue s.m_macroName = none →
      s.Render env st = (s, st)) ∧
    (∀ (s : MacroCallStatement) (v : InternalValue),
      st.values.FindValue s.m_macroName = some v →
      (∀ c, v = .callable c → c.kind = .Expression) → s.Render env st = (s, st)) ∧
    (∀ s : ExtendsStatement, s.m_isPath = false → s.Render env st = st) ∧
    (∀ s : ExtendsStatement, env.LoadTemplate s.m_templateName = .failed →
      s.Render env st = st) ∧
    (∀ s : ExtendsStatement, env.LoadTemplate s.m_templateName = .emptyValue →
      s.Render env st = st) := by
  refine ⟨fun s h => ?_, fun s v h hv => ?_, fun s h => ?_, fun s h => ?_, fun s h => ?_⟩
  · apply MacroCallStatement_Render_skip
    intro c hc
    rw [h] at hc
    cases hc
  · apply MacroCallStatement_Render_skip
    intro c hc
    rw [h] at hc
    exact hv c (Option.some.inj hc)
  · simp [ExtendsStatement.Render, h]
  · simp only [ExtendsStatement.Render, h, TemplateImplVisitor]
    split_ifs <;> rfl
  · simp only [ExtendsStatement.Render, h, TemplateImplVisitor]
    split_ifs <;> rfl

theorem C28_failed_lookups_witness :
    (exampleCall.Render exampleRuntime exampleNested).2.os = "out".toList ∧
    (exampleCall.Render exampleRuntime
      (exampleWith "m" (.int 1) exampleNested)).2.os = "out".toList ∧
    (exampleCall.Render exampleRuntime
      (exampleWith "m" (.callable ⟨.Expression, .other 1⟩) exampleNested)).2.os =
      "out".toList ∧
    (exampleDynamic.Render exampleRuntime exampleNested).os = "out".toList ∧
    (exampleMissing.Render exampleRuntime exampleNested).os = "out".toList ∧
    (exampleExtends.Render exampleRuntime exampleNested).os = "outbase".toList := by
  have h := C28_failed_lookups exampleRuntime exampleNested
  have h2 := C28_failed_lookups exampleRuntime (exampleWith "m" (.int 1) exampleNested)
  have h3 := C28_failed_lookups exampleRuntime
    (exampleWith "m" (.callable ⟨.Expression, .other 1⟩) exampleNested)
  refine ⟨?_, ?_, ?_, ?_, ?_, rfl⟩
  · rw [h.1 exampleCall rfl]; rfl
  · rw [h2.2.1 exampleCall (.int 1) rfl (fun c hc => by cases hc)]; rfl
  · rw [h3.2.1 exampleCall (.callable ⟨.Expression, .other 1⟩) rfl
      (fun c hc => by cases hc; rfl)]; rfl
  · rw [h.2.2.1 exampleDynamic rfl]; rfl
  · rw [h.2.2.2.1 exampleMissing rfl]; rfl

/-! ## The empty template -/

/-- C31 (amended): for every settings value and every set of block parsers, rough parsing of
the empty template yields exactly one block, of type RawText with the range `[0, 0)` of size
0, and a line table of exactly one entry, line 0 with the range `[0, 0)`; it reports no
error, fine parsing yields no renderer and no error, and the template renders to the empty
output. -/
theorem C31_empty_template_amended (c : Collaborators) (setts : Settings)
    (renderExternal : Nat → List Char) :
    roughBlocks [] setts = [⟨⟨0, 0⟩, .RawText⟩] ∧
    (∀ b ∈ roughBlocks [] setts, b.range.size = 0) ∧
    roughLines [] setts = [⟨⟨0, 0⟩, 0⟩] ∧
    (DoRoughParsing [] setts).2 = [] ∧
    (DoFineParsing c [] (roughBlocks [] setts)).errors = [] ∧
    Parse c [] setts = .ok [] ∧
    renderComposed renderExternal [] [] = [] := by
  have hb : roughBlocks [] setts = [⟨⟨0, 0⟩, .RawText⟩] := rfl
  refine ⟨hb, ?_, rfl, rfl, rfl, rfl, rfl⟩
  intro b hmem
  rw [hb, List.mem_singleton] at hmem
  rw [hmem]
  rfl

/-- The line table of the empty template is not empty: it holds the line `[0, 0)`. -/
theorem C31_counterexample :
    roughLines [] Settings.off ≠ [] ∧ (roughLines [] Settings.off).length = 1 := by
  decide

/-! ## Raw text after a block in fine parsing -/

theorem DoFineParsing_concat (c : Collaborators) (tpl : List Char)
    (blocks : List TextBlockInfo) (b : TextBlockInfo) :
    DoFineParsing c tpl (blocks ++ [b]) = fineStep c tpl (DoFineParsing c tpl blocks) b := by
  simp [DoFineParsing, List.foldl_append]

/-- The block before the one `DoFineParsing` works on is the last block it has passed. -/
theorem DoFineParsing_prevBlock (c : Collaborators) (tpl : List Char)
    (blocks : List TextBlockInfo) :
    (DoFineParsing c tpl blocks).prevBlock = blocks.getLast? := by
  rcases List.eq_nil_or_concat blocks with rfl | ⟨pre, b, rfl⟩
  · rfl
  · rw [List.concat_eq_append, DoFineParsing_concat]
    simp [fineStep]

theorem fineStep_raw (c : Collaborators) (tpl : List Char) (fs : FineState)
    (block : TextBlockInfo) (htype : block.type = .RawText) :
    fineStep c tpl fs block = { fineRawText tpl fs block with prevBlock := some block } := by
  have hb : fineBlock block = block := fineBlock_of_ne block (by simp [htype])
  simp only [fineStep, hb, htype]

theorem renderRawText_tail (tpl : List Char) (startOffset size : Nat) :
    renderRawText tpl (startOffset + 1) (size - 1) =
      (renderRawText tpl startOffset size).tail := by
  have htake : ∀ (l : List Char) (n : Nat), l.tail.take (n - 1) = (l.take n).tail := by
    intro l n
    cases l with
    | nil => simp
    | cons a l =>
      cases n with
      | zero => simp
      | succ n => simp
  simp only [renderRawText]
  rw [← htake, List.tail_drop]

theorem size_rest (r : CharRange) (h1 : r.startOffset < r.endOffset)
    (h2 : r.endOffset < 2 ^ 64) :
    r.size = r.endOffset - r.startOffset ∧
    CharRange.size ⟨r.startOffset + 1, r.endOffset⟩ = r.size - 1 := by
  simp only [CharRange.size]
  have e : (2 : Nat) ^ 64 = 18446744073709551616 := by norm_num
  rw [e] at h2 ⊢
  omega

/-- What the scanner does at a `%}` that closes a Statement block, or a `#}` that closes a
Comment block, when a newline follows it directly: the closed block is emitted, and the raw
text that follows starts at the newline or, when the newline is trimmed, right after it. -/
theorem closer_then_newline (tpl : List Char) (setts : Settings) (st : ParserState)
    (m : RoughMatch)
    (hc : (st.m_currentBlockInfo.type = .Statement ∧ m.type = .RM_StmtEnd ∧
        charAt tpl (m.position - 1) ≠ '\'') ∨
      (st.m_currentBlockInfo.type = .Comment ∧ m.type = .RM_CommentEnd))
    (hnl : charAt tpl (m.position + 2) = '\n') (hlen : m.position + 2 < tpl.length) :
    (∃ b, (ParseRoughMatch tpl setts st m).1.m_textBlocks = st.m_textBlocks ++ [b] ∧
      b.type = st.m_currentBlockInfo.type) ∧
    (ParseRoughMatch tpl setts st m).1.m_currentBlockInfo.type = .RawText ∧
    ((ParseRoughMatch tpl setts st m).1.m_currentBlockInfo.range.startOffset = m.position + 2 ∨
      (ParseRoughMatch tpl setts st m).1.m_currentBlockInfo.range.startOffset =
        m.position + 3) := by
  have hrun : afterWhitespaceRun tpl (m.position + 2) = m.position + 3 := by
    rw [afterWhitespaceRun_step hlen, if_pos hnl]
  have htrim : trimLoop tpl (tpl.length - (m.position + 2)) (m.position + 2) =
      m.position + 3 := by
    rw [trimLoop_eq tpl _ _ le_rfl, hrun]
  have hpush : ∀ v, (setBlockStart (FinishCurrentBlock tpl setts st m.position).2 v).m_textBlocks =
      st.m_textBlocks ++
        [⟨⟨st.m_currentBlockInfo.range.startOffset,
          blockEnd tpl st.m_currentBlockInfo.type m.position⟩, st.m_currentBlockInfo.type⟩] := by
    intro v
    simp [setBlockStart, FinishCurrentBlock_snd]
  rcases hc with ⟨h1, h2, hq⟩ | ⟨h1, h2⟩
  · rw [ParseRoughMatch_closer tpl setts st m (Or.inr ⟨h1, h2⟩) hq]
    refine ⟨⟨_, hpush _, rfl⟩, by simp [setBlockStart, FinishCurrentBlock], ?_⟩
    simp only [setBlockStart, FinishCurrentBlock]
    split_ifs <;> first | exact Or.inl rfl | exact Or.inr htrim
  · have hr : ParseRoughMatch tpl setts st m =
        (setBlockStart (FinishCurrentBlock tpl setts st m.position).2 (m.position + 2),
          none) := by
      simp [ParseRoughMatch, h1, h2]
    rw [hr]
    exact ⟨⟨_, hpush _, rfl⟩, by simp [setBlockStart, FinishCurrentBlock], Or.inl rfl⟩

/-- C32: in fine parsing (which reads no setting), a RawText block of non-zero size that
begins with a newline and comes right after a Statement, Comment or LineStatement block is
emitted from its second character on, and not at all when nothing is left; a RawText block of
non-zero size that is the first block, or comes right after a RawText or Expression block, or
does not begin with a newline, is emitted in full. No error is added. For a range with
`startOffset < endOffset < 2^64` what is left is one character shorter and renders as the
text of the block without its first character. In rough parsing, for every settings value,
a `%}` that closes a Statement block or a `#}` that closes a Comment block and is followed
directly by a newline emits the closed block and leaves a RawText block that starts at that
newline, or right after it when the newline is trimmed; so the newline is either in no block
or the first character of a RawText block that comes right after a Statement or Comment
block. -/
theorem C32_newline_after_block (c : Collaborators) (tpl : List Char)
    (pre : List TextBlockInfo) (block : TextBlockInfo)
    (htype : block.type = .RawText) (hsize : block.range.size ≠ 0) :
    (DoFineParsing c tpl (pre ++ [block])).errors = (DoFineParsing c tpl pre).errors ∧
    (∀ prev, pre.getLast? = some prev →
      prev.type = .Statement ∨ prev.type = .Comment ∨ prev.type = .LineStatement →
      charAt tpl block.range.startOffset = '\n' →
      (DoFineParsing c tpl (pre ++ [block])).frames =
        if CharRange.size ⟨block.range.startOffset + 1, block.range.endOffset⟩ = 0 then
          (DoFineParsing c tpl pre).frames
        else addToBack (DoFineParsing c tpl pre).frames
          (.RawTextRenderer (block.range.startOffset + 1)
            (CharRange.size ⟨block.range.startOffset + 1, block.range.endOffset⟩))) ∧
    (pre = [] ∨ (∃ prev, pre.getLast? = some prev ∧
        (prev.type = .RawText ∨ prev.type = .Expression)) ∨
        charAt tpl block.range.startOffset ≠ '\n' →
      (DoFineParsing c tpl (pre ++ [block])).frames =
        addToBack (DoFineParsing c tpl pre).frames
          (.RawTextRenderer block.range.startOffset block.range.size)) ∧
    (block.range.startOffset < block.range.endOffset → block.range.endOffset < 2 ^ 64 →
      CharRange.size ⟨block.range.startOffset + 1, block.range.endOffset⟩ =
        block.range.size - 1 ∧
      renderRawText tpl (block.range.startOffset + 1)
        (CharRange.size ⟨block.range.startOffset + 1, block.range.endOffset⟩) =
        (renderRawText tpl block.range.startOffset block.range.size).tail) ∧
    (∀ (setts : Settings) (st : ParserState) (m : RoughMatch),
      (st.m_currentBlockInfo.type = .Statement ∧ m.type = .RM_StmtEnd ∧
          charAt tpl (m.position - 1) ≠ '\'') ∨
        (st.m_currentBlockInfo.type = .Comment ∧ m.type = .RM_CommentEnd) →
      charAt tpl (m.position + 2) = '\n' → m.position + 2 < tpl.length →
      (∃ b, (ParseRoughMatch tpl setts st m).1.m_textBlocks = st.m_textBlocks ++ [b] ∧
        b.type = st.m_currentBlockInfo.type) ∧
      (ParseRoughMatch tpl setts st m).1.m_currentBlockInfo.type = .RawText ∧
      ((ParseRoughMatch tpl setts st m).1.m_currentBlockInfo.range.startOffset =
          m.position + 2 ∨
        (ParseRoughMatch tpl setts st m).1.m_currentBlockInfo.range.startOffset =
          m.position + 3)) := by
  have hprev := DoFineParsing_prevBlock c tpl pre
  rw [DoFineParsing_concat, fineStep_raw c tpl _ block htype]
  refine ⟨?_, ?_, ?_, ?_,
    fun setts st m hc hnl hlen => closer_then_newline tpl setts st m hc hnl hlen⟩
  · simp only [fineRawText, if_neg hsize]
    split_ifs <;> rfl
  · intro prev hlast hty hnl
    have hsw : prevSwallowsNewline (DoFineParsing c tpl pre).prevBlock = true := by
      rw [hprev, hlast]
      rcases hty with h | h | h <;> simp [prevSwallowsNewline, h]
    simp only [fineRawText, if_neg hsize, hnl, hsw, and_self, if_true]
    split_ifs <;> rfl
  · intro h
    have hno : ¬(charAt tpl block.range.startOffset = '\n' ∧
        prevSwallowsNewline (DoFineParsing c tpl pre).prevBlock = true) := by
      rintro ⟨hnl, hsw⟩
      rw [hprev] at hsw
      rcases h with h | ⟨prev, hlast, hty⟩ | h
      · rw [h] at hsw
        simp [prevSwallowsNewline] at hsw
      · rw [hlast] at hsw
        rcases hty with hty | hty <;> simp [prevSwallowsNewline, hty] at hsw
      · exact h hnl
    simp only [fineRawText, if_neg hsize, if_neg hno]
  · intro h1 h2
    have hs := size_rest block.range h1 h2
    refine ⟨hs.2, ?_⟩
    rw [hs.2, renderRawText_tail]

/-- C32 at the raw text after the comment of `{# c #}` followed by a newline and `A`: only
`A` is emitted; and the same after a statement closed with `+%}` under `trimBlocks`, after a
plain `%}`, and, by contrast, after an expression, where the newline is kept. -/
theorem C32_newline_after_block_witness :
    roughBlocks "\x7b# c #\x7d\nA".toList Settings.off =
      [⟨⟨0, 0⟩, .RawText⟩, ⟨⟨2, 5⟩, .Comment⟩] ++ [⟨⟨7, 9⟩, .RawText⟩] ∧
    (DoFineParsing specCollaborators "\x7b# c #\x7d\nA".toList
      ([⟨⟨0, 0⟩, .RawText⟩, ⟨⟨2, 5⟩, .Comment⟩] ++ [⟨⟨7, 9⟩, .RawText⟩])).frames.composed =
      [[.RawTextRenderer 8 1]] ∧
    renderRawText "\x7b# c #\x7d\nA".toList 8 1 = "A".toList ∧
    (DoFineParsing specCollaborators "\x7b% if x +%\x7d\nA\x7b% endif %\x7d".toList
      (roughBlocks "\x7b% if x +%\x7d\nA\x7b% endif %\x7d".toList
        ⟨false, true, false⟩)).frames.composed =
      [[.External 1], [.RawTextRenderer 12 1]] ∧
    (DoFineParsing specCollaborators "\x7b% if x %\x7d\nA\x7b% endif %\x7d".toList
      (roughBlocks "\x7b% if x %\x7d\nA\x7b% endif %\x7d".toList
        Settings.off)).frames.composed =
      [[.External 1], [.RawTextRenderer 11 1]] ∧
    (DoFineParsing specCollaborators "\x7b\x7b x \x7d\x7d\nA".toList
      (roughBlocks "\x7b\x7b x \x7d\x7d\nA".toList Settings.off)).frames.composed =
      [[.External 0, .RawTextRenderer 7 2]] ∧
    (DoFineParsing specCollaborators "\x7b# c #\x7d\n".toList
      (roughBlocks "\x7b# c #\x7d\n".toList Settings.off)).frames.composed = [[]] ∧
    (DoFineParsing specCollaborators "\nA".toList
      (roughBlocks "\nA".toList Settings.off)).frames.composed =
      [[.RawTextRenderer 0 2]] := by
  have h := C32_newline_after_block specCollaborators "\x7b# c #\x7d\nA".toList
    [⟨⟨0, 0⟩, .RawText⟩, ⟨⟨2, 5⟩, .Comment⟩] ⟨⟨7, 9⟩, .RawText⟩ rfl (by decide)
  have h2 := h.2.1 ⟨⟨2, 5⟩, .Comment⟩ rfl (Or.inr (Or.inl rfl)) (by decide)
  refine ⟨by decide, ?_, by decide, by decide, by decide, by decide, by decide, by decide⟩
  rw [h2]
  decide

/-! ## What a for statement leaves behind -/

theorem updateAt_dropLast {α : Type} (g : α → α) (l : List α) (i : Nat)
    (h : l.length ≤ i + 1) : (updateAt g l i).dropLast = l.dropLast := by
  rcases List.eq_nil_or_concat l with rfl | ⟨init, a, rfl⟩
  · rfl
  · rw [List.concat_eq_append] at h ⊢
    simp only [List.length_append, List.length_singleton] at h
    by_cases hi : i = init.length
    · rw [hi, updateAt_append_last]
      simp
    · have hget : updateAt g (init ++ [a]) i = init ++ [a] := by
        apply List.ext_getElem?
        intro j
        rw [updateAt_getElem?]
        split_ifs with hj
        · have : (init ++ [a]).length ≤ j := by simp; omega
          rw [List.getElem?_eq_none this]
          rfl
        · rfl
      rw [hget]

theorem setCurrent_dropLast (c : RenderContext) (name : String) (v : InternalValue) :
    (c.setCurrent name v).scopes.dropLast = c.scopes.dropLast := by
  simp only [RenderContext.setCurrent, RenderContext.assign]
  exact updateAt_dropLast _ _ _ (by omega)

/-- A set statement, taken as a body, writes only to the innermost scope. -/
theorem SetStatement_writesInnermost (ops : ValueOps) (s : SetStatement) :
    writesInnermost (asRenderer (s.Render ops)) := by
  have hfold : ∀ (g : String → InternalValue) (l : List String) (c : RenderContext),
      (l.foldl (fun values name => values.setCurrent name (g name)) c).scopes.dropLast =
        c.scopes.dropLast := by
    intro g l
    induction l with
    | nil => intro c; rfl
    | cons a l ih => intro c; rw [List.foldl_cons, ih, setCurrent_dropLast]
  intro ctx
  refine ⟨SetStatement_Render_depth ops s _, ?_⟩
  simp only [asRenderer]
  cases he : s.m_expr with
  | none => rw [SetStatement_Render_none ops s _ he]
  | some expr =>
    simp only [SetStatement.Render, he, callEvaluate]
    split_ifs
    · exact setCurrent_dropLast _ _ _
    · exact hfold (fun name => ops.Subscript (expr ctx) name) _ _

theorem loopContext_outer (f : ForStatement) (values : RenderContext) :
    (f.loopContext values).scopes.dropLast = values.scopes := by
  have h := congrArg RenderContext.scopes (loopContext_exit f values)
  simpa [RenderContext.ExitScope, RenderContext.endCell] using h

theorem mainLoop_outer (ops : ValueOps) (f : ForStatement) (d c : Nat)
    (items : List InternalValue) (hmain : writesInnermost f.m_mainBody)
    (outer : List InternalValueMap) :
    ∀ (l : List Nat) (acc : Bool × RenderState),
      acc.2.values.scopes.length = d + 1 → acc.2.values.scopes.dropLast = outer →
      (l.foldl (loopStep ops f d c items) acc).2.values.scopes.length = d + 1 ∧
      (l.foldl (loopStep ops f d c items) acc).2.values.scopes.dropLast = outer := by
  intro l
  induction l with
  | nil => intro acc h1 h2; exact ⟨h1, h2⟩
  | cons k l ih =>
    intro acc h1 h2
    rw [List.foldl_cons]
    apply ih
    · rw [loopStep_eq]
      simp only [callRenderer]
      rw [(hmain _).1]
      simp [roundContext, updateAt_length, h1]
    · rw [loopStep_eq]
      simp only [callRenderer]
      rw [(hmain _).2]
      simp only [roundContext]
      rw [updateAt_dropLast _ _ _ (by omega), h2]

theorem RenderLoop_scopes (ops : ValueOps) (f : ForStatement) (loopVal : InternalValue)
    (st1 : RenderState) (hmain : writesInnermost f.m_mainBody)
    (helse : ∀ e, f.m_elseBody = some e → writesInnermost e) :
    (f.RenderLoop ops loopVal st1).values.scopes = st1.values.scopes := by
  cases h : ops.ConvertToList loopVal with
  | none =>
    rw [RenderLoop_none ops f _ st1 h]
    cases he : f.m_elseBody with
    | none => rfl
    | some e =>
      simp [RenderContext.ExitScope, RenderContext.endCell, (helse e he _).2,
        loopContext_outer]
  | some items =>
    rw [RenderLoop_some ops f _ st1 items h]
    have hstart := (loopStart_ready ops f st1 items).1
    have hstart2 : (f.loopStart ops st1 items).values.scopes.dropLast = st1.values.scopes := by
      simp [ForStatement.loopStart, RenderContext.cellSet, loopContext_outer]
    have hloop := mainLoop_outer ops f st1.values.scopes.length st1.values.cells.length
      (f.keptItems ops st1.values items) hmain st1.values.scopes
      (List.range (f.keptItems ops st1.values items).length)
      (false, f.loopStart ops st1 items) hstart hstart2
    cases he : f.m_elseBody with
    | none =>
      simp [RenderContext.ExitScope, RenderContext.endCell, hloop.2]
    | some e =>
      simp only []
      split_ifs
      · simp [RenderContext.ExitScope, RenderContext.endCell, callRenderer,
          (helse e he _).2, hloop.2]
      · simp [RenderContext.ExitScope, RenderContext.endCell, hloop.2]

/-- C33: a for statement whose main body and else body write only to the innermost scope
leaves the scope stack as it found it: the same scopes with the same bindings, so every name
resolves after the loop as it did before; `loop`, the loop variables and what the body bound
are gone with the scope of the loop. A set statement is such a body. -/
theorem C33_for_no_leak (ops : ValueOps) (f : ForStatement) (st : RenderState)
    (hmain : writesInnermost f.m_mainBody)
    (helse : ∀ e, f.m_elseBody = some e → writesInnermost e) :
    (f.Render ops st).values.scopes = st.values.scopes ∧
    (∀ name, (f.Render ops st).values.FindValue name = st.values.FindValue name) ∧
    (∀ s : SetStatement, writesInnermost (asRenderer (s.Render ops))) := by
  have hs : (f.Render ops st).values.scopes = st.values.scopes :=
    RenderLoop_scopes ops f (f.m_value st.values) (callEvaluate .Value f.m_value st).2
      hmain helse
  refine ⟨hs, fun name => ?_, fun s => SetStatement_writesInnermost ops s⟩
  simp only [RenderContext.FindValue, hs]

/-- C33 at a loop over `[a, b]` whose body is `set x = 5`: in both rounds the body sees the
loop variable and `loop`, and binds `x`; after the loop none of the three is visible and `y`
is as before. -/
theorem C33_for_no_leak_witness :
    (callsTo .MainBody (exampleSetFor.Render exampleOps exampleNested).calls).map
      (fun ctx => (ctx.FindValue "i", ctx.FindValue "loop",
        (exampleSetFor.m_mainBody ctx).2.FindValue "x")) =
      [(some (.string "a"), some (.mapRef 0), some (.int 5)),
       (some (.string "b"), some (.mapRef 0), some (.int 5))] ∧
    (exampleSetFor.Render exampleOps exampleNested).values.FindValue "x" = none ∧
    (exampleSetFor.Render exampleOps exampleNested).values.FindValue "i" = none ∧
    (exampleSetFor.Render exampleOps exampleNested).values.FindValue "loop" = none ∧
    (exampleSetFor.Render exampleOps exampleNested).values.FindValue "y" = some (.int 1) := by
  have h := C33_for_no_leak exampleOps exampleSetFor exampleNested
    (SetStatement_writesInnermost exampleOps exampleSet)
    (fun e he => by simp [exampleSetFor] at he)
  refine ⟨rfl, ?_, ?_, ?_, ?_⟩
  · rw [h.2.1 "x"]; rfl
  · rw [h.2.1 "i"]; rfl
  · rw [h.2.1 "loop"]; rfl
  · rw [h.2.1 "y"]; rfl

/-! ## The scope of a macro invocation -/

theorem assignFold_eq (outer : List InternalValueMap) (cells : List InternalValueMap) :
    ∀ (l : List (String × InternalValue)) (m : InternalValueMap),
      l.foldl (fun ctx a => ctx.assign outer.length a.1 a.2)
        ({ scopes := outer ++ [m], cells := cells } : RenderContext) =
      { scopes := outer ++ [l.foldl (fun m a => mapSet m a.1 a.2) m], cells := cells } := by
  intro l
  induction l with
  | nil => intro m; rfl
  | cons a l ih =>
    intro m
    rw [List.foldl_cons, List.foldl_cons, ← ih]
    simp [RenderContext.assign, updateAt_append_last]

theorem mapFold_absent (k : String) : ∀ (l : List (String × InternalValue))
    (m : InternalValueMap), k ∉ l.map (fun a => a.1) →
    (l.foldl (fun m a => mapSet m a.1 a.2) m) k = m k := by
  intro l
  induction l with
  | nil => intro m _; rfl
  | cons a l ih =>
    intro m h
    simp only [List.map_cons, List.mem_cons, not_or] at h
    rw [List.foldl_cons, ih _ h.2]
    simp [mapSet, h.1]

theorem mapFold_present (k : String) (v : InternalValue) :
    ∀ (l : List (String × InternalValue)) (m : InternalValueMap),
      (l.map (fun a => a.1)).Nodup → (k, v) ∈ l →
      (l.foldl (fun m a => mapSet m a.1 a.2) m) k = some v := by
  intro l
  induction l with
  | nil => intro m _ h; cases h
  | cons a l ih =>
    intro m hnd hmem
    simp only [List.map_cons, List.nodup_cons] at hnd
    rw [List.foldl_cons]
    rcases List.mem_cons.mp hmem with h | h
    · rw [← h] at hnd
      rw [mapFold_absent k l _ hnd.1, ← h]
      simp [mapSet]
    · exact ih _ hnd.2 h

/-- The context in which `InvokeMacroRenderer` renders the body, and what it leaves. -/
theorem InvokeMacroRenderer_context (env : Runtime) (s : MacroStatement)
    (callParams : CallParams) (st : RenderState) :
    s.InvokeMacroRenderer env callParams st =
      { os := st.os ++ (s.m_mainBody (s.invocationContext env callParams st.values)).1
        values := (s.m_mainBody (s.invocationContext env callParams st.values)).2.ExitScope
        calls := st.calls ++
          [(Callee.MainBody, s.invocationContext env callParams st.values)] } := by
  simp only [MacroStatement.InvokeMacroRenderer, MacroStatement.SetupCallArgs, callRenderer,
    RenderContext.EnterScope, MacroStatement.invocationContext,
    MacroStatement.invocationScope]
  rw [assignFold_eq]
  simp [RenderContext.assign, updateAt_append_last]

theorem invocationContext_find (env : Runtime) (s : MacroStatement)
    (callParams : CallParams) (values : RenderContext) (k : String) (v : InternalValue)
    (h : s.invocationScope (env.ParseCallParams s.m_preparedParams callParams) values k =
      some v) :
    (s.invocationContext env callParams values).FindValue k = some v := by
  simp only [MacroStatement.invocationContext]
  rw [FindValue_append, h]

/-- C34: `InvokeMacroRenderer` renders the body once, in the context of the call with one
new scope on top. In that scope the body sees `kwargs`, `varargs`, `name`, `arguments` and
`defaults` with the values the invocation gives them (`name` is the name of the macro),
whatever argument is matched to a parameter of such a name; every other parameter that
`ParseCallParams` matches with an argument resolves to the value of that argument in the
context of the call. The matched arguments are a map: no name occurs twice. -/
theorem C34_reserved_bindings (env : Runtime) (s : MacroStatement) (callParams : CallParams)
    (st : RenderState)
    (hkeys : ((env.ParseCallParams s.m_preparedParams callParams).args.map
      (fun a => a.1)).Nodup) :
    s.InvokeMacroRenderer env callParams st =
      { os := st.os ++ (s.m_mainBody (s.invocationContext env callParams st.values)).1
        values := (s.m_mainBody (s.invocationContext env callParams st.values)).2.ExitScope
        calls := st.calls ++
          [(Callee.MainBody, s.invocationContext env callParams st.values)] } ∧
    (s.invocationContext env callParams st.values).scopes.dropLast = st.values.scopes ∧
    (s.invocationContext env callParams st.values).scopes.length =
      st.values.scopes.length + 1 ∧
    (s.invocationContext env callParams st.values).FindValue "kwargs" =
      some (.map ((env.ParseCallParams s.m_preparedParams callParams).extraKwArgs.map
        (fun a => (a.1, a.2 st.values)))) ∧
    (s.invocationContext env callParams st.values).FindValue "varargs" =
      some (.list ((env.ParseCallParams s.m_preparedParams callParams).extraPosArgs.map
        (fun a => a st.values))) ∧
    (s.invocationContext env callParams st.values).FindValue "name" =
      some (.string s.m_name) ∧
    (s.invocationContext env callParams st.values).FindValue "arguments" =
      some (.list (s.m_preparedParams.map (fun a => .string a.name))) ∧
    (s.invocationContext env callParams st.values).FindValue "defaults" =
      some (.list (s.m_preparedParams.map (fun a => a.defaultVal))) ∧
    (∀ k e, (k, e) ∈ (env.ParseCallParams s.m_preparedParams callParams).args →
      k ∉ reservedMacroNames →
      (s.invocationContext env callParams st.values).FindValue k = some (e st.values)) := by
  refine ⟨InvokeMacroRenderer_context env s callParams st, ?_, ?_, ?_, ?_, ?_, ?_, ?_, ?_⟩
  · simp [MacroStatement.invocationContext]
  · simp [MacroStatement.invocationContext]
  · exact invocationContext_find _ _ _ _ _ _ (by simp [MacroStatement.invocationScope, mapSet])
  · exact invocationContext_find _ _ _ _ _ _ (by simp [MacroStatement.invocationScope, mapSet])
  · exact invocationContext_find _ _ _ _ _ _ (by simp [MacroStatement.invocationScope, mapSet])
  · exact invocationContext_find _ _ _ _ _ _ (by simp [MacroStatement.invocationScope, mapSet])
  · exact invocationContext_find _ _ _ _ _ _ (by simp [MacroStatement.invocationScope, mapSet])
  · intro k e hmem hk
    apply invocationContext_find
    simp only [reservedMacroNames, List.mem_cons, List.mem_singleton, List.not_mem_nil,
      or_false, not_or] at hk
    obtain ⟨h1, h2, h3, h4, h5⟩ := hk
    simp only [MacroStatement.invocationScope, mapSet, h1, h2, h3, h4, h5, if_false]
    apply mapFold_present
    · rw [List.map_map]
      exact hkeys
    · exact List.mem_map.mpr ⟨(k, e), hmem, rfl⟩

/-- C34 at the macro `m(name, x)` invoked as `m("passed", 7)`: the body sees `name` as `m`,
not as `passed`, and `x` as 7. -/
theorem C34_reserved_bindings_witness :
    (exampleRuntime.ParseCallParams exampleReserved.m_preparedParams exampleArguments).args.map
      (fun a => a.1) = ["name", "x"] ∧
    (callsTo .MainBody
      (exampleReserved.InvokeMacroRenderer exampleRuntime exampleArguments
        exampleNested).calls).map
      (fun ctx => (ctx.FindValue "name", ctx.FindValue "x", ctx.FindValue "arguments")) =
      [(some (.string "m"), some (.int 7), some (.list [.string "name", .string "x"]))] := by
  have h := C34_reserved_bindings exampleRuntime exampleReserved exampleArguments
    exampleNested (by decide)
  rw [h.1]
  exact ⟨rfl, rfl⟩

/-! ## The character reads of rough parsing -/

theorem mem_ite_nil_right {α : Type} {c : Prop} [Decidable c] {l : List α} {r : α}
    (h : r ∈ if c then l else []) : c ∧ r ∈ l := by
  split_ifs at h with hc
  · exact ⟨hc, h⟩
  · cases h

theorem mem_ite_nil_left {α : Type} {c : Prop} [Decidable c] {l : List α} {r : α}
    (h : r ∈ if c then [] else l) : ¬c ∧ r ∈ l := by
  split_ifs at h with hc
  · cases h
  · exact ⟨hc, h⟩

theorem trimLoopReads_bound (tpl : List Char) : ∀ (fuel newPos : Nat),
    ∀ r ∈ trimLoopReads tpl fuel newPos, 0 ≤ r ∧ r < (tpl.length : Int) := by
  intro fuel
  induction fuel with
  | zero => intro newPos r h; simp [trimLoopReads] at h
  | succ fuel ih =>
    intro newPos r h
    rw [trimLoopReads] at h
    obtain ⟨h1, h⟩ := mem_ite_nil_right h
    rcases List.mem_cons.mp h with h | h
    · omega
    · exact ih _ r (mem_ite_nil_left (mem_ite_nil_left h).2).2

theorem FinishCurrentBlockReads_bound (tpl : List Char) (setts : Settings) (st : ParserState)
    (position : Nat) (hp : position ≤ tpl.length) :
    ∀ r ∈ FinishCurrentBlockReads tpl setts st position, 0 ≤ r ∧ r < (tpl.length : Int) := by
  intro r h
  simp only [FinishCurrentBlockReads] at h
  rcases List.mem_append.mp h with h | h
  · obtain ⟨h1, h⟩ := mem_ite_nil_right h
    simp only [List.mem_singleton] at h
    have hne : position ≠ 0 := by
      intro h0
      simp [h0] at h1
    omega
  · exact trimLoopReads_bound tpl _ _ r (mem_ite_nil_right h).2

theorem FinishCurrentBlockReads_raw (tpl : List Char) (setts : Settings) (st : ParserState)
    (position : Nat) (h : st.m_currentBlockInfo.type = .RawText) :
    FinishCurrentBlockReads tpl setts st position = [] := by
  simp [FinishCurrentBlockReads, h]

theorem stripLoopReads_bound (tpl : List Char) : ∀ (e : Nat), e ≤ tpl.length →
    ∀ r ∈ stripLoopReads tpl e, 0 ≤ r ∧ r < (tpl.length : Int) := by
  intro e
  induction e with
  | zero => intro _ r h; simp [stripLoopReads] at h
  | succ e ih =>
    intro he r h
    rw [stripLoopReads] at h
    rcases List.mem_cons.mp h with h | h
    · push_cast at h
      omega
    · exact ih (by omega) r (mem_ite_nil_left h).2

theorem StripBlockLeftReads_bound (tpl : List Char) (setts : Settings) (cur : TextBlockInfo)
    (ctrlCharPos endOffset : Nat) (he : endOffset ≤ tpl.length) :
    ∀ r ∈ StripBlockLeftReads tpl setts cur ctrlCharPos endOffset,
      0 ≤ r ∧ r < (tpl.length : Int) := by
  intro r h
  simp only [StripBlockLeftReads] at h
  rcases List.mem_append.mp h with h | h
  · obtain ⟨h1, h⟩ := mem_ite_nil_right h
    simp only [List.mem_singleton] at h
    omega
  · exact stripLoopReads_bound tpl _ he r (mem_ite_nil_left h).2

theorem StartControlBlockReads_bound (tpl : List Char) (setts : Settings) (st : ParserState)
    (matchStart : Nat) (hm : matchStart ≤ tpl.length) :
    ∀ r ∈ StartControlBlockReads tpl setts st matchStart,
      0 ≤ r ∧ r < (tpl.length : Int) := by
  intro r h
  simp only [StartControlBlockReads] at h
  obtain ⟨h1, h⟩ := mem_ite_nil_left h
  have hraw : st.m_currentBlockInfo.type = .RawText := by simpa using h1
  rw [FinishCurrentBlockReads_raw tpl setts st _ hraw, List.append_nil] at h
  rcases List.mem_append.mp h with h | h
  · exact StripBlockLeftReads_bound tpl setts _ _ _ hm r h
  · obtain ⟨h2, h⟩ := mem_ite_nil_right h
    rcases List.mem_cons.mp h with h | h
    · omega
    · have h3 := (mem_ite_nil_left h).2
      simp only [List.mem_singleton] at h3
      omega

theorem closerReads_bound (tpl : List Char) (setts : Settings) (st : ParserState)
    (ty : TextBlockType) (m : RoughMatch) (hm : m.position < tpl.length)
    (hpos : st.m_currentBlockInfo.type = ty → 1 ≤ m.position) :
    ∀ r ∈ closerReads tpl setts st ty m, 0 ≤ r ∧ r < (tpl.length : Int) := by
  intro r h
  simp only [closerReads] at h
  obtain ⟨h1, h⟩ := mem_ite_nil_left h
  obtain ⟨h2, h⟩ := mem_ite_nil_left h
  have := hpos (not_not.mp h2)
  rcases List.mem_cons.mp h with h | h
  · omega
  · exact FinishCurrentBlockReads_bound tpl setts st _ (by omega) r (mem_ite_nil_left h).2

theorem ParseRoughMatchReads_bound (tpl : List Char) (setts : Settings) (st : ParserState)
    (m : RoughMatch) (hm : m.position < tpl.length)
    (hpos : m.type = .RM_ExprEnd ∨ m.type = .RM_StmtEnd →
      st.m_currentBlockInfo.type = .Expression ∨ st.m_currentBlockInfo.type = .Statement →
      1 ≤ m.position) :
    ∀ r ∈ ParseRoughMatchReads tpl setts st m, 0 ≤ r ∧ r < (tpl.length : Int) := by
  intro r h
  unfold ParseRoughMatchReads at h
  cases hty : m.type <;> simp only [hty] at h
  · exact StartControlBlockReads_bound tpl setts st _ (by omega) r h
  · exact closerReads_bound tpl setts st _ m hm (fun h => hpos (Or.inl hty) (Or.inl h)) r h
  · exact StartControlBlockReads_bound tpl setts st _ (by omega) r h
  · exact closerReads_bound tpl setts st _ m hm (fun h => hpos (Or.inr hty) (Or.inr h)) r h
  · exact FinishCurrentBlockReads_bound tpl setts st _ (by omega) r (mem_ite_nil_left h).2
  · exact FinishCurrentBlockReads_bound tpl setts st _ (by omega) r (mem_ite_nil_left h).2
  · obtain ⟨h1, h⟩ := mem_ite_nil_right h
    rcases List.mem_append.mp h with h | h
    · exact FinishCurrentBlockReads_bound tpl setts _ _ (by omega) r (mem_ite_nil_right h).2
    · have h3 := (mem_ite_nil_right h).2
      simp only [List.mem_singleton] at h3
      have := h1.1
      omega
theorem roughTokenizerFrom_pos : ∀ (i : Nat) (cs : List Char),
    ∀ m ∈ roughTokenizerFrom i cs, i ≤ m.position ∧ m.position < i + cs.length := by
  intro i cs
  induction i, cs using roughTokenizerFrom.induct with
  | case1 i => intro m h; simp [roughTokenizerFrom] at h
  | case2 i =>
    intro m h
    simp only [roughTokenizerFrom, if_true, List.mem_singleton] at h
    rw [h]
    simp
  | case3 i c hc => intro m h; simp [roughTokenizerFrom, hc] at h
  | case4 i c d rest k hk ih =>
    intro m h
    rw [roughTokenizerFrom, hk] at h
    rcases List.mem_cons.mp h with h | h
    · rw [h]
      simp
    · have := ih m h
      simp only [List.length_cons]
      omega
  | case5 i d rest hk ih =>
    intro m h
    rw [roughTokenizerFrom, hk] at h
    simp only [if_true] at h
    rcases List.mem_cons.mp h with h | h
    · rw [h]
      simp
    · have := ih m h
      simp only [List.length_cons] at this ⊢
      omega
  | case6 i c d rest hk hc ih =>
    intro m h
    rw [roughTokenizerFrom, hk] at h
    simp only [hc, if_false] at h
    have := ih m h
    simp only [List.length_cons] at this ⊢
    omega

theorem roughTokenizerFrom_tail_pos (i : Nat) (cs : List Char) :
    ∀ m ∈ (roughTokenizerFrom i cs).tail, i + 1 ≤ m.position := by
  intro m h
  match cs with
  | [] => simp [roughTokenizerFrom] at h
  | [c] =>
    rw [roughTokenizerFrom] at h
    split_ifs at h <;> simp at h
  | c :: d :: rest =>
    rw [roughTokenizerFrom] at h
    cases hk : delimiterOf c d with
    | some k =>
      simp only [hk, List.tail_cons] at h
      have := roughTokenizerFrom_pos _ _ m h
      omega
    | none =>
      simp only [hk] at h
      split_ifs at h
      · simp only [List.tail_cons] at h
        have := roughTokenizerFrom_pos _ _ m h
        omega
      · have := roughTokenizerFrom_pos _ _ m (List.mem_of_mem_tail h)
        omega

/-- A pair of the trace holds a match of the list; the state is the first one or the match is
not the first one. -/
theorem roughTraceFrom_mem (tpl : List Char) (setts : Settings) :
    ∀ (ms : List RoughMatch) (st : ParserState),
      ∀ p ∈ roughTraceFrom tpl setts st ms, p.2 ∈ ms ∧ (p.1 = st ∨ p.2 ∈ ms.tail) := by
  intro ms
  induction ms with
  | nil => intro st p h; simp [roughTraceFrom] at h
  | cons m ms ih =>
    intro st p h
    rw [roughTraceFrom] at h
    rcases List.mem_cons.mp h with h | h
    · rw [h]
      exact ⟨List.mem_cons_self _ _, Or.inl rfl⟩
    · have := (ih _ p h).1
      exact ⟨List.mem_cons_of_mem _ this, Or.inr this⟩

theorem roughStart_type (tpl : List Char) (setts : Settings) :
    (roughStart tpl setts).m_currentBlockInfo.type = .RawText ∨
    (roughStart tpl setts).m_currentBlockInfo.type = .LineStatement := by
  simp only [roughStart]
  split_ifs <;> simp

/-- In the rough loop a match lies inside the template, and a match met in an Expression or
Statement block is not at offset 0. -/
theorem roughTrace_pos (tpl : List Char) (setts : Settings) :
    ∀ p ∈ roughTrace tpl setts, p.2.position < tpl.length ∧
      (p.1.m_currentBlockInfo.type = .Expression ∨ p.1.m_currentBlockInfo.type = .Statement →
        1 ≤ p.2.position) := by
  intro p h
  obtain ⟨hmem, hfirst⟩ := roughTraceFrom_mem tpl setts _ _ p h
  have hpos := roughTokenizerFrom_pos 0 tpl p.2 hmem
  refine ⟨by omega, fun hty => ?_⟩
  rcases hfirst with hst | htail
  · rw [hst] at hty
    rcases roughStart_type tpl setts with h1 | h1 <;> rw [h1] at hty <;>
      rcases hty with h2 | h2 <;> cases h2
  · have := roughTokenizerFrom_tail_pos 0 tpl p.2 htail
    omega

/-- C35: for every template and every settings value, every character read of rough parsing
is at an offset in `[0, len(T))`. In the rough loop every match lies inside the template; the
quote check of a `}}` or `%}` at `pos` is evaluated only in a block that is not raw text,
and then `pos >= 1`; `FinishCurrentBlock(position)` with `position <= len(T)` reads inside
the template, so it reads `position - 1` only when `position != 0`; and the newline case
reads inside the template in every state, the start of the next line being read only when it
is less than `len(T)`. -/
theorem C35_index_safety (tpl : List Char) (setts : Settings) :
    (∀ r ∈ DoRoughParsingReads tpl setts, 0 ≤ r ∧ r < (tpl.length : Int)) ∧
    (∀ p ∈ roughTrace tpl setts, p.2.position < tpl.length) ∧
    (∀ p ∈ roughTrace tpl setts, ∀ ty, ty = .Expression ∨ ty = .Statement →
      closerReads tpl setts p.1 ty p.2 ≠ [] →
      p.1.m_currentBlockInfo.type ≠ .RawText ∧ 1 ≤ p.2.position) ∧
    (∀ (st : ParserState) (position : Nat), position ≤ tpl.length →
      ∀ r ∈ FinishCurrentBlockReads tpl setts st position, 0 ≤ r ∧ r < (tpl.length : Int)) ∧
    (∀ (st : ParserState) (m : RoughMatch), m.type = .RM_NewLine →
      m.position < tpl.length →
      ∀ r ∈ ParseRoughMatchReads tpl setts st m, 0 ≤ r ∧ r < (tpl.length : Int)) := by
  refine ⟨?_, fun p hp => (roughTrace_pos tpl setts p hp).1, ?_,
    fun st position hpos => FinishCurrentBlockReads_bound tpl setts st position hpos,
    fun st m hty hm => ParseRoughMatchReads_bound tpl setts st m hm (fun h => by
      rcases h with h | h <;> rw [hty] at h <;> cases h)⟩
  · intro r h
    simp only [DoRoughParsingReads] at h
    by_cases hempty : (roughTokenizer tpl).isEmpty = true
    · rw [if_pos hempty] at h
      obtain ⟨hne, h⟩ := mem_ite_nil_right h
      simp only [List.mem_singleton] at h
      have hlen : 0 < tpl.length := by
        cases tpl with
        | nil => simp at hne
        | cons c cs => simp
      omega
    · rw [if_neg hempty] at h
      have hlen : 0 < tpl.length := by
        cases tpl with
        | nil => simp [roughTokenizer, roughTokenizerFrom] at hempty
        | cons c cs => simp
      rcases List.mem_append.mp h with h | h
      · rcases List.mem_append.mp h with h | h
        · have h0 := (mem_ite_nil_right h).2
          simp only [List.mem_singleton] at h0
          omega
        · obtain ⟨p, hp, hr⟩ := List.mem_flatMap.mp h
          have hpos := roughTrace_pos tpl setts p hp
          exact ParseRoughMatchReads_bound tpl setts p.1 p.2 hpos.1 (fun _ => hpos.2) r hr
      · exact FinishCurrentBlockReads_bound tpl setts _ _ le_rfl r h
  · intro p hp ty hty hreads
    have hpos := roughTrace_pos tpl setts p hp
    have hcond : p.1.m_currentBlockInfo.type ≠ .RawText ∧ p.1.m_currentBlockInfo.type = ty := by
      by_contra hc
      apply hreads
      simp only [closerReads]
      by_cases h1 : p.1.m_currentBlockInfo.type = .RawText
      · simp [h1]
      · have h2 : p.1.m_currentBlockInfo.type ≠ ty := fun h => hc ⟨h1, h⟩
        simp [h1, h2]
    refine ⟨hcond.1, hpos.2 ?_⟩
    rw [hcond.2]
    exact hty

/-- C35 at a template with both kinds of control block, whitespace markers, a quoted text and
a line statement, all settings on: the reads, in order, all below the length 31. -/
theorem C35_index_safety_witness :
    ("\x7b\x7b x -\x7d\x7d  \n a \x7b%- if 'y' %\x7d\n#x\n".toList).length = 31 ∧
    DoRoughParsingReads "\x7b\x7b x -\x7d\x7d  \n a \x7b%- if 'y' %\x7d\n#x\n".toList
      ⟨true, true, true⟩ =
      [0, 2, 2, 2, 5, 5, 8, 9, 10, 11, 16, 13, 12, 16, 16, 24, 24, 27, 28, 30] ∧
    (∀ r ∈ DoRoughParsingReads "\x7b\x7b x -\x7d\x7d  \n a \x7b%- if 'y' %\x7d\n#x\n".toList
      ⟨true, true, true⟩, 0 ≤ r ∧ r < 31) ∧
    DoRoughParsingReads [] ⟨true, true, true⟩ = [] :=
  ⟨by decide, by decide,
    (C35_index_safety "\x7b\x7b x -\x7d\x7d  \n a \x7b%- if 'y' %\x7d\n#x\n".toList
      ⟨true, true, true⟩).1,
    by decide⟩

/-! ## Exact coverage of the template by the blocks and the consumed delimiters -/

theorem inBlocks_append (blocks : List TextBlockInfo) (b : TextBlockInfo) (i : Nat) :
    inBlocks (blocks ++ [b]) i ↔
      inBlocks blocks i ∨ (b.range.startOffset ≤ i ∧ i < b.range.endOffset) := by
  unfold inBlocks
  constructor
  · rintro ⟨x, hx, h⟩
    rcases List.mem_append.mp hx with hx | hx
    · exact Or.inl ⟨x, hx, h⟩
    · rw [List.mem_singleton.mp hx] at h
      exact Or.inr h
  · rintro (⟨x, hx, h⟩ | h)
    · exact ⟨x, List.mem_append_left _ hx, h⟩
    · exact ⟨b, List.mem_append_right _ (List.mem_singleton_self _), h⟩

theorem delimiterOf_second {c d : Char} {k : RoughMatchType} (h : delimiterOf c d = some k) :
    isBlank d = false ∧ d ≠ '+' ∧ d ≠ '-' ∧ c ≠ '+' ∧ c ≠ '-' := by
  unfold delimiterOf at h
  split_ifs at h with h1 h2 h3 h4 h5 h6
  all_goals first
    | (obtain ⟨rfl, rfl⟩ := h1; decide)
    | (obtain ⟨rfl, rfl⟩ := h2; decide)
    | (obtain ⟨rfl, rfl⟩ := h3; decide)
    | (obtain ⟨rfl, rfl⟩ := h4; decide)
    | (obtain ⟨rfl, rfl⟩ := h5; decide)
    | (obtain ⟨rfl, rfl⟩ := h6; decide)

theorem RoughExact_same {tpl : List Char} {st st' : ParserState} {p p' G : Nat}
    {C C' : Nat → Prop} (hinv : RoughExact tpl st p C G) (hp : p ≤ p')
    (hblocks : st'.m_textBlocks = st.m_textBlocks)
    (hstart : st'.m_currentBlockInfo.range.startOffset =
      st.m_currentBlockInfo.range.startOffset)
    (hC : ∀ i, C' i ↔ C i) :
    RoughExact tpl st' p' C' G := by
  refine ⟨RoughInv_same hinv.inv hp hblocks hstart, ?_, ?_, ?_, ?_, ?_, ?_, hinv.guard_edge⟩
  · rw [hblocks, hstart]
    intro i h1 h2
    rcases hinv.cover i h1 h2 with h | h
    · exact Or.inl h
    · exact Or.inr ((hC i).mpr h)
  · rw [hblocks]
    exact fun i h => hinv.apart i ((hC i).mp h)
  · rw [hstart]
    exact fun i h => hinv.before i ((hC i).mp h)
  · rw [hblocks]
    exact hinv.ends_le
  · rw [hstart]
    exact hinv.guard_le_start
  · exact le_trans hinv.guard_le_pos hp

/-- The guard offset is not above an offset that holds a marker right before the
tokenizer, nor above the start of a run of non-newline whitespace that reaches it. -/
theorem RoughExact_guard_le {tpl : List Char} {st : ParserState} {p G : Nat}
    {C : Nat → Prop} (hinv : RoughExact tpl st p C G) (i : Nat)
    (h : ∀ j, i ≤ j → j < p → isBlank (charAt tpl j) = true ∨ markerAt tpl j) :
    G ≤ i := by
  by_contra hlt
  have hG := hinv.guard_le_pos
  rcases hinv.guard_edge with h0 | ⟨h1, h2⟩
  · omega
  · rcases h (G - 1) (by omega) (by omega) with h3 | h3
    · rw [h3] at h1
      cases h1
    · exact h2 h3

theorem RoughExact_close {tpl : List Char} {st st' : ParserState} {p p' G : Nat}
    {C : Nat → Prop} (hinv : RoughExact tpl st p C G) (hinv' : RoughInv tpl st' p')
    (e s' G' : Nat) (ty : TextBlockType) (D : Nat → Prop)
    (hblocks : st'.m_textBlocks =
      st.m_textBlocks ++ [⟨⟨st.m_currentBlockInfo.range.startOffset, e⟩, ty⟩])
    (hstart : st'.m_currentBlockInfo.range.startOffset = s')
    (h1 : st.m_currentBlockInfo.range.startOffset ≤ s') (he : e ≤ G') (hG : G ≤ G')
    (hGs : G' ≤ s') (hGp : G' ≤ p')
    (hedge : G' = 0 ∨ (isBlank (charAt tpl (G' - 1)) = false ∧ ¬ markerAt tpl (G' - 1)))
    (hgap : ∀ i, e ≤ i → i < s' → i < tpl.length → D i)
    (hD : ∀ i, D i → G ≤ i ∧ e ≤ i ∧ i < s') :
    RoughExact tpl st' p' (fun i => C i ∨ D i) G' := by
  refine ⟨hinv', ?_, ?_, ?_, ?_, ?_, hGp, hedge⟩
  · rw [hblocks, hstart]
    intro i hi hlen
    rw [inBlocks_append]
    by_cases hc : i < st.m_currentBlockInfo.range.startOffset
    · rcases hinv.cover i hc hlen with h | h
      · exact Or.inl (Or.inl h)
      · exact Or.inr (Or.inl h)
    · by_cases hie : i < e
      · exact Or.inl (Or.inr ⟨Nat.le_of_not_lt hc, hie⟩)
      · exact Or.inr (Or.inr (hgap i (Nat.le_of_not_lt hie) hi hlen))
  · rw [hblocks]
    intro i hi
    rw [inBlocks_append]
    rintro (⟨b, hb, hb1, hb2⟩ | ⟨hb1, hb2⟩)
    · rcases hi with hi | hi
      · exact hinv.apart i hi ⟨b, hb, hb1, hb2⟩
      · have := hinv.ends_le b hb
        have := (hD i hi).1
        omega
    · rcases hi with hi | hi
      · have := hinv.before i hi
        simp only at hb1
        omega
      · have := (hD i hi).2.1
        simp only at hb2
        omega
  · rw [hstart]
    rintro i (hi | hi)
    · exact lt_of_lt_of_le (hinv.before i hi) h1
    · exact (hD i hi).2.2
  · rw [hblocks]
    intro b hb
    rcases List.mem_append.mp hb with hb | hb
    · exact le_trans (hinv.ends_le b hb) hG
    · rw [List.mem_singleton.mp hb]
      exact he
  · rw [hstart]
    exact hGs

theorem RoughExact_StartControlBlock {tpl : List Char} {st : ParserState} {p G : Nat}
    {C : Nat → Prop} (setts : Settings) (ty : TextBlockType)
    (hinv : RoughExact tpl st p C G) (k : RoughMatchType) (hlt : p + 1 < tpl.length)
    (hm : delimiterOf (charAt tpl p) (charAt tpl (p + 1)) = some k) :
    ∃ G', RoughExact tpl (StartControlBlock tpl setts st ty p) (p + 2)
      (fun i => C i ∨
        (st.m_currentBlockInfo.type = .RawText ∧ openerConsumes tpl setts p i)) G' := by
  obtain ⟨_, _, hd3⟩ := delimiterOf_chars hm
  obtain ⟨hb, hnp, hnm, _, _⟩ := delimiterOf_second hm
  have hle := RoughInv_start_le hinv.inv hd3
  have hinv' := RoughInv_StartControlBlock setts ty hinv.inv k hlt hm
  by_cases hraw : st.m_currentBlockInfo.type = .RawText
  · refine ⟨p + 2, ?_⟩
    have hse := StripBlockLeft_eq tpl setts st.m_currentBlockInfo p hraw
    have hpos : stripApplies tpl setts p →
        StripBlockLeft tpl setts st.m_currentBlockInfo (p + 2) p = stripLoop tpl p :=
      fun hs => hse.trans (if_pos hs)
    have hneg : ¬ stripApplies tpl setts p →
        StripBlockLeft tpl setts st.m_currentBlockInfo (p + 2) p = p :=
      fun hs => hse.trans (if_neg hs)
    have hbe : ∀ e, blockEnd tpl .RawText e = e := fun e => by simp [blockEnd]
    have hleast := stripLoop_least tpl p
    have he : StripBlockLeft tpl setts st.m_currentBlockInfo (p + 2) p ≤ p :=
      (StripBlockLeft_spec tpl setts st.m_currentBlockInfo (p + 2) p).1
    have hGp := hinv.guard_le_pos
    refine RoughExact_close hinv hinv'
      (StripBlockLeft tpl setts st.m_currentBlockInfo (p + 2) p)
      (if p + 2 < tpl.length ∧ (charAt tpl (p + 2) = '+' ∨ charAt tpl (p + 2) = '-')
        then p + 2 + 1 else p + 2)
      (p + 2) .RawText _ ?_ ?_ ?_ (by omega) (by omega) ?_ le_rfl
      (Or.inr ⟨by simpa using hb, by simp [markerAt, hnp, hnm]⟩) ?_ ?_
    · simp [StartControlBlock, hraw, FinishCurrentBlock_snd, hbe]
    · simp only [StartControlBlock, hraw, bne_self_eq_false, Bool.false_eq_true, if_false]
    · split_ifs <;> omega
    · split_ifs <;> omega
    · intro i hi1 hi2 hi3
      refine ⟨hraw, ?_⟩
      by_cases hip : i < p
      · have hs : stripApplies tpl setts p := by
          by_contra hn
          rw [hneg hn] at hi1
          omega
        rw [hpos hs] at hi1
        exact Or.inr (Or.inr (Or.inr ⟨hs, hip,
          fun j hj1 hj2 => hleast.1.2 j (by omega) hj2⟩))
      · by_cases hi4 : i = p
        · exact Or.inl hi4
        · by_cases hi5 : i = p + 1
          · exact Or.inr (Or.inl hi5)
          · have hi6 : i = p + 2 := by
              split_ifs at hi2 <;> omega
            refine Or.inr (Or.inr (Or.inl ⟨hi6, hi3, ?_⟩))
            subst hi6
            split_ifs at hi2 with hmark
            · exact hmark.2
            · omega
    · rintro i ⟨_, hi⟩
      rcases hi with hi | hi | ⟨hi, hi2, hi3⟩ | ⟨hs, hi, hi2⟩
      · subst hi
        exact ⟨hGp, he, by split_ifs <;> omega⟩
      · subst hi
        exact ⟨by omega, by omega, by split_ifs <;> omega⟩
      · subst hi
        refine ⟨by omega, by omega, ?_⟩
        rw [if_pos ⟨hi2, hi3⟩]
        omega
      · refine ⟨RoughExact_guard_le hinv i (fun j h1 h2 => Or.inl (hi2 j h1 h2)), ?_,
          by split_ifs <;> omega⟩
        rw [hpos hs]
        exact hleast.2 ⟨le_of_lt hi, hi2⟩
  · have hne : (st.m_currentBlockInfo.type != TextBlockType.RawText) = true := by
      simpa using hraw
    refine ⟨G, ?_⟩
    simp only [StartControlBlock, hne, if_true]
    exact RoughExact_same hinv (by omega) rfl rfl (fun i => by simp [hraw])

theorem FinishCurrentBlock_fst_eq (tpl : List Char) (setts : Settings) (st : ParserState)
    (p : Nat) (hne : st.m_currentBlockInfo.type ≠ .RawText) (hfirst : ¬ markerAt tpl p) :
    (trimApplies tpl setts st.m_currentBlockInfo.type p →
      (FinishCurrentBlock tpl setts st p).1 = afterWhitespaceRun tpl (p + 2)) ∧
    (¬ trimApplies tpl setts st.m_currentBlockInfo.type p →
      (FinishCurrentBlock tpl setts st p).1 = p + 2) := by
  simp only [markerAt, not_or] at hfirst
  simp only [FinishCurrentBlock, trimApplies]
  by_cases hp0 : p = 0
  · subst hp0
    by_cases ht : setts.trimBlocks = true
    · by_cases hs : st.m_currentBlockInfo.type = .Statement
      · simp [hfirst.1, hfirst.2, ht, hs, trimLoop_eq]
      · simp [hfirst.1, hfirst.2, ht, hs]
    · simp [hfirst.1, hfirst.2, ht]
  · by_cases hminus : charAt tpl (p - 1) = '-'
    · simp [hminus, hne, hp0, trimLoop_eq]
    · by_cases hplus : charAt tpl (p - 1) = '+'
      · simp [hplus, hne, hp0]
      · by_cases ht : setts.trimBlocks = true
        · by_cases hs : st.m_currentBlockInfo.type = .Statement
          · simp [hminus, hplus, hne, hp0, ht, hs, trimLoop_eq]
          · simp [hminus, hplus, hne, hp0, ht, hs]
        · simp [hminus, hplus, hne, hp0, ht]

theorem RoughExact_finish {tpl : List Char} {st : ParserState} {p G : Nat} {C : Nat → Prop}
    (setts : Settings) (hinv : RoughExact tpl st p C G) (k : RoughMatchType)
    (hm : delimiterOf (charAt tpl p) (charAt tpl (p + 1)) = some k)
    (s' : Nat) (st' : ParserState)
    (hb : st'.m_textBlocks = (FinishCurrentBlock tpl setts st p).2.m_textBlocks)
    (hs : st'.m_currentBlockInfo.range.startOffset = s') (hs2 : p + 2 ≤ s')
    (hlen : s' ≤ tpl.length)
    (hws : ∀ i, p + 2 ≤ i → i < s' →
      isspace (charAt tpl i) = true ∧ (charAt tpl i = '\n' → i + 1 = s'))
    (D : Nat → Prop)
    (hD : ∀ i, D i ↔ (i = p ∨ i = p + 1 ∨
      (i + 1 = p ∧ st.m_currentBlockInfo.type ≠ .RawText ∧ markerAt tpl i) ∨
      (p + 2 ≤ i ∧ i < s'))) :
    RoughExact tpl st' (p + 2) (fun i => C i ∨ D i) (p + 2) := by
  obtain ⟨_, _, hd3⟩ := delimiterOf_chars hm
  obtain ⟨hbl, hnp, hnm, _, _⟩ := delimiterOf_second hm
  have hle := RoughInv_start_le hinv.inv hd3
  have hinv' := RoughInv_finish setts hinv.inv k hm s' st' hb hs hs2 hlen hws
  obtain ⟨he1, _⟩ := blockEnd_spec tpl st.m_currentBlockInfo.type p
  have hGp := hinv.guard_le_pos
  rw [FinishCurrentBlock_snd] at hb
  refine RoughExact_close hinv hinv' (blockEnd tpl st.m_currentBlockInfo.type p) s' (p + 2)
    st.m_currentBlockInfo.type D hb hs (by omega) (by omega) (by omega) hs2 le_rfl
    (Or.inr ⟨by simpa using hbl, by simp [markerAt, hnp, hnm]⟩) ?_ ?_
  · intro i hi1 hi2 _
    rw [hD]
    by_cases hip : i < p
    · refine Or.inr (Or.inr (Or.inl ?_))
      unfold blockEnd at hi1
      split_ifs at hi1 with hc
      · exact ⟨by omega, hc.1, by
          have : i = p - 1 := by omega
          rw [this]
          exact hc.2.2⟩
      · omega
    · by_cases hi4 : i = p
      · exact Or.inl hi4
      · by_cases hi5 : i = p + 1
        · exact Or.inr (Or.inl hi5)
        · exact Or.inr (Or.inr (Or.inr ⟨by omega, hi2⟩))
  · intro i hi
    rw [hD] at hi
    rcases hi with hi | hi | ⟨hi, hi2, hi3⟩ | ⟨hi, hi2⟩
    · subst hi
      exact ⟨hGp, he1, by omega⟩
    · subst hi
      exact ⟨by omega, by omega, by omega⟩
    · refine ⟨RoughExact_guard_le hinv i (fun j h1 h2 => Or.inr ?_), ?_, by omega⟩
      · have : j = i := by omega
        rw [this]
        exact hi3
      · have hi4 : i = p - 1 := by omega
        have hc : st.m_currentBlockInfo.type ≠ .RawText ∧ p ≠ 0 ∧
            (charAt tpl (p - 1) = '+' ∨ charAt tpl (p - 1) = '-') :=
          ⟨hi2, by omega, by rw [← hi4]; exact hi3⟩
        unfold blockEnd
        rw [if_pos hc]
        omega
    · exact ⟨by omega, by omega, hi2⟩

theorem RoughExact_closer {tpl : List Char} {st : ParserState} {p G : Nat} {C : Nat → Prop}
    (setts : Settings) (hinv : RoughExact tpl st p C G) (k : RoughMatchType)
    (hlt : p + 1 < tpl.length)
    (hm : delimiterOf (charAt tpl p) (charAt tpl (p + 1)) = some k)
    (hne : st.m_currentBlockInfo.type ≠ .RawText) :
    RoughExact tpl (setBlockStart (FinishCurrentBlock tpl setts st p).2
      (FinishCurrentBlock tpl setts st p).1) (p + 2)
      (fun i => C i ∨ closerConsumes tpl setts st.m_currentBlockInfo.type p i) (p + 2) := by
  obtain ⟨h1, h2⟩ := FinishCurrentBlock_fst_spec tpl setts st p
  obtain ⟨_, _, _, hnp, hnm⟩ := delimiterOf_second hm
  obtain ⟨ht1, ht2⟩ := FinishCurrentBlock_fst_eq tpl setts st p hne
    (by simp [markerAt, hnp, hnm])
  refine RoughExact_finish setts hinv k hm (FinishCurrentBlock tpl setts st p).1
    (setBlockStart (FinishCurrentBlock tpl setts st p).2 (FinishCurrentBlock tpl setts st p).1)
    rfl rfl h1 (FinishCurrentBlock_fst_le tpl setts st p (by omega)) h2 _ (fun i => ?_)
  simp only [closerConsumes]
  by_cases ht : trimApplies tpl setts st.m_currentBlockInfo.type p
  · rw [ht1 ht]
    simp [ht, hne]
  · rw [ht2 ht]
    simp only [ht, hne, false_and, ne_eq, not_false_eq_true, true_and, or_false]
    constructor
    · rintro (h | h | h)
      · exact Or.inl h
      · exact Or.inr (Or.inl h)
      · exact Or.inr (Or.inr (Or.inl h))
    · rintro (h | h | h | h)
      · exact Or.inl h
      · exact Or.inr (Or.inl h)
      · exact Or.inr (Or.inr h)
      · omega

theorem RoughExact_newline {tpl : List Char} {st : ParserState} {p G : Nat} {C : Nat → Prop}
    (setts : Settings) (hinv : RoughExact tpl st p C G) (hc : charAt tpl p = '\n') :
    ∃ G', RoughExact tpl (ParseRoughMatch tpl setts st ⟨.RM_NewLine, p⟩).1 (p + 1)
      (fun i => C i ∨ consumes tpl setts st ⟨.RM_NewLine, p⟩ i) G' := by
  have hinv' := RoughInv_newline setts hinv.inv hc
  have hGp := hinv.guard_le_pos
  by_cases hact : st.m_currentBlockInfo.type = .LineStatement ∧ p + 1 < tpl.length
  · obtain ⟨hty, hls⟩ := hact
    obtain ⟨he1, _⟩ := blockEnd_spec tpl .LineStatement p
    refine ⟨p + 1, ?_⟩
    refine RoughExact_close hinv hinv' (blockEnd tpl .LineStatement p) (p + 1) (p + 1)
      .LineStatement _ ?_ ?_ ?_ (by omega) (by omega) le_rfl le_rfl
      (Or.inr ⟨by simp [hc, isBlank], by simp [markerAt, hc]⟩) ?_ ?_
    · simp [ParseRoughMatch, setBlockType, setBlockStart, FinishCurrentBlock_snd,
        FinishCurrentLine, hty, hls]
    · simp [ParseRoughMatch, setBlockType, setBlockStart, FinishCurrentLine, hty, hls]
    · by_cases hle : st.m_currentBlockInfo.range.startOffset ≤ p
      · omega
      · have := (hinv.inv.ahead p le_rfl (by omega)).2 hc
        omega
    · intro i hi1 hi2 _
      simp only [consumes]
      refine ⟨hty, hls, ?_⟩
      by_cases hip : i < p
      · refine Or.inr ?_
        unfold blockEnd at hi1
        split_ifs at hi1 with hcnd
        · exact ⟨by omega, by
            have : i = p - 1 := by omega
            rw [this]
            exact hcnd.2.2⟩
        · omega
      · exact Or.inl (by omega)
    · intro i hi
      simp only [consumes] at hi
      obtain ⟨_, _, hi | ⟨hi, hi3⟩⟩ := hi
      · subst hi
        exact ⟨hGp, he1, by omega⟩
      · refine ⟨RoughExact_guard_le hinv i (fun j h1 h2 => Or.inr ?_), ?_, by omega⟩
        · have : j = i := by omega
          rw [this]
          exact hi3
        · have hi4 : i = p - 1 := by omega
          have hcnd : TextBlockType.LineStatement ≠ .RawText ∧ p ≠ 0 ∧
              (charAt tpl (p - 1) = '+' ∨ charAt tpl (p - 1) = '-') :=
            ⟨by decide, by omega, by rw [← hi4]; exact hi3⟩
          unfold blockEnd
          rw [if_pos hcnd]
          omega
  · refine ⟨G, ?_⟩
    have hcons : ∀ i, (C i ∨ consumes tpl setts st ⟨.RM_NewLine, p⟩ i) ↔ C i := by
      intro i
      simp only [consumes]
      constructor
      · rintro (h | ⟨h1, h2, _⟩)
        · exact h
        · exact absurd ⟨h1, h2⟩ hact
      · exact Or.inl
    refine RoughExact_same hinv (by omega) ?_ ?_ hcons
    · simp only [ParseRoughMatch]
      split_ifs with h1 h2
      · exact absurd ⟨by simpa [FinishCurrentLine] using h2,
          by simpa [FinishCurrentLine] using h1.1⟩ hact
      · simp [setBlockType, FinishCurrentLine]
      · simp [FinishCurrentLine]
    · simp only [ParseRoughMatch]
      split_ifs with h1 h2
      · exact absurd ⟨by simpa [FinishCurrentLine] using h2,
          by simpa [FinishCurrentLine] using h1.1⟩ hact
      · simp [setBlockType, FinishCurrentLine]
      · simp [FinishCurrentLine]

theorem RoughExact_step {tpl : List Char} {st : ParserState} {p G : Nat} {C : Nat → Prop}
    (setts : Settings) (hinv : RoughExact tpl st p C G) (k : RoughMatchType)
    (hm : matchAt tpl p k) :
    ∃ G', RoughExact tpl (ParseRoughMatch tpl setts st ⟨k, p⟩).1 (p + matchWidth k)
      (fun i => C i ∨ consumes tpl setts st ⟨k, p⟩ i) G' := by
  cases k with
  | RM_NewLine =>
    have hc : charAt tpl p = '\n' := by simpa [matchAt] using hm.2
    exact RoughExact_newline setts hinv hc
  | RM_ExprBegin =>
    have hd : delimiterOf (charAt tpl p) (charAt tpl (p + 1)) = some .RM_ExprBegin := by
      simpa [matchAt] using hm.2
    exact RoughExact_StartControlBlock setts .Expression hinv _
      (by simpa [matchAt] using hm.1) hd
  | RM_StmtBegin =>
    have hd : delimiterOf (charAt tpl p) (charAt tpl (p + 1)) = some .RM_StmtBegin := by
      simpa [matchAt] using hm.2
    exact RoughExact_StartControlBlock setts .Statement hinv _
      (by simpa [matchAt] using hm.1) hd
  | RM_ExprEnd =>
    have hd : delimiterOf (charAt tpl p) (charAt tpl (p + 1)) = some .RM_ExprEnd := by
      simpa [matchAt] using hm.2
    have hlt : p + 1 < tpl.length := by simpa [matchAt] using hm.1
    show ∃ G', RoughExact tpl (ParseRoughMatch tpl setts st _).1 (p + 2) _ G'
    by_cases hact : st.m_currentBlockInfo.type = .Expression ∧ charAt tpl (p - 1) ≠ '\''
    · refine ⟨p + 2, ?_⟩
      have h := RoughExact_closer setts hinv _ hlt hd (by rw [hact.1]; decide)
      have hst : (ParseRoughMatch tpl setts st ⟨.RM_ExprEnd, p⟩).1 =
          setBlockStart (FinishCurrentBlock tpl setts st p).2
            (FinishCurrentBlock tpl setts st p).1 := by
        simp [ParseRoughMatch, hact.1, hact.2]
      have hC : (fun i => C i ∨ consumes tpl setts st ⟨.RM_ExprEnd, p⟩ i) =
          (fun i => C i ∨ closerConsumes tpl setts st.m_currentBlockInfo.type p i) := by
        funext i
        simp [consumes, hact.1, hact.2]
      rw [hst, hC]
      exact h
    · refine ⟨G, RoughExact_same hinv (by omega) ?_ ?_ (fun i => ?_)⟩
      · simp only [ParseRoughMatch]
        split_ifs with h1 h2
        · rfl
        · rfl
        · exact absurd ⟨by_contra (fun h => h2 (Or.inl h)), fun h => h2 (Or.inr h)⟩ hact
      · simp only [ParseRoughMatch]
        split_ifs with h1 h2
        · rfl
        · rfl
        · exact absurd ⟨by_contra (fun h => h2 (Or.inl h)), fun h => h2 (Or.inr h)⟩ hact
      · simp only [consumes]
        constructor
        · rintro (h | ⟨h1, h2, _⟩)
          · exact h
          · exact absurd ⟨h1, h2⟩ hact
        · exact Or.inl
  | RM_StmtEnd =>
    have hd : delimiterOf (charAt tpl p) (charAt tpl (p + 1)) = some .RM_StmtEnd := by
      simpa [matchAt] using hm.2
    have hlt : p + 1 < tpl.length := by simpa [matchAt] using hm.1
    show ∃ G', RoughExact tpl (ParseRoughMatch tpl setts st _).1 (p + 2) _ G'
    by_cases hact : st.m_currentBlockInfo.type = .Statement ∧ charAt tpl (p - 1) ≠ '\''
    · refine ⟨p + 2, ?_⟩
      have h := RoughExact_closer setts hinv _ hlt hd (by rw [hact.1]; decide)
      have hst : (ParseRoughMatch tpl setts st ⟨.RM_StmtEnd, p⟩).1 =
          setBlockStart (FinishCurrentBlock tpl setts st p).2
            (FinishCurrentBlock tpl setts st p).1 := by
        simp [ParseRoughMatch, hact.1, hact.2]
      have hC : (fun i => C i ∨ consumes tpl setts st ⟨.RM_StmtEnd, p⟩ i) =
          (fun i => C i ∨ closerConsumes tpl setts st.m_currentBlockInfo.type p i) := by
        funext i
        simp [consumes, hact.1, hact.2]
      rw [hst, hC]
      exact h
    · refine ⟨G, RoughExact_same hinv (by omega) ?_ ?_ (fun i => ?_)⟩
      · simp only [ParseRoughMatch]
        split_ifs with h1 h2
        · rfl
        · rfl
        · exact absurd ⟨by_contra (fun h => h2 (Or.inl h)), fun h => h2 (Or.inr h)⟩ hact
      · simp only [ParseRoughMatch]
        split_ifs with h1 h2
        · rfl
        · rfl
        · exact absurd ⟨by_contra (fun h => h2 (Or.inl h)), fun h => h2 (Or.inr h)⟩ hact
      · simp only [consumes]
        constructor
        · rintro (h | ⟨h1, h2, _⟩)
          · exact h
          · exact absurd ⟨h1, h2⟩ hact
        · exact Or.inl
  | RM_CommentBegin =>
    have hd : delimiterOf (charAt tpl p) (charAt tpl (p + 1)) = some .RM_CommentBegin := by
      simpa [matchAt] using hm.2
    have hlt : p + 1 < tpl.length := by simpa [matchAt] using hm.1
    show ∃ G', RoughExact tpl (ParseRoughMatch tpl setts st _).1 (p + 2) _ G'
    by_cases hact : st.m_currentBlockInfo.type = .RawText
    · refine ⟨p + 2, ?_⟩
      have hst : (ParseRoughMatch tpl setts st ⟨.RM_CommentBegin, p⟩).1 =
          setBlockType (setBlockStart (FinishCurrentBlock tpl setts st p).2 (p + 2))
            .Comment := by
        simp [ParseRoughMatch, hact]
      rw [hst]
      refine RoughExact_finish setts hinv _ hd (p + 2)
        (setBlockType (setBlockStart (FinishCurrentBlock tpl setts st p).2 (p + 2)) .Comment)
        rfl rfl le_rfl (by omega) (fun i h1 h2 => by omega) _ (fun i => ?_)
      simp only [consumes, hact, ne_eq, not_true_eq_false, false_and, and_false, true_and]
      constructor
      · rintro (h | h)
        · exact Or.inl h
        · exact Or.inr (Or.inl h)
      · rintro (h | h | h | h)
        · exact Or.inl h
        · exact Or.inr h
        · exact absurd h (by simp)
        · omega
    · have hne : (st.m_currentBlockInfo.type != TextBlockType.RawText) = true := by
        simpa using hact
      refine ⟨G, RoughExact_same hinv (by omega) ?_ ?_ (fun i => ?_)⟩
      · simp [ParseRoughMatch, hne]
      · simp [ParseRoughMatch, hne]
      · simp [consumes, hact]
  | RM_CommentEnd =>
    have hd : delimiterOf (charAt tpl p) (charAt tpl (p + 1)) = some .RM_CommentEnd := by
      simpa [matchAt] using hm.2
    have hlt : p + 1 < tpl.length := by simpa [matchAt] using hm.1
    show ∃ G', RoughExact tpl (ParseRoughMatch tpl setts st _).1 (p + 2) _ G'
    by_cases hact : st.m_currentBlockInfo.type = .Comment
    · refine ⟨p + 2, ?_⟩
      have hst : (ParseRoughMatch tpl setts st ⟨.RM_CommentEnd, p⟩).1 =
          setBlockStart (FinishCurrentBlock tpl setts st p).2 (p + 2) := by
        simp [ParseRoughMatch, hact]
      rw [hst]
      refine RoughExact_finish setts hinv _ hd (p + 2)
        (setBlockStart (FinishCurrentBlock tpl setts st p).2 (p + 2))
        rfl rfl le_rfl (by omega) (fun i h1 h2 => by omega) _ (fun i => ?_)
      simp only [consumes, hact, true_and]
      constructor
      · rintro (h | h | ⟨h1, h2⟩)
        · exact Or.inl h
        · exact Or.inr (Or.inl h)
        · exact Or.inr (Or.inr (Or.inl ⟨h1, by decide, h2⟩))
      · rintro (h | h | ⟨h1, _, h2⟩ | h)
        · exact Or.inl h
        · exact Or.inr (Or.inl h)
        · exact Or.inr (Or.inr ⟨h1, h2⟩)
        · omega
    · have hne : (st.m_currentBlockInfo.type != TextBlockType.Comment) = true := by
        simpa using hact
      refine ⟨G, RoughExact_same hinv (by omega) ?_ ?_ (fun i => ?_)⟩
      · simp [ParseRoughMatch, hne]
      · simp [ParseRoughMatch, hne]
      · simp [consumes, hact]

theorem RoughExact_loop (tpl : List Char) (setts : Settings) (p : Nat) (cs : List Char) :
    tpl.drop p = cs → ∀ (acc : ParserState × List ParseError) (C : Nat → Prop) (G : Nat),
      RoughExact tpl acc.1 p C G →
      ∃ p' G', RoughExact tpl (roughLoop tpl setts acc (roughTokenizerFrom p cs)).1 p'
        (fun i => C i ∨ ∃ q ∈ roughTraceFrom tpl setts acc.1 (roughTokenizerFrom p cs),
          consumes tpl setts q.1 q.2 i) G' := by
  induction p, cs using roughTokenizerFrom.induct with
  | case1 i =>
    intro _ acc C G hinv
    refine ⟨i, G, ?_⟩
    simp only [roughTokenizerFrom, roughLoop, List.foldl, roughTraceFrom]
    exact RoughExact_same hinv le_rfl rfl rfl (fun j => by simp)
  | case2 i =>
    intro hd acc C G hinv
    obtain ⟨hc, _, hlt⟩ := drop_eq_cons hd
    have hm : matchAt tpl i .RM_NewLine := by simp [matchAt, hlt, hc]
    obtain ⟨G', hstep⟩ := RoughExact_step setts hinv .RM_NewLine hm
    refine ⟨i + matchWidth .RM_NewLine, G', ?_⟩
    simp only [roughTokenizerFrom, if_true]
    rw [roughLoop_single_fst]
    exact RoughExact_same hstep le_rfl rfl rfl (fun j => by simp [roughTraceFrom])
  | case3 i c hc =>
    intro _ acc C G hinv
    refine ⟨i, G, ?_⟩
    simp only [roughTokenizerFrom, hc, if_false, roughLoop, List.foldl, roughTraceFrom]
    exact RoughExact_same hinv le_rfl rfl rfl (fun j => by simp)
  | case4 i c d rest k hk ih =>
    intro hd acc C G hinv
    obtain ⟨hc, hd1, hlt⟩ := drop_eq_cons hd
    obtain ⟨hc2, hd2, hlt2⟩ := drop_eq_cons hd1
    have hkn := (delimiterOf_some_ne_newline hk).2.2
    have hm : matchAt tpl i k := by
      simp only [matchAt, hkn, if_false]
      exact ⟨hlt2, by rw [hc, hc2]; exact hk⟩
    obtain ⟨G1, hstep⟩ := RoughExact_step setts hinv k hm
    have hw : matchWidth k = 2 := by simp [matchWidth, hkn]
    rw [hw] at hstep
    obtain ⟨p', G', h⟩ := ih hd2 (roughStep tpl setts acc ⟨k, i⟩) _ G1
      (by rw [roughStep_fst]; exact hstep)
    refine ⟨p', G', ?_⟩
    rw [roughTokenizerFrom, hk]
    simp only [roughLoop_cons]
    refine RoughExact_same h le_rfl rfl rfl (fun j => ?_)
    rw [roughStep_fst]
    simp only [roughTraceFrom, List.mem_cons, exists_eq_or_imp, or_assoc]
  | case5 i d rest hk ih =>
    intro hd acc C G hinv
    obtain ⟨hc, hd1, hlt⟩ := drop_eq_cons hd
    have hm : matchAt tpl i .RM_NewLine := by simp [matchAt, hlt, hc]
    obtain ⟨G1, hstep⟩ := RoughExact_step setts hinv .RM_NewLine hm
    obtain ⟨p', G', h⟩ := ih hd1 (roughStep tpl setts acc ⟨.RM_NewLine, i⟩) _ G1
      (by rw [roughStep_fst]; exact hstep)
    refine ⟨p', G', ?_⟩
    rw [roughTokenizerFrom, hk]
    simp only [if_true, roughLoop_cons]
    refine RoughExact_same h le_rfl rfl rfl (fun j => ?_)
    rw [roughStep_fst]
    simp only [roughTraceFrom, List.mem_cons, exists_eq_or_imp, or_assoc]
  | case6 i c d rest hk hc ih =>
    intro hd acc C G hinv
    obtain ⟨_, hd1, _⟩ := drop_eq_cons hd
    rw [roughTokenizerFrom, hk]
    simp only [hc, if_false]
    exact ih hd1 acc C G (RoughExact_same hinv (by omega) rfl rfl (fun j => Iff.rfl))

theorem RoughExact_start (tpl : List Char) (setts : Settings) :
    RoughExact tpl (roughStart tpl setts) 0 (fun _ => False) 0 := by
  refine ⟨RoughInv_start tpl setts, ?_, ?_, ?_, ?_, ?_, le_rfl, Or.inl rfl⟩
  · intro i hi; simp [roughStart, ParserState.init] at hi
  · intro i hi; exact absurd hi id
  · intro i hi; exact absurd hi id
  · intro b hb; simp [roughStart, ParserState.init] at hb
  · simp

/-- The blocks of rough parsing are in order and end inside the template, every character
lies in a block or is consumed, and no consumed offset lies in a block or outside the
template. -/
theorem roughBlocks_exact (tpl : List Char) (setts : Settings) :
    (roughBlocks tpl setts).Pairwise (fun a b => a.range.endOffset ≤ b.range.startOffset) ∧
    (∀ b ∈ roughBlocks tpl setts, b.range.endOffset ≤ tpl.length) ∧
    (∀ i, i < tpl.length → inBlocks (roughBlocks tpl setts) i ∨ consumed tpl setts i) ∧
    (∀ i, consumed tpl setts i → i < tpl.length ∧ ¬ inBlocks (roughBlocks tpl setts) i) := by
  unfold consumed roughTrace
  unfold roughBlocks DoRoughParsing
  by_cases hempty : (roughTokenizer tpl).isEmpty = true
  · have hnil : roughTokenizer tpl = [] := List.isEmpty_iff.mp hempty
    simp only [hempty, if_true]
    refine ⟨List.pairwise_singleton _ _, fun b hb => ?_,
      fun i hi => Or.inl ⟨_, List.mem_singleton_self _, Nat.zero_le i, hi⟩, fun i hi => ?_⟩
    · rw [List.mem_singleton.mp hb]
    · rw [hnil] at hi
      simp [roughTraceFrom] at hi
  · simp only [hempty]
    obtain ⟨p', G', hinv⟩ := RoughExact_loop tpl setts 0 tpl rfl (roughStart tpl setts, [])
      _ 0 (RoughExact_start tpl setts)
    rw [← roughTokenizer] at hinv
    simp only [false_or] at hinv
    generalize roughLoop tpl setts (roughStart tpl setts, []) (roughTokenizer tpl) = r
      at hinv ⊢
    simp only [FinishCurrentBlock_snd, FinishCurrentLine, Bool.false_eq_true, if_false]
    obtain ⟨he1, _⟩ := blockEnd_spec tpl r.1.m_currentBlockInfo.type tpl.length
    have hstart := hinv.inv.start_le
    refine ⟨?_, ?_, ?_, ?_⟩
    · rw [List.pairwise_append]
      refine ⟨hinv.inv.ordered, List.pairwise_singleton _ _, fun a ha b hb => ?_⟩
      rw [List.mem_singleton.mp hb]
      exact hinv.inv.ends_le a ha
    · intro b hb
      rcases List.mem_append.mp hb with hb | hb
      · exact le_trans (hinv.inv.ends_le b hb) hstart
      · rw [List.mem_singleton.mp hb]; exact he1
    · intro i hi
      rw [inBlocks_append]
      by_cases hc : i < r.1.m_currentBlockInfo.range.startOffset
      · rcases hinv.cover i hc hi with h | h
        · exact Or.inl (Or.inl h)
        · exact Or.inr (Or.inl h)
      · by_cases he : i < blockEnd tpl r.1.m_currentBlockInfo.type tpl.length
        · exact Or.inl (Or.inr ⟨Nat.le_of_not_lt hc, he⟩)
        · refine Or.inr (Or.inr ?_)
          unfold blockEnd at he
          split_ifs at he with hcnd
          · have hi2 : i = tpl.length - 1 := by omega
            exact ⟨trivial, hcnd.1, by omega, by rw [hi2]; exact hcnd.2.2⟩
          · omega
    · intro i hi
      rw [inBlocks_append]
      rcases hi with hi | ⟨_, hty, hi1, hi2⟩
      · refine ⟨lt_of_lt_of_le (hinv.before i hi) hstart, ?_⟩
        rintro (h | ⟨h1, _⟩)
        · exact hinv.apart i hi h
        · have := hinv.before i hi
          simp only at h1
          omega
      · refine ⟨by omega, ?_⟩
        have hG : G' ≤ i := by
          have h1 := hinv.guard_le_start
          rcases hinv.guard_edge with h0 | ⟨_, h2⟩
          · omega
          · by_contra hlt
            have : G' - 1 = i := by omega
            rw [this] at h2
            exact h2 hi2
        rintro (⟨b, hb, _, hb2⟩ | ⟨_, h2⟩)
        · have := hinv.ends_le b hb
          omega
        · have hi3 : i = tpl.length - 1 := by omega
          have hcnd : r.1.m_currentBlockInfo.type ≠ .RawText ∧ tpl.length ≠ 0 ∧
              (charAt tpl (tpl.length - 1) = '+' ∨ charAt tpl (tpl.length - 1) = '-') :=
            ⟨hty, by omega, by rw [← hi3]; exact hi2⟩
          simp only [blockEnd, if_pos hcnd] at h2
          omega

theorem countP_holds_le_one (i : Nat) : ∀ blocks : List TextBlockInfo,
    blocks.Pairwise (fun a b => a.range.endOffset ≤ b.range.startOffset) →
    blocks.countP (holds i) ≤ 1 := by
  intro blocks
  induction blocks with
  | nil => intro _; simp
  | cons b bs ih =>
    intro h
    rw [List.pairwise_cons] at h
    rw [List.countP_cons]
    by_cases hb : holds i b = true
    · have hz : bs.countP (holds i) = 0 := by
        rw [List.countP_eq_zero]
        intro x hx hxi
        have := h.1 x hx
        simp only [holds, decide_eq_true_eq] at hb hxi
        omega
      simp [hb, hz]
    · have := ih h.2
      simp [hb, this]

theorem countP_holds_pos (i : Nat) (blocks : List TextBlockInfo) :
    0 < blocks.countP (holds i) ↔ inBlocks blocks i := by
  rw [List.countP_pos_iff]
  simp [inBlocks, holds]

/-- C1 (amended): on every template, for every Settings value and in particular when rough
parsing reports no error, the emitted blocks are in order, each one starting at or after the
end of every block before it, and end inside the template, and every offset of the template
lies either in exactly one block range or else in the text the scanner consumed, never in
both: an offset that is not consumed is held by exactly one block, a consumed offset lies
inside the template and is held by none. The consumed text is made of the two-character
delimiters the scanner acted on, a `+`/`-` marker adjacent to one of them, the newline that
ends a line statement before the end of the template, the run of non-newline whitespace
right before an opener with left strip, the whitespace run right after a closer with right
trim, and a `+`/`-` marker that is the last character of a template ending inside an open
block. -/
theorem C1_blocks_cover_template_amended (tpl : List Char) (setts : Settings) :
    (roughBlocks tpl setts).Pairwise (fun a b => a.range.endOffset ≤ b.range.startOffset) ∧
    (∀ b ∈ roughBlocks tpl setts, b.range.endOffset ≤ tpl.length) ∧
    (∀ i, i < tpl.length → ¬ consumed tpl setts i →
      (roughBlocks tpl setts).countP (holds i) = 1) ∧
    (∀ i, consumed tpl setts i →
      i < tpl.length ∧ (roughBlocks tpl setts).countP (holds i) = 0) := by
  obtain ⟨h1, h2, h3, h4⟩ := roughBlocks_exact tpl setts
  refine ⟨h1, h2, fun i hi hc => ?_, fun i hc => ⟨(h4 i hc).1, ?_⟩⟩
  · have hle := countP_holds_le_one i _ h1
    have hpos := (countP_holds_pos i (roughBlocks tpl setts)).mpr
      ((h3 i hi).resolve_right hc)
    omega
  · by_contra hne
    exact (h4 i hc).2 ((countP_holds_pos i _).mp (Nat.pos_of_ne_zero hne))

/-- C1 (amended) at `a {{- x }}`: offset 0 is not consumed and lies in exactly one block; the
stripped blank at offset 1 is consumed and lies in none. -/
theorem C1_blocks_cover_template_amended_witness :
    ¬ consumed ("a \x7b\x7b- x \x7d\x7d".toList) Settings.off 0 ∧
    (roughBlocks ("a \x7b\x7b- x \x7d\x7d".toList) Settings.off).countP (holds 0) = 1 ∧
    consumed ("a \x7b\x7b- x \x7d\x7d".toList) Settings.off 1 ∧
    (roughBlocks ("a \x7b\x7b- x \x7d\x7d".toList) Settings.off).countP (holds 1) = 0 :=
  ⟨by decide,
    (C1_blocks_cover_template_amended ("a \x7b\x7b- x \x7d\x7d".toList) Settings.off).2.2.1 0
      (by decide) (by decide),
    by decide,
    ((C1_blocks_cover_template_amended ("a \x7b\x7b- x \x7d\x7d".toList) Settings.off).2.2.2 1
      (by decide)).2⟩

/-- C1 as stated fails. Rough parsing of `a {{- x }}` (all settings off) reports no error,
yet the blank at offset 1, removed by the left-strip marker, lies in no emitted block and is
not a character of any delimiter. Likewise in `{{ x -}} b` the blank at offset 8, removed
by the right-trim marker, lies in no block. In `{{ x -`, whose only match is the opener at
offset 0, the `-` at offset 5 is dropped from the unclosed block without being adjacent to
a delimiter. In `{{-}}` the `-` at offset 2 is the marker of two consumed delimiters, the
opener and the closer. -/
theorem C1_counterexample :
    ((DoRoughParsing ("a \x7b\x7b- x \x7d\x7d".toList) Settings.off).2 = [] ∧
      roughBlocks ("a \x7b\x7b- x \x7d\x7d".toList) Settings.off =
        [⟨⟨0, 1⟩, .RawText⟩, ⟨⟨5, 8⟩, .Expression⟩, ⟨⟨10, 10⟩, .RawText⟩] ∧
      charAt ("a \x7b\x7b- x \x7d\x7d".toList) 1 = ' ' ∧
      isDelimiterChar (charAt ("a \x7b\x7b- x \x7d\x7d".toList) 1) = false ∧
      ¬ inBlocks (roughBlocks ("a \x7b\x7b- x \x7d\x7d".toList) Settings.off) 1) ∧
    ((DoRoughParsing ("\x7b\x7b x -\x7d\x7d b".toList) Settings.off).2 = [] ∧
      roughBlocks ("\x7b\x7b x -\x7d\x7d b".toList) Settings.off =
        [⟨⟨0, 0⟩, .RawText⟩, ⟨⟨2, 5⟩, .Expression⟩, ⟨⟨9, 10⟩, .RawText⟩] ∧
      charAt ("\x7b\x7b x -\x7d\x7d b".toList) 8 = ' ' ∧
      ¬ inBlocks (roughBlocks ("\x7b\x7b x -\x7d\x7d b".toList) Settings.off) 8) ∧
    ((DoRoughParsing ("\x7b\x7b x -".toList) Settings.off).2 = [] ∧
      roughTokenizer ("\x7b\x7b x -".toList) = [⟨.RM_ExprBegin, 0⟩] ∧
      roughBlocks ("\x7b\x7b x -".toList) Settings.off =
        [⟨⟨0, 0⟩, .RawText⟩, ⟨⟨2, 5⟩, .Expression⟩] ∧
      charAt ("\x7b\x7b x -".toList) 5 = '-' ∧
      ¬ inBlocks (roughBlocks ("\x7b\x7b x -".toList) Settings.off) 5) ∧
    ((DoRoughParsing ("\x7b\x7b-\x7d\x7d".toList) Settings.off).2 = [] ∧
      (roughTrace ("\x7b\x7b-\x7d\x7d".toList) Settings.off).countP
        (fun q => decide (consumes ("\x7b\x7b-\x7d\x7d".toList) Settings.off q.1 q.2 2)) = 2) := by
  refine ⟨by decide, by decide, by decide, by decide⟩

end jinja2
